import Mathlib

/-!
# The vegraph-go-sdk wire codec

A shallow embedding of the Go sources of `volcengine/vegraph-go-sdk`
(`provider/protocol`, `provider/columnar`, `structure`, `client`) together
with theorems about the encoder and the decoders.

Conventions of the embedding

* a Go `[]byte` and a Go `string` are a `List UInt8`;
* Go machine integers are `Int` (signed) or `Nat` (unsigned); every Go
  conversion is an explicit wrap (`int8`, `int32`, `uint32`, ...); `int` is
  the 64-bit `int` of the little-endian hosts the SDK supports;
* `float32` / `float64` values are carried as their IEEE-754 bit patterns
  (`math.Float32bits`), which is all the codec ever looks at;
* a Go method with a pointer receiver becomes a function that returns the
  new receiver state next to its result;
* a Go call ends in a value, in a returned `error` or in a run-time panic:
  the three are the first three constructors of `Outcome`;
* pointers are never nil and are identified with the value they point to;
  memory and stack are unbounded.
-/

namespace VeGraph

/-- Go `[]byte` and Go `string`: a finite sequence of bytes. -/
abbrev Bytes := List UInt8

/-- Go conversion `byte(n)` / `uint8(n)` of an unsigned integer: the low 8 bits. -/
def byte (n : Nat) : UInt8 := UInt8.ofNat n

/-- Go conversion to `uint8`. -/
def uint8 (x : Int) : Nat := (x % 2 ^ 8).toNat

/-- Go conversion to `uint16`. -/
def uint16 (x : Int) : Nat := (x % 2 ^ 16).toNat

/-- Go conversion to `uint32`. -/
def uint32 (x : Int) : Nat := (x % 2 ^ 32).toNat

/-- Go conversion to `uint64`. -/
def uint64 (x : Int) : Nat := (x % 2 ^ 64).toNat

/-- Go conversion to `int8` (two's complement wrap). -/
def int8 (x : Int) : Int := (x + 2 ^ 7) % 2 ^ 8 - 2 ^ 7

/-- Go conversion to `int16` (two's complement wrap). -/
def int16 (x : Int) : Int := (x + 2 ^ 15) % 2 ^ 16 - 2 ^ 15

/-- Go conversion to `int32` (two's complement wrap). -/
def int32 (x : Int) : Int := (x + 2 ^ 31) % 2 ^ 32 - 2 ^ 31

/-- Go conversion to `int64` (two's complement wrap). -/
def int64 (x : Int) : Int := (x + 2 ^ 63) % 2 ^ 64 - 2 ^ 63

/-- The values of Go type `int32`. -/
def isInt32 (x : Int) : Prop := -2 ^ 31 ≤ x ∧ x < 2 ^ 31

/-- The values of Go type `int64`. -/
def isInt64 (x : Int) : Prop := -2 ^ 63 ≤ x ∧ x < 2 ^ 63

instance (x : Int) : Decidable (isInt32 x) := by unfold isInt32; infer_instance
instance (x : Int) : Decidable (isInt64 x) := by unfold isInt64; infer_instance

namespace Gerrors

/-- The error codes of `gerrors/error_code.go` (their numbers are those of the
generated `bytegraph` package and play no part here). -/
inductive ErrorCode
  | SUCCESS
  | SYSTEM_ERROR
  | UNKNOWN_ERROR
  | POINT_NOT_EXIST
  | EDGE_NOT_EXIST
  | RETRY
  | TABLE_NOT_EXIST
  | INVALID_REQUEST
  | EDGE_ALREADY_EXIST
  | NOT_IMPLEMENTED
  | IO_TIMEOUT
  | UDF_NOT_FOUND
  | INDEX_OUT_OF_RANGE
  | SERVICE_OVERLOAD
  | EDGE_OVER_QUOTA
  | PART_OVER_QUOTA
  | SLAVE_WRITE_NOT_ALLOWED
  | COMMIT_FAILED
  | KEY_IN_BLACKLIST
  | PSM_OVER_QUOTA
  | PROPERTY_VALUE_INVALID
  | PROPERTY_NOT_FOUND
  | GREMLIN_INVALID_QUERY
  | ELEM_NOT_EXIST
  | WRITE_STALL
  | TXN_CONFLICT
  | NOT_SETED
  | AUTH_FAILED
  | NETWORK_ERROR
  deriving DecidableEq, Repr

end Gerrors

/-- The Go `error` values the codec returns. An error wrapped by
`errors.Wrapf` / `errors.WithStack` is identified with its cause. -/
inductive GoError
  /-- `gerrors.ErrNegativeInt` -/
  | ErrNegativeInt
  /-- `gerrors.ErrUnexpectedEOB` -/
  | ErrUnexpectedEOB
  /-- `columnar.errUnknownProtocolVersion` -/
  | errUnknownProtocolVersion
  /-- `columnar.errUnknownProtocol` -/
  | errUnknownProtocol
  /-- `columnar.errUnexpectRowCount` -/
  | errUnexpectRowCount
  /-- `columnar.errUnexpectFieldLen` -/
  | errUnexpectFieldLen
  /-- `columnar.errUnsupportedParseMeta` -/
  | errUnsupportedParseMeta
  /-- `columnar.errFieldConflict` -/
  | errFieldConflict
  /-- `fmt.Errorf("value can only be basic type, rather than coreDataType(%d)", ty)` -/
  | valueNotBasicType (ty : Nat)
  /-- `fmt.Errorf("unsupported data type of path labels: coreDataType(%d)", lt)` -/
  | unsupportedPathLabels (lt : Int)
  /-- `fmt.Errorf("unsupported data type of path objects: coreDataType(%d)", lt)` -/
  | unsupportedPathObjects (lt : Int)
  /-- `fmt.Errorf("unknown coreDataType %d", ty)` -/
  | unknownCoreDataType (ty : Nat)
  /-- `gerrors.New(code, cause)` -/
  | gremlinError (code : Gerrors.ErrorCode)
  deriving DecidableEq, Repr

/-- The run-time panics of the Go code. -/
inductive Panic
  /-- index out of range -/
  | indexOutOfRange
  /-- slice bounds out of range -/
  | sliceBoundsOutOfRange
  /-- invalid memory address or nil pointer dereference -/
  | nilPointerDereference
  /-- interface conversion: a failed type assertion `x.(T)` -/
  | interfaceConversion
  /-- makeslice: len or cap out of range -/
  | makesliceOutOfRange
  /-- hash of unhashable type: a slice, map or struct of them used as map key -/
  | unhashableKey
  /-- an explicit `panic(...)` statement of the source -/
  | explicit (msg : String)
  deriving DecidableEq, Repr

/-- How a Go call ends: with a value, with a returned `error`, or with a
panic.  `error e` is a call that returns the error `e`; what Go returns next
to the error in the first result of `DecodeEx` (the nil interface, or an
interface that holds a nil `*Vertex` / `*Edge`) is kept by `Results`, which
`DecodeEx.results` computes.  `outOfFuel` is
not a Go behaviour: it is what the recursive decoder of this embedding answers
when its recursion budget is used up (`DecodeEx_fuel` shows that the budget the
entry points give is always enough). -/
inductive Outcome (α : Type)
  | ok (a : α)
  | error (e : GoError)
  | panic (p : Panic)
  | outOfFuel
  deriving DecidableEq, Repr

namespace Outcome

/-- The call returned a value (Go: `err == nil`, no panic). -/
def isOk {α : Type} : Outcome α → Bool
  | ok _ => true
  | _ => false

/-- The call returned a non-nil `error`. -/
def isError {α : Type} : Outcome α → Bool
  | error _ => true
  | _ => false

/-- The call aborted with a run-time panic. -/
def isPanic {α : Type} : Outcome α → Bool
  | panic _ => true
  | _ => false

/-- Sequencing of Go calls: the rest runs only after a value. -/
def bind {α β : Type} (x : Outcome α) (f : α → Outcome β) : Outcome β :=
  match x with
  | ok a => f a
  | error e => error e
  | panic p => panic p
  | outOfFuel => outOfFuel

instance : Monad Outcome where
  pure := Outcome.ok
  bind := Outcome.bind

end Outcome

namespace Protocol

/-! ## `provider/protocol/base.go` -/

/-- Go `type baseWriter []byte`. -/
abbrev baseWriter := Bytes

/-- `baseWriter.WriteInt8` -/
def baseWriter.WriteInt8 (w : baseWriter) (i : Int) : baseWriter :=
  w ++ [byte (uint8 i)]

/-- `baseWriter.Bytes` -/
def baseWriter.Bytes (w : baseWriter) : Bytes := w

/-- `baseWriter.Len` -/
def baseWriter.Len (w : baseWriter) : Int := w.length

/-- Go `type baseReader struct { p int; b []byte; nocopy bool }`. -/
structure baseReader where
  p : Nat
  b : Bytes
  nocopy : Bool
  deriving DecidableEq, Repr

/-- `baseReader.Reset` -/
def baseReader.Reset (_r : baseReader) (b : Bytes) (nocopy : Bool) : baseReader :=
  { p := 0, b := b, nocopy := nocopy }

/-- `baseReader.Next`: `r.b[r.p:]` panics when `p` is past the end, a negative
`n` is `ErrNegativeInt`, too few bytes are `ErrUnexpectedEOB`, and only a
successful call moves the cursor. -/
def baseReader.Next (n : Int) (r : baseReader) : Outcome Bytes × baseReader :=
  if n < 0 then (.error .ErrNegativeInt, r)
  else if r.b.length < r.p then (.panic .sliceBoundsOutOfRange, r)
  else
    let b := r.b.drop r.p
    if (b.length : Int) < n then (.error .ErrUnexpectedEOB, r)
    else (.ok (b.take n.toNat), { r with p := r.p + n.toNat })

/-- `baseReader.Bytes`: `r.b[r.p:]`. -/
def baseReader.Bytes (r : baseReader) : Outcome Bytes :=
  if r.b.length < r.p then .panic .sliceBoundsOutOfRange else .ok (r.b.drop r.p)

/-- `baseReader.Cursor` -/
def baseReader.Cursor (r : baseReader) : Nat := r.p

/-- A computation over a reader: the result of the call and the reader after it. -/
abbrev Dec (α : Type) := baseReader → Outcome α × baseReader

/-- Go `return v, nil`. -/
def Dec.pure {α : Type} (a : α) : Dec α := fun r => (.ok a, r)

/-- Go `x, err := f(r); if err != nil { return nil, err }; ...`: the rest runs
only after a value; an error, a panic (and a used-up budget) end the call. -/
def Dec.bind {α β : Type} (x : Dec α) (f : α → Dec β) : Dec β := fun r =>
  match x r with
  | (.ok a, r1) => f a r1
  | (.error e, r1) => (.error e, r1)
  | (.panic p, r1) => (.panic p, r1)
  | (.outOfFuel, r1) => (.outOfFuel, r1)

instance : Monad Dec where
  pure := Dec.pure
  bind := Dec.bind

/-- Go `return nil, err`. -/
def Dec.fail {α : Type} (e : GoError) : Dec α := fun r => (.error e, r)

/-- A run-time panic. -/
def Dec.abort {α : Type} (p : Panic) : Dec α := fun r => (.panic p, r)

/-- The result of a call that does not touch the reader. -/
def Dec.lift {α : Type} (o : Outcome α) : Dec α := fun r => (o, r)

/-- The cursor of the reader (`r.Cursor()`), read inside a computation. -/
def Dec.cursor : Dec Nat := fun r => (.ok r.p, r)

/-- `baseReader.ReadInt8` -/
def baseReader.ReadInt8 : Dec Int := do
  let b ← baseReader.Next 1
  return int8 (b.getD 0 0).toNat

/-- `baseReader.ReadBool`: `n > 0` on the signed byte. -/
def baseReader.ReadBool : Dec Bool := do
  let n ← baseReader.ReadInt8
  return decide (n > 0)

/-- `baseReader.PeekInt8`: indexes `r.b[r.p]` without a bounds test of its own. -/
def baseReader.PeekInt8 : Dec Int := fun r =>
  match r.b.get? r.p with
  | some x => (.ok (int8 x.toNat), r)
  | none => (.panic .indexOutOfRange, r)

/-! ## `provider/protocol/protocol.go` -/

/-- Go `type BigEndianWriter struct { baseWriter }`. -/
abbrev BigEndianWriter := baseWriter

/-- `BigEndianWriter.WriteInt16` -/
def BigEndianWriter.WriteInt16 (w : BigEndianWriter) (i : Int) : BigEndianWriter :=
  let n := uint16 i
  w ++ [byte (n >>> 8), byte n]

/-- `BigEndianWriter.WriteInt32` -/
def BigEndianWriter.WriteInt32 (w : BigEndianWriter) (i : Int) : BigEndianWriter :=
  let n := uint32 i
  w ++ [byte (n >>> 24), byte (n >>> 16), byte (n >>> 8), byte n]

/-- `BigEndianWriter.WriteInt64` -/
def BigEndianWriter.WriteInt64 (w : BigEndianWriter) (i : Int) : BigEndianWriter :=
  let n := uint64 i
  w ++ [byte (n >>> 56), byte (n >>> 48), byte (n >>> 40), byte (n >>> 32),
    byte (n >>> 24), byte (n >>> 16), byte (n >>> 8), byte n]

/-- `BigEndianWriter.WriteFloat`; `f` is `math.Float32bits` of the value. -/
def BigEndianWriter.WriteFloat (w : BigEndianWriter) (f : Nat) : BigEndianWriter :=
  let n := f
  w ++ [byte (n >>> 24), byte (n >>> 16), byte (n >>> 8), byte n]

/-- `BigEndianWriter.WriteDouble`; `f` is `math.Float64bits` of the value. -/
def BigEndianWriter.WriteDouble (w : BigEndianWriter) (f : Nat) : BigEndianWriter :=
  let n := f
  w ++ [byte (n >>> 56), byte (n >>> 48), byte (n >>> 40), byte (n >>> 32),
    byte (n >>> 24), byte (n >>> 16), byte (n >>> 8), byte n]

/-- `BigEndianWriter.WriteString` -/
def BigEndianWriter.WriteString (w : BigEndianWriter) (s : Bytes) : BigEndianWriter :=
  (BigEndianWriter.WriteInt32 w (int32 s.length)) ++ s

/-- `BigEndianWriter.WriteBytes` -/
def BigEndianWriter.WriteBytes (w : BigEndianWriter) (b : Bytes) : BigEndianWriter :=
  (BigEndianWriter.WriteInt32 w (int32 b.length)) ++ b

/-- Go `binary.BigEndian.Uint16` on a slice of two bytes. -/
def bigEndianUint16 (b : Bytes) : Nat :=
  (b.getD 1 0).toNat + (b.getD 0 0).toNat * 2 ^ 8

/-- Go `binary.BigEndian.Uint32` on a slice of four bytes. -/
def bigEndianUint32 (b : Bytes) : Nat :=
  (b.getD 3 0).toNat + (b.getD 2 0).toNat * 2 ^ 8 + (b.getD 1 0).toNat * 2 ^ 16
    + (b.getD 0 0).toNat * 2 ^ 24

/-- Go `binary.BigEndian.Uint64` on a slice of eight bytes. -/
def bigEndianUint64 (b : Bytes) : Nat :=
  (b.getD 7 0).toNat + (b.getD 6 0).toNat * 2 ^ 8 + (b.getD 5 0).toNat * 2 ^ 16
    + (b.getD 4 0).toNat * 2 ^ 24 + (b.getD 3 0).toNat * 2 ^ 32 + (b.getD 2 0).toNat * 2 ^ 40
    + (b.getD 1 0).toNat * 2 ^ 48 + (b.getD 0 0).toNat * 2 ^ 56

/-- Go `type BigEndianReader struct { baseReader }`. -/
abbrev BigEndianReader := baseReader

/-- `BigEndianReader.ReadInt16` -/
def BigEndianReader.ReadInt16 : Dec Int := do
  let b ← baseReader.Next 2
  return int16 (bigEndianUint16 b)

/-- `BigEndianReader.ReadInt32` -/
def BigEndianReader.ReadInt32 : Dec Int := do
  let b ← baseReader.Next 4
  return int32 (bigEndianUint32 b)

/-- `BigEndianReader.ReadInt64` -/
def BigEndianReader.ReadInt64 : Dec Int := do
  let b ← baseReader.Next 8
  return int64 (bigEndianUint64 b)

/-- `BigEndianReader.ReadDouble`; the result is the bit pattern of the `float64`. -/
def BigEndianReader.ReadDouble : Dec Nat := do
  let b ← baseReader.Next 8
  return bigEndianUint64 b

/-- `BigEndianReader.ReadBytes`: the copy made when `nocopy` is off has the
same contents as the view returned when it is on. -/
def BigEndianReader.ReadBytes : Dec Bytes := do
  let n ← BigEndianReader.ReadInt32
  let b ← baseReader.Next n
  return b

/-- `BigEndianReader.ReadString` -/
def BigEndianReader.ReadString : Dec Bytes := do
  let b ← BigEndianReader.ReadBytes
  return b

/-- `BigEndianReader.NoCopyReadBytes` -/
def BigEndianReader.NoCopyReadBytes : Dec Bytes := do
  let n ← BigEndianReader.ReadInt32
  let b ← baseReader.Next n
  return b

/-! ## `provider/protocol/littleendian.go` -/

/-- Go `type LittleEndianReader struct { baseReader }`. -/
abbrev LittleEndianReader := baseReader

/-- `GetLittleEndianReader`: a pooled reader, whose cursor `PutLittleEndianReader`
has reset to 0, over `bs`. -/
def GetLittleEndianReader (bs : Bytes) (nocopy : Bool) : LittleEndianReader :=
  { p := 0, b := bs, nocopy := nocopy }

/-- Go `binary.LittleEndian.Uint16` on a slice of two bytes. -/
def littleEndianUint16 (b : Bytes) : Nat :=
  (b.getD 0 0).toNat + (b.getD 1 0).toNat * 2 ^ 8

/-- Go `binary.LittleEndian.Uint32` on a slice of four bytes. -/
def littleEndianUint32 (b : Bytes) : Nat :=
  (b.getD 0 0).toNat + (b.getD 1 0).toNat * 2 ^ 8 + (b.getD 2 0).toNat * 2 ^ 16
    + (b.getD 3 0).toNat * 2 ^ 24

/-- Go `binary.LittleEndian.Uint64` on a slice of eight bytes. -/
def littleEndianUint64 (b : Bytes) : Nat :=
  (b.getD 0 0).toNat + (b.getD 1 0).toNat * 2 ^ 8 + (b.getD 2 0).toNat * 2 ^ 16
    + (b.getD 3 0).toNat * 2 ^ 24 + (b.getD 4 0).toNat * 2 ^ 32 + (b.getD 5 0).toNat * 2 ^ 40
    + (b.getD 6 0).toNat * 2 ^ 48 + (b.getD 7 0).toNat * 2 ^ 56

/-- `LittleEndianReader.ReadUint16` -/
def LittleEndianReader.ReadUint16 : Dec Nat := do
  let b ← baseReader.Next 2
  return littleEndianUint16 b

/-- `LittleEndianReader.ReadInt16` -/
def LittleEndianReader.ReadInt16 : Dec Int := do
  let b ← baseReader.Next 2
  return int16 (littleEndianUint16 b)

/-- `LittleEndianReader.ReadInt32` -/
def LittleEndianReader.ReadInt32 : Dec Int := do
  let b ← baseReader.Next 4
  return int32 (littleEndianUint32 b)

/-- `LittleEndianReader.ReadInt64` -/
def LittleEndianReader.ReadInt64 : Dec Int := do
  let b ← baseReader.Next 8
  return int64 (littleEndianUint64 b)

/-- `LittleEndianReader.ReadBytes` -/
def LittleEndianReader.ReadBytes : Dec Bytes := do
  let n ← LittleEndianReader.ReadInt32
  let b ← baseReader.Next n
  return b

/-- `LittleEndianReader.ReadString` -/
def LittleEndianReader.ReadString : Dec Bytes := do
  let b ← LittleEndianReader.ReadBytes
  return b

end Protocol

namespace Util

/-! ## `provider/util/util.go` -/

/-- `util.RoundUp8`: `(size + 7) &^ 7` on a 64-bit two's complement `int`. -/
def RoundUp8 (size : Int) : Int := int64 (size + 7) - (int64 (size + 7)) % 8

end Util

namespace Columnar

open Protocol

/-! ## `provider/columnar/structure.go` -/

/-- Go `const InlinableFieldsArrayLen = 12`. -/
def InlinableFieldsArrayLen : Nat := 12

/-- Go `type ValueType int32`. -/
abbrev ValueType := Int

/-- `ValueType_UNKNOWN` -/
def ValueType_UNKNOWN : ValueType := 0
/-- `ValueType_BOOL` -/
def ValueType_BOOL : ValueType := 1
/-- `ValueType_INT32` -/
def ValueType_INT32 : ValueType := 2
/-- `ValueType_INT64` -/
def ValueType_INT64 : ValueType := 3
/-- `ValueType_FLOAT` -/
def ValueType_FLOAT : ValueType := 4
/-- `ValueType_DOUBLE` -/
def ValueType_DOUBLE : ValueType := 5
/-- `ValueType_STRING` -/
def ValueType_STRING : ValueType := 6

/-- Go `var valueSize = map[ValueType]int{...}`: the slot size of the
fixed-size types, `none` for every other type (Go: `_, ok := valueSize[t]`
with `ok == false`). -/
def valueSize (t : ValueType) : Option Nat :=
  if t = ValueType_BOOL then some 1
  else if t = ValueType_INT32 then some 4
  else if t = ValueType_FLOAT then some 4
  else if t = ValueType_INT64 then some 8
  else if t = ValueType_DOUBLE then some 8
  else none

/-- Go `type Meta struct`. -/
structure Meta where
  Length : Int
  Key : Int
  Value : Bytes
  deriving DecidableEq, Repr

/-- Go `type Field struct`. -/
structure Field where
  Name : Bytes
  Type_ : ValueType
  Metas : List Meta
  deriving DecidableEq, Repr

/-- The zero value of `Field`. -/
def Field.zero : Field := { Name := [], Type_ := 0, Metas := [] }

/-- Go `type InlinableFields struct { len int; array [12]Field; slice []Field }`. -/
structure InlinableFields where
  len : Nat
  array : List Field
  slice : List Field
  deriving DecidableEq, Repr

/-- The zero value of `InlinableFields`: twelve zero fields inline, no overflow. -/
def InlinableFields.zero : InlinableFields :=
  { len := 0, array := List.replicate InlinableFieldsArrayLen Field.zero, slice := [] }

/-- Go `for i := 0; i < hi; i++ { if fs[i].Name == name { return i, true } }`:
the first index below `hi` whose field is named `name`. -/
def findName (fs : List Field) (name : Bytes) (hi : Nat) : Option Nat :=
  (List.range hi).find? (fun i => decide ((fs.getD i Field.zero).Name = name))

/-- `InlinableFields.FieldIdx` -/
def InlinableFields.FieldIdx (mf : InlinableFields) (name : Bytes) : Nat × Bool :=
  if mf.len < InlinableFieldsArrayLen then
    match findName mf.array name mf.len with
    | some i => (i, true)
    | none => (0, false)
  else
    match findName mf.array name InlinableFieldsArrayLen with
    | some i => (i, true)
    | none =>
      match findName mf.slice name mf.slice.length with
      | some i => (i + InlinableFieldsArrayLen, true)
      | none => (0, false)

/-- `InlinableFields.Append` -/
def InlinableFields.Append (mf : InlinableFields) (field : Field) : InlinableFields :=
  if mf.len < InlinableFieldsArrayLen then
    { mf with array := mf.array.set mf.len field, len := mf.len + 1 }
  else
    { mf with slice := mf.slice ++ [field], len := mf.len + 1 }

/-- `InlinableFields.Field` -/
def InlinableFields.Field (mf : InlinableFields) (idx : Nat) : Outcome Field :=
  if idx ≥ mf.len then .panic (.explicit "invalid index")
  else if idx < InlinableFieldsArrayLen then
    match mf.array.get? idx with
    | some f => .ok f
    | none => .panic .indexOutOfRange
  else
    match mf.slice.get? (idx - InlinableFieldsArrayLen) with
    | some f => .ok f
    | none => .panic .indexOutOfRange

/-- Go `type FieldIter struct { fields *InlinableFields; p int }`. -/
structure FieldIter where
  fields : InlinableFields
  p : Nat
  deriving DecidableEq, Repr

/-- `InlinableFields.FieldIter` -/
def InlinableFields.FieldIter (mf : InlinableFields) : FieldIter := { fields := mf, p := 0 }

/-- `FieldIter.HasNext` -/
def FieldIter.HasNext (iter : FieldIter) : Bool := decide (iter.p < iter.fields.len)

/-- `FieldIter.Next`: the field under the cursor and the iterator after the call. -/
def FieldIter.Next (iter : FieldIter) : Outcome Field × FieldIter :=
  if iter.p ≥ iter.fields.len then (.ok Field.zero, iter)
  else if iter.p < InlinableFieldsArrayLen then
    match iter.fields.array.get? iter.p with
    | some f => (.ok f, { iter with p := iter.p + 1 })
    | none => (.panic .indexOutOfRange, iter)
  else
    match iter.fields.slice.get? (iter.p - InlinableFieldsArrayLen) with
    | some f => (.ok f, { iter with p := iter.p + 1 })
    | none => (.panic .indexOutOfRange, iter)

/-- `FieldIter.Cursor` -/
def FieldIter.Cursor (iter : FieldIter) : Nat := iter.p

/-- Go `type Schema struct`. -/
structure Schema where
  fields : InlinableFields
  metas : List Meta
  deriving DecidableEq, Repr

/-- `Schema.FieldIdx` -/
def Schema.FieldIdx (s : Schema) (name : Bytes) : Nat × Bool := s.fields.FieldIdx name

/-- `Schema.FieldIter` -/
def Schema.FieldIter (s : Schema) : FieldIter := s.fields.FieldIter

/-- Go `type nullBitmap struct`. -/
structure NullBitmap where
  length : Nat
  bytes : Bytes
  deriving DecidableEq, Repr

/-- Go `type Column struct`.  `data` is what the Go slice `data` shows
(`len(data)` bytes).  The typed getters read through a raw pointer, so they
can also see the bytes that follow the slice in the batch: `padding` holds
the alignment bytes the decoder cut off `data`, which is as far as any
getter can reach (see `Column.rawRead`). -/
structure Column where
  length : Nat
  nullBitmap : NullBitmap
  offsets : List Int
  data : Bytes
  padding : Bytes
  slotSize : Nat
  deriving DecidableEq, Repr

/-- The zero value of `Column`. -/
def Column.zero : Column :=
  { length := 0, nullBitmap := { length := 0, bytes := [] }, offsets := [], data := [],
    padding := [], slotSize := 0 }

/-- Go `*(*T)(ptr(&c.data[off]))` for a `T` of `width` bytes: the index
expression `c.data[off]` is bounds-checked, the read itself is not. -/
def Column.rawRead (c : Column) (off width : Nat) : Outcome Bytes :=
  if off < c.data.length then .ok (((c.data ++ c.padding).drop off).take width)
  else .panic .indexOutOfRange

/-- `Column.GetString`: `c.data[c.offsets[row]:c.offsets[row+1]]`. -/
def Column.GetString (c : Column) (row : Nat) : Outcome Bytes :=
  match c.offsets.get? row, c.offsets.get? (row + 1) with
  | some lo, some hi =>
    if 0 ≤ lo ∧ lo ≤ hi ∧ hi ≤ (c.data.length : Int) then
      .ok ((c.data.drop lo.toNat).take (hi.toNat - lo.toNat))
    else .panic .sliceBoundsOutOfRange
  | _, _ => .panic .indexOutOfRange

/-- `Column.GetInt32` (the host is little-endian). -/
def Column.GetInt32 (c : Column) (row : Nat) : Outcome Int :=
  match c.rawRead (row * 4) 4 with
  | .ok b => .ok (int32 (littleEndianUint32 b))
  | .error e => .error e
  | .panic p => .panic p
  | .outOfFuel => .outOfFuel

/-- `Column.GetInt64` -/
def Column.GetInt64 (c : Column) (row : Nat) : Outcome Int :=
  match c.rawRead (row * 8) 8 with
  | .ok b => .ok (int64 (littleEndianUint64 b))
  | .error e => .error e
  | .panic p => .panic p
  | .outOfFuel => .outOfFuel

/-- `Column.GetBool`: `*(*bool)(unsafe.Pointer(&c.data[row]))`, the byte of the
row read as a `bool` without a check.  The byte 0 is `false` and the byte 1 is
`true`.  Any other byte is not a value of the Go type `bool` (such a value is
`==` neither to `true` nor to `false`) and has no counterpart in `Bool`; it is
read here as `true`, which is what a branch on it does, and the theorems that
give the value of a bool cell are stated for cells that are 0 or 1
(`ColumnWire.CellsOk`). -/
def Column.GetBool (c : Column) (row : Nat) : Outcome Bool :=
  match c.rawRead row 1 with
  | .ok b => .ok (decide (b.getD 0 0 ≠ 0))
  | .error e => .error e
  | .panic p => .panic p
  | .outOfFuel => .outOfFuel

/-- `Column.GetFloat32`; the result is the bit pattern. -/
def Column.GetFloat32 (c : Column) (row : Nat) : Outcome Nat :=
  match c.rawRead (row * 4) 4 with
  | .ok b => .ok (littleEndianUint32 b)
  | .error e => .error e
  | .panic p => .panic p
  | .outOfFuel => .outOfFuel

/-- `Column.GetFloat64`; the result is the bit pattern. -/
def Column.GetFloat64 (c : Column) (row : Nat) : Outcome Nat :=
  match c.rawRead (row * 8) 8 with
  | .ok b => .ok (littleEndianUint64 b)
  | .error e => .error e
  | .panic p => .panic p
  | .outOfFuel => .outOfFuel

/-- `Column.IsNull`: bit `row & 7` of byte `row / 8` is 0. -/
def Column.IsNull (c : Column) (row : Nat) : Outcome Bool :=
  match c.nullBitmap.bytes.get? (row / 8) with
  | some nullByte => .ok (decide (nullByte.toNat &&& (1 <<< (row % 8)) = 0))
  | none => .panic .indexOutOfRange

/-- Go `type InlinableColumns struct { len int; array [12]Column; slice []Column }`. -/
structure InlinableColumns where
  len : Nat
  array : List Column
  slice : List Column
  deriving DecidableEq, Repr

/-- The zero value of `InlinableColumns`. -/
def InlinableColumns.zero : InlinableColumns :=
  { len := 0, array := List.replicate InlinableFieldsArrayLen Column.zero, slice := [] }

/-- `InlinableColumns.Column` -/
def InlinableColumns.Column (mf : InlinableColumns) (idx : Nat) : Outcome Columnar.Column :=
  if idx < InlinableFieldsArrayLen then
    match mf.array.get? idx with
    | some c => .ok c
    | none => .panic .indexOutOfRange
  else
    match mf.slice.get? (idx - InlinableFieldsArrayLen) with
    | some c => .ok c
    | none => .panic .indexOutOfRange

/-- `InlinableColumns.ColumnPtr`, read through the pointer it returns. -/
def InlinableColumns.ColumnPtr (ic : InlinableColumns) (idx : Nat) : Outcome Columnar.Column :=
  if idx ≥ ic.len then .panic (.explicit "invalid index")
  else if idx < InlinableFieldsArrayLen then
    match ic.array.get? idx with
    | some c => .ok c
    | none => .panic .indexOutOfRange
  else
    match ic.slice.get? (idx - InlinableFieldsArrayLen) with
    | some c => .ok c
    | none => .panic .indexOutOfRange

/-- A store through the pointer `ColumnPtr(idx)` returned. -/
def InlinableColumns.store (ic : InlinableColumns) (idx : Nat) (c : Columnar.Column) :
    InlinableColumns :=
  if idx < InlinableFieldsArrayLen then { ic with array := ic.array.set idx c }
  else { ic with slice := ic.slice.set (idx - InlinableFieldsArrayLen) c }

/-- Go `type Table struct`. -/
structure Table where
  Schema : Schema
  Columns : InlinableColumns
  deriving DecidableEq, Repr

/-- The zero value `&Table{}` that `tablePool` hands out (no table is ever put
back into the pool). -/
def Table.zero : Table :=
  { Schema := { fields := InlinableFields.zero, metas := [] }, Columns := InlinableColumns.zero }

/-- `Table.RowCount` -/
def Table.RowCount (t : Table) : Nat :=
  if t.Columns.len = 0 then 0 else (t.Columns.array.getD 0 Column.zero).length

/-- `Table.GetColumnPtr`: `none` is the nil pointer. -/
def Table.GetColumnPtr (t : Table) (name : Bytes) : Outcome (Option Column) :=
  match t.Schema.fields.FieldIdx name with
  | (idx, true) =>
    match t.Columns.ColumnPtr idx with
    | .ok c => .ok (some c)
    | .error e => .error e
    | .panic p => .panic p
    | .outOfFuel => .outOfFuel
  | (_, false) => .ok none

/-- `Table.FieldCount` -/
def Table.FieldCount (t : Table) : Nat := t.Schema.fields.len

/-- `Table.GetColumnByIdx` -/
def Table.GetColumnByIdx (t : Table) (idx : Nat) : Outcome Column := t.Columns.Column idx

/-- `ResizeInlinableColumns`; a slice made by `make([]Column, n)` has capacity `n`. -/
def ResizeInlinableColumns (table : Table) (size : Nat) : Table :=
  if size < InlinableFieldsArrayLen then
    { table with Columns := { table.Columns with len := size } }
  else
    let sliceSize := size - InlinableFieldsArrayLen
    if table.Columns.slice.length ≥ sliceSize then
      { table with Columns := { table.Columns with len := size, slice := table.Columns.slice.take sliceSize } }
    else
      { table with Columns := { table.Columns with
          len := size,
          slice := table.Columns.slice ++
            List.replicate (sliceSize - table.Columns.slice.length) Column.zero } }

/-! ## `provider/columnar/columnar.go` -/

/-- Go `const ProtoColumnarMagicNumberUint16 int16 = 17985`. -/
def ProtoColumnarMagicNumberUint16 : Int := 17985

/-- Go `Protocol_ColumnarV1 Protocol = 1`. -/
def Protocol_ColumnarV1 : Int := 1

/-- The schema loop of `decode`: `for i := int32(0); i < fieldLen; i++ {...}`,
with `n` iterations to go. -/
def decodeFields : Nat → Table → Dec Table
  | 0, table => pure table
  | n + 1, table => do
    let fieldType ← LittleEndianReader.ReadInt32
    let name ← LittleEndianReader.ReadString
    if (table.Schema.FieldIdx name).2 then Dec.fail .errFieldConflict else do
    let newField : Field := { Name := name, Type_ := fieldType, Metas := [] }
    let table1 : Table :=
      { table with Schema := { table.Schema with fields := table.Schema.fields.Append newField } }
    let fieldMetaLen ← LittleEndianReader.ReadInt32
    if fieldMetaLen ≠ 0 then Dec.fail .errUnsupportedParseMeta else do
    decodeFields n table1

/-- The offset table of a string column: the first `n` little-endian `int32`
of `offsetBytes` (the Go code re-types the byte slice in place). -/
def offsetsOf (offsetBytes : Bytes) (n : Nat) : List Int :=
  (List.range n).map (fun k => int32 (littleEndianUint32 ((offsetBytes.drop (4 * k)).take 4)))

/-- One iteration of the data loop of `decode`, for column `i`. -/
def decodeColumn (rowCount : Nat) (i : Nat) (table : Table) : Dec Table := do
  let col ← Dec.lift (table.Columns.ColumnPtr i)
  let bitmap ← baseReader.Next (Util.RoundUp8 (uint32 ((rowCount : Int) + 7) / 8 : Nat))
  let field ← Dec.lift (table.Schema.fields.Field i)
  match valueSize field.Type_ with
  | some slotSize => do
    let data ← baseReader.Next (Util.RoundUp8 ((slotSize : Int) * rowCount))
    let col1 : Column :=
      { col with
        length := rowCount
        nullBitmap := { bytes := bitmap, length := rowCount }
        data := data.take (slotSize * rowCount)
        padding := data.drop (slotSize * rowCount)
        slotSize := slotSize }
    return { table with Columns := table.Columns.store i col1 }
  | none => do
    let offsetBytes ← baseReader.Next (Util.RoundUp8 (((rowCount : Int) + 1) * 4))
    let offsets := offsetsOf offsetBytes (rowCount + 1)
    let data ← baseReader.Next (Util.RoundUp8 (offsets.getD rowCount 0))
    let col1 : Column :=
      { col with
        length := rowCount
        nullBitmap := { bytes := bitmap, length := rowCount }
        offsets := offsets
        data := data
        padding := []
        slotSize := 0 }
    return { table with Columns := table.Columns.store i col1 }

/-- The data loop of `decode`: columns `i`, `i + 1`, ... with `n` iterations to go. -/
def decodeColumns (rowCount : Nat) : Nat → Nat → Table → Dec Table
  | 0, _, table => pure table
  | n + 1, i, table => do
    let table1 ← decodeColumn rowCount i table
    decodeColumns rowCount n (i + 1) table1

/-- `columnar.decode`: fills `table` from the reader. -/
def decode (table : Table) : Dec Table := do
  let magicNumber ← LittleEndianReader.ReadUint16
  if magicNumber ≠ uint16 ProtoColumnarMagicNumberUint16 then Dec.fail .errUnknownProtocol else do
  let vsn ← LittleEndianReader.ReadUint16
  if vsn ≠ uint16 Protocol_ColumnarV1 then Dec.fail .errUnknownProtocolVersion else do
  let tmpRowCount ← LittleEndianReader.ReadInt32
  let rowCount := tmpRowCount
  if rowCount = 0 then return table else do
  if rowCount < 0 then Dec.fail .errUnexpectRowCount else do
  let fieldLen ← LittleEndianReader.ReadInt32
  if fieldLen ≤ 0 then Dec.fail .errUnexpectFieldLen else do
  let originLen := table.Schema.fields.len
  let table1 := ResizeInlinableColumns table (fieldLen.toNat + originLen)
  let table2 ← decodeFields fieldLen.toNat table1
  let schemaMetaLen ← LittleEndianReader.ReadInt32
  if schemaMetaLen ≠ 0 then Dec.fail .errUnsupportedParseMeta else do
  let cur ← Dec.cursor
  let _ ← baseReader.Next (Util.RoundUp8 cur - cur)
  decodeColumns rowCount.toNat fieldLen.toNat originLen table2

/-- `columnar.Decode`: a fresh table filled from a fresh little-endian reader
over `bs`; no table is returned next to an error. -/
def Decode (bs : Bytes) : Outcome Table :=
  (decode Table.zero (GetLittleEndianReader bs true)).1

end Columnar

namespace Structure

open Protocol

/-! ## `structure/data.go` -/

/-- Go `type CoreDataType byte`. -/
abbrev CoreDataType := Nat

/-- Go conversion `CoreDataType(i8)` of an `int8`. -/
def CoreDataType.ofInt8 (i8 : Int) : CoreDataType := uint8 i8

/-- `TrueType` -/
def TrueType : CoreDataType := 1
/-- `FalseType` -/
def FalseType : CoreDataType := 2
/-- `Int32Type` -/
def Int32Type : CoreDataType := 3
/-- `Int64Type` -/
def Int64Type : CoreDataType := 4
/-- `FloatType` -/
def FloatType : CoreDataType := 5
/-- `DoubleType` -/
def DoubleType : CoreDataType := 6
/-- `StringType` -/
def StringType : CoreDataType := 7
/-- `VertexType` -/
def VertexType : CoreDataType := 8
/-- `PathType` -/
def PathType : CoreDataType := 9
/-- `ForwardEdgeType` -/
def ForwardEdgeType : CoreDataType := 10
/-- `ReverseEdgeType` -/
def ReverseEdgeType : CoreDataType := 11
/-- `DoubleEdgeType` -/
def DoubleEdgeType : CoreDataType := 12
/-- `ListType` -/
def ListType : CoreDataType := 13
/-- `MapType` -/
def MapType : CoreDataType := 14
/-- `PropertyType` -/
def PropertyType : CoreDataType := 15
/-- `VertexWithPropertiesType` -/
def VertexWithPropertiesType : CoreDataType := 16
/-- `ForwardEdgeWithPropertiesType` -/
def ForwardEdgeWithPropertiesType : CoreDataType := 17
/-- `ReverseEdgeWithPropertiesType` -/
def ReverseEdgeWithPropertiesType : CoreDataType := 18
/-- `DoubleEdgeWithPropertiesType` -/
def DoubleEdgeWithPropertiesType : CoreDataType := 19
/-- `SVertexType` -/
def SVertexType : CoreDataType := 24
/-- `SVertexWithPropertiesType` -/
def SVertexWithPropertiesType : CoreDataType := 25
/-- `ForwardSEdgeType` -/
def ForwardSEdgeType : CoreDataType := 26
/-- `ReverseSEdgeType` -/
def ReverseSEdgeType : CoreDataType := 27
/-- `DoubleSEdgeType` -/
def DoubleSEdgeType : CoreDataType := 28
/-- `ForwardSEdgeWithPropertiesType` -/
def ForwardSEdgeWithPropertiesType : CoreDataType := 29
/-- `ReverseSEdgeWithPropertiesType` -/
def ReverseSEdgeWithPropertiesType : CoreDataType := 30
/-- `DoubleSEdgeWithPropertiesType` -/
def DoubleSEdgeWithPropertiesType : CoreDataType := 31
/-- `LinkedMapType` -/
def LinkedMapType : CoreDataType := 32
/-- `ColumnarBinType` -/
def ColumnarBinType : CoreDataType := 40
/-- `ValueType`: the client-side marker of the columnar protocol. -/
def ValueType : CoreDataType := 41

/-- The bytes of an ASCII string constant of the source. -/
def ascii (s : String) : Bytes := s.toList.map (fun c => byte c.toNat)

/-- `VtxIdKey` -/
def VtxIdKey : Bytes := ascii "id"
/-- `VtxTypeKey` -/
def VtxTypeKey : Bytes := ascii "type"
/-- `ClientProtoEdgeTypeKey` -/
def ClientProtoEdgeTypeKey : Bytes := ascii "bg__to_client_edge_type"
/-- `ClientProtoEdgeStartVIdKey` -/
def ClientProtoEdgeStartVIdKey : Bytes := ascii "bg__to_client_start_v_id"
/-- `ClientProtoEdgeStartVTypeKey` -/
def ClientProtoEdgeStartVTypeKey : Bytes := ascii "bg__to_client_start_v_type"
/-- `ClientProtoVtxIdKey` -/
def ClientProtoVtxIdKey : Bytes := ascii "bg__to_client_vtx_id"
/-- `ClientProtoVtxTypeKey` -/
def ClientProtoVtxTypeKey : Bytes := ascii "bg__to_client_vtx_type"

/-- Go `type DirectionType int32` with its three constants (1, 2, 3). -/
inductive DirectionType
  | DirectionType_Forward
  | DirectionType_Reverse
  | DirectionType_Double
  deriving DecidableEq, Repr

/-! ## `structure/binary_decoder.go`, `structure/structure.go`: the data model -/

/-- Go `type VIdTypeType int8`. -/
abbrev VIdTypeType := Int

/-- `IdTypeInt64Int32`: the vertex is identified by `<int64, int32>`. -/
def IdTypeInt64Int32 : VIdTypeType := 0

/-- `IdTypeStringString`: the vertex is identified by `<string, string>`. -/
def IdTypeStringString : VIdTypeType := 3

/-- The dynamic value of the `interface{}` field `Property.Value`: a value of
one of the six Go types the codec knows (`bool`, `int32`, `int64`, `float32`,
`float64`, `string`).  A value of any other type is outside the embedding
(`Property.EncodeTo` panics on it and no decoder produces one). -/
inductive PropertyValue
  | bool (v : Bool)
  | int32 (v : Int)
  | int64 (v : Int)
  | float32 (bits : Nat)
  | float64 (bits : Nat)
  | string (v : Bytes)
  deriving DecidableEq, Repr

/-- Go `type Property struct { Key string; Value interface{} }`. -/
structure Property where
  Key : Bytes
  Value : PropertyValue
  deriving DecidableEq, Repr

/-- Go `type Vertex struct`. -/
structure Vertex where
  Id : Int
  Type_ : Int
  VType : VIdTypeType
  SId : Bytes
  SType : Bytes
  Properties : List Property
  deriving DecidableEq, Repr

/-- The zero value of `Vertex`. -/
def Vertex.zero : Vertex :=
  { Id := 0, Type_ := 0, VType := 0, SId := [], SType := [], Properties := [] }

/-- Go `type Edge struct`. -/
structure Edge where
  OutV : Vertex
  InV : Vertex
  Type_ : Bytes
  Properties : List Property
  deriving DecidableEq, Repr

/-- Go `type Element interface`, as the closed sum of the types of the
package that implement it.  `Map`, `MapStruct` and `LinkedMap` hold the
entries of their Go map as a list without repeated keys (a Go map has no
order of its own; the list keeps the order of insertion).  A key of a
`LinkedMap`, in `Keys` and in `Elems`, stands with the address of the object it
points to: Go compares two keys of a pointer type (`*Property`, `*Vertex`,
`*Edge`, `*PathStruct`, `*ListStruct`, `*MapStruct`) by their addresses, and
`LinkedMap.EncodeTo` and `LinkedMap.Eq` look the keys of `Keys` up in `Elems`.
For a key that is not a pointer the number is not looked at. -/
inductive Element
  | Bool (b : Bool)
  | Int32 (v : Int)
  | Int64 (v : Int)
  | Float32 (bits : Nat)
  | Float64 (bits : Nat)
  | String (s : Bytes)
  | Property (p : Property)
  | Vertex (v : Vertex)
  | Edge (e : Edge)
  | Path (elems : List Element)
  | PathStruct (elems : List Element)
  | List (elems : List Element)
  | ListStruct (elems : List Element)
  | Map (elems : List (Element × Element))
  | MapStruct (elems : List (Element × Element))
  | LinkedMap (elems : List ((Nat × Element) × Element)) (keys : List (Nat × Element))
  deriving Repr

/-- Go `==` on two `float32` given by their bits: a NaN equals nothing, and
the two zeros are equal. -/
def float32Eq (a b : Nat) : Bool :=
  let isNaN := fun (x : Nat) => decide (x / 2 ^ 23 % 2 ^ 8 = 255 ∧ x % 2 ^ 23 ≠ 0)
  !isNaN a && !isNaN b && (decide (a = b) || decide (a % 2 ^ 31 = 0 ∧ b % 2 ^ 31 = 0))

/-- Go `==` on two `float64` given by their bits. -/
def float64Eq (a b : Nat) : Bool :=
  let isNaN := fun (x : Nat) => decide (x / 2 ^ 52 % 2 ^ 11 = 2047 ∧ x % 2 ^ 52 ≠ 0)
  !isNaN a && !isNaN b && (decide (a = b) || decide (a % 2 ^ 63 = 0 ∧ b % 2 ^ 63 = 0))

mutual
/-- Structural equality of two elements (floats by their bits). -/
def sameElement : Element → Element → Bool
  | .Bool a, .Bool b => a == b
  | .Int32 a, .Int32 b => a == b
  | .Int64 a, .Int64 b => a == b
  | .Float32 a, .Float32 b => a == b
  | .Float64 a, .Float64 b => a == b
  | .String a, .String b => a == b
  | .Property a, .Property b => a == b
  | .Vertex a, .Vertex b => a == b
  | .Edge a, .Edge b => a == b
  | .Path a, .Path b => sameList a b
  | .PathStruct a, .PathStruct b => sameList a b
  | .List a, .List b => sameList a b
  | .ListStruct a, .ListStruct b => sameList a b
  | .Map a, .Map b => samePairs a b
  | .MapStruct a, .MapStruct b => samePairs a b
  | .LinkedMap a k, .LinkedMap b l => sameLinked a b && sameKeys k l
  | _, _ => false
termination_by structural a => a
/-- Structural equality of two sequences of elements. -/
def sameList : List Element → List Element → Bool
  | [], [] => true
  | x :: xs, y :: ys => sameElement x y && sameList xs ys
  | _, _ => false
termination_by structural a => a
/-- Structural equality of two sequences of entries. -/
def samePairs : List (Element × Element) → List (Element × Element) → Bool
  | [], [] => true
  | (k, v) :: xs, (l, u) :: ys => sameElement k l && sameElement v u && samePairs xs ys
  | _, _ => false
termination_by structural a => a
/-- Structural equality of two key sequences of a `LinkedMap`. -/
def sameKeys : List (Nat × Element) → List (Nat × Element) → Bool
  | [], [] => true
  | k :: xs, l :: ys => k.1 == l.1 && sameElement k.2 l.2 && sameKeys xs ys
  | _, _ => false
termination_by structural a => a
/-- Structural equality of two sequences of entries of a `LinkedMap`. -/
def sameLinked : List ((Nat × Element) × Element) → List ((Nat × Element) × Element) → Bool
  | [], [] => true
  | (k, v) :: xs, (l, u) :: ys =>
    k.1 == l.1 && sameElement k.2 l.2 && sameElement v u && sameLinked xs ys
  | _, _ => false
termination_by structural a => a
end

/-- Whether a Go map with `Element` keys can hash the element: the slice and
map types `Path`, `List`, `Map` and the struct `LinkedMap` (which holds a map
and a slice) cannot be hashed, and using one as a key panics. -/
def hashable : Element → Bool
  | .Path _ => false
  | .List _ => false
  | .Map _ => false
  | .LinkedMap _ _ => false
  | _ => true

/-- Go `==` on two map keys of interface type `Element` that are not
pointers: the same dynamic type and equal values (floats by IEEE equality).  On
two keys of a pointer type, which Go compares by address, it tells whether they
point to equal values: this is Go `==` for the keys of a `Map` or `MapStruct`
no two pointer keys of which point to equal values, and the decoder
(`mapAssign`) and `locEq` do not use it for pointers. -/
def keyEq : Element → Element → Bool
  | .Float32 a, .Float32 b => float32Eq a b
  | .Float64 a, .Float64 b => float64Eq a b
  | a, b => sameElement a b

/-- The pointer type of an element (`*Property` 1, `*Vertex` 2, `*Edge` 3,
`*PathStruct` 4, `*ListStruct` 5, `*MapStruct` 6), or 0 for the elements that
are not pointers. -/
def pointerKind : Element → Nat
  | .Property _ => 1
  | .Vertex _ => 2
  | .Edge _ => 3
  | .PathStruct _ => 4
  | .ListStruct _ => 5
  | .MapStruct _ => 6
  | _ => 0

/-- Go `==` on two keys of a `LinkedMap`, each with its address: two pointers
are equal when they have the same type and the same address, a pointer is not
equal to a key that is not a pointer, and two keys that are not pointers are
compared by value. -/
def locEq (a b : Nat × Element) : Bool :=
  if pointerKind a.2 = 0 ∧ pointerKind b.2 = 0 then keyEq a.2 b.2
  else decide (pointerKind a.2 = pointerKind b.2 ∧ a.1 = b.1)

/-! ## `structure/structure.go`: `Vertex.Eq`, `Edge.Eq` -/

/-- Go `==` on two `interface{}` values that hold property values: the same
dynamic type and equal values (`float32` / `float64` by IEEE equality). -/
def valueEq : PropertyValue → PropertyValue → Bool
  | .bool a, .bool b => a == b
  | .int32 a, .int32 b => a == b
  | .int64 a, .int64 b => a == b
  | .float32 a, .float32 b => float32Eq a b
  | .float64 a, .float64 b => float64Eq a b
  | .string a, .string b => a == b
  | _, _ => false

/-- Go `kv[key] = value` on the `map[string]interface{}` of `Eq`, kept as a
list of entries without repeated keys. -/
def kvSet (kv : List (Bytes × PropertyValue)) (key : Bytes) (value : PropertyValue) :
    List (Bytes × PropertyValue) :=
  if kv.any (fun e => e.1 == key) then kv.map (fun e => if e.1 == key then (key, value) else e)
  else kv ++ [(key, value)]

/-- Go `v, ok := kv[key]`. -/
def kvGet (kv : List (Bytes × PropertyValue)) (key : Bytes) : Option PropertyValue :=
  match kv.find? (fun e => e.1 == key) with
  | some e => some e.2
  | none => none

/-- Go `delete(kv, key)`. -/
def kvDelete (kv : List (Bytes × PropertyValue)) (key : Bytes) : List (Bytes × PropertyValue) :=
  kv.filter (fun e => !(e.1 == key))

/-- Go `kv := make(map[string]interface{}); for _, prop := range ps { kv[prop.Key] = prop.Value }`. -/
def kvOf (ps : List Property) : List (Bytes × PropertyValue) :=
  ps.foldl (fun kv prop => kvSet kv prop.Key prop.Value) []

/-- Go `for _, prop := range ps { v, ok := kv[prop.Key]; if !ok || v != prop.Value
{ return false }; delete(kv, prop.Key) }; return true`. -/
def propertiesMatch : List (Bytes × PropertyValue) → List Property → Bool
  | _, [] => true
  | kv, prop :: rest =>
    match kvGet kv prop.Key with
    | some v => if valueEq v prop.Value then propertiesMatch (kvDelete kv prop.Key) rest else false
    | none => false

/-- `Vertex.Eq` -/
def Vertex.Eq (v : Vertex) (other : Element) (_strict : Bool) : Outcome Bool :=
  match other with
  | .Vertex val =>
    if v.VType ≠ val.VType then .ok false
    else if v.VType ≠ IdTypeInt64Int32 ∧ v.VType ≠ IdTypeStringString then
      .panic (.explicit "not implement yet")
    else if (v.VType = IdTypeInt64Int32 ∧ (v.Id ≠ val.Id ∨ v.Type_ ≠ val.Type_))
        ∨ (v.VType = IdTypeStringString ∧ (v.SId ≠ val.SId ∨ v.SType ≠ val.SType))
        ∨ v.Properties.length ≠ val.Properties.length then .ok false
    else .ok (propertiesMatch (kvOf v.Properties) val.Properties)
  | _ => .ok false

/-- `Edge.Eq` -/
def Edge.Eq (e : Edge) (other : Element) (strict : Bool) : Outcome Bool :=
  match other with
  | .Edge val =>
    if e.Type_ ≠ val.Type_ then .ok false
    else
      match e.OutV.Eq (.Vertex val.OutV) strict with
      | .ok true =>
        match e.InV.Eq (.Vertex val.InV) strict with
        | .ok true =>
          if e.Properties.length ≠ val.Properties.length then .ok false
          else .ok (propertiesMatch (kvOf e.Properties) val.Properties)
        | o => o
      | o => o
  | _ => .ok false

/-! ## `structure/structure.go`: `EncodeTo` -/

/-- `Property.EncodeTo` -/
def Property.EncodeTo (p : Property) (w : BigEndianWriter) : Outcome BigEndianWriter :=
  let w1 := baseWriter.WriteInt8 w (int8 PropertyType)
  let w2 := BigEndianWriter.WriteString w1 p.Key
  match p.Value with
  | .bool v =>
    if v then .ok (baseWriter.WriteInt8 w2 (int8 TrueType))
    else .ok (baseWriter.WriteInt8 w2 (int8 FalseType))
  | .int32 v => .ok (BigEndianWriter.WriteInt32 (baseWriter.WriteInt8 w2 (int8 Int32Type)) v)
  | .int64 v => .ok (BigEndianWriter.WriteInt64 (baseWriter.WriteInt8 w2 (int8 Int64Type)) v)
  | .float32 v => .ok (BigEndianWriter.WriteFloat (baseWriter.WriteInt8 w2 (int8 FloatType)) v)
  | .float64 v => .ok (BigEndianWriter.WriteDouble (baseWriter.WriteInt8 w2 (int8 DoubleType)) v)
  | .string v => .ok (BigEndianWriter.WriteBytes (baseWriter.WriteInt8 w2 (int8 StringType)) v)

/-- Go `for i := 0; i < lenProperties; i++ { x.Properties[i].EncodeTo(w) }`. -/
def encodeProperties : List Property → BigEndianWriter → Outcome BigEndianWriter
  | [], w => .ok w
  | p :: ps, w => do
    let w1 ← p.EncodeTo w
    encodeProperties ps w1

/-- `Vertex.EncodeTo` -/
def Vertex.EncodeTo (v : Vertex) (w : BigEndianWriter) : Outcome BigEndianWriter :=
  let lenProperties := v.Properties.length
  if v.VType = IdTypeInt64Int32 then
    let w1 :=
      if lenProperties = 0 then baseWriter.WriteInt8 w (int8 VertexType)
      else baseWriter.WriteInt8 w (int8 VertexWithPropertiesType)
    let w2 := BigEndianWriter.WriteInt64 w1 v.Id
    let w3 := BigEndianWriter.WriteInt32 w2 v.Type_
    if lenProperties = 0 then .ok w3
    else
      let w4 := BigEndianWriter.WriteInt32 w3 (int32 lenProperties)
      encodeProperties v.Properties w4
  else if v.VType = IdTypeStringString then
    let w1 :=
      if lenProperties = 0 then baseWriter.WriteInt8 w (int8 SVertexType)
      else baseWriter.WriteInt8 w (int8 SVertexWithPropertiesType)
    let w2 := BigEndianWriter.WriteString w1 v.SId
    let w3 := BigEndianWriter.WriteString w2 v.SType
    if lenProperties = 0 then .ok w3
    else
      let w4 := BigEndianWriter.WriteInt16 w3 (int16 lenProperties)
      encodeProperties v.Properties w4
  else .panic (.explicit "not implement")

/-- `Edge.EncodeTo` -/
def Edge.EncodeTo (e : Edge) (w : BigEndianWriter) : Outcome BigEndianWriter :=
  let lenProperties := e.Properties.length
  if e.OutV.VType = IdTypeInt64Int32 ∧ e.InV.VType = IdTypeInt64Int32 then
    let w1 :=
      if lenProperties = 0 then baseWriter.WriteInt8 w (int8 ForwardEdgeType)
      else baseWriter.WriteInt8 w (int8 ForwardEdgeWithPropertiesType)
    let w2 := BigEndianWriter.WriteString w1 e.Type_
    let w3 := BigEndianWriter.WriteInt64 w2 e.OutV.Id
    let w4 := BigEndianWriter.WriteInt32 w3 e.OutV.Type_
    let w5 := BigEndianWriter.WriteInt64 w4 e.InV.Id
    let w6 := BigEndianWriter.WriteInt32 w5 e.InV.Type_
    if lenProperties = 0 then .ok w6
    else
      let w7 := BigEndianWriter.WriteInt32 w6 (int32 lenProperties)
      encodeProperties e.Properties w7
  else if e.OutV.VType = IdTypeStringString ∧ e.InV.VType = IdTypeStringString then
    let w1 :=
      if lenProperties = 0 then baseWriter.WriteInt8 w (int8 ForwardSEdgeType)
      else baseWriter.WriteInt8 w (int8 ForwardSEdgeWithPropertiesType)
    let w2 := BigEndianWriter.WriteString w1 e.Type_
    let w3 := BigEndianWriter.WriteString w2 e.OutV.SId
    let w4 := BigEndianWriter.WriteString w3 e.OutV.SType
    let w5 := BigEndianWriter.WriteString w4 e.InV.SId
    let w6 := BigEndianWriter.WriteString w5 e.InV.SType
    if lenProperties = 0 then .ok w6
    else
      let w7 := BigEndianWriter.WriteInt16 w6 (int16 lenProperties)
      encodeProperties e.Properties w7
  else .panic (.explicit "not implement")

/-- Go `lm.Elems[key]` on the map of a `LinkedMap`, for the entries `tbl`: an
unhashable key panics, a missing key gives `none` (the nil `Element`). -/
def linkedIndex {β : Type} (tbl : List ((Nat × Element) × β)) (key : Nat × Element) :
    Outcome (Option β) :=
  if hashable key.2 then
    match tbl.find? (fun kv => locEq kv.1 key) with
    | some kv => .ok (some kv.2)
    | none => .ok none
  else .panic .unhashableKey

mutual
/-- The method `EncodeTo` of every `Element`: `Bool.EncodeTo`,
`Int32.EncodeTo`, ..., `LinkedMap.EncodeTo`.  A Go map is ranged over in the
order of its entry list. -/
def EncodeTo : Element → BigEndianWriter → Outcome BigEndianWriter
  | .Bool b, w =>
    if b then .ok (baseWriter.WriteInt8 w (int8 TrueType))
    else .ok (baseWriter.WriteInt8 w (int8 FalseType))
  | .Int32 i32, w =>
    .ok (BigEndianWriter.WriteInt32 (baseWriter.WriteInt8 w (int8 Int32Type)) (int32 i32))
  | .Int64 i64, w =>
    .ok (BigEndianWriter.WriteInt64 (baseWriter.WriteInt8 w (int8 Int64Type)) (int64 i64))
  | .Float32 f32, w =>
    .ok (BigEndianWriter.WriteFloat (baseWriter.WriteInt8 w (int8 FloatType)) f32)
  | .Float64 f64, w =>
    .ok (BigEndianWriter.WriteDouble (baseWriter.WriteInt8 w (int8 DoubleType)) f64)
  | .String s, w =>
    .ok (BigEndianWriter.WriteString (baseWriter.WriteInt8 w (int8 StringType)) s)
  | .Property p, w => p.EncodeTo w
  | .Vertex v, w => v.EncodeTo w
  | .Edge e, w => e.EncodeTo w
  | .Path p, w =>
    let w1 := baseWriter.WriteInt8 w (int8 PathType)
    let w2 := baseWriter.WriteInt8 w1 (int8 ListType)
    let w3 := BigEndianWriter.WriteInt32 w2 0
    let w4 := baseWriter.WriteInt8 w3 (int8 ListType)
    let w5 := BigEndianWriter.WriteInt32 w4 (int32 p.length)
    encodeElems p w5
  | .PathStruct elems, w =>
    let w1 := baseWriter.WriteInt8 w (int8 PathType)
    let w2 := baseWriter.WriteInt8 w1 (int8 ListType)
    let w3 := BigEndianWriter.WriteInt32 w2 0
    let w4 := baseWriter.WriteInt8 w3 (int8 ListType)
    let w5 := BigEndianWriter.WriteInt32 w4 (int32 elems.length)
    encodeElems elems w5
  | .List l, w =>
    let w1 := baseWriter.WriteInt8 w (int8 ListType)
    let w2 := BigEndianWriter.WriteInt32 w1 (int32 l.length)
    encodeElems l w2
  | .ListStruct elems, w =>
    let w1 := baseWriter.WriteInt8 w (int8 ListType)
    let w2 := BigEndianWriter.WriteInt32 w1 (int32 elems.length)
    encodeElems elems w2
  | .Map m, w =>
    let w1 := baseWriter.WriteInt8 w (int8 MapType)
    let w2 := BigEndianWriter.WriteInt32 w1 (int32 m.length)
    encodePairs m w2
  | .MapStruct elems, w =>
    let w1 := baseWriter.WriteInt8 w (int8 MapType)
    let w2 := BigEndianWriter.WriteInt32 w1 (int32 elems.length)
    encodePairs elems w2
  | .LinkedMap elems keys, w =>
    let w1 := baseWriter.WriteInt8 w (int8 LinkedMapType)
    let w2 := BigEndianWriter.WriteInt32 w1 (int32 elems.length)
    encodeLinkedKeys (valueTable elems) keys w2
/-- Go `for _, item := range p { item.EncodeTo(w) }`. -/
def encodeElems : List Element → BigEndianWriter → Outcome BigEndianWriter
  | [], w => .ok w
  | item :: rest, w => do
    let w1 ← EncodeTo item w
    encodeElems rest w1
/-- Go `for k, v := range m { k.EncodeTo(w); v.EncodeTo(w) }`. -/
def encodePairs : List (Element × Element) → BigEndianWriter → Outcome BigEndianWriter
  | [], w => .ok w
  | (k, v) :: rest, w => do
    let w1 ← EncodeTo k w
    let w2 ← EncodeTo v w1
    encodePairs rest w2
/-- What `EncodeTo` of each value of the map of a `LinkedMap` appends to a
writer, by key. -/
def valueTable : List ((Nat × Element) × Element) → List ((Nat × Element) × Outcome Bytes)
  | [] => []
  | (k, v) :: rest => (k, EncodeTo v []) :: valueTable rest
/-- The loop of `LinkedMap.EncodeTo`:
`for _, key := range lm.Keys { key.EncodeTo(w); lm.Elems[key].EncodeTo(w) }`,
where `tbl` is `valueTable lm.Elems` (every `Write*` appends to the writer, so
`EncodeTo` of a value appends to `w` what it writes into an empty writer). -/
def encodeLinkedKeys (tbl : List ((Nat × Element) × Outcome Bytes)) :
    List (Nat × Element) → BigEndianWriter → Outcome BigEndianWriter
  | [], w => .ok w
  | key :: keys, w => do
    let w1 ← EncodeTo key.2 w
    let found ← linkedIndex tbl key
    match found with
    | some value => do
      let bytes ← value
      encodeLinkedKeys tbl keys (w1 ++ bytes)
    | none => .panic .nilPointerDereference
end

/-! ## `structure/structure.go`: `Eq` -/

/-- Go `flagMap[kk]` on the `map[Element]bool` of `Map.Eq`: false for a key
that is not there. -/
def flagGet (flags : List (Element × Bool)) (kk : Element) : Bool :=
  match flags.find? (fun e => keyEq e.1 kk) with
  | some e => e.2
  | none => false

/-- Go `flagMap[kk] = b`. -/
def flagSet (flags : List (Element × Bool)) (kk : Element) (b : Bool) : List (Element × Bool) :=
  if flags.any (fun e => keyEq e.1 kk) then
    flags.map (fun e => if keyEq e.1 kk then (kk, b) else e)
  else flags ++ [(kk, b)]

/-- The inner loop of `Map.Eq`, for one entry `k: v` of the receiver:
`for kk, vv := range val { if flagMap[kk] || !k.Eq(kk, strict) || !v.Eq(vv, strict)
{ continue }; found = true; flagMap[kk] = true }`, where `keq` is `k.Eq(·, strict)`
and `veq` is `v.Eq(·, strict)`. -/
def mapEqInner (keq veq : Element → Outcome Bool) :
    List (Element × Element) → List (Element × Bool) → Bool → Outcome (Bool × List (Element × Bool))
  | [], flags, found => .ok (found, flags)
  | (kk, vv) :: rest, flags, found =>
    if flagGet flags kk then mapEqInner keq veq rest flags found
    else
      match keq kk with
      | .ok true =>
        match veq vv with
        | .ok true => mapEqInner keq veq rest (flagSet flags kk true) true
        | .ok false => mapEqInner keq veq rest flags found
        | .error e => .error e
        | .panic p => .panic p
        | .outOfFuel => .outOfFuel
      | .ok false => mapEqInner keq veq rest flags found
      | .error e => .error e
      | .panic p => .panic p
      | .outOfFuel => .outOfFuel

/-- The loop of `LinkedMap.Eq` over `lm.Keys` and `val.Keys`, where `keyEqs`
holds `key.Eq(·, strict)` for each key of `lm.Keys` and `tbl` holds
`v.Eq(·, strict)` for each entry `k: v` of `lm.Elems`. -/
def linkedEqLoop (tbl : List ((Nat × Element) × (Element → Outcome Bool)))
    (velems : List ((Nat × Element) × Element)) :
    List ((Nat × Element) × (Element → Outcome Bool)) → List (Nat × Element) → Outcome Bool
  | (key, keq) :: keys, vkey :: vkeys =>
    match keq vkey.2 with
    | .ok true =>
      match linkedIndex tbl key with
      | .ok found =>
        match linkedIndex velems vkey with
        | .ok otherFound =>
          match found, otherFound with
          | some veq, some otherV =>
            match veq otherV with
            | .ok true => linkedEqLoop tbl velems keys vkeys
            | o => o
          | _, _ => linkedEqLoop tbl velems keys vkeys
        | .error e => .error e
        | .panic p => .panic p
        | .outOfFuel => .outOfFuel
      | .error e => .error e
      | .panic p => .panic p
      | .outOfFuel => .outOfFuel
    | o => o
  | [], _ => .ok true
  | _ :: _, [] => .panic .indexOutOfRange

mutual
/-- The method `Eq` of every `Element`.  `sortString` stands for the method
`sortString`, which the loose comparisons (`strict = false`) of the numbers and
of the lists go through; it renders values with `fmt.Sprintf` and is taken as
given here. -/
def Eq (sortString : Element → Outcome Bytes) : Element → Element → Bool → Outcome Bool
  | .Bool b, other, _ =>
    match other with
    | .Bool val => .ok (b == val)
    | _ => .ok false
  | .Int32 i32, other, strict =>
    if strict then
      match other with
      | .Int32 val => .ok (i32 == val)
      | _ => .ok false
    else do
      let a ← sortString (.Int32 i32)
      let b ← sortString other
      pure (a == b)
  | .Int64 i64, other, strict =>
    if strict then
      match other with
      | .Int64 val => .ok (i64 == val)
      | _ => .ok false
    else do
      let a ← sortString (.Int64 i64)
      let b ← sortString other
      pure (a == b)
  | .Float32 f32, other, strict =>
    if strict then
      match other with
      | .Float32 val => .ok (float32Eq f32 val)
      | _ => .ok false
    else do
      let a ← sortString (.Float32 f32)
      let b ← sortString other
      pure (a == b)
  | .Float64 f64, other, strict =>
    if strict then
      match other with
      | .Float64 val => .ok (float64Eq f64 val)
      | _ => .ok false
    else do
      let a ← sortString (.Float64 f64)
      let b ← sortString other
      pure (a == b)
  | .String s, other, _ =>
    match other with
    | .String val => .ok (s == val)
    | _ => .ok false
  | .Property p, other, _ =>
    match other with
    | .Property val => .ok (p.Key == val.Key && valueEq p.Value val.Value)
    | _ => .ok false
  | .Vertex v, other, strict => v.Eq other strict
  | .Edge e, other, strict => e.Eq other strict
  | .Path p, other, strict =>
    match other with
    | .Path val => if p.length ≠ val.length then .ok false else eqElems sortString p val strict
    | _ => .ok false
  | .PathStruct elems, other, strict =>
    match other with
    | .PathStruct val =>
      if elems.length ≠ val.length then .ok false else eqElems sortString elems val strict
    | _ => .ok false
  | .List l, other, strict =>
    match other with
    | .List val =>
      if l.length ≠ val.length then .ok false
      else if strict then eqElems sortString l val strict
      else do
        let a ← sortString (.List l)
        let b ← sortString other
        pure (a == b)
    | _ => .ok false
  | .ListStruct elems, other, strict =>
    match other with
    | .ListStruct val =>
      if elems.length ≠ val.length then .ok false
      else if strict then eqElems sortString elems val strict
      else do
        let a ← sortString (.ListStruct elems)
        let b ← sortString other
        pure (a == b)
    | _ => .ok false
  | .Map m, other, strict =>
    match other with
    | .Map val =>
      if m.length ≠ val.length then .ok false
      else eqEntries sortString m val strict (val.foldl (fun fl kv => flagSet fl kv.1 false) [])
    | _ => .ok false
  | .MapStruct elems, other, strict =>
    match other with
    | .MapStruct val =>
      if elems.length ≠ val.length then .ok false
      else
        eqEntries sortString elems val strict (val.foldl (fun fl kv => flagSet fl kv.1 false) [])
    | _ => .ok false
  | .LinkedMap elems keys, other, strict =>
    match other with
    | .LinkedMap velems vkeys =>
      if vkeys.length ≠ keys.length ∨ velems.length ≠ elems.length then .ok false
      else
        linkedEqLoop (eqValues sortString elems strict) velems
          (eqKeys sortString keys strict) vkeys
    | _ => .ok false
/-- Go `for i, el := range p { if !el.Eq(val[i], strict) { return false } }; return true`. -/
def eqElems (sortString : Element → Outcome Bytes) :
    List Element → List Element → Bool → Outcome Bool
  | [], _, _ => .ok true
  | _ :: _, [], _ => .panic .indexOutOfRange
  | el :: rest, x :: val, strict =>
    match Eq sortString el x strict with
    | .ok true => eqElems sortString rest val strict
    | o => o
/-- The outer loop of `Map.Eq`: `for k, v := range m { found := false; ...;
if !found { return false } }; return true`. -/
def eqEntries (sortString : Element → Outcome Bytes) :
    List (Element × Element) → List (Element × Element) → Bool → List (Element × Bool) →
      Outcome Bool
  | [], _, _, _ => .ok true
  | (k, v) :: rest, val, strict, flags =>
    match mapEqInner (fun kk => Eq sortString k kk strict) (fun vv => Eq sortString v vv strict)
        val flags false with
    | .ok (true, flags1) => eqEntries sortString rest val strict flags1
    | .ok (false, _) => .ok false
    | .error e => .error e
    | .panic p => .panic p
    | .outOfFuel => .outOfFuel
/-- For each entry `k: v` of the map of a `LinkedMap`, the key with
`v.Eq(·, strict)`. -/
def eqValues (sortString : Element → Outcome Bytes) :
    List ((Nat × Element) × Element) → Bool →
      List ((Nat × Element) × (Element → Outcome Bool))
  | [], _ => []
  | (k, v) :: rest, strict =>
    (k, fun x => Eq sortString v x strict) :: eqValues sortString rest strict
/-- For each key of a key sequence, the key with `key.Eq(·, strict)`. -/
def eqKeys (sortString : Element → Outcome Bytes) :
    List (Nat × Element) → Bool → List ((Nat × Element) × (Element → Outcome Bool))
  | [], _ => []
  | key :: rest, strict =>
    (key, fun x => Eq sortString key.2 x strict) :: eqKeys sortString rest strict
end

/-! ## `structure/structure.go`: `sortString` -/

/-- Go `a <= b` on two strings: the byte-wise lexicographic order. -/
def stringLe (a b : Bytes) : Bool := decide (a.map UInt8.toNat ≤ b.map UInt8.toNat)

/-- Go `sort.Strings(strs)`. -/
def sortStrings (strs : List Bytes) : List Bytes :=
  strs.insertionSort (fun a b => stringLe a b = true)

/-- Go `strings.Join(strs, sep)`. -/
def stringsJoin (sep : Bytes) : List Bytes → Bytes
  | [] => []
  | [s] => s
  | s :: t :: rest => s ++ sep ++ stringsJoin sep (t :: rest)

mutual
/-- The method `sortString` of every `Element`.  `str` stands for the method
`String` of the elements whose rendering goes through the verbs of `fmt`
(`Float32`, `Float64`, `Property`, `Vertex`, `Edge`); `Bool`, `Int32`, `Int64`
and `String` are rendered here, and so are the containers, which sort or join
the sort strings of their members. -/
def sortString (str : Element → Outcome Bytes) : Element → Outcome Bytes
  | .Bool b => .ok (if b then ascii "True" else ascii "False")
  | .Int32 i32 => .ok (ascii (toString i32))
  | .Int64 i64 => .ok (ascii (toString i64))
  | .Float32 f32 => str (.Float32 f32)
  | .Float64 f64 => str (.Float64 f64)
  | .String s => .ok s
  | .Property p => str (.Property p)
  | .Vertex v => str (.Vertex v)
  | .Edge e => str (.Edge e)
  | .Path p => do
    let strs ← sortStringAll str p
    pure (ascii "Path[" ++ stringsJoin (ascii ", ") strs ++ ascii "]")
  | .PathStruct elems => do
    let strs ← sortStringAll str elems
    pure (ascii "PathStruct\x7bElems:[" ++ stringsJoin (ascii ", ") strs ++ ascii "]\x7d")
  | .List l => do
    let strs ← sortStringAll str l
    pure (ascii "[" ++ stringsJoin (ascii ", ") (sortStrings strs) ++ ascii "]")
  | .ListStruct elems => do
    let strs ← sortStringAll str elems
    pure (ascii "[" ++ stringsJoin (ascii ", ") (sortStrings strs) ++ ascii "]")
  | .Map m => do
    let strs ← sortStringEntries str m
    pure (ascii "Map\x7b" ++ stringsJoin (ascii ", ") (sortStrings strs) ++ ascii "\x7d")
  | .MapStruct elems => do
    let strs ← sortStringEntries str elems
    pure (ascii "Map\x7b" ++ stringsJoin (ascii ", ") (sortStrings strs) ++ ascii "\x7d")
  | .LinkedMap elems _ => do
    let strs ← sortStringLinked str elems
    pure (ascii "LinkedMap\x7b" ++ stringsJoin (ascii ", ") (sortStrings strs) ++ ascii "\x7d")
/-- Go `for _, lt := range l { strs = append(strs, lt.sortString()) }`. -/
def sortStringAll (str : Element → Outcome Bytes) : List Element → Outcome (List Bytes)
  | [] => .ok []
  | lt :: rest => do
    let s ← sortString str lt
    let strs ← sortStringAll str rest
    pure (s :: strs)
/-- Go `for k, v := range m { strs = append(strs, fmt.Sprintf("%v: %v",
k.sortString(), v.sortString())) }`. -/
def sortStringEntries (str : Element → Outcome Bytes) :
    List (Element × Element) → Outcome (List Bytes)
  | [] => .ok []
  | (k, v) :: rest => do
    let a ← sortString str k
    let b ← sortString str v
    let strs ← sortStringEntries str rest
    pure ((a ++ ascii ": " ++ b) :: strs)
/-- The same loop over the map of a `LinkedMap`. -/
def sortStringLinked (str : Element → Outcome Bytes) :
    List ((Nat × Element) × Element) → Outcome (List Bytes)
  | [] => .ok []
  | (k, v) :: rest => do
    let a ← sortString str k.2
    let b ← sortString str v
    let strs ← sortStringLinked str rest
    pure ((a ++ ascii ": " ++ b) :: strs)
end

/-! ## `structure/columnar_decoder.go` -/

open Columnar in
/-- A method call `col.Get(row)` through a `*Column` that may be nil. -/
def viaPtr {α : Type} (col : Option Column) (get : Column → Nat → Outcome α) (row : Nat) :
    Outcome α :=
  match col with
  | some c => get c row
  | none => .panic .nilPointerDereference

open Columnar in
/-- Go `for fieldIter.HasNext() { fieldIdx := fieldIter.Cursor(); field := fieldIter.Next(); ... }`
with `n` fields still to visit; `body fieldIdx field` is the loop body. -/
def fieldLoop {α : Type} (body : Nat → Field → α → Outcome α) :
    Nat → FieldIter → α → Outcome α
  | 0, fieldIter, acc => if fieldIter.HasNext then .outOfFuel else .ok acc
  | n + 1, fieldIter, acc =>
    if fieldIter.HasNext then
      let fieldIdx := fieldIter.Cursor
      match fieldIter.Next with
      | (.ok field, fieldIter1) => do
        let acc1 ← body fieldIdx field acc
        fieldLoop body n fieldIter1 acc1
      | (.error e, _) => .error e
      | (.panic p, _) => .panic p
      | (.outOfFuel, _) => .outOfFuel
    else .ok acc

open Columnar in
/-- Go `for i := 0; i < rowCount; i++ { if pCol.IsNull(i) { continue }; ... get(pCol, i) ... }`
with `n` rows to go from row `i`; `add acc i x` is what the body does with the
value `x` of row `i`. -/
def cellLoop {α β : Type} (pCol : Column) (get : Column → Nat → Outcome β)
    (add : α → Nat → β → α) : Nat → Nat → α → Outcome α
  | 0, _, acc => .ok acc
  | n + 1, i, acc => do
    let isNull ← pCol.IsNull i
    if isNull then cellLoop pCol get add n (i + 1) acc
    else do
      let x ← get pCol i
      cellLoop pCol get add n (i + 1) (add acc i x)

open Columnar in
/-- The `switch field.Type` of the property passes: the getter that fills
`Property.Value`, `none` for the `default` case (which panics). -/
def propertyGetter (t : Columnar.ValueType) : Option (Column → Nat → Outcome PropertyValue) :=
  if t = ValueType_STRING then some (fun c i => do let x ← c.GetString i; pure (.string x))
  else if t = ValueType_BOOL then some (fun c i => do let x ← c.GetBool i; pure (.bool x))
  else if t = ValueType_FLOAT then some (fun c i => do let x ← c.GetFloat32 i; pure (.float32 x))
  else if t = ValueType_DOUBLE then some (fun c i => do let x ← c.GetFloat64 i; pure (.float64 x))
  else if t = ValueType_INT32 then some (fun c i => do let x ← c.GetInt32 i; pure (.int32 x))
  else if t = ValueType_INT64 then some (fun c i => do let x ← c.GetInt64 i; pure (.int64 x))
  else none

open Columnar in
/-- The `switch field.Type` of `readValues`: the getter that builds the scalar
element, `none` for the `default` case (which panics). -/
def scalarGetter (t : Columnar.ValueType) : Option (Column → Nat → Outcome Element) :=
  if t = ValueType_STRING then some (fun c i => do let x ← c.GetString i; pure (.String x))
  else if t = ValueType_BOOL then some (fun c i => do let x ← c.GetBool i; pure (.Bool x))
  else if t = ValueType_FLOAT then some (fun c i => do let x ← c.GetFloat32 i; pure (.Float32 x))
  else if t = ValueType_DOUBLE then some (fun c i => do let x ← c.GetFloat64 i; pure (.Float64 x))
  else if t = ValueType_INT32 then some (fun c i => do let x ← c.GetInt32 i; pure (.Int32 x))
  else if t = ValueType_INT64 then some (fun c i => do let x ← c.GetInt64 i; pure (.Int64 x))
  else none

/-- Go `xs[i].Properties = append(xs[i].Properties, p)` on the edges. -/
def addEdgeProperty (name : Bytes) (edges : List Edge) (i : Nat) (x : PropertyValue) : List Edge :=
  match edges.get? i with
  | some e => edges.set i { e with Properties := e.Properties ++ [{ Key := name, Value := x }] }
  | none => edges

/-- Go `xs[i].Properties = append(xs[i].Properties, p)` on the vertices. -/
def addVertexProperty (name : Bytes) (vs : List Vertex) (i : Nat) (x : PropertyValue) :
    List Vertex :=
  match vs.get? i with
  | some v => vs.set i { v with Properties := v.Properties ++ [{ Key := name, Value := x }] }
  | none => vs

open Columnar in
/-- The first loop of `readColumnarEdge`: the edges of rows `i`, `i + 1`, ...
(`n` rows to go) with their endpoints and label. -/
def edgeRows (dir : DirectionType)
    (startVIdCol startVTypeCol edgeTypeCol endVIdCol endVTypeCol : Option Column) :
    Nat → Nat → List Edge → Outcome (List Edge)
  | 0, _, edges => .ok edges
  | n + 1, i, edges => do
    let ty ← viaPtr edgeTypeCol Column.GetString i
    let startId ← viaPtr startVIdCol Column.GetInt64 i
    let startType ← viaPtr startVTypeCol Column.GetInt32 i
    let endId ← viaPtr endVIdCol Column.GetInt64 i
    let endType ← viaPtr endVTypeCol Column.GetInt32 i
    let vk : Vertex := { Vertex.zero with Id := startId, Type_ := startType }
    let vk1 : Vertex := { Vertex.zero with Id := endId, Type_ := endType }
    let e : Edge :=
      if dir = .DirectionType_Reverse then { OutV := vk1, InV := vk, Type_ := ty, Properties := [] }
      else { OutV := vk, InV := vk1, Type_ := ty, Properties := [] }
    edgeRows dir startVIdCol startVTypeCol edgeTypeCol endVIdCol endVTypeCol n (i + 1)
      (edges ++ [e])

open Columnar in
/-- `readColumnarEdge` -/
def readColumnarEdge (dir : DirectionType) : Dec (List Element) := do
  let bs ← BigEndianReader.NoCopyReadBytes
  let tb ← Dec.lift (Columnar.Decode bs)
  let edgeCount := tb.RowCount
  let startVIdCol ← Dec.lift (tb.GetColumnPtr ClientProtoEdgeStartVIdKey)
  let startVTypeCol ← Dec.lift (tb.GetColumnPtr ClientProtoEdgeStartVTypeKey)
  let edgeTypeCol ← Dec.lift (tb.GetColumnPtr ClientProtoEdgeTypeKey)
  let endVIdCol ← Dec.lift (tb.GetColumnPtr ClientProtoVtxIdKey)
  let endVTypeCol ← Dec.lift (tb.GetColumnPtr ClientProtoVtxTypeKey)
  let edges ← Dec.lift
    (edgeRows dir startVIdCol startVTypeCol edgeTypeCol endVIdCol endVTypeCol edgeCount 0 [])
  let fieldIter := tb.Schema.FieldIter
  let edges1 ← Dec.lift (fieldLoop (fun fieldIdx field (acc : List Edge) =>
    if field.Name = ClientProtoEdgeStartVTypeKey ∨ field.Name = ClientProtoEdgeStartVIdKey
        ∨ field.Name = ClientProtoVtxIdKey ∨ field.Name = ClientProtoVtxTypeKey
        ∨ field.Name = ClientProtoEdgeTypeKey then .ok acc
    else do
      let pCol ← tb.GetColumnByIdx fieldIdx
      match propertyGetter field.Type_ with
      | some get => cellLoop pCol get (addEdgeProperty field.Name) edgeCount 0 acc
      | none => .panic (.explicit "unsupport type")) tb.FieldCount fieldIter edges)
  return edges1.map Element.Edge

open Columnar in
/-- The first loop of `readColumnarVertex`. -/
def vertexRows (vIdCol vTypeCol : Option Column) : Nat → Nat → List Vertex → Outcome (List Vertex)
  | 0, _, vs => .ok vs
  | n + 1, i, vs => do
    let id ← viaPtr vIdCol Column.GetInt64 i
    let ty ← viaPtr vTypeCol Column.GetInt32 i
    vertexRows vIdCol vTypeCol n (i + 1) (vs ++ [{ Vertex.zero with Id := id, Type_ := ty }])

open Columnar in
/-- `readColumnarVertex` -/
def readColumnarVertex : Dec (List Element) := do
  let bs ← BigEndianReader.NoCopyReadBytes
  let tb ← Dec.lift (Columnar.Decode bs)
  let vCount := tb.RowCount
  let vIdCol ← Dec.lift (tb.GetColumnPtr ClientProtoVtxIdKey)
  let vTypeCol ← Dec.lift (tb.GetColumnPtr ClientProtoVtxTypeKey)
  let vertices ← Dec.lift (vertexRows vIdCol vTypeCol vCount 0 [])
  let fieldIter := tb.Schema.FieldIter
  let vertices1 ← Dec.lift (fieldLoop (fun fieldIdx field (acc : List Vertex) =>
    if field.Name = ClientProtoVtxIdKey ∨ field.Name = ClientProtoVtxTypeKey then .ok acc
    else do
      let pCol ← tb.GetColumnByIdx fieldIdx
      match propertyGetter field.Type_ with
      | some get => cellLoop pCol get (addVertexProperty field.Name) vCount 0 acc
      | none => .panic (.explicit "unsupport type")) tb.FieldCount fieldIter vertices)
  return vertices1.map Element.Vertex

open Columnar in
/-- `readProperties` -/
def readProperties : Dec (List Element) := do
  let bs ← BigEndianReader.NoCopyReadBytes
  let tb ← Dec.lift (Columnar.Decode bs)
  let rowCount := tb.RowCount
  let fieldIter := tb.Schema.FieldIter
  let ret ← Dec.lift (fieldLoop (fun fieldIdx field (acc : List Element) => do
      let pCol ← tb.GetColumnByIdx fieldIdx
      match propertyGetter field.Type_ with
      | some get =>
        cellLoop pCol get
          (fun (ret : List Element) _ x => ret ++ [.Property { Key := field.Name, Value := x }])
          rowCount 0 acc
      | none => .panic (.explicit "unsupport type")) tb.FieldCount fieldIter [])
  return ret

open Columnar in
/-- `readValues` -/
def readValues : Dec (List Element) := do
  let bs ← BigEndianReader.NoCopyReadBytes
  let tb ← Dec.lift (Columnar.Decode bs)
  let rowCount := tb.RowCount
  let fieldIter := tb.Schema.FieldIter
  let ret ← Dec.lift (fieldLoop (fun fieldIdx field (acc : List Element) =>
    if field.Name = VtxIdKey ∨ field.Name = VtxTypeKey then .ok acc
    else do
      let pCol ← tb.GetColumnByIdx fieldIdx
      match scalarGetter field.Type_ with
      | some get => cellLoop pCol get (fun (ret : List Element) _ x => ret ++ [x]) rowCount 0 acc
      | none => .panic (.explicit "unsupport type")) tb.FieldCount fieldIter [])
  return ret

/-! ## `structure/binary_decoder.go` -/

/-- `decodeValue` -/
def decodeValue : Dec PropertyValue := do
  let i8 ← baseReader.ReadInt8
  let ty := CoreDataType.ofInt8 i8
  if ty = TrueType then return .bool true
  else if ty = FalseType then return .bool false
  else if ty = Int32Type then do
    let i32 ← BigEndianReader.ReadInt32
    return .int32 i32
  else if ty = Int64Type then do
    let i64 ← BigEndianReader.ReadInt64
    return .int64 i64
  else if ty = FloatType then do
    let i32 ← BigEndianReader.ReadInt32
    return .float32 (uint32 i32)
  else if ty = DoubleType then do
    let i64 ← BigEndianReader.ReadInt64
    return .float64 (uint64 i64)
  else if ty = StringType then do
    let s ← BigEndianReader.ReadBytes
    return .string s
  else Dec.fail (.valueNotBasicType ty)

/-- `readVertex` -/
def readVertex : Dec Vertex := do
  let id ← BigEndianReader.ReadInt64
  let ptype ← BigEndianReader.ReadInt32
  return { Vertex.zero with Id := id, Type_ := ptype }

/-- Go `for i := 0; i < int(pptLen); i++ { ppt, err := Decode(w); ...;
props = append(props, ppt.(*Property)) }` with `n` iterations to go; the type
assertion panics on an element that is not a `*Property`. -/
def decodeProperties (Decode : Dec Element) : Nat → List Property → Dec (List Property)
  | 0, props => pure props
  | n + 1, props => do
    let ppt ← Decode
    match ppt with
    | .Property p => decodeProperties Decode n (props ++ [p])
    | _ => Dec.abort .interfaceConversion

/-- `readVertexWithProperties`; `make([]*Property, 0, pptLen)` panics on a
negative `pptLen`. -/
def readVertexWithProperties (Decode : Dec Element) : Dec Vertex := do
  let vertex ← readVertex
  let pptLen ← BigEndianReader.ReadInt32
  if pptLen < 0 then Dec.abort .makesliceOutOfRange else do
  let props ← decodeProperties Decode pptLen.toNat []
  return { vertex with Properties := props }

/-- `readSVertex` -/
def readSVertex : Dec Vertex := do
  let sid ← BigEndianReader.ReadString
  let stype ← BigEndianReader.ReadString
  return { Vertex.zero with SId := sid, SType := stype, VType := IdTypeStringString }

/-- `readSVertexWithProperties`; `make([]*Property, pptLen)` panics on a
negative `pptLen`. -/
def readSVertexWithProperties (Decode : Dec Element) : Dec Vertex := do
  let vertex ← readSVertex
  let pptLen ← BigEndianReader.ReadInt16
  if pptLen < 0 then Dec.abort .makesliceOutOfRange else do
  let props ← decodeProperties Decode pptLen.toNat []
  return { vertex with Properties := props }

/-- `readEdge` -/
def readEdge (d : DirectionType) : Dec Edge := do
  let label ← BigEndianReader.ReadString
  let p1id ← BigEndianReader.ReadInt64
  let p1type ← BigEndianReader.ReadInt32
  let p2id ← BigEndianReader.ReadInt64
  let p2type ← BigEndianReader.ReadInt32
  let e : Edge :=
    { OutV := { Vertex.zero with Id := p1id, Type_ := p1type }
      InV := { Vertex.zero with Id := p2id, Type_ := p2type }
      Type_ := label
      Properties := [] }
  if d = .DirectionType_Reverse then return { e with InV := e.OutV, OutV := e.InV }
  else return e

/-- `readEdgeWithProperties` -/
def readEdgeWithProperties (Decode : Dec Element) (d : DirectionType) : Dec Edge := do
  let edge ← readEdge d
  let pptLen ← BigEndianReader.ReadInt32
  if pptLen < 0 then Dec.abort .makesliceOutOfRange else do
  let props ← decodeProperties Decode pptLen.toNat []
  return { edge with Properties := props }

/-- `readSEdge` -/
def readSEdge (d : DirectionType) : Dec Edge := do
  let label ← BigEndianReader.ReadString
  let p1sid ← BigEndianReader.ReadString
  let p1stype ← BigEndianReader.ReadString
  let p2sid ← BigEndianReader.ReadString
  let p2stype ← BigEndianReader.ReadString
  let edge : Edge :=
    { OutV := { Vertex.zero with SId := p1sid, SType := p1stype, VType := IdTypeStringString }
      InV := { Vertex.zero with SId := p2sid, SType := p2stype, VType := IdTypeStringString }
      Type_ := label
      Properties := [] }
  if d = .DirectionType_Reverse then return { edge with InV := edge.OutV, OutV := edge.InV }
  else return edge

/-- `readSEdgeWithProperties` -/
def readSEdgeWithProperties (Decode : Dec Element) (d : DirectionType) : Dec Edge := do
  let edge ← readSEdge d
  let pptLen ← BigEndianReader.ReadInt16
  if pptLen < 0 then Dec.abort .makesliceOutOfRange else do
  let props ← decodeProperties Decode pptLen.toNat []
  return { edge with Properties := props }

/-- `decodeColumnarBinType` -/
def decodeColumnarBinType : Dec (List Element) := do
  let _ ← baseReader.ReadInt8
  let unmarshalType ← baseReader.ReadInt8
  let ty := CoreDataType.ofInt8 unmarshalType
  if ty = ForwardEdgeType ∨ ty = DoubleEdgeType ∨ ty = ForwardEdgeWithPropertiesType
      ∨ ty = DoubleEdgeWithPropertiesType then
    readColumnarEdge .DirectionType_Forward
  else if ty = ReverseEdgeType ∨ ty = ReverseEdgeWithPropertiesType then
    readColumnarEdge .DirectionType_Reverse
  else if ty = VertexType ∨ ty = VertexWithPropertiesType then readColumnarVertex
  else if ty = PropertyType then readProperties
  else if ty = ValueType then readValues
  else Dec.abort (.explicit "[decodeColumnarBinType]: unknow type")

/-- Go `for i := int32(0); i < n; i++ { _, err := DecodeEx(w, useStruct); ... }`:
the elements are decoded and dropped. -/
def skipElements (dec : Dec Element) : Nat → Dec Unit
  | 0 => pure ()
  | n + 1 => do
    let _ ← dec
    skipElements dec n

/-- Go `for i := int32(0); i < n; i++ { e, err := DecodeEx(w, useStruct); ...;
r = append(r, e) }`. -/
def decodeElements (dec : Dec Element) : Nat → List Element → Dec (List Element)
  | 0, r => pure r
  | n + 1, r => do
    let elem ← dec
    decodeElements dec n (r ++ [elem])

/-- Go `for i := int32(0); i < n; i++ { ret, err := decodeColumnarBinType(w); ...;
r = append(r, ret...) }`. -/
def decodeColumnarBatches : Nat → List Element → Dec (List Element)
  | 0, r => pure r
  | n + 1, r => do
    let ret ← decodeColumnarBinType
    decodeColumnarBatches n (r ++ ret)

/-- Whether the decoder holds the element through a pointer it has just
allocated (`*Property`, `*Vertex`, `*Edge`, `*PathStruct`, `*ListStruct`,
`*MapStruct`): as a map key such an element equals no earlier key. -/
def freshPointer : Element → Bool
  | .Property _ => true
  | .Vertex _ => true
  | .Edge _ => true
  | .PathStruct _ => true
  | .ListStruct _ => true
  | .MapStruct _ => true
  | _ => false

/-- Go `r[key] = value` in the decoder: an unhashable key panics; a key equal
(Go `==`) to a key of the map takes over its entry; any other key adds an
entry. -/
def mapAssign (r : List (Element × Element)) (key value : Element) :
    Outcome (List (Element × Element)) :=
  if hashable key then
    if freshPointer key then .ok (r ++ [(key, value)])
    else if r.any (fun kv => keyEq kv.1 key) then
      .ok (r.map (fun kv => if keyEq kv.1 key then (key, value) else kv))
    else .ok (r ++ [(key, value)])
  else .panic .unhashableKey

/-- The loop of the `MapType` case: `key`, `value`, `r[key] = value`. -/
def decodeEntries (dec : Dec Element) : Nat → List (Element × Element) →
    Dec (List (Element × Element))
  | 0, r => pure r
  | n + 1, r => do
    let key ← dec
    let value ← dec
    let r1 ← Dec.lift (mapAssign r key value)
    decodeEntries dec n r1

/-- Go `linkedMap.Elems[key] = value` in the decoder: an unhashable key
panics; a key equal (Go `==`) to a key of the map takes over its entry; any
other key adds an entry. -/
def linkedAssign (elems : List ((Nat × Element) × Element)) (key : Nat × Element)
    (value : Element) : Outcome (List ((Nat × Element) × Element)) :=
  if hashable key.2 then
    if elems.any (fun kv => locEq kv.1 key) then
      .ok (elems.map (fun kv => if locEq kv.1 key then (key, value) else kv))
    else .ok (elems ++ [(key, value)])
  else .panic .unhashableKey

/-- The loop of the `LinkedMapType` case: `Keys[i] = key`, `Elems[key] = value`,
with `keys` the keys of the iterations done.  Every call of `DecodeEx` that
returns a pointer has allocated its object anew; the object of iteration `i`
is given the address `i`, so the pointers of two iterations differ. -/
def decodeLinkedEntries (dec : Dec Element) : Nat → List (Nat × Element) →
    List ((Nat × Element) × Element) →
    Dec (List (Nat × Element) × List ((Nat × Element) × Element))
  | 0, keys, elems => pure (keys, elems)
  | n + 1, keys, elems => do
    let key ← dec
    let value ← dec
    let elems1 ← Dec.lift (linkedAssign elems (keys.length, key) value)
    decodeLinkedEntries dec n (keys ++ [(keys.length, key)]) elems1

/-- The `switch ty { ... }` of `DecodeEx`; `self useStruct` stands for the
recursive calls `DecodeEx(w, useStruct)`, and `self false` for the calls of
`Decode(w)` in the property loops. -/
def DecodeExSwitch (self : Bool → Dec Element) (useStruct : Bool) (ty : CoreDataType) :
    Dec Element :=
  if ty = TrueType then return .Bool true
  else if ty = FalseType then return .Bool false
  else if ty = Int32Type then do
    let i32 ← BigEndianReader.ReadInt32
    return .Int32 i32
  else if ty = Int64Type then do
    let i64 ← BigEndianReader.ReadInt64
    return .Int64 i64
  else if ty = FloatType then do
    let i32 ← BigEndianReader.ReadInt32
    return .Float32 (uint32 i32)
  else if ty = DoubleType then do
    let i64 ← BigEndianReader.ReadInt64
    return .Float64 (uint64 i64)
  else if ty = StringType then do
    let s ← BigEndianReader.ReadString
    return .String s
  else if ty = VertexType then do
    let v ← readVertex
    return .Vertex v
  else if ty = VertexWithPropertiesType then do
    let v ← readVertexWithProperties (self false)
    return .Vertex v
  else if ty = SVertexType then do
    let v ← readSVertex
    return .Vertex v
  else if ty = SVertexWithPropertiesType then do
    let v ← readSVertexWithProperties (self false)
    return .Vertex v
  else if ty = PathType then do
    let lt ← baseReader.ReadInt8
    if CoreDataType.ofInt8 lt ≠ ListType then Dec.fail (.unsupportedPathLabels lt) else do
    let labelsLength ← BigEndianReader.ReadInt32
    skipElements (self useStruct) labelsLength.toNat
    let objlisttype ← baseReader.ReadInt8
    if CoreDataType.ofInt8 objlisttype ≠ ListType then
      Dec.fail (.unsupportedPathObjects objlisttype) else do
    let objectListLength ← BigEndianReader.ReadInt32
    if objectListLength < 0 then Dec.abort .makesliceOutOfRange else do
    let p ← decodeElements (self useStruct) objectListLength.toNat []
    if useStruct then return .PathStruct p
    else return .Path p
  else if ty = ForwardEdgeType then do
    let e ← readEdge .DirectionType_Forward
    return .Edge e
  else if ty = ReverseEdgeType then do
    let e ← readEdge .DirectionType_Reverse
    return .Edge e
  else if ty = DoubleEdgeType then do
    let e ← readEdge .DirectionType_Double
    return .Edge e
  else if ty = ForwardEdgeWithPropertiesType then do
    let e ← readEdgeWithProperties (self false) .DirectionType_Forward
    return .Edge e
  else if ty = ReverseEdgeWithPropertiesType then do
    let e ← readEdgeWithProperties (self false) .DirectionType_Reverse
    return .Edge e
  else if ty = DoubleEdgeWithPropertiesType then do
    let e ← readEdgeWithProperties (self false) .DirectionType_Double
    return .Edge e
  else if ty = ForwardSEdgeType then do
    let e ← readSEdge .DirectionType_Forward
    return .Edge e
  else if ty = ReverseSEdgeType then do
    let e ← readSEdge .DirectionType_Reverse
    return .Edge e
  else if ty = DoubleSEdgeType then do
    let e ← readSEdge .DirectionType_Double
    return .Edge e
  else if ty = ForwardSEdgeWithPropertiesType then do
    let e ← readSEdgeWithProperties (self false) .DirectionType_Forward
    return .Edge e
  else if ty = ReverseSEdgeWithPropertiesType then do
    let e ← readSEdgeWithProperties (self false) .DirectionType_Reverse
    return .Edge e
  else if ty = DoubleSEdgeWithPropertiesType then do
    let e ← readSEdgeWithProperties (self false) .DirectionType_Double
    return .Edge e
  else if ty = ListType then do
    let length ← BigEndianReader.ReadInt32
    if length = 0 then return .List [] else do
    let nextType ← baseReader.PeekInt8
    if CoreDataType.ofInt8 nextType = ColumnarBinType then do
      let r ← decodeColumnarBatches length.toNat []
      return .List r
    else do
    if length < 0 then Dec.abort .makesliceOutOfRange else do
    let r ← decodeElements (self useStruct) length.toNat []
    if useStruct then return .ListStruct r
    else return .List r
  else if ty = MapType then do
    let length ← BigEndianReader.ReadInt32
    let r ← decodeEntries (self useStruct) length.toNat []
    if useStruct then return .MapStruct r
    else return .Map r
  else if ty = LinkedMapType then do
    let length ← BigEndianReader.ReadInt32
    if length < 0 then Dec.abort .makesliceOutOfRange else do
    let (keys, elems) ← decodeLinkedEntries (self useStruct) length.toNat [] []
    return .LinkedMap elems keys
  else if ty = PropertyType then do
    let key ← BigEndianReader.ReadString
    let value ← decodeValue
    return .Property { Key := key, Value := value }
  else Dec.fail (.unknownCoreDataType ty)

/-- The body of `DecodeEx`: the tag byte is read and switched on. -/
def DecodeExBody (self : Bool → Dec Element) (useStruct : Bool) : Dec Element := do
  let i8 ← baseReader.ReadInt8
  let ty := CoreDataType.ofInt8 i8
  DecodeExSwitch self useStruct ty

/-- `DecodeEx` with a bound `fuel` on the depth of its recursion. -/
def DecodeExFuel : Nat → Bool → Dec Element
  | 0, _ => fun w => (.outOfFuel, w)
  | fuel + 1, useStruct => DecodeExBody (DecodeExFuel fuel) useStruct

/-- `structure.DecodeEx`: one element is read from `w`.  Every nested call of
`DecodeEx` comes after the tag byte of its parent has been read, so the depth
of the recursion is at most the number of unread bytes: the budget is one more
than that. -/
def DecodeEx (useStruct : Bool) : Dec Element := fun w =>
  DecodeExFuel (w.b.length - w.p + 1) useStruct w

/-- `structure.Decode` -/
def Decode : Dec Element := DecodeEx false

/-- The first result of a Go call with the results `(Element, error)`: an
element, the nil interface, or an interface value that holds a nil `*Vertex`
or a nil `*Edge` (such a value is not `== nil`). -/
inductive Ret
  | elem (e : Element)
  | nilInterface
  | nilVertex
  | nilEdge
  deriving Repr

/-- How a Go call with the results `(Element, error)` ends: it returns both
results (`err = none` is the nil error), or it panics. -/
inductive Results
  | returns (ret : Ret) (err : Option GoError)
  | panics (p : Panic)
  | outOfFuel
  deriving Repr

/-- The first result of `DecodeEx` when the case of the tag `ty` ends with an
error.  The cases `return readVertex(w)`, `return readVertexWithProperties(w)`,
`return readSVertex(w)`, `return readSVertexWithProperties(w)` pass on both
results of a helper of type `(*Vertex, error)`, which returns `nil, err`: the
nil `*Vertex` is converted to `Element`.  The twelve edge cases do the same
with a helper of type `(*Edge, error)`.  Every other case returns
`nil, err` itself. -/
def errRet (ty : CoreDataType) : Ret :=
  if ty = VertexType ∨ ty = VertexWithPropertiesType ∨ ty = SVertexType
      ∨ ty = SVertexWithPropertiesType then .nilVertex
  else if ty = ForwardEdgeType ∨ ty = ReverseEdgeType ∨ ty = DoubleEdgeType
      ∨ ty = ForwardEdgeWithPropertiesType ∨ ty = ReverseEdgeWithPropertiesType
      ∨ ty = DoubleEdgeWithPropertiesType ∨ ty = ForwardSEdgeType ∨ ty = ReverseSEdgeType
      ∨ ty = DoubleSEdgeType ∨ ty = ForwardSEdgeWithPropertiesType
      ∨ ty = ReverseSEdgeWithPropertiesType ∨ ty = DoubleSEdgeWithPropertiesType then .nilEdge
  else .nilInterface

/-- Both results of a call whose outcome is `o` and whose first result next to
an error is `r`. -/
def resultsOf (r : Ret) : Outcome Element → Results
  | .ok e => .returns (.elem e) none
  | .error err => .returns r (some err)
  | .panic p => .panics p
  | .outOfFuel => .outOfFuel

/-- `structure.DecodeEx` with both of its results: `return nil, err` when the
tag byte cannot be read, else what the case of the tag returns. -/
def DecodeEx.results (useStruct : Bool) (w : BigEndianReader) : Results :=
  match baseReader.ReadInt8 w with
  | (.ok i8, w1) =>
    resultsOf (errRet (CoreDataType.ofInt8 i8))
      (DecodeExSwitch (DecodeExFuel (w.b.length - w.p)) useStruct (CoreDataType.ofInt8 i8) w1).1
  | (.error e, _) => .returns .nilInterface (some e)
  | (.panic p, _) => .panics p
  | (.outOfFuel, _) => .outOfFuel

end Structure

namespace Client

open Protocol

/-! ## `client/client.go` -/

/-- `BinaryV1MagicNumber` -/
def BinaryV1MagicNumber : Int := 0x0101

/-- `BinaryV1CompressionMagicNumber` -/
def BinaryV1CompressionMagicNumber : Int := 0x0102

/-- The body of `client.DecodeEx`, before the deferred `recover`.
`snappyDecode` stands for `snappy.Decode(nil, ·)` of the external snappy
library: `none` when it returns an error. -/
def decodeBody (snappyDecode : Bytes → Option Bytes) (bts : Bytes) (useStruct : Bool) :
    Outcome Structure.Element :=
  let r : BigEndianReader := baseReader.Reset { p := 0, b := [], nocopy := false } bts false
  match BigEndianReader.ReadInt16 r with
  | (.ok magicNumber, r1) =>
    if magicNumber = BinaryV1MagicNumber then (Structure.DecodeEx useStruct r1).1
    else if magicNumber = BinaryV1CompressionMagicNumber then
      match r1.Bytes with
      | .ok rest =>
        match snappyDecode rest with
        | some unComprBytes =>
          (Structure.DecodeEx useStruct (baseReader.Reset r1 unComprBytes false)).1
        | none => .error (.gremlinError .SYSTEM_ERROR)
      | .error e => .error e
      | .panic p => .panic p
      | .outOfFuel => .outOfFuel
    else .error (.gremlinError .SYSTEM_ERROR)
  | (.error e, _) => .error e
  | (.panic p, _) => .panic p
  | (.outOfFuel, _) => .outOfFuel

/-- `client.DecodeEx`: the deferred function turns every panic of the body into
`ret, err = nil, gerrors.New(gerrors.ErrorCode_SYSTEM_ERROR, ...)`. -/
def DecodeEx (snappyDecode : Bytes → Option Bytes) (bts : Bytes) (useStruct : Bool) :
    Outcome Structure.Element :=
  match decodeBody snappyDecode bts useStruct with
  | .panic _ => .error (.gremlinError .SYSTEM_ERROR)
  | o => o

/-- The body of `client.DecodeEx` with both of its results: `return nil, err`
or `return nil, gerrors.New(...)` on its own errors, and
`return structure.DecodeEx(&r, useStruct)` with both results of that call. -/
def decodeBodyResults (snappyDecode : Bytes → Option Bytes) (bts : Bytes) (useStruct : Bool) :
    Structure.Results :=
  let r : BigEndianReader := baseReader.Reset { p := 0, b := [], nocopy := false } bts false
  match BigEndianReader.ReadInt16 r with
  | (.ok magicNumber, r1) =>
    if magicNumber = BinaryV1MagicNumber then Structure.DecodeEx.results useStruct r1
    else if magicNumber = BinaryV1CompressionMagicNumber then
      match r1.Bytes with
      | .ok rest =>
        match snappyDecode rest with
        | some unComprBytes =>
          Structure.DecodeEx.results useStruct (baseReader.Reset r1 unComprBytes false)
        | none => .returns .nilInterface (some (.gremlinError .SYSTEM_ERROR))
      | .error e => .returns .nilInterface (some e)
      | .panic p => .panics p
      | .outOfFuel => .outOfFuel
    else .returns .nilInterface (some (.gremlinError .SYSTEM_ERROR))
  | (.error e, _) => .returns .nilInterface (some e)
  | (.panic p, _) => .panics p
  | (.outOfFuel, _) => .outOfFuel

/-- `client.DecodeEx` with both of its results: after a panic of the body the
deferred function sets `ret, err = nil, gerrors.New(ErrorCode_SYSTEM_ERROR, ...)`. -/
def DecodeExResults (snappyDecode : Bytes → Option Bytes) (bts : Bytes) (useStruct : Bool) :
    Structure.Results :=
  match decodeBodyResults snappyDecode bts useStruct with
  | .panics _ => .returns .nilInterface (some (.gremlinError .SYSTEM_ERROR))
  | o => o

end Client

/-! # The vocabulary of the theorems

The predicates and byte functions the statements below are written with:
what the writer appends for a value, what it means for a computation to read
a byte sequence back, and the classes of values and tags the theorems range
over. -/

namespace Protocol

/-- The reader `r` with its cursor moved `n` bytes on. -/
def baseReader.adv (r : baseReader) (n : Nat) : baseReader := { r with p := r.p + n }

/-- The cursor of `r` is inside its buffer and the unread bytes are `suf`. -/
def baseReader.At (r : baseReader) (suf : VeGraph.Bytes) : Prop :=
  r.p ≤ r.b.length ∧ r.b.drop r.p = suf

/-- The two bytes `WriteInt16` appends. -/
def be16 (v : Int) : VeGraph.Bytes := BigEndianWriter.WriteInt16 [] v

/-- The four bytes `WriteInt32` appends. -/
def be32 (v : Int) : VeGraph.Bytes := BigEndianWriter.WriteInt32 [] v

/-- The eight bytes `WriteInt64` appends. -/
def be64 (v : Int) : VeGraph.Bytes := BigEndianWriter.WriteInt64 [] v

/-- The four bytes `WriteFloat` appends. -/
def bits32 (f : Nat) : VeGraph.Bytes := BigEndianWriter.WriteFloat [] f

/-- The eight bytes `WriteDouble` appends. -/
def bits64 (f : Nat) : VeGraph.Bytes := BigEndianWriter.WriteDouble [] f

/-- The bytes `WriteString` / `WriteBytes` append: the length, then the contents. -/
def beStr (s : VeGraph.Bytes) : VeGraph.Bytes := be32 (int32 s.length) ++ s

end Protocol

namespace Structure

open Protocol

/-- The value is a value of its Go type: the integers are in the range of
`int32` / `int64`, the bit patterns are those of a `float32` / `float64`. -/
def PropertyValue.valid : PropertyValue → Prop
  | .bool _ => True
  | .int32 v => isInt32 v
  | .int64 v => isInt64 v
  | .float32 f => f < 2 ^ 32
  | .float64 f => f < 2 ^ 64
  | .string _ => True

/-- A string value has a length that fits the signed 32-bit length field. -/
def PropertyValue.fits : PropertyValue → Prop
  | .string s => s.length < 2 ^ 31
  | _ => True

/-- The property holds a value of one of the six Go types and its key and
string value fit the signed 32-bit length field. -/
def Property.wire (p : Property) : Prop :=
  p.Key.length < 2 ^ 31 ∧ p.Value.valid ∧ p.Value.fits

/-- What `Property.EncodeTo` appends for the value. -/
def encValue : PropertyValue → Bytes
  | .bool true => [byte 1]
  | .bool false => [byte 2]
  | .int32 v => byte 3 :: be32 v
  | .int64 v => byte 4 :: be64 v
  | .float32 f => byte 5 :: bits32 f
  | .float64 f => byte 6 :: bits64 f
  | .string s => byte 7 :: beStr s

/-- What `Property.EncodeTo` appends. -/
def encProperty (p : Property) : Bytes := byte 15 :: (beStr p.Key ++ encValue p.Value)

/-- What the property loop of `Vertex.EncodeTo` / `Edge.EncodeTo` appends. -/
def encProperties : List Property → Bytes
  | [] => []
  | p :: ps => encProperty p ++ encProperties ps

/-- Wherever the unread bytes start with `xs`, the computation `x` returns `a`
and leaves the cursor right behind `xs`. -/
def Reads {α : Type} (x : Dec α) (xs : Bytes) (a : α) : Prop :=
  ∀ (r : baseReader) (rest : Bytes), r.At (xs ++ rest) →
    x r = (.ok a, r.adv xs.length) ∧ (r.adv xs.length).At rest

/-- The vertex round-trips: it is in int64-id form with the string fields empty
or in string-id form with the integer fields zero, its integers are values of
their Go types, its strings fit the 32-bit length field, its properties fit the
count field of its form (32 bits signed, 16 bits signed) and each of them
round-trips. -/
def Vertex.wire (v : Vertex) : Prop :=
  ((v.VType = IdTypeInt64Int32 ∧ v.SId = [] ∧ v.SType = [] ∧ isInt64 v.Id ∧ isInt32 v.Type_
      ∧ v.Properties.length < 2 ^ 31)
    ∨ (v.VType = IdTypeStringString ∧ v.Id = 0 ∧ v.Type_ = 0 ∧ v.SId.length < 2 ^ 31
      ∧ v.SType.length < 2 ^ 31 ∧ v.Properties.length < 2 ^ 15))
  ∧ ∀ p ∈ v.Properties, p.wire

/-- The endpoint of an edge that round-trips: only the identity fields of its
form are set. -/
def Vertex.endpoint (v : Vertex) : Prop :=
  v.Properties = [] ∧
  ((v.VType = IdTypeInt64Int32 ∧ v.SId = [] ∧ v.SType = [] ∧ isInt64 v.Id ∧ isInt32 v.Type_)
    ∨ (v.VType = IdTypeStringString ∧ v.Id = 0 ∧ v.Type_ = 0 ∧ v.SId.length < 2 ^ 31
      ∧ v.SType.length < 2 ^ 31))

/-- The edge round-trips: its endpoints are in the same form and carry only
their identity, its label fits the 32-bit length field, its properties fit the
count field of its form and each of them round-trips. -/
def Edge.wire (e : Edge) : Prop :=
  e.OutV.endpoint ∧ e.InV.endpoint ∧ e.OutV.VType = e.InV.VType ∧ e.Type_.length < 2 ^ 31
  ∧ (e.OutV.VType = IdTypeInt64Int32 → e.Properties.length < 2 ^ 31)
  ∧ (e.OutV.VType = IdTypeStringString → e.Properties.length < 2 ^ 15)
  ∧ ∀ p ∈ e.Properties, p.wire

/-- What `Vertex.EncodeTo` appends (for the two forms it knows). -/
def encVertex (v : Vertex) : Bytes :=
  if v.VType = IdTypeInt64Int32 then
    if v.Properties.length = 0 then byte 8 :: (be64 v.Id ++ be32 v.Type_)
    else byte 16 :: (be64 v.Id ++ (be32 v.Type_ ++ (be32 (int32 v.Properties.length)
      ++ encProperties v.Properties)))
  else
    if v.Properties.length = 0 then byte 24 :: (beStr v.SId ++ beStr v.SType)
    else byte 25 :: (beStr v.SId ++ (beStr v.SType ++ (be16 (int16 v.Properties.length)
      ++ encProperties v.Properties)))

/-- What `Edge.EncodeTo` appends (for the two forms it knows). -/
def encEdge (e : Edge) : Bytes :=
  if e.OutV.VType = IdTypeInt64Int32 then
    if e.Properties.length = 0 then
      byte 10 :: (beStr e.Type_ ++ (be64 e.OutV.Id ++ (be32 e.OutV.Type_
        ++ (be64 e.InV.Id ++ be32 e.InV.Type_))))
    else
      byte 17 :: (beStr e.Type_ ++ (be64 e.OutV.Id ++ (be32 e.OutV.Type_
        ++ (be64 e.InV.Id ++ (be32 e.InV.Type_ ++ (be32 (int32 e.Properties.length)
        ++ encProperties e.Properties))))))
  else
    if e.Properties.length = 0 then
      byte 26 :: (beStr e.Type_ ++ (beStr e.OutV.SId ++ (beStr e.OutV.SType
        ++ (beStr e.InV.SId ++ beStr e.InV.SType))))
    else
      byte 29 :: (beStr e.Type_ ++ (beStr e.OutV.SId ++ (beStr e.OutV.SType
        ++ (beStr e.InV.SId ++ (beStr e.InV.SType ++ (be16 (int16 e.Properties.length)
        ++ encProperties e.Properties))))))

/-- The recursive calls of the decoder read back every property that round-trips. -/
def ReadsProperties (self : Bool → Dec Element) : Prop :=
  ∀ (us : Bool) (p : Property), p.wire → Reads (self us) (encProperty p) (.Property p)

/-- The edge as `readEdge` / `readSEdge` return it for direction `d`: the
endpoints change places for `DirectionType_Reverse`, and only for it. -/
def directed (d : DirectionType) (e : Edge) : Edge :=
  if d = .DirectionType_Reverse then { e with InV := e.OutV, OutV := e.InV } else e

/-- The tag of an edge on the wire: by id form (`sform`: string ids), by
presence of a property list, and by direction. -/
def edgeTag (sform withProps : Bool) (d : DirectionType) : CoreDataType :=
  match sform, withProps, d with
  | false, false, .DirectionType_Forward => ForwardEdgeType
  | false, false, .DirectionType_Reverse => ReverseEdgeType
  | false, false, .DirectionType_Double => DoubleEdgeType
  | false, true, .DirectionType_Forward => ForwardEdgeWithPropertiesType
  | false, true, .DirectionType_Reverse => ReverseEdgeWithPropertiesType
  | false, true, .DirectionType_Double => DoubleEdgeWithPropertiesType
  | true, false, .DirectionType_Forward => ForwardSEdgeType
  | true, false, .DirectionType_Reverse => ReverseSEdgeType
  | true, false, .DirectionType_Double => DoubleSEdgeType
  | true, true, .DirectionType_Forward => ForwardSEdgeWithPropertiesType
  | true, true, .DirectionType_Reverse => ReverseSEdgeWithPropertiesType
  | true, true, .DirectionType_Double => DoubleSEdgeWithPropertiesType

/-- The payload of an edge on the wire, after the tag: the label, the first
endpoint, the second endpoint and, under a with-properties tag, the property
count and the properties. -/
def edgePayload (sform withProps : Bool) (label : Bytes) (a b : Vertex) (ps : List Property) :
    Bytes :=
  beStr label ++
    ((if sform then beStr a.SId ++ (beStr a.SType ++ (beStr b.SId ++ beStr b.SType))
      else be64 a.Id ++ (be32 a.Type_ ++ (be64 b.Id ++ be32 b.Type_)))
    ++ (if withProps then
          (if sform then be16 (int16 ps.length) else be32 (int32 ps.length)) ++ encProperties ps
        else []))

/-- Wherever the unread bytes start with `xs`, the computation `x` ends with
the outcome `o` (an error or a panic). -/
def Ends {α : Type} (x : Dec α) (xs : Bytes) (o : Outcome α) : Prop :=
  ∀ (r : baseReader) (rest : Bytes), r.At (xs ++ rest) → (x r).1 = o

/-- The failure `o` seen at another result type. -/
def castOutcome {α β : Type} : Outcome α → Outcome β
  | .ok _ => .outOfFuel
  | .error e => .error e
  | .panic p => .panic p
  | .outOfFuel => .outOfFuel

/-- The scalar elements of the round-trip tests: a `Bool`, an `Int32`, an
`Int64`, or a `String` shorter than 2^31 bytes. -/
def scalarFits : Element → Prop
  | .Bool _ => True
  | .Int32 v => isInt32 v
  | .Int64 v => isInt64 v
  | .String s => s.length < 2 ^ 31
  | _ => False

end Structure

/-- The result is a result of the Go code: a value, an error or a panic, not the
used-up recursion budget of this embedding. -/
def NoFuel {α : Type} (o : Outcome α) : Prop := o ≠ .outOfFuel

namespace Protocol

/-- On every reader with at most `j` unread bytes the computation `x` ends
without using up the recursion budget, and after a value the reader has the
same buffer, with its cursor moved forward inside it. -/
def Tot {α : Type} (j : Nat) (x : Dec α) : Prop :=
  ∀ r : baseReader, r.p ≤ r.b.length → r.b.length - r.p ≤ j →
    (x r).1 ≠ .outOfFuel ∧
    ∀ a r', x r = (.ok a, r') → r'.b = r.b ∧ r'.nocopy = r.nocopy ∧ r.p ≤ r'.p ∧ r'.p ≤ r.b.length

/-- On every reader whose cursor is inside its buffer the computation `x` does
not panic, and after a value the cursor is inside the buffer again. -/
def Quiet {α : Type} (x : Dec α) : Prop :=
  ∀ r : baseReader, r.p ≤ r.b.length →
    (∀ p, (x r).1 ≠ .panic p) ∧ ∀ a r', x r = (.ok a, r') → r'.p ≤ r'.b.length

end Protocol

namespace Structure

open Protocol

/-- The tags whose case of the `switch` calls `DecodeEx` again or allocates a
slice or a map: the vertices and edges with properties and the containers. -/
def nestingTag (ty : CoreDataType) : Prop :=
  ty = VertexWithPropertiesType ∨ ty = SVertexWithPropertiesType ∨ ty = PathType
    ∨ ty = ForwardEdgeWithPropertiesType ∨ ty = ReverseEdgeWithPropertiesType
    ∨ ty = DoubleEdgeWithPropertiesType ∨ ty = ForwardSEdgeWithPropertiesType
    ∨ ty = ReverseSEdgeWithPropertiesType ∨ ty = DoubleSEdgeWithPropertiesType
    ∨ ty = ListType ∨ ty = MapType ∨ ty = LinkedMapType

/-- The tags whose case of the `switch` reads a fixed shape: the scalars, the
vertices and edges without properties, and the property. -/
def flatTag (ty : CoreDataType) : Prop :=
  ty = TrueType ∨ ty = FalseType ∨ ty = Int32Type ∨ ty = Int64Type ∨ ty = FloatType
    ∨ ty = DoubleType ∨ ty = StringType ∨ ty = VertexType ∨ ty = SVertexType
    ∨ ty = ForwardEdgeType ∨ ty = ReverseEdgeType ∨ ty = DoubleEdgeType
    ∨ ty = ForwardSEdgeType ∨ ty = ReverseSEdgeType ∨ ty = DoubleSEdgeType
    ∨ ty = PropertyType

/-- The target shapes `decodeColumnarBinType` has a case for. -/
def columnarShape (ty : CoreDataType) : Prop :=
  (ty = ForwardEdgeType ∨ ty = DoubleEdgeType ∨ ty = ForwardEdgeWithPropertiesType
      ∨ ty = DoubleEdgeWithPropertiesType)
    ∨ (ty = ReverseEdgeType ∨ ty = ReverseEdgeWithPropertiesType)
    ∨ (ty = VertexType ∨ ty = VertexWithPropertiesType)
    ∨ ty = PropertyType ∨ ty = ValueType

instance (ty : CoreDataType) : Decidable (nestingTag ty) := by unfold nestingTag; infer_instance

instance (ty : CoreDataType) : Decidable (flatTag ty) := by unfold flatTag; infer_instance

instance (ty : CoreDataType) : Decidable (columnarShape ty) := by
  unfold columnarShape; infer_instance

/-- The bytes `EncodeTo` writes for `e` into an empty writer (none when it
does not return). -/
def encOf (e : Element) : Bytes :=
  match EncodeTo e [] with
  | .ok b => b
  | _ => []

/-- The element round-trips on its own: `EncodeTo` appends its bytes to every
writer, and wherever these bytes stand in a buffer, `Decode` (with a budget
above their number, as `DecodeEx` takes it) returns the element and stops right
behind them. -/
def RoundTrips (e : Element) : Prop :=
  (∀ w : BigEndianWriter, EncodeTo e w = .ok (w ++ encOf e)) ∧
  ∀ k, (encOf e).length < k → Reads (DecodeExFuel k false) (encOf e) e

/-- The scalars, properties, vertices and edges that round-trip: values of
their Go types whose strings and counts fit the length fields of the format. -/
def baseWire : Element → Prop
  | .Bool _ => True
  | .Int32 v => isInt32 v
  | .Int64 v => isInt64 v
  | .Float32 f => f < 2 ^ 32
  | .Float64 f => f < 2 ^ 64
  | .String s => s.length < 2 ^ 31
  | .Property p => p.wire
  | .Vertex v => v.wire
  | .Edge e => e.wire
  | _ => False

/-- The concatenation of what `EncodeTo` writes for the members. -/
def encAll : List Element → Bytes
  | [] => []
  | m :: rest => encOf m ++ encAll rest

end Structure

namespace Structure

open Protocol

/-- The keys Go compares by value: the six scalar kinds, within the range of
their Go types and of the length field. -/
def scalarKey : Element → Prop
  | .Bool _ => True
  | .Int32 v => isInt32 v
  | .Int64 v => isInt64 v
  | .Float32 f => f < 2 ^ 32
  | .Float64 f => f < 2 ^ 64
  | .String s => s.length < 2 ^ 31
  | _ => False

/-- Go `r[kv.1] = kv.2` on a map kept as its list of entries, for a key Go
compares by value: an entry with an equal key is replaced, or else the entry
is added. -/
def putEntry (r : List (Element × Element)) (kv : Element × Element) :
    List (Element × Element) :=
  if r.any (fun e => keyEq e.1 kv.1) then r.map (fun e => if keyEq e.1 kv.1 then kv else e)
  else r ++ [kv]

/-- The map the decoder builds from the entries on the wire, in wire order. -/
def wireMap (pairs : List (Element × Element)) : List (Element × Element) :=
  pairs.foldl putEntry []

/-- The concatenation of what `EncodeTo` writes for the keys and values. -/
def encPairsOf : List (Element × Element) → Bytes
  | [] => []
  | kv :: rest => encOf kv.1 ++ (encOf kv.2 ++ encPairsOf rest)

/-- No two entries of the list have equal keys (Go `==`). -/
def DistinctKeys (l : List (Element × Element)) : Prop :=
  l.Pairwise (fun a b => keyEq a.1 b.1 = false)

/-- The entry `e` stands in `pairs` and no later entry of `pairs` has a key equal
to its key: `e` is the last occurrence of its key. -/
def LastOf (pairs : List (Element × Element)) (e : Element × Element) : Prop :=
  ∃ pre post, pairs = pre ++ e :: post ∧ ∀ q ∈ post, keyEq q.1 e.1 = false

end Structure

namespace Columnar

open Protocol Structure

/-- What `decode` does behind a valid magic number and version: the rest of
its body, from the row count on. -/
def decodeRows (table : Table) : Dec Table := do
  let tmpRowCount ← LittleEndianReader.ReadInt32
  let rowCount := tmpRowCount
  if rowCount = 0 then return table else do
  if rowCount < 0 then Dec.fail .errUnexpectRowCount else do
  let fieldLen ← LittleEndianReader.ReadInt32
  if fieldLen ≤ 0 then Dec.fail .errUnexpectFieldLen else do
  let originLen := table.Schema.fields.len
  let table1 := ResizeInlinableColumns table (fieldLen.toNat + originLen)
  let table2 ← decodeFields fieldLen.toNat table1
  let schemaMetaLen ← LittleEndianReader.ReadInt32
  if schemaMetaLen ≠ 0 then Dec.fail .errUnsupportedParseMeta else do
  let cur ← Dec.cursor
  let _ ← baseReader.Next (Util.RoundUp8 cur - cur)
  decodeColumns rowCount.toNat fieldLen.toNat originLen table2

/-- The fields of a schema, in order: the first `len` of the inline array
followed by the overflow slice. -/
def fieldsOf (mf : InlinableFields) : List Field :=
  (mf.array ++ mf.slice).take mf.len

/-- The shape `Append` keeps: twelve inline fields, and the overflow slice holds
the fields from the thirteenth on. -/
def FieldsWF (mf : InlinableFields) : Prop :=
  mf.array.length = 12 ∧ mf.slice.length = mf.len - 12

/-- The columns of a table, in order. -/
def columnsOf (ic : InlinableColumns) : List Column :=
  (ic.array ++ ic.slice).take ic.len

/-- The shape `ResizeInlinableColumns` makes: twelve inline columns, and the
overflow slice holds the columns from the thirteenth on. -/
def ColumnsWF (ic : InlinableColumns) : Prop :=
  ic.array.length = 12 ∧ ic.slice.length = ic.len - 12

/-- The four bytes of an `int32`, little-endian. -/
def le32 (v : Int) : Bytes :=
  [byte (uint32 v), byte (uint32 v / 2 ^ 8), byte (uint32 v / 2 ^ 16), byte (uint32 v / 2 ^ 24)]

/-- One column of a batch as it stands on the wire: the name and type of its
field, its null bitmap, its offset table (with padding; empty for a fixed-size
type) and its data region (with padding). -/
structure ColumnWire where
  name : Bytes
  type : Int
  bitmap : Bytes
  offsets : Bytes
  cells : Bytes
  deriving DecidableEq, Repr

/-- The field of a column of the wire. -/
def ColumnWire.field (c : ColumnWire) : Field := { Name := c.name, Type_ := c.type, Metas := [] }

/-- The regions of a column have the sizes `decode` reads for `n` rows. -/
def ColumnWire.WF (n : Nat) (c : ColumnWire) : Prop :=
  isInt32 c.type ∧ c.name.length < 2 ^ 31
  ∧ (c.bitmap.length : Int) = Util.RoundUp8 (((n + 7) / 8 : Nat) : Int)
  ∧ match valueSize c.type with
    | some slotSize =>
      c.offsets = [] ∧ (c.cells.length : Int) = Util.RoundUp8 ((slotSize : Int) * n)
    | none =>
      (c.offsets.length : Int) = Util.RoundUp8 (((n : Int) + 1) * 4)
      ∧ (c.cells.length : Int) = Util.RoundUp8 ((offsetsOf c.offsets (n + 1)).getD n 0)

/-- The column `decode` fills from a column of the wire. -/
def ColumnWire.column (n : Nat) (c : ColumnWire) : Column :=
  match valueSize c.type with
  | some slotSize =>
    { length := n, nullBitmap := { bytes := c.bitmap, length := n }, offsets := [],
      data := c.cells.take (slotSize * n), padding := c.cells.drop (slotSize * n),
      slotSize := slotSize }
  | none =>
    { length := n, nullBitmap := { bytes := c.bitmap, length := n },
      offsets := offsetsOf c.offsets (n + 1), data := c.cells, padding := [], slotSize := 0 }

/-- The entry of a field in the schema: type, name, and no metadata. -/
def fieldBytes (c : ColumnWire) : Bytes :=
  le32 c.type ++ (le32 c.name.length ++ c.name ++ le32 0)

/-- The entries of the fields of a schema. -/
def schemaBytes : List ColumnWire → Bytes
  | [] => []
  | c :: cs => fieldBytes c ++ schemaBytes cs

/-- The regions of a column: null bitmap, offset table, data. -/
def columnBytes (c : ColumnWire) : Bytes := c.bitmap ++ (c.offsets ++ c.cells)

/-- The regions of the columns of a batch. -/
def dataBytes : List ColumnWire → Bytes
  | [] => []
  | c :: cs => columnBytes c ++ dataBytes cs

/-- A batch of `n` rows: magic number, version, row count, field count, schema,
no schema metadata, the alignment bytes `pad`, and the columns. -/
def batchBytes (n : Nat) (cs : List ColumnWire) (pad : Bytes) : Bytes :=
  [65, 70, 1, 0] ++ (le32 n ++ (le32 cs.length ++ (schemaBytes cs ++ (le32 0
    ++ (pad ++ dataBytes cs)))))

/-- `decode` with one more field in the schema. -/
def addField (table : Table) (f : Field) : Table :=
  { table with Schema := { table.Schema with fields := table.Schema.fields.Append f } }

/-- The table `decode` fills from a batch: the fields and the columns of the
wire, in order. -/
def IsTableOf (n : Nat) (cs : List ColumnWire) (tb : Table) : Prop :=
  FieldsWF tb.Schema.fields ∧ ColumnsWF tb.Columns
  ∧ fieldsOf tb.Schema.fields = cs.map ColumnWire.field
  ∧ columnsOf tb.Columns = cs.map (ColumnWire.column n)
  ∧ tb.Schema.fields.len = cs.length ∧ tb.Columns.len = cs.length

/-- The conditions on a batch of `n` rows with the columns `cs`: counts that fit
an `int32` and are positive, field names that differ, regions of the sizes the
decoder reads, and alignment bytes up to the next multiple of 8. -/
def BatchWF (n : Nat) (cs : List ColumnWire) (pad : Bytes) : Prop :=
  0 < n ∧ n < 2 ^ 31 ∧ 0 < cs.length ∧ cs.length < 2 ^ 31
  ∧ (cs.map (fun c => c.name)).Nodup ∧ (∀ c ∈ cs, c.WF n)
  ∧ (pad.length : Int) = Util.RoundUp8 (16 + (schemaBytes cs).length)
      - (16 + (schemaBytes cs).length)

end Columnar

namespace Structure

open Protocol Columnar

/-- The loop over the fields of a schema, on the list of the fields still to
visit, the first of them at index `k`. -/
def fieldsFold {α : Type} (body : Nat → Field → α → Outcome α) : Nat → List Field → α → Outcome α
  | _, [], acc => .ok acc
  | k, f :: rest, acc => body k f acc >>= fieldsFold body (k + 1) rest

/-- What one turn of the loop over the rows does: a row that is not null and
whose value the getter returns is added. -/
def cellStep {α β : Type} (pCol : Column) (get : Column → Nat → Outcome β)
    (add : α → Nat → β → α) (acc : α) (i : Nat) : α :=
  match pCol.IsNull i, get pCol i with
  | .ok false, .ok x => add acc i x
  | _, _ => acc

/-- The value of row `i`, unless the row is null. -/
def cellAt {β : Type} (pCol : Column) (get : Column → Nat → Outcome β) (i : Nat) : Option β :=
  match pCol.IsNull i, get pCol i with
  | .ok false, .ok x => some x
  | _, _ => none

end Structure

namespace Columnar

/-- Whether the bit of row `i` is set in the null bitmap of the column: the row
holds a value. -/
def ColumnWire.isSet (c : ColumnWire) (i : Nat) : Bool :=
  (c.bitmap.getD (i / 8) 0).toNat.testBit (i % 8)

end Columnar

namespace Structure

open Protocol Columnar

/-- The scalar elements of a column of `n` rows: none for the columns named
`id` and `type`, else the values of the rows that are not null, in row order. -/
def valuesOf (n : Nat) (c : ColumnWire) : List Element :=
  if c.name = VtxIdKey ∨ c.name = VtxTypeKey then []
  else
    match scalarGetter c.type with
    | some get => (List.range n).filterMap (cellAt (c.column n) get)
    | none => []

end Structure

namespace Columnar

open Protocol

/-- The `int64` of row `i` in the data region of a column. -/
def ColumnWire.int64At (c : ColumnWire) (i : Nat) : Int :=
  int64 (littleEndianUint64 ((c.cells.drop (8 * i)).take 8))

/-- The `int32` of row `i` in the data region of a column. -/
def ColumnWire.int32At (c : ColumnWire) (i : Nat) : Int :=
  int32 (littleEndianUint32 ((c.cells.drop (4 * i)).take 4))

end Columnar

namespace Structure

open Protocol Columnar

/-- The property a column contributes to row `i`: none when the row is null. -/
def propertyAt (n : Nat) (c : ColumnWire) (i : Nat) : Option Property :=
  match propertyGetter c.type with
  | some get => (cellAt (c.column n) get i).map (fun v => { Key := c.name, Value := v })
  | none => none

/-- The properties of row `i`: one for each column, in schema order, that is
not an identity column (`skip`) and whose row `i` is not null. -/
def propertiesAt (skip : Bytes → Bool) (n : Nat) (cs : List ColumnWire) (i : Nat) :
    List Property :=
  (cs.filter (fun c => !skip c.name)).filterMap (fun c => propertyAt n c i)

end Structure

namespace Structure

open Protocol

/-- What `sortString` returns, or the empty string. -/
def sortStringOr (str : Element → Outcome Bytes) (m : Element) : Bytes :=
  match sortString str m with
  | .ok s => s
  | _ => []

end Structure

namespace Columnar
open Protocol

/-- Entry `k` of the offset table of a column on the wire: the little-endian
`int32` at its bytes `[4k, 4k+4)`. -/
def ColumnWire.offsetAt (c : ColumnWire) (k : Nat) : Int :=
  int32 (littleEndianUint32 ((c.offsets.drop (4 * k)).take 4))

/-- The string of row `i` on the wire: the bytes of the payload from offset
`i` up to offset `i + 1`. -/
def ColumnWire.stringAt (c : ColumnWire) (i : Nat) : Bytes :=
  (c.cells.drop (c.offsetAt i).toNat).take ((c.offsetAt (i + 1)).toNat - (c.offsetAt i).toNat)

/-- The `float32` of row `i` in the data region of a column, as its bits. -/
def ColumnWire.float32At (c : ColumnWire) (i : Nat) : Nat :=
  littleEndianUint32 ((c.cells.drop (4 * i)).take 4)

/-- The `float64` of row `i` in the data region of a column, as its bits. -/
def ColumnWire.float64At (c : ColumnWire) (i : Nat) : Nat :=
  littleEndianUint64 ((c.cells.drop (8 * i)).take 8)

/-- The `bool` of row `i` in the data region of a column: the byte 1 is
`true`, the byte 0 is `false`. -/
def ColumnWire.boolAt (c : ColumnWire) (i : Nat) : Bool :=
  decide (c.cells.getD i 0 = 1)

/-- The column has one of the six value types and the cells of its rows that
are not null are values of that type: a bool cell is the byte 0 or 1, and the
two offsets of a string cell lie in order inside the payload. -/
def ColumnWire.CellsOk (n : Nat) (c : ColumnWire) : Prop :=
  1 ≤ c.type ∧ c.type ≤ 6
  ∧ (c.type = ValueType_BOOL → ∀ i, i < n → c.isSet i = true →
      c.cells.getD i 0 = 0 ∨ c.cells.getD i 0 = 1)
  ∧ (c.type = ValueType_STRING → ∀ i, i < n → c.isSet i = true →
      0 ≤ c.offsetAt i ∧ c.offsetAt i ≤ c.offsetAt (i + 1)
        ∧ c.offsetAt (i + 1) ≤ (c.cells.length : Int))

end Columnar

namespace Structure
open Protocol Columnar

/-- The value of row `i` of a column on the wire, by the type of the column. -/
def wireValue (c : ColumnWire) (i : Nat) : Option PropertyValue :=
  if c.type = ValueType_BOOL then some (.bool (c.boolAt i))
  else if c.type = ValueType_INT32 then some (.int32 (c.int32At i))
  else if c.type = ValueType_INT64 then some (.int64 (c.int64At i))
  else if c.type = ValueType_FLOAT then some (.float32 (c.float32At i))
  else if c.type = ValueType_DOUBLE then some (.float64 (c.float64At i))
  else if c.type = ValueType_STRING then some (.string (c.stringAt i))
  else none

/-- The scalar element of row `i` of a column on the wire, by the type of the
column. -/
def wireScalar (c : ColumnWire) (i : Nat) : Option Element :=
  if c.type = ValueType_BOOL then some (.Bool (c.boolAt i))
  else if c.type = ValueType_INT32 then some (.Int32 (c.int32At i))
  else if c.type = ValueType_INT64 then some (.Int64 (c.int64At i))
  else if c.type = ValueType_FLOAT then some (.Float32 (c.float32At i))
  else if c.type = ValueType_DOUBLE then some (.Float64 (c.float64At i))
  else if c.type = ValueType_STRING then some (.String (c.stringAt i))
  else none

/-- The property a column of the wire gives row `i`: `Property(name, value at
row i)` when the bit of the row is set in the null bitmap. -/
def wireProperty (c : ColumnWire) (i : Nat) : Option Property :=
  if c.isSet i then (wireValue c i).map (fun v => { Key := c.name, Value := v }) else none

/-- The properties of row `i` on the wire: one for each column, in schema
order, that is not an identity column (`skip`) and whose row `i` is not null. -/
def wireProperties (skip : Bytes → Bool) (cs : List ColumnWire) (i : Nat) : List Property :=
  (cs.filter (fun c => !skip c.name)).filterMap (fun c => wireProperty c i)

/-- The scalar elements a column of `n` rows gives on the wire: none for a
column named `id` or `type`, else the element of every row that is not null,
in increasing row order. -/
def wireValues (n : Nat) (c : ColumnWire) : List Element :=
  if c.name = VtxIdKey ∨ c.name = VtxTypeKey then []
  else (List.range n).filterMap (fun i => if c.isSet i then wireScalar c i else none)

end Structure

namespace Structure

open Protocol

/-- The keys the decoder can store in a map: the scalars, which Go compares by
value, and the properties, vertices and edges, which it holds through a pointer
and compares by address; each within the range of its Go types and of the
length fields. -/
def wireKey (k : Element) : Prop := baseWire k

/-- The entries of the wire with the addresses the decoder gives their keys:
the key of entry `i` stands with the address `k + i`. -/
def locate : Nat → List (Element × Element) → List ((Nat × Element) × Element)
  | _, [] => []
  | k, kv :: rest => ((k, kv.1), kv.2) :: locate (k + 1) rest

/-- Go `lm.Elems[kv.1] = kv.2` on the map of a `LinkedMap` kept as its list of
entries: an entry with an equal key is replaced, or else the entry is added. -/
def putLinked (r : List ((Nat × Element) × Element)) (kv : (Nat × Element) × Element) :
    List ((Nat × Element) × Element) :=
  if r.any (fun e => locEq e.1 kv.1) then r.map (fun e => if locEq e.1 kv.1 then kv else e)
  else r ++ [kv]

/-- The map the `LinkedMap` case of the decoder builds from the entries on the
wire, in wire order. -/
def linkedWire (pairs : List (Element × Element)) : List ((Nat × Element) × Element) :=
  (locate 0 pairs).foldl putLinked []

/-- The `Keys` the `LinkedMap` case of the decoder builds from the entries on
the wire. -/
def linkedKeys (pairs : List (Element × Element)) : List (Nat × Element) :=
  (locate 0 pairs).map Prod.fst

/-- No two entries of the list have equal keys (Go `==`, pointers by address). -/
def DistinctLinked (l : List ((Nat × Element) × Element)) : Prop :=
  l.Pairwise (fun a b => locEq a.1 b.1 = false)

/-- The entry `e` stands in `l` and no later entry of `l` has a key equal to its
key: `e` is the last occurrence of its key. -/
def LastLinked (l : List ((Nat × Element) × Element)) (e : (Nat × Element) × Element) : Prop :=
  ∃ pre post, l = pre ++ e :: post ∧ ∀ q ∈ post, locEq q.1 e.1 = false

/-- The keys of the wire that are not pointers, in wire order. -/
def valueKeys (pairs : List (Element × Element)) : List Element :=
  (pairs.map Prod.fst).filter (fun k => pointerKind k == 0)

/-- The entries without the addresses of their keys. -/
def unlocate (l : List ((Nat × Element) × Element)) : List (Element × Element) :=
  l.map (fun e => (e.1.2, e.2))

end Structure

/-! # Theorems

## Bytes and machine integers -/

theorem byte_toNat (n : Nat) : (byte n).toNat = n % 256 := by
  simp [byte, UInt8.toNat, UInt8.ofNat, Fin.ofNat]

theorem toNat_lt_256 (b : UInt8) : b.toNat < 256 := by
  have := b.toNat_lt
  simpa using this

theorem bytes2_sum (n : Nat) (h : n < 2 ^ 16) : n % 256 + n / 2 ^ 8 % 256 * 2 ^ 8 = n := by
  omega

theorem bytes4_sum (n : Nat) (h : n < 2 ^ 32) :
    n % 256 + n / 2 ^ 8 % 256 * 2 ^ 8 + n / 2 ^ 16 % 256 * 2 ^ 16
      + n / 2 ^ 24 % 256 * 2 ^ 24 = n := by
  omega

theorem bytes8_sum (n : Nat) (h : n < 2 ^ 64) :
    n % 256 + n / 2 ^ 8 % 256 * 2 ^ 8 + n / 2 ^ 16 % 256 * 2 ^ 16 + n / 2 ^ 24 % 256 * 2 ^ 24
      + n / 2 ^ 32 % 256 * 2 ^ 32 + n / 2 ^ 40 % 256 * 2 ^ 40 + n / 2 ^ 48 % 256 * 2 ^ 48
      + n / 2 ^ 56 % 256 * 2 ^ 56 = n := by
  omega

theorem uint16_lt (x : Int) : uint16 x < 2 ^ 16 := by unfold uint16; omega
theorem uint32_lt (x : Int) : uint32 x < 2 ^ 32 := by unfold uint32; omega
theorem uint64_lt (x : Int) : uint64 x < 2 ^ 64 := by unfold uint64; omega

theorem int16_uint16 (x : Int) (h1 : -2 ^ 15 ≤ x) (h2 : x < 2 ^ 15) : int16 (uint16 x) = x := by
  unfold int16 uint16; omega

theorem int32_uint32 (x : Int) (h : isInt32 x) : int32 (uint32 x) = x := by
  unfold isInt32 at h; unfold int32 uint32; omega

theorem int64_uint64 (x : Int) (h : isInt64 x) : int64 (uint64 x) = x := by
  unfold isInt64 at h; unfold int64 uint64; omega

theorem int32_of_isInt32 (x : Int) (h : isInt32 x) : int32 x = x := by
  unfold isInt32 at h; unfold int32; omega

theorem int64_of_isInt64 (x : Int) (h : isInt64 x) : int64 x = x := by
  unfold isInt64 at h; unfold int64; omega

theorem isInt32_int32 (x : Int) : isInt32 (int32 x) := by
  unfold isInt32 int32; omega

theorem isInt64_int64 (x : Int) : isInt64 (int64 x) := by
  unfold isInt64 int64; omega

theorem uint32_int32 (n : Nat) (h : n < 2 ^ 32) : uint32 (int32 n) = n := by
  unfold uint32 int32; omega

theorem uint64_int64 (n : Nat) (h : n < 2 ^ 64) : uint64 (int64 n) = n := by
  unfold uint64 int64; omega

namespace Protocol

/-! ## The reader -/

theorem baseReader.adv_adv (r : baseReader) (m n : Nat) : (r.adv m).adv n = r.adv (m + n) := by
  simp [baseReader.adv, Nat.add_assoc]

theorem baseReader.adv_zero (r : baseReader) : r.adv 0 = r := by
  simp [baseReader.adv]

theorem baseReader.at_start (b : VeGraph.Bytes) (nc : Bool) : baseReader.At { p := 0, b := b, nocopy := nc } b := by
  simp [baseReader.At]

theorem Dec.bind_ok {α β : Type} {x : Dec α} {f : α → Dec β} {r r1 : baseReader} {a : α}
    (h : x r = (.ok a, r1)) : (x >>= f) r = f a r1 := by
  show Dec.bind x f r = f a r1
  simp [Dec.bind, h]

theorem Dec.bind_error {α β : Type} {x : Dec α} {f : α → Dec β} {r r1 : baseReader} {e : GoError}
    (h : x r = (.error e, r1)) : (x >>= f) r = (.error e, r1) := by
  show Dec.bind x f r = _
  simp [Dec.bind, h]

theorem Dec.bind_panic {α β : Type} {x : Dec α} {f : α → Dec β} {r r1 : baseReader} {e : Panic}
    (h : x r = (.panic e, r1)) : (x >>= f) r = (.panic e, r1) := by
  show Dec.bind x f r = _
  simp [Dec.bind, h]

theorem pure_run {α : Type} (a : α) (r : baseReader) : (Pure.pure a : Dec α) r = (.ok a, r) := rfl

theorem baseReader.Next_at {r : baseReader} {xs rest : VeGraph.Bytes} (h : r.At (xs ++ rest)) :
    baseReader.Next xs.length r = (.ok xs, r.adv xs.length) ∧ (r.adv xs.length).At rest := by
  obtain ⟨hp, hd⟩ := h
  have hlen : (r.b.drop r.p).length = xs.length + rest.length := by
    rw [hd, List.length_append]
  have hlen2 : r.b.length - r.p = xs.length + rest.length := by
    rw [← hlen, List.length_drop]
  constructor
  · unfold baseReader.Next
    have h1 : ¬ ((xs.length : Int) < 0) := by omega
    have h2 : ¬ (r.b.length < r.p) := by omega
    have h3 : ¬ (((r.b.drop r.p).length : Int) < (xs.length : Int)) := by
      rw [hlen]; omega
    rw [if_neg h1, if_neg h2]
    simp only []
    rw [if_neg h3, hd, Int.toNat_ofNat, List.take_left]
    rfl
  · constructor
    · show r.p + xs.length ≤ r.b.length
      omega
    · show r.b.drop (r.p + xs.length) = rest
      rw [← List.drop_drop, hd, List.drop_left]

theorem baseReader.ReadInt8_at {r : baseReader} {x : UInt8} {rest : VeGraph.Bytes} (h : r.At (x :: rest)) :
    baseReader.ReadInt8 r = (.ok (int8 x.toNat), r.adv 1) ∧ (r.adv 1).At rest := by
  have h' : r.At ([x] ++ rest) := h
  obtain ⟨e, h1⟩ := baseReader.Next_at h'
  refine ⟨?_, h1⟩
  have e1 : baseReader.Next 1 r = (.ok [x], r.adv 1) := by simpa using e
  unfold baseReader.ReadInt8
  rw [Dec.bind_ok e1]
  rfl

/-! ## What the writer appends -/

theorem WriteInt8_eq (w : baseWriter) (t : Nat) (h : t < 128) :
    baseWriter.WriteInt8 w (int8 t) = w ++ [byte t] := by
  unfold baseWriter.WriteInt8
  have : uint8 (int8 (t : Int)) = t := by unfold uint8 int8; omega
  rw [this]

theorem WriteInt16_eq (w : BigEndianWriter) (v : Int) :
    BigEndianWriter.WriteInt16 w v = w ++ be16 v := by
  simp [BigEndianWriter.WriteInt16, be16]

theorem WriteInt32_eq (w : BigEndianWriter) (v : Int) :
    BigEndianWriter.WriteInt32 w v = w ++ be32 v := by
  simp [BigEndianWriter.WriteInt32, be32]

theorem WriteInt64_eq (w : BigEndianWriter) (v : Int) :
    BigEndianWriter.WriteInt64 w v = w ++ be64 v := by
  simp [BigEndianWriter.WriteInt64, be64]

theorem WriteFloat_eq (w : BigEndianWriter) (f : Nat) :
    BigEndianWriter.WriteFloat w f = w ++ bits32 f := by
  simp [BigEndianWriter.WriteFloat, bits32]

theorem WriteDouble_eq (w : BigEndianWriter) (f : Nat) :
    BigEndianWriter.WriteDouble w f = w ++ bits64 f := by
  simp [BigEndianWriter.WriteDouble, bits64]

theorem WriteString_eq (w : BigEndianWriter) (s : VeGraph.Bytes) :
    BigEndianWriter.WriteString w s = w ++ beStr s := by
  simp [BigEndianWriter.WriteString, beStr, WriteInt32_eq]

theorem WriteBytes_eq (w : BigEndianWriter) (s : VeGraph.Bytes) :
    BigEndianWriter.WriteBytes w s = w ++ beStr s := by
  simp [BigEndianWriter.WriteBytes, beStr, WriteInt32_eq]

theorem be16_length (v : Int) : (be16 v).length = 2 := by
  simp [be16, BigEndianWriter.WriteInt16]

theorem be32_length (v : Int) : (be32 v).length = 4 := by
  simp [be32, BigEndianWriter.WriteInt32]

theorem be64_length (v : Int) : (be64 v).length = 8 := by
  simp [be64, BigEndianWriter.WriteInt64]

theorem bits32_length (f : Nat) : (bits32 f).length = 4 := by
  simp [bits32, BigEndianWriter.WriteFloat]

theorem bits64_length (f : Nat) : (bits64 f).length = 8 := by
  simp [bits64, BigEndianWriter.WriteDouble]

theorem beStr_length (s : VeGraph.Bytes) : (beStr s).length = 4 + s.length := by
  simp [beStr, be32_length]

theorem bigEndianUint16_be16 (v : Int) : bigEndianUint16 (be16 v) = uint16 v := by
  simp only [be16, BigEndianWriter.WriteInt16, bigEndianUint16, List.nil_append,
    List.getD_cons_zero, List.getD_cons_succ, byte_toNat, Nat.shiftRight_eq_div_pow]
  exact bytes2_sum _ (uint16_lt v)

theorem bigEndianUint32_be32 (v : Int) : bigEndianUint32 (be32 v) = uint32 v := by
  simp only [be32, BigEndianWriter.WriteInt32, bigEndianUint32, List.nil_append,
    List.getD_cons_zero, List.getD_cons_succ, byte_toNat, Nat.shiftRight_eq_div_pow]
  exact bytes4_sum _ (uint32_lt v)

theorem bigEndianUint64_be64 (v : Int) : bigEndianUint64 (be64 v) = uint64 v := by
  simp only [be64, BigEndianWriter.WriteInt64, bigEndianUint64, List.nil_append,
    List.getD_cons_zero, List.getD_cons_succ, byte_toNat, Nat.shiftRight_eq_div_pow]
  exact bytes8_sum _ (uint64_lt v)

theorem bigEndianUint32_bits32 (f : Nat) (h : f < 2 ^ 32) : bigEndianUint32 (bits32 f) = f := by
  simp only [bits32, BigEndianWriter.WriteFloat, bigEndianUint32, List.nil_append,
    List.getD_cons_zero, List.getD_cons_succ, byte_toNat, Nat.shiftRight_eq_div_pow]
  exact bytes4_sum _ h

theorem bigEndianUint64_bits64 (f : Nat) (h : f < 2 ^ 64) : bigEndianUint64 (bits64 f) = f := by
  simp only [bits64, BigEndianWriter.WriteDouble, bigEndianUint64, List.nil_append,
    List.getD_cons_zero, List.getD_cons_succ, byte_toNat, Nat.shiftRight_eq_div_pow]
  exact bytes8_sum _ h

/-! ## Reading back what the writer appended -/

theorem ReadInt16_raw {r : baseReader} {xs rest : VeGraph.Bytes} (hx : xs.length = 2)
    (h : r.At (xs ++ rest)) :
    BigEndianReader.ReadInt16 r = (.ok (int16 (bigEndianUint16 xs)), r.adv 2)
      ∧ (r.adv 2).At rest := by
  obtain ⟨e, h1⟩ := baseReader.Next_at h
  rw [hx] at e h1
  refine ⟨?_, h1⟩
  have e1 : baseReader.Next 2 r = (.ok xs, r.adv 2) := by simpa using e
  unfold BigEndianReader.ReadInt16
  rw [Dec.bind_ok e1]
  rfl

theorem ReadInt32_raw {r : baseReader} {xs rest : VeGraph.Bytes} (hx : xs.length = 4)
    (h : r.At (xs ++ rest)) :
    BigEndianReader.ReadInt32 r = (.ok (int32 (bigEndianUint32 xs)), r.adv 4)
      ∧ (r.adv 4).At rest := by
  obtain ⟨e, h1⟩ := baseReader.Next_at h
  rw [hx] at e h1
  refine ⟨?_, h1⟩
  have e1 : baseReader.Next 4 r = (.ok xs, r.adv 4) := by simpa using e
  unfold BigEndianReader.ReadInt32
  rw [Dec.bind_ok e1]
  rfl

theorem ReadInt64_raw {r : baseReader} {xs rest : VeGraph.Bytes} (hx : xs.length = 8)
    (h : r.At (xs ++ rest)) :
    BigEndianReader.ReadInt64 r = (.ok (int64 (bigEndianUint64 xs)), r.adv 8)
      ∧ (r.adv 8).At rest := by
  obtain ⟨e, h1⟩ := baseReader.Next_at h
  rw [hx] at e h1
  refine ⟨?_, h1⟩
  have e1 : baseReader.Next 8 r = (.ok xs, r.adv 8) := by simpa using e
  unfold BigEndianReader.ReadInt64
  rw [Dec.bind_ok e1]
  rfl

theorem ReadInt16_at {r : baseReader} {v : Int} {rest : VeGraph.Bytes}
    (h1 : -2 ^ 15 ≤ v) (h2 : v < 2 ^ 15) (h : r.At (be16 v ++ rest)) :
    BigEndianReader.ReadInt16 r = (.ok v, r.adv 2) ∧ (r.adv 2).At rest := by
  have := ReadInt16_raw (be16_length v) h
  rwa [bigEndianUint16_be16, int16_uint16 v h1 h2] at this

theorem ReadInt32_at {r : baseReader} {v : Int} {rest : VeGraph.Bytes}
    (hv : isInt32 v) (h : r.At (be32 v ++ rest)) :
    BigEndianReader.ReadInt32 r = (.ok v, r.adv 4) ∧ (r.adv 4).At rest := by
  have := ReadInt32_raw (be32_length v) h
  rwa [bigEndianUint32_be32, int32_uint32 v hv] at this

theorem ReadInt64_at {r : baseReader} {v : Int} {rest : VeGraph.Bytes}
    (hv : isInt64 v) (h : r.At (be64 v ++ rest)) :
    BigEndianReader.ReadInt64 r = (.ok v, r.adv 8) ∧ (r.adv 8).At rest := by
  have := ReadInt64_raw (be64_length v) h
  rwa [bigEndianUint64_be64, int64_uint64 v hv] at this

theorem ReadBytes_at {r : baseReader} {s rest : VeGraph.Bytes}
    (hs : s.length < 2 ^ 31) (h : r.At (beStr s ++ rest)) :
    BigEndianReader.ReadBytes r = (.ok s, r.adv (4 + s.length))
      ∧ (r.adv (4 + s.length)).At rest := by
  have hlen : isInt32 (s.length : Int) := by unfold isInt32; omega
  have h' : r.At (be32 (int32 s.length) ++ (s ++ rest)) := by
    simpa [beStr, List.append_assoc] using h
  rw [int32_of_isInt32 _ hlen] at h'
  obtain ⟨e1, h1⟩ := ReadInt32_at hlen h'
  obtain ⟨e2, h2⟩ := baseReader.Next_at h1
  rw [baseReader.adv_adv] at e2 h2
  refine ⟨?_, h2⟩
  unfold BigEndianReader.ReadBytes
  rw [Dec.bind_ok e1, Dec.bind_ok e2]
  rfl

theorem ReadString_at {r : baseReader} {s rest : VeGraph.Bytes}
    (hs : s.length < 2 ^ 31) (h : r.At (beStr s ++ rest)) :
    BigEndianReader.ReadString r = (.ok s, r.adv (4 + s.length))
      ∧ (r.adv (4 + s.length)).At rest := by
  obtain ⟨e, h1⟩ := ReadBytes_at hs h
  refine ⟨?_, h1⟩
  unfold BigEndianReader.ReadString
  rw [Dec.bind_ok e]
  rfl

end Protocol

namespace Structure

open Protocol

/-! ## Values of the Go types, and values that fit the wire format -/

theorem Property_EncodeTo_eq (p : Property) (w : BigEndianWriter) :
    p.EncodeTo w = .ok (w ++ encProperty p) := by
  unfold Property.EncodeTo encProperty
  simp only [WriteInt8_eq _ PropertyType (by decide), WriteInt8_eq _ TrueType (by decide),
    WriteInt8_eq _ FalseType (by decide), WriteInt8_eq _ Int32Type (by decide),
    WriteInt8_eq _ Int64Type (by decide), WriteInt8_eq _ FloatType (by decide),
    WriteInt8_eq _ DoubleType (by decide), WriteInt8_eq _ StringType (by decide),
    WriteString_eq, WriteBytes_eq, WriteInt32_eq, WriteInt64_eq, WriteFloat_eq, WriteDouble_eq]
  rcases p with ⟨k, v⟩
  cases v with
  | bool b =>
    cases b <;> simp [TrueType, FalseType, PropertyType, encValue]
  | int32 v => simp [Int32Type, PropertyType, encValue]
  | int64 v => simp [Int64Type, PropertyType, encValue]
  | float32 v => simp [FloatType, PropertyType, encValue]
  | float64 v => simp [DoubleType, PropertyType, encValue]
  | string v => simp [StringType, PropertyType, encValue]

theorem encodeProperties_eq (ps : List Property) (w : BigEndianWriter) :
    encodeProperties ps w = .ok (w ++ encProperties ps) := by
  induction ps generalizing w with
  | nil => simp [encodeProperties, encProperties]
  | cons p ps ih =>
    unfold encodeProperties
    rw [Property_EncodeTo_eq]
    show encodeProperties ps (w ++ encProperty p) = _
    rw [ih]
    simp [encProperties]

theorem ofInt8_byte (t : Nat) (h : t < 256) :
    CoreDataType.ofInt8 (int8 ((byte t).toNat : Int)) = t := by
  rw [byte_toNat, Nat.mod_eq_of_lt h]
  show (uint8 (int8 (t : Int)) : Nat) = t
  unfold uint8 int8
  omega

theorem decodeValue_at {r : baseReader} {v : PropertyValue} {rest : Bytes}
    (hv : v.valid) (hf : v.fits) (h : r.At (encValue v ++ rest)) :
    decodeValue r = (.ok v, r.adv (encValue v).length)
      ∧ (r.adv (encValue v).length).At rest := by
  cases v with
  | bool b =>
    cases b
    · have h' : r.At (byte 2 :: rest) := h
      obtain ⟨e1, h1⟩ := baseReader.ReadInt8_at h'
      refine ⟨?_, h1⟩
      unfold decodeValue
      rw [Dec.bind_ok e1]
      simp only [ofInt8_byte 2 (by decide), TrueType, FalseType]
      simp only [Nat.reduceEqDiff, if_false, if_true]
      rfl
    · have h' : r.At (byte 1 :: rest) := h
      obtain ⟨e1, h1⟩ := baseReader.ReadInt8_at h'
      refine ⟨?_, h1⟩
      unfold decodeValue
      rw [Dec.bind_ok e1]
      simp only [ofInt8_byte 1 (by decide), TrueType]
      simp only [if_true]
      rfl
  | int32 x =>
    have h' : r.At (byte 3 :: (be32 x ++ rest)) := h
    obtain ⟨e1, h1⟩ := baseReader.ReadInt8_at h'
    obtain ⟨e2, h2⟩ := ReadInt32_at hv h1
    rw [baseReader.adv_adv] at e2 h2
    have hl : (encValue (.int32 x)).length = 1 + 4 := by simp [encValue, be32_length]
    rw [hl]
    refine ⟨?_, h2⟩
    unfold decodeValue
    rw [Dec.bind_ok e1]
    simp only [ofInt8_byte 3 (by decide), TrueType, FalseType, Int32Type]
    simp only [Nat.reduceEqDiff, if_false, if_true]
    rw [Dec.bind_ok e2]
    rfl
  | int64 x =>
    have h' : r.At (byte 4 :: (be64 x ++ rest)) := h
    obtain ⟨e1, h1⟩ := baseReader.ReadInt8_at h'
    obtain ⟨e2, h2⟩ := ReadInt64_at hv h1
    rw [baseReader.adv_adv] at e2 h2
    have hl : (encValue (.int64 x)).length = 1 + 8 := by simp [encValue, be64_length]
    rw [hl]
    refine ⟨?_, h2⟩
    unfold decodeValue
    rw [Dec.bind_ok e1]
    simp only [ofInt8_byte 4 (by decide), TrueType, FalseType, Int32Type, Int64Type]
    simp only [Nat.reduceEqDiff, if_false, if_true]
    rw [Dec.bind_ok e2]
    rfl
  | float32 x =>
    have h' : r.At (byte 5 :: (bits32 x ++ rest)) := h
    obtain ⟨e1, h1⟩ := baseReader.ReadInt8_at h'
    obtain ⟨e2, h2⟩ := ReadInt32_raw (bits32_length x) h1
    rw [baseReader.adv_adv, bigEndianUint32_bits32 x hv] at e2
    rw [baseReader.adv_adv] at h2
    have hl : (encValue (.float32 x)).length = 1 + 4 := by simp [encValue, bits32_length]
    rw [hl]
    refine ⟨?_, h2⟩
    unfold decodeValue
    rw [Dec.bind_ok e1]
    simp only [ofInt8_byte 5 (by decide), TrueType, FalseType, Int32Type, Int64Type, FloatType]
    simp only [Nat.reduceEqDiff, if_false, if_true]
    rw [Dec.bind_ok e2]
    show (Outcome.ok (PropertyValue.float32 (uint32 (int32 x))), _) = _
    rw [uint32_int32 x hv]
  | float64 x =>
    have h' : r.At (byte 6 :: (bits64 x ++ rest)) := h
    obtain ⟨e1, h1⟩ := baseReader.ReadInt8_at h'
    obtain ⟨e2, h2⟩ := ReadInt64_raw (bits64_length x) h1
    rw [baseReader.adv_adv, bigEndianUint64_bits64 x hv] at e2
    rw [baseReader.adv_adv] at h2
    have hl : (encValue (.float64 x)).length = 1 + 8 := by simp [encValue, bits64_length]
    rw [hl]
    refine ⟨?_, h2⟩
    unfold decodeValue
    rw [Dec.bind_ok e1]
    simp only [ofInt8_byte 6 (by decide), TrueType, FalseType, Int32Type, Int64Type, FloatType,
      DoubleType]
    simp only [Nat.reduceEqDiff, if_false, if_true]
    rw [Dec.bind_ok e2]
    show (Outcome.ok (PropertyValue.float64 (uint64 (int64 x))), _) = _
    rw [uint64_int64 x hv]
  | string x =>
    have h' : r.At (byte 7 :: (beStr x ++ rest)) := h
    obtain ⟨e1, h1⟩ := baseReader.ReadInt8_at h'
    obtain ⟨e2, h2⟩ := ReadBytes_at hf h1
    rw [baseReader.adv_adv] at e2 h2
    have hl : (encValue (.string x)).length = 1 + (4 + x.length) := by
      simp [encValue, beStr_length]; omega
    rw [hl]
    refine ⟨?_, h2⟩
    unfold decodeValue
    rw [Dec.bind_ok e1]
    simp only [ofInt8_byte 7 (by decide), TrueType, FalseType, Int32Type, Int64Type, FloatType,
      DoubleType, StringType]
    simp only [Nat.reduceEqDiff, if_false, if_true]
    rw [Dec.bind_ok e2]
    rfl

/-! ## Computations that read back a given byte sequence -/

theorem Reads_of_eq {α : Type} {x : Dec α} {xs ys : Bytes} {a b : α}
    (h : Reads x xs a) (hxs : xs = ys) (hab : a = b) : Reads x ys b := by
  subst hxs; subst hab; exact h

theorem Reads_pure {α : Type} (a : α) : Reads (Pure.pure a : Dec α) [] a := by
  intro r rest h
  exact ⟨by rw [pure_run]; simp [baseReader.adv_zero], by simpa [baseReader.adv_zero] using h⟩

theorem Reads_bind {α β : Type} {x : Dec α} {f : α → Dec β} {xs ys : Bytes} {a : α} {b : β}
    (hx : Reads x xs a) (hf : Reads (f a) ys b) : Reads (x >>= f) (xs ++ ys) b := by
  intro r rest h
  have h' : r.At (xs ++ (ys ++ rest)) := by simpa [List.append_assoc] using h
  obtain ⟨e1, h1⟩ := hx r _ h'
  obtain ⟨e2, h2⟩ := hf _ _ h1
  rw [baseReader.adv_adv] at e2 h2
  rw [List.length_append]
  exact ⟨by rw [Dec.bind_ok e1, e2], h2⟩

theorem reads_ReadInt8 (x : UInt8) : Reads baseReader.ReadInt8 [x] (int8 x.toNat) := by
  intro r rest h
  exact baseReader.ReadInt8_at h

theorem reads_ReadInt16 {v : Int} (h1 : -2 ^ 15 ≤ v) (h2 : v < 2 ^ 15) :
    Reads BigEndianReader.ReadInt16 (be16 v) v := by
  intro r rest h
  rw [be16_length]
  exact ReadInt16_at h1 h2 h

theorem reads_ReadInt32 {v : Int} (hv : isInt32 v) : Reads BigEndianReader.ReadInt32 (be32 v) v := by
  intro r rest h
  rw [be32_length]
  exact ReadInt32_at hv h

theorem reads_ReadInt64 {v : Int} (hv : isInt64 v) : Reads BigEndianReader.ReadInt64 (be64 v) v := by
  intro r rest h
  rw [be64_length]
  exact ReadInt64_at hv h

theorem reads_ReadFloatBits {f : Nat} (hf : f < 2 ^ 32) :
    Reads BigEndianReader.ReadInt32 (bits32 f) (int32 f) := by
  intro r rest h
  have := ReadInt32_raw (bits32_length f) h
  rwa [bigEndianUint32_bits32 f hf, ← bits32_length f] at this

theorem reads_ReadDoubleBits {f : Nat} (hf : f < 2 ^ 64) :
    Reads BigEndianReader.ReadInt64 (bits64 f) (int64 f) := by
  intro r rest h
  have := ReadInt64_raw (bits64_length f) h
  rwa [bigEndianUint64_bits64 f hf, ← bits64_length f] at this

theorem reads_ReadString {s : Bytes} (hs : s.length < 2 ^ 31) :
    Reads BigEndianReader.ReadString (beStr s) s := by
  intro r rest h
  rw [beStr_length]
  exact ReadString_at hs h

theorem reads_decodeValue {v : PropertyValue} (hv : v.valid) (hf : v.fits) :
    Reads decodeValue (encValue v) v := by
  intro r rest h
  exact decodeValue_at hv hf h

theorem reads_DecodeExBody {self : Bool → Dec Element} {us : Bool} {t : Nat} {xs : Bytes}
    {a : Element} (ht : t < 256) (h : Reads (DecodeExSwitch self us t) xs a) :
    Reads (DecodeExBody self us) (byte t :: xs) a := by
  have h1 : Reads ((fun i8 => DecodeExSwitch self us (CoreDataType.ofInt8 i8))
      (int8 ((byte t).toNat : Int))) xs a := by
    show Reads (DecodeExSwitch self us (CoreDataType.ofInt8 (int8 ((byte t).toNat : Int)))) xs a
    rw [ofInt8_byte t ht]; exact h
  exact Reads_bind (reads_ReadInt8 (byte t)) h1

theorem reads_Bool (self : Bool → Dec Element) (us : Bool) (b : Bool) :
    Reads (DecodeExBody self us) [byte (if b then 1 else 2)] (.Bool b) := by
  cases b
  · exact reads_DecodeExBody (t := 2) (by decide) (Reads_pure _)
  · exact reads_DecodeExBody (t := 1) (by decide) (Reads_pure _)

theorem reads_Int32 (self : Bool → Dec Element) (us : Bool) {v : Int} (hv : isInt32 v) :
    Reads (DecodeExBody self us) (byte 3 :: be32 v) (.Int32 v) := by
  refine reads_DecodeExBody (t := 3) (by decide) ?_
  exact Reads_of_eq (Reads_bind (f := fun i32 => Pure.pure (Element.Int32 i32))
    (reads_ReadInt32 hv) (Reads_pure _)) (by simp) rfl

theorem reads_Int64 (self : Bool → Dec Element) (us : Bool) {v : Int} (hv : isInt64 v) :
    Reads (DecodeExBody self us) (byte 4 :: be64 v) (.Int64 v) := by
  refine reads_DecodeExBody (t := 4) (by decide) ?_
  exact Reads_of_eq (Reads_bind (f := fun i64 => Pure.pure (Element.Int64 i64))
    (reads_ReadInt64 hv) (Reads_pure _)) (by simp) rfl

theorem reads_Float32 (self : Bool → Dec Element) (us : Bool) {f : Nat} (hf : f < 2 ^ 32) :
    Reads (DecodeExBody self us) (byte 5 :: bits32 f) (.Float32 f) := by
  refine reads_DecodeExBody (t := 5) (by decide) ?_
  exact Reads_of_eq (Reads_bind (f := fun i32 => Pure.pure (Element.Float32 (uint32 i32)))
    (reads_ReadFloatBits hf) (Reads_pure _)) (by simp) (by rw [uint32_int32 f hf])

theorem reads_Float64 (self : Bool → Dec Element) (us : Bool) {f : Nat} (hf : f < 2 ^ 64) :
    Reads (DecodeExBody self us) (byte 6 :: bits64 f) (.Float64 f) := by
  refine reads_DecodeExBody (t := 6) (by decide) ?_
  exact Reads_of_eq (Reads_bind (f := fun i64 => Pure.pure (Element.Float64 (uint64 i64)))
    (reads_ReadDoubleBits hf) (Reads_pure _)) (by simp) (by rw [uint64_int64 f hf])

theorem reads_String (self : Bool → Dec Element) (us : Bool) {s : Bytes} (hs : s.length < 2 ^ 31) :
    Reads (DecodeExBody self us) (byte 7 :: beStr s) (.String s) := by
  refine reads_DecodeExBody (t := 7) (by decide) ?_
  exact Reads_of_eq (Reads_bind (f := fun s => Pure.pure (Element.String s))
    (reads_ReadString hs) (Reads_pure _)) (by simp) rfl

theorem reads_Property (self : Bool → Dec Element) (us : Bool) {p : Property} (hp : p.wire) :
    Reads (DecodeExBody self us) (encProperty p) (.Property p) := by
  refine reads_DecodeExBody (t := 15) (by decide) ?_
  exact Reads_of_eq (Reads_bind
    (f := fun key => decodeValue >>= fun value =>
      Pure.pure (Element.Property { Key := key, Value := value }))
    (reads_ReadString hp.1)
    (Reads_bind (reads_decodeValue hp.2.1 hp.2.2) (Reads_pure _))) (by simp) rfl

/-! ## Vertices and edges: what is written, and reading it back -/

theorem Vertex_EncodeTo_eq (v : Vertex) (w : BigEndianWriter)
    (hv : v.VType = IdTypeInt64Int32 ∨ v.VType = IdTypeStringString) :
    v.EncodeTo w = .ok (w ++ encVertex v) := by
  unfold Vertex.EncodeTo encVertex
  simp only [WriteInt8_eq _ VertexType (by decide),
    WriteInt8_eq _ VertexWithPropertiesType (by decide),
    WriteInt8_eq _ SVertexType (by decide), WriteInt8_eq _ SVertexWithPropertiesType (by decide),
    WriteString_eq, WriteInt16_eq, WriteInt32_eq, WriteInt64_eq, encodeProperties_eq]
  rcases hv with h | h
  · rw [if_pos h, if_pos h]
    by_cases hn : v.Properties.length = 0
    · simp [hn, VertexType]
    · simp [hn, VertexWithPropertiesType]
  · have h0 : ¬ (v.VType = IdTypeInt64Int32) := by rw [h]; decide
    rw [if_neg h0, if_pos h, if_neg h0]
    by_cases hn : v.Properties.length = 0
    · simp [hn, SVertexType]
    · simp [hn, SVertexWithPropertiesType]

theorem Edge_EncodeTo_eq (e : Edge) (w : BigEndianWriter)
    (he : (e.OutV.VType = IdTypeInt64Int32 ∧ e.InV.VType = IdTypeInt64Int32)
      ∨ (e.OutV.VType = IdTypeStringString ∧ e.InV.VType = IdTypeStringString)) :
    e.EncodeTo w = .ok (w ++ encEdge e) := by
  unfold Edge.EncodeTo encEdge
  simp only [WriteInt8_eq _ ForwardEdgeType (by decide),
    WriteInt8_eq _ ForwardEdgeWithPropertiesType (by decide),
    WriteInt8_eq _ ForwardSEdgeType (by decide),
    WriteInt8_eq _ ForwardSEdgeWithPropertiesType (by decide),
    WriteString_eq, WriteInt16_eq, WriteInt32_eq, WriteInt64_eq, encodeProperties_eq]
  rcases he with h | h
  · rw [if_pos h, if_pos h.1]
    by_cases hn : e.Properties.length = 0
    · simp [hn, ForwardEdgeType]
    · simp [hn, ForwardEdgeWithPropertiesType]
  · have h0 : ¬ (e.OutV.VType = IdTypeInt64Int32) := by rw [h.1]; decide
    have h1 : ¬ (e.OutV.VType = IdTypeInt64Int32 ∧ e.InV.VType = IdTypeInt64Int32) :=
      fun hh => h0 hh.1
    rw [if_neg h1, if_pos h, if_neg h0]
    by_cases hn : e.Properties.length = 0
    · simp [hn, ForwardSEdgeType]
    · simp [hn, ForwardSEdgeWithPropertiesType]

theorem readsProperties_fuel (k : Nat) : ReadsProperties (DecodeExFuel (k + 1)) := by
  intro us p hp
  exact reads_Property (DecodeExFuel k) us hp

theorem reads_decodeProperties {Decode : Dec Element}
    (hD : ∀ p : Property, p.wire → Reads Decode (encProperty p) (.Property p))
    (ps : List Property) (hps : ∀ p ∈ ps, p.wire) (acc : List Property) :
    Reads (decodeProperties Decode ps.length acc) (encProperties ps) (acc ++ ps) := by
  induction ps generalizing acc with
  | nil => simpa [decodeProperties, encProperties] using Reads_pure acc
  | cons p ps ih =>
    have h1 := hD p (hps p (List.mem_cons_self _ _))
    have h2 := ih (fun q hq => hps q (List.mem_cons_of_mem _ hq)) (acc ++ [p])
    show Reads (decodeProperties Decode (ps.length + 1) acc) _ _
    unfold decodeProperties
    exact Reads_of_eq (Reads_bind h1 h2) rfl (by simp)

theorem int16_of_lt (n : Nat) (h : n < 2 ^ 15) : int16 (n : Int) = n := by
  unfold int16; omega

theorem int32_of_lt (n : Nat) (h : n < 2 ^ 31) : int32 (n : Int) = n := by
  unfold int32; omega

theorem reads_readVertex {id ty : Int} (hid : isInt64 id) (hty : isInt32 ty) :
    Reads readVertex (be64 id ++ be32 ty) { Vertex.zero with Id := id, Type_ := ty } := by
  unfold readVertex
  exact Reads_of_eq (Reads_bind (reads_ReadInt64 hid) (Reads_bind (reads_ReadInt32 hty)
    (Reads_pure _))) (by simp) rfl

theorem reads_readSVertex {sid stype : Bytes} (hid : sid.length < 2 ^ 31)
    (hty : stype.length < 2 ^ 31) :
    Reads readSVertex (beStr sid ++ beStr stype)
      { Vertex.zero with SId := sid, SType := stype, VType := IdTypeStringString } := by
  unfold readSVertex
  exact Reads_of_eq (Reads_bind (reads_ReadString hid) (Reads_bind (reads_ReadString hty)
    (Reads_pure _))) (by simp) rfl

theorem reads_propertyCount32 {Decode : Dec Element} {α : Type}
    (hD : ∀ p : Property, p.wire → Reads Decode (encProperty p) (.Property p))
    (ps : List Property) (hps : ∀ p ∈ ps, p.wire) (hlen : ps.length < 2 ^ 31)
    (k : List Property → α) :
    Reads (BigEndianReader.ReadInt32 >>= fun pptLen =>
        if pptLen < 0 then Dec.abort .makesliceOutOfRange
        else decodeProperties Decode pptLen.toNat [] >>= fun props => Pure.pure (k props))
      (be32 (int32 ps.length) ++ encProperties ps) (k ps) := by
  rw [int32_of_lt _ hlen]
  have hi : isInt32 (ps.length : Int) := by unfold isInt32; omega
  refine Reads_of_eq (Reads_bind (reads_ReadInt32 hi) ?_) rfl rfl
  beta_reduce
  rw [if_neg (by omega), Int.toNat_ofNat]
  exact Reads_of_eq (Reads_bind (reads_decodeProperties hD ps hps []) (Reads_pure _))
    (by simp) (by simp)

theorem reads_propertyCount16 {Decode : Dec Element} {α : Type}
    (hD : ∀ p : Property, p.wire → Reads Decode (encProperty p) (.Property p))
    (ps : List Property) (hps : ∀ p ∈ ps, p.wire) (hlen : ps.length < 2 ^ 15)
    (k : List Property → α) :
    Reads (BigEndianReader.ReadInt16 >>= fun pptLen =>
        if pptLen < 0 then Dec.abort .makesliceOutOfRange
        else decodeProperties Decode pptLen.toNat [] >>= fun props => Pure.pure (k props))
      (be16 (int16 ps.length) ++ encProperties ps) (k ps) := by
  rw [int16_of_lt _ hlen]
  refine Reads_of_eq (Reads_bind (reads_ReadInt16 (by omega) (by omega)) ?_) rfl rfl
  beta_reduce
  rw [if_neg (by omega), Int.toNat_ofNat]
  exact Reads_of_eq (Reads_bind (reads_decodeProperties hD ps hps []) (Reads_pure _))
    (by simp) (by simp)

theorem reads_Vertex {self : Bool → Dec Element} (hself : ReadsProperties self) (us : Bool)
    {v : Vertex} (hv : v.wire) :
    Reads (DecodeExBody self us) (encVertex v) (.Vertex v) := by
  obtain ⟨hform, hps⟩ := hv
  have hD := hself false
  rcases v with ⟨id, ty, vt, sid, stype, ps⟩
  rcases hform with ⟨h1, h2, h3, h4, h5, h6⟩ | ⟨h1, h2, h3, h4, h5, h6⟩
  · simp only at h1 h2 h3 h4 h5 h6 hps
    subst h1 h2 h3
    unfold encVertex
    simp only [if_true]
    by_cases hn : ps.length = 0
    · have hnil : ps = [] := List.length_eq_zero.mp hn
      subst hnil
      rw [if_pos hn]
      refine reads_DecodeExBody (t := 8) (by decide) ?_
      exact Reads_of_eq (Reads_bind (f := fun v => Pure.pure (Element.Vertex v))
        (reads_readVertex h4 h5) (Reads_pure _)) (by simp) rfl
    · rw [if_neg hn]
      refine reads_DecodeExBody (t := 16) (by decide) ?_
      have hw : Reads (readVertexWithProperties (self false))
          (be64 id ++ (be32 ty ++ (be32 (int32 ps.length) ++ encProperties ps)))
          (⟨id, ty, IdTypeInt64Int32, [], [], ps⟩ : Vertex) := by
        unfold readVertexWithProperties
        exact Reads_of_eq (Reads_bind (reads_readVertex h4 h5)
          (reads_propertyCount32 hD ps hps h6 _)) (by simp) rfl
      exact Reads_of_eq (Reads_bind (f := fun v => Pure.pure (Element.Vertex v)) hw
        (Reads_pure _)) (by simp) rfl
  · simp only at h1 h2 h3 h4 h5 h6 hps
    subst h1 h2 h3
    unfold encVertex
    have h0 : ¬ (IdTypeStringString = IdTypeInt64Int32) := by decide
    simp only [if_neg h0]
    by_cases hn : ps.length = 0
    · have hnil : ps = [] := List.length_eq_zero.mp hn
      subst hnil
      rw [if_pos hn]
      refine reads_DecodeExBody (t := 24) (by decide) ?_
      exact Reads_of_eq (Reads_bind (f := fun v => Pure.pure (Element.Vertex v))
        (reads_readSVertex h4 h5) (Reads_pure _)) (by simp) rfl
    · rw [if_neg hn]
      refine reads_DecodeExBody (t := 25) (by decide) ?_
      have hw : Reads (readSVertexWithProperties (self false))
          (beStr sid ++ (beStr stype ++ (be16 (int16 ps.length) ++ encProperties ps)))
          (⟨0, 0, IdTypeStringString, sid, stype, ps⟩ : Vertex) := by
        unfold readSVertexWithProperties
        exact Reads_of_eq (Reads_bind (reads_readSVertex h4 h5)
          (reads_propertyCount16 hD ps hps h6 _)) (by simp) rfl
      exact Reads_of_eq (Reads_bind (f := fun v => Pure.pure (Element.Vertex v)) hw
        (Reads_pure _)) (by simp) rfl

theorem directed_properties (d : DirectionType) (e : Edge) (ps : List Property) :
    { directed d e with Properties := ps } = directed d { e with Properties := ps } := by
  cases d <;> rfl

theorem reads_readEdge (d : DirectionType) {label : Bytes} {aid aty bid bty : Int}
    (hl : label.length < 2 ^ 31) (h1 : isInt64 aid) (h2 : isInt32 aty) (h3 : isInt64 bid)
    (h4 : isInt32 bty) :
    Reads (readEdge d) (beStr label ++ (be64 aid ++ (be32 aty ++ (be64 bid ++ be32 bty))))
      (directed d ⟨⟨aid, aty, IdTypeInt64Int32, [], [], []⟩,
        ⟨bid, bty, IdTypeInt64Int32, [], [], []⟩, label, []⟩) := by
  unfold readEdge
  cases d
  · exact Reads_of_eq (Reads_bind (reads_ReadString hl) (Reads_bind (reads_ReadInt64 h1)
      (Reads_bind (reads_ReadInt32 h2) (Reads_bind (reads_ReadInt64 h3)
      (Reads_bind (reads_ReadInt32 h4) (Reads_pure _)))))) (by simp) rfl
  · exact Reads_of_eq (Reads_bind (reads_ReadString hl) (Reads_bind (reads_ReadInt64 h1)
      (Reads_bind (reads_ReadInt32 h2) (Reads_bind (reads_ReadInt64 h3)
      (Reads_bind (reads_ReadInt32 h4) (Reads_pure _)))))) (by simp) rfl
  · exact Reads_of_eq (Reads_bind (reads_ReadString hl) (Reads_bind (reads_ReadInt64 h1)
      (Reads_bind (reads_ReadInt32 h2) (Reads_bind (reads_ReadInt64 h3)
      (Reads_bind (reads_ReadInt32 h4) (Reads_pure _)))))) (by simp) rfl

theorem reads_readSEdge (d : DirectionType) {label asid asty bsid bsty : Bytes}
    (hl : label.length < 2 ^ 31) (h1 : asid.length < 2 ^ 31) (h2 : asty.length < 2 ^ 31)
    (h3 : bsid.length < 2 ^ 31) (h4 : bsty.length < 2 ^ 31) :
    Reads (readSEdge d) (beStr label ++ (beStr asid ++ (beStr asty ++ (beStr bsid ++ beStr bsty))))
      (directed d ⟨⟨0, 0, IdTypeStringString, asid, asty, []⟩,
        ⟨0, 0, IdTypeStringString, bsid, bsty, []⟩, label, []⟩) := by
  unfold readSEdge
  cases d
  · exact Reads_of_eq (Reads_bind (reads_ReadString hl) (Reads_bind (reads_ReadString h1)
      (Reads_bind (reads_ReadString h2) (Reads_bind (reads_ReadString h3)
      (Reads_bind (reads_ReadString h4) (Reads_pure _)))))) (by simp) rfl
  · exact Reads_of_eq (Reads_bind (reads_ReadString hl) (Reads_bind (reads_ReadString h1)
      (Reads_bind (reads_ReadString h2) (Reads_bind (reads_ReadString h3)
      (Reads_bind (reads_ReadString h4) (Reads_pure _)))))) (by simp) rfl
  · exact Reads_of_eq (Reads_bind (reads_ReadString hl) (Reads_bind (reads_ReadString h1)
      (Reads_bind (reads_ReadString h2) (Reads_bind (reads_ReadString h3)
      (Reads_bind (reads_ReadString h4) (Reads_pure _)))))) (by simp) rfl

theorem reads_readEdgeWithProperties {Decode : Dec Element}
    (hD : ∀ p : Property, p.wire → Reads Decode (encProperty p) (.Property p))
    (d : DirectionType) {label : Bytes} {aid aty bid bty : Int} {ps : List Property}
    (hl : label.length < 2 ^ 31) (h1 : isInt64 aid) (h2 : isInt32 aty) (h3 : isInt64 bid)
    (h4 : isInt32 bty) (hps : ∀ p ∈ ps, p.wire) (hlen : ps.length < 2 ^ 31) :
    Reads (readEdgeWithProperties Decode d)
      (beStr label ++ (be64 aid ++ (be32 aty ++ (be64 bid ++ (be32 bty
        ++ (be32 (int32 ps.length) ++ encProperties ps))))))
      (directed d ⟨⟨aid, aty, IdTypeInt64Int32, [], [], []⟩,
        ⟨bid, bty, IdTypeInt64Int32, [], [], []⟩, label, ps⟩) := by
  unfold readEdgeWithProperties
  exact Reads_of_eq (Reads_bind (reads_readEdge d hl h1 h2 h3 h4)
    (reads_propertyCount32 hD ps hps hlen _)) (by simp) (directed_properties d _ ps)

theorem reads_readSEdgeWithProperties {Decode : Dec Element}
    (hD : ∀ p : Property, p.wire → Reads Decode (encProperty p) (.Property p))
    (d : DirectionType) {label asid asty bsid bsty : Bytes} {ps : List Property}
    (hl : label.length < 2 ^ 31) (h1 : asid.length < 2 ^ 31) (h2 : asty.length < 2 ^ 31)
    (h3 : bsid.length < 2 ^ 31) (h4 : bsty.length < 2 ^ 31)
    (hps : ∀ p ∈ ps, p.wire) (hlen : ps.length < 2 ^ 15) :
    Reads (readSEdgeWithProperties Decode d)
      (beStr label ++ (beStr asid ++ (beStr asty ++ (beStr bsid ++ (beStr bsty
        ++ (be16 (int16 ps.length) ++ encProperties ps))))))
      (directed d ⟨⟨0, 0, IdTypeStringString, asid, asty, []⟩,
        ⟨0, 0, IdTypeStringString, bsid, bsty, []⟩, label, ps⟩) := by
  unfold readSEdgeWithProperties
  exact Reads_of_eq (Reads_bind (reads_readSEdge d hl h1 h2 h3 h4)
    (reads_propertyCount16 hD ps hps hlen _)) (by simp) (directed_properties d _ ps)

theorem reads_edgePayload {self : Bool → Dec Element} (hself : ReadsProperties self) (us : Bool)
    (sform withProps : Bool) (d : DirectionType) {label : Bytes} {a b : Vertex}
    {ps : List Property}
    (hw : Edge.wire ⟨a, b, label, ps⟩)
    (hform : a.VType = if sform then IdTypeStringString else IdTypeInt64Int32)
    (hnp : withProps = false → ps = []) :
    Reads (DecodeExBody self us)
      (byte (edgeTag sform withProps d) :: edgePayload sform withProps label a b ps)
      (.Edge (directed d ⟨a, b, label, ps⟩)) := by
  obtain ⟨ha, hb, hsame, hl, hc32, hc16, hps⟩ := hw
  have hD := hself false
  simp only at ha hb hsame hl hc32 hc16 hps
  rcases a with ⟨aid, aty, avt, asid, asty, aps⟩
  rcases b with ⟨bid, bty, bvt, bsid, bsty, bps⟩
  obtain ⟨hap, haf⟩ := ha
  obtain ⟨hbp, hbf⟩ := hb
  simp only at hap hbp haf hbf hsame hform hc32 hc16
  subst hap hbp
  cases sform
  · -- int64 ids
    simp only [Bool.false_eq_true, if_false] at hform
    subst hform
    have hbv : bvt = IdTypeInt64Int32 := hsame.symm
    subst hbv
    rcases haf with ⟨_, ha2, ha3, ha4, ha5⟩ | ⟨hx, _⟩
    swap
    · exact absurd hx (by decide)
    rcases hbf with ⟨_, hb2, hb3, hb4, hb5⟩ | ⟨hx, _⟩
    swap
    · exact absurd hx (by decide)
    subst ha2 ha3 hb2 hb3
    cases withProps
    · have hnil := hnp rfl
      subst hnil
      have hr := reads_readEdge d hl ha4 ha5 hb4 hb5
      have hk := Reads_of_eq (Reads_bind (f := fun e => Pure.pure (Element.Edge e)) hr
        (Reads_pure _)) (List.append_nil _) rfl
      cases d
      · exact reads_DecodeExBody (t := 10) (by decide) (by simpa [edgePayload] using hk)
      · exact reads_DecodeExBody (t := 11) (by decide) (by simpa [edgePayload] using hk)
      · exact reads_DecodeExBody (t := 12) (by decide) (by simpa [edgePayload] using hk)
    · have hr := reads_readEdgeWithProperties hD d hl ha4 ha5 hb4 hb5 hps (hc32 rfl)
      have hk := Reads_of_eq (Reads_bind (f := fun e => Pure.pure (Element.Edge e)) hr
        (Reads_pure _)) (List.append_nil _) rfl
      cases d
      · exact reads_DecodeExBody (t := 17) (by decide) (by simpa [edgePayload] using hk)
      · exact reads_DecodeExBody (t := 18) (by decide) (by simpa [edgePayload] using hk)
      · exact reads_DecodeExBody (t := 19) (by decide) (by simpa [edgePayload] using hk)
  · -- string ids
    simp only [if_true] at hform
    subst hform
    have hbv : bvt = IdTypeStringString := hsame.symm
    subst hbv
    rcases haf with ⟨hx, _⟩ | ⟨_, ha2, ha3, ha4, ha5⟩
    · exact absurd hx (by decide)
    rcases hbf with ⟨hx, _⟩ | ⟨_, hb2, hb3, hb4, hb5⟩
    · exact absurd hx (by decide)
    subst ha2 ha3 hb2 hb3
    cases withProps
    · have hnil := hnp rfl
      subst hnil
      have hr := reads_readSEdge d hl ha4 ha5 hb4 hb5
      have hk := Reads_of_eq (Reads_bind (f := fun e => Pure.pure (Element.Edge e)) hr
        (Reads_pure _)) (List.append_nil _) rfl
      cases d
      · exact reads_DecodeExBody (t := 26) (by decide) (by simpa [edgePayload] using hk)
      · exact reads_DecodeExBody (t := 27) (by decide) (by simpa [edgePayload] using hk)
      · exact reads_DecodeExBody (t := 28) (by decide) (by simpa [edgePayload] using hk)
    · have hr := reads_readSEdgeWithProperties hD d hl ha4 ha5 hb4 hb5 hps (hc16 rfl)
      have hk := Reads_of_eq (Reads_bind (f := fun e => Pure.pure (Element.Edge e)) hr
        (Reads_pure _)) (List.append_nil _) rfl
      cases d
      · exact reads_DecodeExBody (t := 29) (by decide) (by simpa [edgePayload] using hk)
      · exact reads_DecodeExBody (t := 30) (by decide) (by simpa [edgePayload] using hk)
      · exact reads_DecodeExBody (t := 31) (by decide) (by simpa [edgePayload] using hk)

theorem Decode_eq (r : baseReader) :
    Decode r = DecodeExBody (DecodeExFuel (r.b.length - r.p)) false r := rfl

theorem DecodeEx_eq (us : Bool) (r : baseReader) :
    DecodeEx us r = DecodeExBody (DecodeExFuel (r.b.length - r.p)) us r := rfl

/-! ## Computations that fail on a given byte sequence -/

theorem Ends_bind_left {α β : Type} {x : Dec α} {f : α → Dec β} {xs : Bytes} {o : Outcome α}
    (hx : Ends x xs o) (ho : o.isOk = false) : Ends (x >>= f) xs (castOutcome o) := by
  intro r rest h
  have h1 := hx r rest h
  show (Dec.bind x f r).1 = _
  unfold Dec.bind
  rcases hxr : x r with ⟨o1, r1⟩
  rw [hxr] at h1
  simp only at h1
  subst h1
  cases o1 with
  | ok a => simp [Outcome.isOk] at ho
  | error e => rfl
  | panic p => rfl
  | outOfFuel => rfl

theorem Ends_bind_right {α β : Type} {x : Dec α} {f : α → Dec β} {xs ys : Bytes} {a : α}
    {o : Outcome β} (hx : Reads x xs a) (hf : Ends (f a) ys o) : Ends (x >>= f) (xs ++ ys) o := by
  intro r rest h
  have h' : r.At (xs ++ (ys ++ rest)) := by simpa [List.append_assoc] using h
  obtain ⟨e1, h1⟩ := hx r _ h'
  rw [Dec.bind_ok e1]
  exact hf _ _ h1

theorem Ends_of_eq {α : Type} {x : Dec α} {xs ys : Bytes} {o : Outcome α}
    (h : Ends x xs o) (hxs : xs = ys) : Ends x ys o := by
  subst hxs; exact h

theorem Ends_of_reads {α : Type} {x : Dec α} {xs : Bytes} {a : α} (h : Reads x xs a) :
    Ends x xs (.ok a) := by
  intro r rest hr
  rw [(h r rest hr).1]

theorem Next_negative (n : Int) (hn : n < 0) (r : baseReader) :
    baseReader.Next n r = (.error .ErrNegativeInt, r) := by
  unfold baseReader.Next
  rw [if_pos hn]

theorem ends_Next_negative (n : Int) (hn : n < 0) :
    Ends (baseReader.Next n) [] (.error .ErrNegativeInt) := by
  intro r rest _
  rw [Next_negative n hn]

theorem ends_ReadBytes_negative {v : Int} (hv : isInt32 v) (hn : v < 0) :
    Ends BigEndianReader.ReadBytes (be32 v) (.error .ErrNegativeInt) := by
  unfold BigEndianReader.ReadBytes
  have h1 : Ends (baseReader.Next v >>= fun b => (Pure.pure b : Dec Bytes)) []
      (.error .ErrNegativeInt) :=
    Ends_bind_left (ends_Next_negative v hn) rfl
  exact Ends_of_eq (Ends_bind_right (reads_ReadInt32 hv) h1) (by simp)

theorem ends_ReadString_negative {v : Int} (hv : isInt32 v) (hn : v < 0) :
    Ends BigEndianReader.ReadString (be32 v) (.error .ErrNegativeInt) := by
  unfold BigEndianReader.ReadString
  exact Ends_bind_left (ends_ReadBytes_negative hv hn) rfl

theorem ends_DecodeExBody {self : Bool → Dec Element} {us : Bool} {t : Nat} {xs : Bytes}
    {o : Outcome Element} (ht : t < 256) (h : Ends (DecodeExSwitch self us t) xs o) :
    Ends (DecodeExBody self us) (byte t :: xs) o := by
  have h1 : Ends ((fun i8 => DecodeExSwitch self us (CoreDataType.ofInt8 i8))
      (int8 ((byte t).toNat : Int))) xs o := by
    show Ends (DecodeExSwitch self us (CoreDataType.ofInt8 (int8 ((byte t).toNat : Int)))) xs o
    rw [ofInt8_byte t ht]; exact h
  exact Ends_bind_right (reads_ReadInt8 (byte t)) h1

theorem Decode_of_ends {xs rest : Bytes} {o : Outcome Element} (nocopy : Bool)
    (h : ∀ self, Ends (DecodeExBody self false) xs o) :
    (Decode (baseReader.Reset { p := 0, b := [], nocopy := false } (xs ++ rest) nocopy)).1 = o := by
  have hat : baseReader.At { p := 0, b := xs ++ rest, nocopy := nocopy } (xs ++ rest) := by
    simp [baseReader.At]
  rw [Decode_eq]
  exact h _ _ _ hat

/-! ## Round trip of the scalars -/

theorem Decode_of_reads {xs : Bytes} {a : Element} (nocopy : Bool)
    (h : ∀ self, Reads (DecodeExBody self false) xs a) :
    Decode (baseReader.Reset { p := 0, b := [], nocopy := false } xs nocopy)
      = (.ok a, { p := xs.length, b := xs, nocopy := nocopy }) := by
  have hat : baseReader.At { p := 0, b := xs, nocopy := nocopy } (xs ++ []) := by
    simp [baseReader.At]
  have := (h (DecodeExFuel (xs.length - 0)) _ _ hat).1
  rw [Decode_eq]
  simpa [baseReader.Reset, baseReader.adv] using this

/-- C1: for every `Bool`, `Int32`, `Int64` and `String` element `v` (the string
shorter than 2^31 bytes), `EncodeTo` into an empty writer succeeds, and
`structure.Decode` on a reader reset to the bytes written returns exactly `v`. -/
theorem C1_scalar_roundtrip (v : Element) (hv : scalarFits v) (nocopy : Bool) :
    (EncodeTo v []).isOk = true ∧
    ∀ bytes, EncodeTo v [] = .ok bytes →
      (Decode (baseReader.Reset { p := 0, b := [], nocopy := false } bytes nocopy)).1 = .ok v := by
  cases v with
  | Bool b =>
    have he : EncodeTo (.Bool b) [] = .ok [byte (if b then 1 else 2)] := by
      cases b
      · simp only [EncodeTo, WriteInt8_eq _ FalseType (by decide)]
        simp [FalseType]
      · simp only [EncodeTo, WriteInt8_eq _ TrueType (by decide)]
        simp [TrueType]
    refine ⟨by rw [he]; rfl, ?_⟩
    intro bytes hb
    rw [he] at hb
    cases hb
    rw [Decode_of_reads nocopy (fun self => reads_Bool self false b)]
  | Int32 x =>
    have he : EncodeTo (.Int32 x) [] = .ok (byte 3 :: be32 x) := by
      simp only [EncodeTo, WriteInt8_eq _ Int32Type (by decide), WriteInt32_eq,
        int32_of_isInt32 x hv]
      simp [Int32Type]
    refine ⟨by rw [he]; rfl, ?_⟩
    intro bytes hb
    rw [he] at hb
    cases hb
    rw [Decode_of_reads nocopy (fun self => reads_Int32 self false hv)]
  | Int64 x =>
    have he : EncodeTo (.Int64 x) [] = .ok (byte 4 :: be64 x) := by
      simp only [EncodeTo, WriteInt8_eq _ Int64Type (by decide), WriteInt64_eq,
        int64_of_isInt64 x hv]
      simp [Int64Type]
    refine ⟨by rw [he]; rfl, ?_⟩
    intro bytes hb
    rw [he] at hb
    cases hb
    rw [Decode_of_reads nocopy (fun self => reads_Int64 self false hv)]
  | String x =>
    have he : EncodeTo (.String x) [] = .ok (byte 7 :: beStr x) := by
      simp only [EncodeTo, WriteInt8_eq _ StringType (by decide), WriteString_eq]
      simp [StringType]
    refine ⟨by rw [he]; rfl, ?_⟩
    intro bytes hb
    rw [he] at hb
    cases hb
    rw [Decode_of_reads nocopy (fun self => reads_String self false hv)]
  | Float32 _ => exact absurd hv (by simp [scalarFits])
  | Float64 _ => exact absurd hv (by simp [scalarFits])
  | Property _ => exact absurd hv (by simp [scalarFits])
  | Vertex _ => exact absurd hv (by simp [scalarFits])
  | Edge _ => exact absurd hv (by simp [scalarFits])
  | Path _ => exact absurd hv (by simp [scalarFits])
  | PathStruct _ => exact absurd hv (by simp [scalarFits])
  | List _ => exact absurd hv (by simp [scalarFits])
  | ListStruct _ => exact absurd hv (by simp [scalarFits])
  | Map _ => exact absurd hv (by simp [scalarFits])
  | MapStruct _ => exact absurd hv (by simp [scalarFits])
  | LinkedMap _ _ => exact absurd hv (by simp [scalarFits])

/-- C1 at `Int64(math.MaxInt64)`: the nine bytes written decode to the same value. -/
theorem C1_scalar_roundtrip_witness :
    scalarFits (.Int64 9223372036854775807) ∧
    (Decode (baseReader.Reset { p := 0, b := [], nocopy := false }
      [4, 127, 255, 255, 255, 255, 255, 255, 255] false)).1 = .ok (.Int64 9223372036854775807) :=
  ⟨by simp [scalarFits, isInt64],
   (C1_scalar_roundtrip (.Int64 9223372036854775807) (by simp [scalarFits, isInt64]) false).2 _ rfl⟩

/-! ## Round trip of properties and vertices -/

theorem EncodeTo_Property (p : Property) (w : BigEndianWriter) :
    EncodeTo (.Property p) w = .ok (w ++ encProperty p) := by
  simp only [EncodeTo]
  exact Property_EncodeTo_eq p w

theorem EncodeTo_Vertex (v : Vertex) (w : BigEndianWriter)
    (hv : v.VType = IdTypeInt64Int32 ∨ v.VType = IdTypeStringString) :
    EncodeTo (.Vertex v) w = .ok (w ++ encVertex v) := by
  simp only [EncodeTo]
  exact Vertex_EncodeTo_eq v w hv

theorem EncodeTo_Edge (e : Edge) (w : BigEndianWriter)
    (he : (e.OutV.VType = IdTypeInt64Int32 ∧ e.InV.VType = IdTypeInt64Int32)
      ∨ (e.OutV.VType = IdTypeStringString ∧ e.InV.VType = IdTypeStringString)) :
    EncodeTo (.Edge e) w = .ok (w ++ encEdge e) := by
  simp only [EncodeTo]
  exact Edge_EncodeTo_eq e w he

/-- C4 (amended): for every Property whose key is shorter than 2^31 bytes and
whose value is a `bool`, an `int32`, an `int64`, a `float32`, a `float64` or a
`string` shorter than 2^31 bytes, `EncodeTo` succeeds and `structure.Decode`
of the bytes written returns a Property with the same key and the same value. -/
theorem C4_property_roundtrip (p : Property) (hp : p.wire) (nocopy : Bool) :
    (EncodeTo (.Property p) []).isOk = true ∧
    ∀ bytes, EncodeTo (.Property p) [] = .ok bytes →
      (Decode (baseReader.Reset { p := 0, b := [], nocopy := false } bytes nocopy)).1
        = .ok (.Property p) := by
  have he := EncodeTo_Property p []
  refine ⟨by rw [he]; rfl, ?_⟩
  intro bytes hb
  rw [he] at hb
  cases hb
  rw [List.nil_append, Decode_of_reads nocopy (fun self => reads_Property self false hp)]

/-- C4 (amended) at `Property{"str", "strstrstrstrtrue"}`. -/
theorem C4_property_roundtrip_witness :
    Property.wire ⟨ascii "str", .string (ascii "strstrstrstrtrue")⟩ ∧
    (Decode (baseReader.Reset { p := 0, b := [], nocopy := false }
      [15, 0, 0, 0, 3, 115, 116, 114, 7, 0, 0, 0, 16, 115, 116, 114, 115, 116, 114, 115, 116,
        114, 115, 116, 114, 116, 114, 117, 101] false)).1
      = .ok (.Property ⟨ascii "str", .string (ascii "strstrstrstrtrue")⟩) :=
  ⟨by simp [Property.wire, PropertyValue.valid, PropertyValue.fits, ascii],
   (C4_property_roundtrip ⟨ascii "str", .string (ascii "strstrstrstrtrue")⟩
      (by simp [Property.wire, PropertyValue.valid, PropertyValue.fits, ascii]) false).2 _ rfl⟩

theorem decode_property_long_string (key s : Bytes) (hk : key.length < 2 ^ 31)
    (hs : s.length = 2147483648) (nocopy : Bool) :
    (Decode (baseReader.Reset { p := 0, b := [], nocopy := false }
      (encProperty ⟨key, .string s⟩) nocopy)).1 = .error .ErrNegativeInt := by
  have hv : isInt32 (int32 (s.length : Int)) := isInt32_int32 _
  have hn : int32 (s.length : Int) < 0 := by rw [hs]; unfold int32; omega
  have hsplit : encProperty ⟨key, .string s⟩
      = (byte 15 :: (beStr key ++ (byte 7 :: be32 (int32 s.length)))) ++ s := by
    simp [encProperty, encValue, beStr]
  rw [hsplit]
  refine Decode_of_ends nocopy (fun self => ?_)
  refine ends_DecodeExBody (t := 15) (by decide) ?_
  have hval : Ends decodeValue (byte 7 :: be32 (int32 s.length)) (.error .ErrNegativeInt) := by
    unfold decodeValue
    have h7 : Ends ((fun (_ : Int) => (BigEndianReader.ReadBytes >>= fun s =>
        (Pure.pure (PropertyValue.string s) : Dec PropertyValue))) (int8 ((byte 7).toNat : Int)))
        (be32 (int32 s.length)) (.error .ErrNegativeInt) :=
      Ends_bind_left (ends_ReadBytes_negative hv hn) rfl
    refine Ends_bind_right (reads_ReadInt8 (byte 7)) ?_
    beta_reduce
    rw [ofInt8_byte 7 (by decide)]
    exact h7
  exact Ends_bind_right (reads_ReadString hk)
    (Ends_bind_left (f := fun value => (Pure.pure (Element.Property { Key := key, Value := value })
      : Dec Element)) hval rfl)

/-- C4 fails as stated at a Property whose string value has 2^31 bytes: the
length written is `int32(2^31) = -2^31`, and decoding the bytes written ends
with `ErrNegativeInt` instead of returning the Property. -/
theorem C4_counterexample :
    ∃ bytes, EncodeTo (.Property ⟨[], .string (List.replicate 2147483648 0)⟩) [] = .ok bytes ∧
      (Decode (baseReader.Reset { p := 0, b := [], nocopy := false } bytes false)).1
        = .error .ErrNegativeInt :=
  ⟨_, EncodeTo_Property _ [], by
    rw [List.nil_append]
    exact decode_property_long_string [] _ (by decide) (List.length_replicate _ _) false⟩

/-- C2 (amended): for every Vertex in int64-id form (`SId` and `SType` empty)
or in string-id form (`Id` and `Type` zero) whose strings (`SId`, `SType`,
property keys, string values) are shorter than 2^31 bytes and whose property
list holds fewer than 32768 Properties with values of type bool, int32, int64,
float32, float64 or string, `EncodeTo` succeeds and `structure.Decode` of the
bytes written returns the same Vertex: same id form, same identity fields and
same properties in the same order. -/
theorem C2_vertex_roundtrip (v : Vertex)
    (hform : (v.VType = IdTypeInt64Int32 ∧ v.SId = [] ∧ v.SType = [])
      ∨ (v.VType = IdTypeStringString ∧ v.Id = 0 ∧ v.Type_ = 0))
    (hint : isInt64 v.Id ∧ isInt32 v.Type_)
    (hstr : v.SId.length < 2 ^ 31 ∧ v.SType.length < 2 ^ 31)
    (hcount : v.Properties.length < 32768)
    (hps : ∀ p ∈ v.Properties, p.wire) (nocopy : Bool) :
    (EncodeTo (.Vertex v) []).isOk = true ∧
    ∀ bytes, EncodeTo (.Vertex v) [] = .ok bytes →
      (Decode (baseReader.Reset { p := 0, b := [], nocopy := false } bytes nocopy)).1
        = .ok (.Vertex v) := by
  have hw : v.wire := by
    refine ⟨?_, hps⟩
    rcases hform with ⟨h1, h2, h3⟩ | ⟨h1, h2, h3⟩
    · exact Or.inl ⟨h1, h2, h3, hint.1, hint.2, by omega⟩
    · exact Or.inr ⟨h1, h2, h3, hstr.1, hstr.2, by omega⟩
  have hvt : v.VType = IdTypeInt64Int32 ∨ v.VType = IdTypeStringString := by
    rcases hform with ⟨h1, _⟩ | ⟨h1, _⟩
    · exact Or.inl h1
    · exact Or.inr h1
  have he := EncodeTo_Vertex v [] hvt
  refine ⟨by rw [he]; rfl, ?_⟩
  intro bytes hb
  rw [he] at hb
  cases hb
  have hat : baseReader.At { p := 0, b := encVertex v, nocopy := nocopy } (encVertex v ++ []) := by
    simp [baseReader.At]
  have hne : 0 < (encVertex v).length := by
    unfold encVertex
    split <;> split <;> simp
  have hfuel : (encVertex v).length - 0 = ((encVertex v).length - 1) + 1 := by omega
  have hr := (reads_Vertex (readsProperties_fuel ((encVertex v).length - 1)) false hw _ _ hat).1
  rw [List.nil_append, Decode_eq]
  show (DecodeExBody (DecodeExFuel ((encVertex v).length - 0)) false _).1 = _
  rw [hfuel]
  simpa [baseReader.Reset, baseReader.adv] using congrArg Prod.fst hr

/-- C2 (amended) at `Vertex{SId: "id", SType: "type"}` with the property
`{"abc", int32(1024)}`. -/
theorem C2_vertex_roundtrip_witness :
    (Decode (baseReader.Reset { p := 0, b := [], nocopy := false }
      [25, 0, 0, 0, 2, 105, 100, 0, 0, 0, 4, 116, 121, 112, 101, 0, 1,
        15, 0, 0, 0, 3, 97, 98, 99, 3, 0, 0, 4, 0] false)).1
      = .ok (.Vertex ⟨0, 0, IdTypeStringString, [105, 100], [116, 121, 112, 101],
          [⟨[97, 98, 99], .int32 1024⟩]⟩) :=
  (C2_vertex_roundtrip ⟨0, 0, IdTypeStringString, [105, 100], [116, 121, 112, 101],
      [⟨[97, 98, 99], .int32 1024⟩]⟩
    (Or.inr ⟨rfl, rfl, rfl⟩) (by simp [isInt64, isInt32]) (by simp) (by simp)
    (by simp [Property.wire, PropertyValue.valid, PropertyValue.fits, isInt32]) false).2 _ rfl

theorem decode_vertex_long_sid (sid stype : Bytes) (hs : sid.length = 2147483648)
    (nocopy : Bool) :
    (Decode (baseReader.Reset { p := 0, b := [], nocopy := false }
      (encVertex ⟨0, 0, IdTypeStringString, sid, stype, []⟩) nocopy)).1
      = .error .ErrNegativeInt := by
  have hv : isInt32 (int32 (sid.length : Int)) := isInt32_int32 _
  have hn : int32 (sid.length : Int) < 0 := by rw [hs]; unfold int32; omega
  have hsplit : encVertex ⟨0, 0, IdTypeStringString, sid, stype, []⟩
      = (byte 24 :: be32 (int32 sid.length)) ++ (sid ++ beStr stype) := by
    have h0 : ¬ (IdTypeStringString = IdTypeInt64Int32) := by decide
    simp [encVertex, h0, beStr]
  rw [hsplit]
  refine Decode_of_ends nocopy (fun self => ?_)
  refine ends_DecodeExBody (t := 24) (by decide) ?_
  have h1 : Ends readSVertex (be32 (int32 sid.length)) (.error .ErrNegativeInt) := by
    unfold readSVertex
    exact Ends_bind_left (ends_ReadString_negative hv hn) rfl
  exact Ends_bind_left (f := fun v => (Pure.pure (Element.Vertex v) : Dec Element)) h1 rfl

/-- C2 fails as stated at the string-id Vertex (no properties) whose `SId` has
2^31 bytes: the length written is `int32(2^31) = -2^31`, and decoding the bytes
written ends with `ErrNegativeInt` instead of returning the Vertex. -/
theorem C2_counterexample :
    ∃ bytes,
      EncodeTo (.Vertex ⟨0, 0, IdTypeStringString, List.replicate 2147483648 0, [], []⟩) []
        = .ok bytes ∧
      (Decode (baseReader.Reset { p := 0, b := [], nocopy := false } bytes false)).1
        = .error .ErrNegativeInt :=
  ⟨_, EncodeTo_Vertex _ [] (Or.inr rfl), by
    rw [List.nil_append]
    exact decode_vertex_long_sid _ [] (List.length_replicate _ _) false⟩

/-- C6: the first byte `EncodeTo` writes is taken from the stored `VType` and
from whether the property list is empty: an int64-form Vertex writes 8 without
properties and 16 with at least one, a string-form Vertex 24 / 25, an Edge with
int64-form endpoints 10 / 17 and an Edge with string-form endpoints 26 / 29;
nothing else of the value (ids, strings, sizes) is looked at. -/
theorem C6_first_byte :
    (∀ v : Vertex, v.VType = IdTypeInt64Int32 → ∃ rest,
      EncodeTo (.Vertex v) [] = .ok (byte (if v.Properties = [] then VertexType
        else VertexWithPropertiesType) :: rest))
    ∧ (∀ v : Vertex, v.VType = IdTypeStringString → ∃ rest,
      EncodeTo (.Vertex v) [] = .ok (byte (if v.Properties = [] then SVertexType
        else SVertexWithPropertiesType) :: rest))
    ∧ (∀ e : Edge, e.OutV.VType = IdTypeInt64Int32 → e.InV.VType = IdTypeInt64Int32 → ∃ rest,
      EncodeTo (.Edge e) [] = .ok (byte (if e.Properties = [] then ForwardEdgeType
        else ForwardEdgeWithPropertiesType) :: rest))
    ∧ (∀ e : Edge, e.OutV.VType = IdTypeStringString → e.InV.VType = IdTypeStringString →
      ∃ rest, EncodeTo (.Edge e) [] = .ok (byte (if e.Properties = [] then ForwardSEdgeType
        else ForwardSEdgeWithPropertiesType) :: rest)) := by
  have h0 : ¬ (IdTypeStringString = IdTypeInt64Int32) := by decide
  refine ⟨?_, ?_, ?_, ?_⟩
  · intro v hv
    rw [EncodeTo_Vertex v [] (Or.inl hv)]
    unfold encVertex
    by_cases hn : v.Properties = []
    · exact ⟨_, by simp [hv, hn, VertexType]; rfl⟩
    · exact ⟨_, by simp [hv, hn, VertexWithPropertiesType]; rfl⟩
  · intro v hv
    rw [EncodeTo_Vertex v [] (Or.inr hv)]
    unfold encVertex
    by_cases hn : v.Properties = []
    · exact ⟨_, by simp [hv, h0, hn, SVertexType]; rfl⟩
    · exact ⟨_, by simp [hv, h0, hn, SVertexWithPropertiesType]; rfl⟩
  · intro e h1 h2
    rw [EncodeTo_Edge e [] (Or.inl ⟨h1, h2⟩)]
    unfold encEdge
    by_cases hn : e.Properties = []
    · exact ⟨_, by simp [h1, hn, ForwardEdgeType]; rfl⟩
    · exact ⟨_, by simp [h1, hn, ForwardEdgeWithPropertiesType]; rfl⟩
  · intro e h1 h2
    rw [EncodeTo_Edge e [] (Or.inr ⟨h1, h2⟩)]
    unfold encEdge
    by_cases hn : e.Properties = []
    · exact ⟨_, by simp [h1, h0, hn, ForwardSEdgeType]; rfl⟩
    · exact ⟨_, by simp [h1, h0, hn, ForwardSEdgeWithPropertiesType]; rfl⟩

/-! ## Edges: directions, round trip and `Eq` -/

theorem Decode_of_reads_properties {xs : Bytes} {a : Element} (nocopy : Bool) (hne : 0 < xs.length)
    (h : ∀ self, ReadsProperties self → Reads (DecodeExBody self false) xs a) :
    (Decode (baseReader.Reset { p := 0, b := [], nocopy := false } xs nocopy)).1 = .ok a := by
  have hat : baseReader.At { p := 0, b := xs, nocopy := nocopy } (xs ++ []) := by
    simp [baseReader.At]
  have hfuel : xs.length - 0 = (xs.length - 1) + 1 := by omega
  have hr := (h _ (readsProperties_fuel (xs.length - 1)) _ _ hat).1
  rw [Decode_eq]
  show (DecodeExBody (DecodeExFuel (xs.length - 0)) false _).1 = _
  rw [hfuel]
  simpa [baseReader.Reset, baseReader.adv] using congrArg Prod.fst hr

theorem encEdge_eq_payload (e : Edge)
    (hform : e.OutV.VType = IdTypeInt64Int32 ∨ e.OutV.VType = IdTypeStringString) :
    encEdge e = byte (edgeTag (decide (e.OutV.VType = IdTypeStringString))
        (decide (e.Properties ≠ [])) .DirectionType_Forward)
      :: edgePayload (decide (e.OutV.VType = IdTypeStringString)) (decide (e.Properties ≠ []))
        e.Type_ e.OutV e.InV e.Properties := by
  have h0 : ¬ (IdTypeStringString = IdTypeInt64Int32) := by decide
  have h1 : ¬ (IdTypeInt64Int32 = IdTypeStringString) := by decide
  unfold encEdge edgePayload
  rcases hform with h | h
  · by_cases hn : e.Properties = []
    · simp [h, h1, hn, edgeTag, ForwardEdgeType]
    · have hl : e.Properties.length ≠ 0 := fun hh => hn (List.length_eq_zero.mp hh)
      simp [h, h1, hn, hl, edgeTag, ForwardEdgeWithPropertiesType]
  · by_cases hn : e.Properties = []
    · simp [h, h0, hn, edgeTag, ForwardSEdgeType]
    · have hl : e.Properties.length ≠ 0 := fun hh => hn (List.length_eq_zero.mp hh)
      simp [h, h0, hn, hl, edgeTag, ForwardSEdgeWithPropertiesType]

/-- C7: for every well-formed edge payload (label, first endpoint `a`, second
endpoint `b`, and under a with-properties tag a property count and the
properties), in either id form: decoding it under the Forward tag and under
the corresponding Double tag yields the Edge with `OutV = a` and `InV = b`, and
decoding it under the corresponding Reverse tag yields the Edge with `OutV = b`
and `InV = a`, with the same label and properties. -/
theorem C7_edge_direction (sform withProps : Bool) (label : Bytes) (a b : Vertex)
    (ps : List Property) (hw : Edge.wire ⟨a, b, label, ps⟩)
    (hform : a.VType = if sform then IdTypeStringString else IdTypeInt64Int32)
    (hnp : withProps = false → ps = []) (nocopy : Bool) :
    (Decode (baseReader.Reset { p := 0, b := [], nocopy := false }
        (byte (edgeTag sform withProps .DirectionType_Forward)
          :: edgePayload sform withProps label a b ps) nocopy)).1
      = .ok (.Edge ⟨a, b, label, ps⟩)
    ∧ (Decode (baseReader.Reset { p := 0, b := [], nocopy := false }
        (byte (edgeTag sform withProps .DirectionType_Double)
          :: edgePayload sform withProps label a b ps) nocopy)).1
      = .ok (.Edge ⟨a, b, label, ps⟩)
    ∧ (Decode (baseReader.Reset { p := 0, b := [], nocopy := false }
        (byte (edgeTag sform withProps .DirectionType_Reverse)
          :: edgePayload sform withProps label a b ps) nocopy)).1
      = .ok (.Edge ⟨b, a, label, ps⟩) := by
  refine ⟨?_, ?_, ?_⟩
  · exact Decode_of_reads_properties nocopy (by simp) (fun self hself =>
      reads_edgePayload hself false sform withProps .DirectionType_Forward hw hform hnp)
  · exact Decode_of_reads_properties nocopy (by simp) (fun self hself =>
      reads_edgePayload hself false sform withProps .DirectionType_Double hw hform hnp)
  · exact Decode_of_reads_properties nocopy (by simp) (fun self hself =>
      reads_edgePayload hself false sform withProps .DirectionType_Reverse hw hform hnp)

/-- C7 at the payload of the edge `like` from vertex (1, 1002) to vertex
(2, 1002): tags 10 and 12 give `OutV = (1, 1002)`, tag 11 gives `OutV = (2, 1002)`. -/
theorem C7_edge_direction_witness :
    (Decode (baseReader.Reset { p := 0, b := [], nocopy := false }
        [10, 0, 0, 0, 4, 108, 105, 107, 101, 0, 0, 0, 0, 0, 0, 0, 1, 0, 0, 3, 234,
          0, 0, 0, 0, 0, 0, 0, 2, 0, 0, 3, 234] false)).1
      = .ok (.Edge ⟨⟨1, 1002, 0, [], [], []⟩, ⟨2, 1002, 0, [], [], []⟩, [108, 105, 107, 101], []⟩)
    ∧ (Decode (baseReader.Reset { p := 0, b := [], nocopy := false }
        [12, 0, 0, 0, 4, 108, 105, 107, 101, 0, 0, 0, 0, 0, 0, 0, 1, 0, 0, 3, 234,
          0, 0, 0, 0, 0, 0, 0, 2, 0, 0, 3, 234] false)).1
      = .ok (.Edge ⟨⟨1, 1002, 0, [], [], []⟩, ⟨2, 1002, 0, [], [], []⟩, [108, 105, 107, 101], []⟩)
    ∧ (Decode (baseReader.Reset { p := 0, b := [], nocopy := false }
        [11, 0, 0, 0, 4, 108, 105, 107, 101, 0, 0, 0, 0, 0, 0, 0, 1, 0, 0, 3, 234,
          0, 0, 0, 0, 0, 0, 0, 2, 0, 0, 3, 234] false)).1
      = .ok (.Edge ⟨⟨2, 1002, 0, [], [], []⟩, ⟨1, 1002, 0, [], [], []⟩, [108, 105, 107, 101], []⟩) :=
  C7_edge_direction false false [108, 105, 107, 101] ⟨1, 1002, 0, [], [], []⟩
    ⟨2, 1002, 0, [], [], []⟩ []
    (by simp [Edge.wire, Vertex.endpoint, isInt64, isInt32, IdTypeInt64Int32, IdTypeStringString])
    rfl (fun _ => rfl) false

theorem kvSet_fresh (kv : List (Bytes × PropertyValue)) (key : Bytes) (value : PropertyValue)
    (h : key ∉ kv.map (fun e => e.1)) : kvSet kv key value = kv ++ [(key, value)] := by
  unfold kvSet
  have : kv.any (fun e => e.1 == key) = false := by
    rw [List.any_eq_false]
    intro e he heq
    have : e.1 = key := by simpa using heq
    exact h (by rw [← this]; exact List.mem_map_of_mem _ he)
  rw [this]
  simp

theorem foldl_kvSet_nodup (ps : List Property) (acc : List (Bytes × PropertyValue))
    (h : (acc.map (fun e => e.1) ++ ps.map (fun p => p.Key)).Nodup) :
    ps.foldl (fun kv prop => kvSet kv prop.Key prop.Value) acc
      = acc ++ ps.map (fun p => (p.Key, p.Value)) := by
  induction ps generalizing acc with
  | nil => simp
  | cons p ps ih =>
    have hfresh : p.Key ∉ acc.map (fun e => e.1) := by
      intro hmem
      rw [List.nodup_append] at h
      exact h.2.2 hmem (List.mem_cons_self _ _)
    rw [List.foldl_cons, kvSet_fresh acc p.Key p.Value hfresh]
    rw [ih]
    · simp
    · have : (acc ++ [(p.Key, p.Value)]).map (fun e => e.1) ++ ps.map (fun p => p.Key)
          = acc.map (fun e => e.1) ++ (p :: ps).map (fun p => p.Key) := by simp
      rw [this]; exact h

theorem kvOf_nodup (ps : List Property) (h : (ps.map (fun p => p.Key)).Nodup) :
    kvOf ps = ps.map (fun p => (p.Key, p.Value)) := by
  unfold kvOf
  rw [foldl_kvSet_nodup ps [] (by simpa using h)]
  simp

theorem propertiesMatch_self (ps : List Property) (h : (ps.map (fun p => p.Key)).Nodup)
    (hv : ∀ p ∈ ps, valueEq p.Value p.Value = true) :
    propertiesMatch (ps.map (fun p => (p.Key, p.Value))) ps = true := by
  induction ps with
  | nil => simp [propertiesMatch]
  | cons p ps ih =>
    rw [List.map_cons, List.nodup_cons] at h
    have hget : kvGet ((p.Key, p.Value) :: ps.map (fun p => (p.Key, p.Value))) p.Key
        = some p.Value := by
      simp [kvGet]
    have hdel : kvDelete ((p.Key, p.Value) :: ps.map (fun p => (p.Key, p.Value))) p.Key
        = ps.map (fun p => (p.Key, p.Value)) := by
      unfold kvDelete
      rw [List.filter_cons]
      simp only [beq_self_eq_true, Bool.not_true, Bool.false_eq_true, if_false]
      rw [List.filter_eq_self]
      intro e he
      rw [List.mem_map] at he
      obtain ⟨q, hq, rfl⟩ := he
      have : q.Key ≠ p.Key := fun heq => h.1 (by rw [← heq]; exact List.mem_map_of_mem _ hq)
      simpa using this
    rw [List.map_cons]
    unfold propertiesMatch
    rw [hget]
    simp only [hv p (List.mem_cons_self _ _), if_true, hdel]
    exact ih h.2 (fun q hq => hv q (List.mem_cons_of_mem _ hq))

theorem Vertex.Eq_endpoint (v : Vertex) (hv : v.endpoint) (strict : Bool) :
    v.Eq (.Vertex v) strict = .ok true := by
  obtain ⟨hp, hf⟩ := hv
  unfold Vertex.Eq
  have hvt : ¬ (v.VType ≠ IdTypeInt64Int32 ∧ v.VType ≠ IdTypeStringString) := by
    rcases hf with ⟨h, _⟩ | ⟨h, _⟩
    · exact fun hh => hh.1 h
    · exact fun hh => hh.2 h
  simp [hvt, hp, propertiesMatch]

theorem Edge.Eq_self (e : Edge) (ho : e.OutV.endpoint) (hi : e.InV.endpoint)
    (hk : (e.Properties.map (fun p => p.Key)).Nodup)
    (hv : ∀ p ∈ e.Properties, valueEq p.Value p.Value = true) (strict : Bool) :
    e.Eq (.Edge e) strict = .ok true := by
  unfold Edge.Eq
  simp only [ne_eq, not_true_eq_false, if_false, Vertex.Eq_endpoint _ ho, Vertex.Eq_endpoint _ hi]
  rw [kvOf_nodup _ hk, propertiesMatch_self _ hk hv]

/-- C3 (amended): for every Edge whose two endpoint vertices use the same id
form and carry nothing but the identity of that form (no properties of their
own), whose strings are shorter than 2^31 bytes, whose properties fit the count
field (fewer than 2^31 for int64 ids, fewer than 32768 for string ids), have
the six supported value types, pairwise distinct keys and no NaN value:
`EncodeTo` succeeds, `structure.Decode` of the bytes written returns the same
Edge, and that Edge is strictly equal (`Eq` with `strict = true`) to the
original. -/
theorem C3_edge_roundtrip (e : Edge) (hw : e.wire)
    (hk : (e.Properties.map (fun p => p.Key)).Nodup)
    (hv : ∀ p ∈ e.Properties, valueEq p.Value p.Value = true) (nocopy : Bool) :
    (EncodeTo (.Edge e) []).isOk = true ∧
    ∀ bytes, EncodeTo (.Edge e) [] = .ok bytes →
      ∃ d : Edge,
        (Decode (baseReader.Reset { p := 0, b := [], nocopy := false } bytes nocopy)).1
          = .ok (.Edge d)
        ∧ d = e ∧ d.Eq (.Edge e) true = .ok true := by
  have hform : e.OutV.VType = IdTypeInt64Int32 ∨ e.OutV.VType = IdTypeStringString := by
    rcases hw.1.2 with ⟨h, _⟩ | ⟨h, _⟩
    · exact Or.inl h
    · exact Or.inr h
  have hboth : (e.OutV.VType = IdTypeInt64Int32 ∧ e.InV.VType = IdTypeInt64Int32)
      ∨ (e.OutV.VType = IdTypeStringString ∧ e.InV.VType = IdTypeStringString) := by
    rcases hform with h | h
    · exact Or.inl ⟨h, by rw [← hw.2.2.1]; exact h⟩
    · exact Or.inr ⟨h, by rw [← hw.2.2.1]; exact h⟩
  have he := EncodeTo_Edge e [] hboth
  refine ⟨by rw [he]; rfl, ?_⟩
  intro bytes hb
  rw [he] at hb
  cases hb
  refine ⟨e, ?_, rfl, Edge.Eq_self e hw.1 hw.2.1 hk hv true⟩
  rw [List.nil_append, encEdge_eq_payload e hform]
  have hsf : e.OutV.VType = if decide (e.OutV.VType = IdTypeStringString) = true
      then IdTypeStringString else IdTypeInt64Int32 := by
    rcases hform with h | h
    · rw [h]; rfl
    · rw [h]; rfl
  have hnp : decide (e.Properties ≠ []) = false → e.Properties = [] := by
    intro h
    simpa using h
  exact Decode_of_reads_properties nocopy (by simp) (fun self hself =>
    reads_edgePayload hself false _ _ .DirectionType_Forward hw hsf hnp)

/-- C3 (amended) at the string-id edge `knows` from `(a, person)` to
`(b, person)` with the properties `{"w", int32(7)}` and `{"ok", true}`. -/
theorem C3_edge_roundtrip_witness :
    ∃ d : Edge,
      (Decode (baseReader.Reset { p := 0, b := [], nocopy := false }
        [29, 0, 0, 0, 5, 107, 110, 111, 119, 115, 0, 0, 0, 1, 97, 0, 0, 0, 6, 112, 101, 114, 115, 111, 110, 0, 0, 0, 1, 98, 0, 0, 0, 6, 112, 101, 114, 115, 111, 110, 0, 2, 15, 0, 0, 0, 1, 119, 3, 0, 0, 0, 7, 15, 0, 0, 0, 2, 111, 107, 1] false)).1 = .ok (.Edge d)
      ∧ d = ⟨⟨0, 0, IdTypeStringString, [97], [112, 101, 114, 115, 111, 110], []⟩,
          ⟨0, 0, IdTypeStringString, [98], [112, 101, 114, 115, 111, 110], []⟩, [107, 110, 111, 119, 115],
          [⟨[119], .int32 7⟩, ⟨[111, 107], .bool true⟩]⟩
      ∧ d.Eq (.Edge ⟨⟨0, 0, IdTypeStringString, [97], [112, 101, 114, 115, 111, 110], []⟩,
          ⟨0, 0, IdTypeStringString, [98], [112, 101, 114, 115, 111, 110], []⟩, [107, 110, 111, 119, 115],
          [⟨[119], .int32 7⟩, ⟨[111, 107], .bool true⟩]⟩) true = .ok true :=
  (C3_edge_roundtrip ⟨⟨0, 0, IdTypeStringString, [97], [112, 101, 114, 115, 111, 110], []⟩,
      ⟨0, 0, IdTypeStringString, [98], [112, 101, 114, 115, 111, 110], []⟩, [107, 110, 111, 119, 115],
      [⟨[119], .int32 7⟩, ⟨[111, 107], .bool true⟩]⟩
    (by simp [Edge.wire, Vertex.endpoint, Property.wire, PropertyValue.valid, PropertyValue.fits,
      isInt32, IdTypeInt64Int32, IdTypeStringString])
    (by decide) (by simp [valueEq]) false).2 _ rfl

/-- C3 fails as stated at the edge from vertex 1 to vertex 2 whose `OutV`
carries the property `{"a", int32(1)}`: both endpoints are in int64-id form,
`Edge.EncodeTo` writes only the identity of the endpoints, the decoded edge has
an `OutV` without properties, and `Eq` of the decoded edge with the original
is false. -/
theorem C3_counterexample :
    EncodeTo (.Edge ⟨⟨1, 0, IdTypeInt64Int32, [], [], [⟨[97], .int32 1⟩]⟩,
        ⟨2, 0, IdTypeInt64Int32, [], [], []⟩, [], []⟩) []
      = .ok [10, 0, 0, 0, 0, 0, 0, 0, 0, 0, 0, 0, 1, 0, 0, 0, 0, 0, 0, 0, 0, 0, 0, 0, 2, 0, 0, 0, 0]
    ∧ (Decode (baseReader.Reset { p := 0, b := [], nocopy := false }
        [10, 0, 0, 0, 0, 0, 0, 0, 0, 0, 0, 0, 1, 0, 0, 0, 0, 0, 0, 0, 0, 0, 0, 0, 2, 0, 0, 0, 0] false)).1
      = .ok (.Edge ⟨⟨1, 0, IdTypeInt64Int32, [], [], []⟩,
          ⟨2, 0, IdTypeInt64Int32, [], [], []⟩, [], []⟩)
    ∧ Edge.Eq ⟨⟨1, 0, IdTypeInt64Int32, [], [], []⟩, ⟨2, 0, IdTypeInt64Int32, [], [], []⟩, [], []⟩
        (.Edge ⟨⟨1, 0, IdTypeInt64Int32, [], [], [⟨[97], .int32 1⟩]⟩,
          ⟨2, 0, IdTypeInt64Int32, [], [], []⟩, [], []⟩) true
      = .ok false :=
  ⟨rfl, rfl, rfl⟩

end Structure

theorem NoFuel_ok {α : Type} (a : α) : NoFuel (Outcome.ok a) := by simp [NoFuel]
theorem NoFuel_pure {α : Type} (a : α) : NoFuel (Pure.pure a : Outcome α) := by
  show NoFuel (Outcome.ok a); simp [NoFuel]
theorem NoFuel_error {α : Type} (e : GoError) : NoFuel (Outcome.error e : Outcome α) := by
  simp [NoFuel]
theorem NoFuel_panic {α : Type} (e : Panic) : NoFuel (Outcome.panic e : Outcome α) := by
  simp [NoFuel]

theorem NoFuel_bind {α β : Type} {x : Outcome α} {f : α → Outcome β}
    (hx : NoFuel x) (hf : ∀ a, NoFuel (f a)) : NoFuel (x >>= f) := by
  show NoFuel (Outcome.bind x f)
  unfold Outcome.bind
  cases x with
  | ok a => exact hf a
  | error e => simp [NoFuel]
  | panic e => simp [NoFuel]
  | outOfFuel => exact absurd rfl hx

namespace Protocol

theorem Tot_pure {α : Type} (j : Nat) (a : α) : Tot j (Pure.pure a : Dec α) := by
  intro r hp _
  refine ⟨by simp [pure_run], ?_⟩
  intro a' r' h
  rw [pure_run] at h
  cases h
  exact ⟨rfl, rfl, Nat.le_refl _, hp⟩

theorem Tot_fail {α : Type} (j : Nat) (e : GoError) : Tot j (Dec.fail e : Dec α) := by
  intro r _ _
  refine ⟨by simp [Dec.fail], ?_⟩
  intro a' r' h
  simp [Dec.fail] at h

theorem Tot_abort {α : Type} (j : Nat) (e : Panic) : Tot j (Dec.abort e : Dec α) := by
  intro r _ _
  refine ⟨by simp [Dec.abort], ?_⟩
  intro a' r' h
  simp [Dec.abort] at h

theorem Tot_lift {α : Type} (j : Nat) (o : Outcome α) (ho : NoFuel o) : Tot j (Dec.lift o) := by
  intro r hp _
  refine ⟨by simpa [Dec.lift] using ho, ?_⟩
  intro a' r' h
  simp only [Dec.lift, Prod.mk.injEq] at h
  obtain ⟨_, h2⟩ := h
  subst h2
  exact ⟨rfl, rfl, Nat.le_refl _, hp⟩

theorem Tot_bind {α β : Type} {j : Nat} {x : Dec α} {f : α → Dec β}
    (hx : Tot j x) (hf : ∀ a, Tot j (f a)) : Tot j (x >>= f) := by
  intro r hp hj
  obtain ⟨h1, h2⟩ := hx r hp hj
  show (Dec.bind x f r).1 ≠ _ ∧ ∀ a r', Dec.bind x f r = _ → _
  unfold Dec.bind
  rcases hxr : x r with ⟨o, r1⟩
  rw [hxr] at h1 h2
  cases o with
  | ok a =>
    obtain ⟨hb, hn, hle, hle2⟩ := h2 a r1 rfl
    have hp1 : r1.p ≤ r1.b.length := by rw [hb]; exact hle2
    have hj1 : r1.b.length - r1.p ≤ j := by rw [hb]; omega
    obtain ⟨h3, h4⟩ := hf a r1 hp1 hj1
    refine ⟨h3, ?_⟩
    intro b r' h
    obtain ⟨hb', hn', hle', hle2'⟩ := h4 b r' h
    refine ⟨by rw [hb', hb], by rw [hn', hn], by omega, by rw [hb] at hle2'; exact hle2'⟩
  | error e => exact ⟨by simp, by intro a r' h; simp at h⟩
  | panic e => exact ⟨by simp, by intro a r' h; simp at h⟩
  | outOfFuel => exact absurd rfl h1

theorem Tot_Next (j : Nat) (n : Int) : Tot j (baseReader.Next n) := by
  intro r hp _
  unfold baseReader.Next
  split
  · exact ⟨by simp, by intro a r' h; simp at h⟩
  · split
    · exact ⟨by simp, by intro a r' h; simp at h⟩
    · simp only []
      split
      · exact ⟨by simp, by intro a r' h; simp at h⟩
      · rename_i h1 h2 h3
        refine ⟨by simp, ?_⟩
        intro a r' h
        simp only [Prod.mk.injEq] at h
        obtain ⟨_, hr⟩ := h
        subst hr
        simp only [List.length_drop] at h3
        refine ⟨rfl, rfl, by simp, ?_⟩
        show r.p + n.toNat ≤ r.b.length
        omega

theorem Tot_PeekInt8 (j : Nat) : Tot j baseReader.PeekInt8 := by
  intro r hp _
  unfold baseReader.PeekInt8
  cases h : r.b.get? r.p with
  | none => simp
  | some x =>
    refine ⟨by simp, ?_⟩
    intro a r' h
    simp only [Prod.mk.injEq] at h
    obtain ⟨_, hr⟩ := h
    subst hr
    exact ⟨rfl, rfl, Nat.le_refl _, hp⟩

theorem Tot_ReadInt8 (j : Nat) : Tot j baseReader.ReadInt8 :=
  Tot_bind (Tot_Next j 1) (fun _ => Tot_pure j _)

theorem Tot_ReadInt32 (j : Nat) : Tot j BigEndianReader.ReadInt32 :=
  Tot_bind (Tot_Next j 4) (fun _ => Tot_pure j _)

end Protocol
namespace Columnar
open Protocol

theorem NoFuel_rawRead (c : Column) (off w : Nat) : NoFuel (c.rawRead off w) := by
  unfold Column.rawRead; split <;> simp [NoFuel]

theorem NoFuel_GetString (c : Column) (row : Nat) : NoFuel (c.GetString row) := by
  unfold Column.GetString; split <;> (try split) <;> simp [NoFuel]

theorem NoFuel_GetInt32 (c : Column) (row : Nat) : NoFuel (c.GetInt32 row) := by
  unfold Column.GetInt32
  have := NoFuel_rawRead c (row * 4) 4
  split <;> simp_all [NoFuel]

theorem NoFuel_GetInt64 (c : Column) (row : Nat) : NoFuel (c.GetInt64 row) := by
  unfold Column.GetInt64
  have := NoFuel_rawRead c (row * 8) 8
  split <;> simp_all [NoFuel]

theorem NoFuel_GetBool (c : Column) (row : Nat) : NoFuel (c.GetBool row) := by
  unfold Column.GetBool
  have := NoFuel_rawRead c row 1
  split <;> simp_all [NoFuel]

theorem NoFuel_GetFloat32 (c : Column) (row : Nat) : NoFuel (c.GetFloat32 row) := by
  unfold Column.GetFloat32
  have := NoFuel_rawRead c (row * 4) 4
  split <;> simp_all [NoFuel]

theorem NoFuel_GetFloat64 (c : Column) (row : Nat) : NoFuel (c.GetFloat64 row) := by
  unfold Column.GetFloat64
  have := NoFuel_rawRead c (row * 8) 8
  split <;> simp_all [NoFuel]

theorem NoFuel_IsNull (c : Column) (row : Nat) : NoFuel (c.IsNull row) := by
  unfold Column.IsNull; split <;> simp [NoFuel]

theorem NoFuel_Column (ic : InlinableColumns) (idx : Nat) : NoFuel (ic.Column idx) := by
  unfold InlinableColumns.Column; split <;> split <;> simp [NoFuel]

theorem NoFuel_ColumnPtr (ic : InlinableColumns) (idx : Nat) : NoFuel (ic.ColumnPtr idx) := by
  unfold InlinableColumns.ColumnPtr; split <;> (try split) <;> (try split) <;> simp [NoFuel]

theorem NoFuel_Field (mf : InlinableFields) (idx : Nat) : NoFuel (mf.Field idx) := by
  unfold InlinableFields.Field; split <;> (try split) <;> (try split) <;> simp [NoFuel]

theorem NoFuel_GetColumnPtr (t : Table) (name : Bytes) : NoFuel (t.GetColumnPtr name) := by
  unfold Table.GetColumnPtr
  split
  · rename_i idx _
    have := NoFuel_ColumnPtr t.Columns idx
    split <;> simp_all [NoFuel]
  · simp [NoFuel]

theorem NoFuel_GetColumnByIdx (t : Table) (idx : Nat) : NoFuel (t.GetColumnByIdx idx) :=
  NoFuel_Column _ _

end Columnar

namespace Protocol

theorem Tot_ite {α : Type} {j : Nat} (c : Prop) [Decidable c] {x y : Dec α}
    (hx : Tot j x) (hy : Tot j y) : Tot j (if c then x else y) := by
  split
  · exact hx
  · exact hy

theorem Tot_mono {α : Type} {i j : Nat} {x : Dec α} (h : Tot j x) (hij : i ≤ j) : Tot i x :=
  fun r hp hi => h r hp (Nat.le_trans hi hij)

theorem Tot_cursor (j : Nat) : Tot j Dec.cursor := by
  intro r hp _
  refine ⟨by simp [Dec.cursor], ?_⟩
  intro a r' h
  simp only [Dec.cursor, Prod.mk.injEq] at h
  obtain ⟨_, hr⟩ := h
  subst hr
  exact ⟨rfl, rfl, Nat.le_refl _, hp⟩

theorem Tot_ReadInt16 (j : Nat) : Tot j BigEndianReader.ReadInt16 :=
  Tot_bind (Tot_Next j 2) (fun _ => Tot_pure j _)

theorem Tot_ReadInt64 (j : Nat) : Tot j BigEndianReader.ReadInt64 :=
  Tot_bind (Tot_Next j 8) (fun _ => Tot_pure j _)

theorem Tot_ReadDouble (j : Nat) : Tot j BigEndianReader.ReadDouble :=
  Tot_bind (Tot_Next j 8) (fun _ => Tot_pure j _)

theorem Tot_ReadBytes (j : Nat) : Tot j BigEndianReader.ReadBytes :=
  Tot_bind (Tot_ReadInt32 j) (fun _ => Tot_bind (Tot_Next j _) (fun _ => Tot_pure j _))

theorem Tot_ReadString (j : Nat) : Tot j BigEndianReader.ReadString :=
  Tot_bind (Tot_ReadBytes j) (fun _ => Tot_pure j _)

theorem Tot_NoCopyReadBytes (j : Nat) : Tot j BigEndianReader.NoCopyReadBytes :=
  Tot_bind (Tot_ReadInt32 j) (fun _ => Tot_bind (Tot_Next j _) (fun _ => Tot_pure j _))

theorem Tot_LE_ReadUint16 (j : Nat) : Tot j LittleEndianReader.ReadUint16 :=
  Tot_bind (Tot_Next j 2) (fun _ => Tot_pure j _)

theorem Tot_LE_ReadInt32 (j : Nat) : Tot j LittleEndianReader.ReadInt32 :=
  Tot_bind (Tot_Next j 4) (fun _ => Tot_pure j _)

theorem Tot_LE_ReadBytes (j : Nat) : Tot j LittleEndianReader.ReadBytes :=
  Tot_bind (Tot_LE_ReadInt32 j) (fun _ => Tot_bind (Tot_Next j _) (fun _ => Tot_pure j _))

theorem Tot_LE_ReadString (j : Nat) : Tot j LittleEndianReader.ReadString :=
  Tot_bind (Tot_LE_ReadBytes j) (fun _ => Tot_pure j _)

theorem ReadInt8_eob (r : baseReader) (hp : r.p ≤ r.b.length) (h0 : r.b.length - r.p = 0) :
    baseReader.ReadInt8 r = (.error .ErrUnexpectedEOB, r) := by
  have e : baseReader.Next 1 r = (.error .ErrUnexpectedEOB, r) := by
    unfold baseReader.Next
    rw [if_neg (by decide), if_neg (by omega)]
    simp only []
    rw [if_pos (by rw [List.length_drop]; omega)]
  unfold baseReader.ReadInt8
  rw [Dec.bind_error e]

/-- A computation that starts by reading the tag byte: what follows the byte
only has to be within budget on the shorter rest. -/
theorem Tot_step {α : Type} {j : Nat} {f : Int → Dec α}
    (hf : ∀ a i, i + 1 ≤ j → Tot i (f a)) : Tot j (baseReader.ReadInt8 >>= f) := by
  intro r hp hj
  by_cases h0 : r.b.length - r.p = 0
  · rw [Dec.bind_error (ReadInt8_eob r hp h0)]
    exact ⟨by simp, by intro a r' h; simp at h⟩
  · have hlen : (r.b.drop r.p).length ≠ 0 := by rw [List.length_drop]; exact h0
    obtain ⟨x, rest, hd⟩ : ∃ x rest, r.b.drop r.p = x :: rest := by
      cases hdr : r.b.drop r.p with
      | nil => rw [hdr] at hlen; exact absurd rfl hlen
      | cons x rest => exact ⟨x, rest, rfl⟩
    obtain ⟨hr, _⟩ := baseReader.ReadInt8_at (show r.At (x :: rest) from ⟨hp, hd⟩)
    rw [Dec.bind_ok hr]
    obtain ⟨h3, h4⟩ := hf (int8 x.toNat) (r.b.length - r.p - 1) (by omega) (r.adv 1)
      (by show r.p + 1 ≤ r.b.length; omega) (by show r.b.length - (r.p + 1) ≤ _; omega)
    refine ⟨h3, ?_⟩
    intro b r' h
    obtain ⟨hb', hn', hle', hle2'⟩ := h4 b r' h
    refine ⟨hb', hn', ?_, hle2'⟩
    have : r.p + 1 ≤ r'.p := hle'
    omega

end Protocol
namespace Columnar
open Protocol

theorem Tot_decodeFields (j : Nat) (n : Nat) : ∀ table, Tot j (decodeFields n table) := by
  induction n with
  | zero => intro table; exact Tot_pure j _
  | succ n ih =>
    intro table
    unfold decodeFields
    refine Tot_bind (Tot_LE_ReadInt32 j) (fun _ => Tot_bind (Tot_LE_ReadString j) (fun _ => ?_))
    refine Tot_ite _ (Tot_fail j _) ?_
    refine Tot_bind (Tot_LE_ReadInt32 j) (fun _ => ?_)
    exact Tot_ite _ (Tot_fail j _) (ih _)

theorem Tot_decodeColumn (j : Nat) (rowCount i : Nat) (table : Table) :
    Tot j (decodeColumn rowCount i table) := by
  unfold decodeColumn
  refine Tot_bind (Tot_lift j _ (NoFuel_ColumnPtr _ _)) (fun _ => ?_)
  refine Tot_bind (Tot_Next j _) (fun _ => ?_)
  refine Tot_bind (Tot_lift j _ (NoFuel_Field _ _)) (fun _ => ?_)
  split
  · exact Tot_bind (Tot_Next j _) (fun _ => Tot_pure j _)
  · exact Tot_bind (Tot_Next j _) (fun _ => Tot_bind (Tot_Next j _) (fun _ => Tot_pure j _))

theorem Tot_decodeColumns (j : Nat) (rowCount : Nat) (n : Nat) :
    ∀ i table, Tot j (decodeColumns rowCount n i table) := by
  induction n with
  | zero => intro i table; exact Tot_pure j _
  | succ n ih =>
    intro i table
    unfold decodeColumns
    exact Tot_bind (Tot_decodeColumn j _ _ _) (fun _ => ih _ _)

theorem Tot_decode (j : Nat) (table : Table) : Tot j (decode table) := by
  unfold decode
  refine Tot_bind (Tot_LE_ReadUint16 j) (fun _ => Tot_ite _ (Tot_fail j _) ?_)
  refine Tot_bind (Tot_LE_ReadUint16 j) (fun _ => Tot_ite _ (Tot_fail j _) ?_)
  refine Tot_bind (Tot_LE_ReadInt32 j) (fun _ => Tot_ite _ (Tot_pure j _) ?_)
  refine Tot_ite _ (Tot_fail j _) ?_
  refine Tot_bind (Tot_LE_ReadInt32 j) (fun _ => Tot_ite _ (Tot_fail j _) ?_)
  refine Tot_bind (Tot_decodeFields j _ _) (fun _ => ?_)
  refine Tot_bind (Tot_LE_ReadInt32 j) (fun _ => Tot_ite _ (Tot_fail j _) ?_)
  refine Tot_bind (Tot_cursor j) (fun _ => ?_)
  exact Tot_bind (Tot_Next j _) (fun _ => Tot_decodeColumns j _ _ _ _)

/-- `columnar.Decode` has no recursion to bound. -/
theorem NoFuel_Decode (bs : Bytes) : NoFuel (Columnar.Decode bs) :=
  (Tot_decode bs.length Table.zero (GetLittleEndianReader bs true) (Nat.zero_le _)
    (Nat.le_of_eq rfl)).1

end Columnar

namespace Structure
open Protocol Columnar

theorem NoFuel_viaPtr {α : Type} (col : Option Column) (get : Column → Nat → Outcome α)
    (hget : ∀ c i, NoFuel (get c i)) (row : Nat) : NoFuel (viaPtr col get row) := by
  unfold viaPtr
  split
  · exact hget _ _
  · exact NoFuel_panic _

theorem NoFuel_cellLoop {α β : Type} (pCol : Column) (get : Column → Nat → Outcome β)
    (hget : ∀ c i, NoFuel (get c i)) (add : α → Nat → β → α) (n : Nat) :
    ∀ i acc, NoFuel (cellLoop pCol get add n i acc) := by
  induction n with
  | zero => intro i acc; exact NoFuel_ok _
  | succ n ih =>
    intro i acc
    unfold cellLoop
    refine NoFuel_bind (NoFuel_IsNull _ _) (fun isNull => ?_)
    split
    · exact ih _ _
    · exact NoFuel_bind (hget _ _) (fun _ => ih _ _)

theorem NoFuel_propertyGetter (t : Columnar.ValueType) (get : Column → Nat → Outcome PropertyValue)
    (h : propertyGetter t = some get) (c : Column) (i : Nat) : NoFuel (get c i) := by
  unfold propertyGetter at h
  split_ifs at h <;> cases h
  · exact NoFuel_bind (NoFuel_GetString _ _) (fun _ => NoFuel_pure _)
  · exact NoFuel_bind (NoFuel_GetBool _ _) (fun _ => NoFuel_pure _)
  · exact NoFuel_bind (NoFuel_GetFloat32 _ _) (fun _ => NoFuel_pure _)
  · exact NoFuel_bind (NoFuel_GetFloat64 _ _) (fun _ => NoFuel_pure _)
  · exact NoFuel_bind (NoFuel_GetInt32 _ _) (fun _ => NoFuel_pure _)
  · exact NoFuel_bind (NoFuel_GetInt64 _ _) (fun _ => NoFuel_pure _)

theorem NoFuel_scalarGetter (t : Columnar.ValueType) (get : Column → Nat → Outcome Element)
    (h : scalarGetter t = some get) (c : Column) (i : Nat) : NoFuel (get c i) := by
  unfold scalarGetter at h
  split_ifs at h <;> cases h
  · exact NoFuel_bind (NoFuel_GetString _ _) (fun _ => NoFuel_pure _)
  · exact NoFuel_bind (NoFuel_GetBool _ _) (fun _ => NoFuel_pure _)
  · exact NoFuel_bind (NoFuel_GetFloat32 _ _) (fun _ => NoFuel_pure _)
  · exact NoFuel_bind (NoFuel_GetFloat64 _ _) (fun _ => NoFuel_pure _)
  · exact NoFuel_bind (NoFuel_GetInt32 _ _) (fun _ => NoFuel_pure _)
  · exact NoFuel_bind (NoFuel_GetInt64 _ _) (fun _ => NoFuel_pure _)

/-- The field loop ends within `n` rounds when no more than `n` fields are left. -/
theorem NoFuel_fieldLoop {α : Type} (body : Nat → Field → α → Outcome α)
    (hbody : ∀ i f acc, NoFuel (body i f acc)) (n : Nat) :
    ∀ (fieldIter : FieldIter) (acc : α), fieldIter.fields.len - fieldIter.p ≤ n →
      NoFuel (fieldLoop body n fieldIter acc) := by
  induction n with
  | zero =>
    intro fieldIter acc h
    unfold fieldLoop
    have : fieldIter.HasNext = false := by
      unfold FieldIter.HasNext; simp; omega
    rw [this]
    exact NoFuel_ok _
  | succ n ih =>
    intro fieldIter acc h
    unfold fieldLoop
    split
    · rename_i hn
      have hlt : fieldIter.p < fieldIter.fields.len := by
        unfold FieldIter.HasNext at hn; simpa using hn
      simp only []
      split
      · rename_i field fieldIter1 hnext
        have hp : fieldIter1.fields.len - fieldIter1.p ≤ n := by
          unfold FieldIter.Next at hnext
          rw [if_neg (by omega)] at hnext
          split at hnext
          · split at hnext
            · simp only [Prod.mk.injEq] at hnext
              obtain ⟨_, h2⟩ := hnext
              subst h2
              show fieldIter.fields.len - (fieldIter.p + 1) ≤ n
              omega
            · simp at hnext
          · split at hnext
            · simp only [Prod.mk.injEq] at hnext
              obtain ⟨_, h2⟩ := hnext
              subst h2
              show fieldIter.fields.len - (fieldIter.p + 1) ≤ n
              omega
            · simp at hnext
        exact NoFuel_bind (hbody _ _ _) (fun _ => ih _ _ hp)
      · exact NoFuel_error _
      · exact NoFuel_panic _
      · rename_i hnext
        exfalso
        unfold FieldIter.Next at hnext
        rw [if_neg (by omega)] at hnext
        split at hnext <;> split at hnext <;> simp at hnext
    · exact NoFuel_ok _

theorem NoFuel_edgeRows (dir : DirectionType) (c1 c2 c3 c4 c5 : Option Column) (n : Nat) :
    ∀ i edges, NoFuel (edgeRows dir c1 c2 c3 c4 c5 n i edges) := by
  induction n with
  | zero => intro i edges; exact NoFuel_ok _
  | succ n ih =>
    intro i edges
    unfold edgeRows
    refine NoFuel_bind (NoFuel_viaPtr _ _ NoFuel_GetString _) (fun _ => ?_)
    refine NoFuel_bind (NoFuel_viaPtr _ _ NoFuel_GetInt64 _) (fun _ => ?_)
    refine NoFuel_bind (NoFuel_viaPtr _ _ NoFuel_GetInt32 _) (fun _ => ?_)
    refine NoFuel_bind (NoFuel_viaPtr _ _ NoFuel_GetInt64 _) (fun _ => ?_)
    refine NoFuel_bind (NoFuel_viaPtr _ _ NoFuel_GetInt32 _) (fun _ => ?_)
    exact ih _ _

theorem NoFuel_vertexRows (c1 c2 : Option Column) (n : Nat) :
    ∀ i vs, NoFuel (vertexRows c1 c2 n i vs) := by
  induction n with
  | zero => intro i vs; exact NoFuel_ok _
  | succ n ih =>
    intro i vs
    unfold vertexRows
    refine NoFuel_bind (NoFuel_viaPtr _ _ NoFuel_GetInt64 _) (fun _ => ?_)
    refine NoFuel_bind (NoFuel_viaPtr _ _ NoFuel_GetInt32 _) (fun _ => ?_)
    exact ih _ _

theorem fieldIter_budget (tb : Table) :
    tb.Schema.FieldIter.fields.len - tb.Schema.FieldIter.p ≤ tb.FieldCount := by
  show tb.Schema.fields.len - 0 ≤ tb.Schema.fields.len
  omega

theorem Tot_readColumnarEdge (j : Nat) (dir : DirectionType) : Tot j (readColumnarEdge dir) := by
  unfold readColumnarEdge
  refine Tot_bind (Tot_NoCopyReadBytes j) (fun bs => ?_)
  refine Tot_bind (Tot_lift j _ (NoFuel_Decode bs)) (fun tb => ?_)
  refine Tot_bind (Tot_lift j _ (NoFuel_GetColumnPtr _ _)) (fun _ => ?_)
  refine Tot_bind (Tot_lift j _ (NoFuel_GetColumnPtr _ _)) (fun _ => ?_)
  refine Tot_bind (Tot_lift j _ (NoFuel_GetColumnPtr _ _)) (fun _ => ?_)
  refine Tot_bind (Tot_lift j _ (NoFuel_GetColumnPtr _ _)) (fun _ => ?_)
  refine Tot_bind (Tot_lift j _ (NoFuel_GetColumnPtr _ _)) (fun _ => ?_)
  refine Tot_bind (Tot_lift j _ (NoFuel_edgeRows _ _ _ _ _ _ _ _ _)) (fun _ => ?_)
  refine Tot_bind (Tot_lift j _ (NoFuel_fieldLoop _ ?_ _ _ _ (fieldIter_budget tb)))
    (fun _ => Tot_pure j _)
  intro i f acc
  split
  · exact NoFuel_ok _
  · refine NoFuel_bind (NoFuel_GetColumnByIdx _ _) (fun _ => ?_)
    split
    · rename_i get hget
      exact NoFuel_cellLoop _ _ (NoFuel_propertyGetter _ _ hget) _ _ _ _
    · exact NoFuel_panic _

theorem Tot_readColumnarVertex (j : Nat) : Tot j readColumnarVertex := by
  unfold readColumnarVertex
  refine Tot_bind (Tot_NoCopyReadBytes j) (fun bs => ?_)
  refine Tot_bind (Tot_lift j _ (NoFuel_Decode bs)) (fun tb => ?_)
  refine Tot_bind (Tot_lift j _ (NoFuel_GetColumnPtr _ _)) (fun _ => ?_)
  refine Tot_bind (Tot_lift j _ (NoFuel_GetColumnPtr _ _)) (fun _ => ?_)
  refine Tot_bind (Tot_lift j _ (NoFuel_vertexRows _ _ _ _ _)) (fun _ => ?_)
  refine Tot_bind (Tot_lift j _ (NoFuel_fieldLoop _ ?_ _ _ _ (fieldIter_budget tb)))
    (fun _ => Tot_pure j _)
  intro i f acc
  split
  · exact NoFuel_ok _
  · refine NoFuel_bind (NoFuel_GetColumnByIdx _ _) (fun _ => ?_)
    split
    · rename_i get hget
      exact NoFuel_cellLoop _ _ (NoFuel_propertyGetter _ _ hget) _ _ _ _
    · exact NoFuel_panic _

theorem Tot_readProperties (j : Nat) : Tot j readProperties := by
  unfold readProperties
  refine Tot_bind (Tot_NoCopyReadBytes j) (fun bs => ?_)
  refine Tot_bind (Tot_lift j _ (NoFuel_Decode bs)) (fun tb => ?_)
  refine Tot_bind (Tot_lift j _ (NoFuel_fieldLoop _ ?_ _ _ _ (fieldIter_budget tb)))
    (fun _ => Tot_pure j _)
  intro i f acc
  refine NoFuel_bind (NoFuel_GetColumnByIdx _ _) (fun _ => ?_)
  split
  · rename_i get hget
    exact NoFuel_cellLoop _ _ (NoFuel_propertyGetter _ _ hget) _ _ _ _
  · exact NoFuel_panic _

theorem Tot_readValues (j : Nat) : Tot j readValues := by
  unfold readValues
  refine Tot_bind (Tot_NoCopyReadBytes j) (fun bs => ?_)
  refine Tot_bind (Tot_lift j _ (NoFuel_Decode bs)) (fun tb => ?_)
  refine Tot_bind (Tot_lift j _ (NoFuel_fieldLoop _ ?_ _ _ _ (fieldIter_budget tb)))
    (fun _ => Tot_pure j _)
  intro i f acc
  split
  · exact NoFuel_ok _
  · refine NoFuel_bind (NoFuel_GetColumnByIdx _ _) (fun _ => ?_)
    split
    · rename_i get hget
      exact NoFuel_cellLoop _ _ (NoFuel_scalarGetter _ _ hget) _ _ _ _
    · exact NoFuel_panic _

theorem Tot_decodeValue (j : Nat) : Tot j decodeValue := by
  unfold decodeValue
  refine Tot_bind (Tot_ReadInt8 j) (fun _ => ?_)
  repeat (first
    | exact Tot_pure j _
    | exact Tot_fail j _
    | exact Tot_bind (Tot_ReadInt32 j) (fun _ => Tot_pure j _)
    | exact Tot_bind (Tot_ReadInt64 j) (fun _ => Tot_pure j _)
    | exact Tot_bind (Tot_ReadBytes j) (fun _ => Tot_pure j _)
    | apply Tot_ite)

theorem Tot_readVertex (j : Nat) : Tot j readVertex :=
  Tot_bind (Tot_ReadInt64 j) (fun _ => Tot_bind (Tot_ReadInt32 j) (fun _ => Tot_pure j _))

theorem Tot_readSVertex (j : Nat) : Tot j readSVertex :=
  Tot_bind (Tot_ReadString j) (fun _ => Tot_bind (Tot_ReadString j) (fun _ => Tot_pure j _))

theorem Tot_decodeProperties {j : Nat} {dec : Dec Element} (hd : Tot j dec) (n : Nat) :
    ∀ props, Tot j (decodeProperties dec n props) := by
  induction n with
  | zero => intro props; exact Tot_pure j _
  | succ n ih =>
    intro props
    unfold decodeProperties
    refine Tot_bind hd (fun ppt => ?_)
    split
    · exact ih _
    · exact Tot_abort j _

theorem Tot_readVertexWithProperties {j : Nat} {dec : Dec Element} (hd : Tot j dec) :
    Tot j (readVertexWithProperties dec) := by
  unfold readVertexWithProperties
  refine Tot_bind (Tot_readVertex j) (fun _ => Tot_bind (Tot_ReadInt32 j) (fun _ => ?_))
  exact Tot_ite _ (Tot_abort j _) (Tot_bind (Tot_decodeProperties hd _ _) (fun _ => Tot_pure j _))

theorem Tot_readSVertexWithProperties {j : Nat} {dec : Dec Element} (hd : Tot j dec) :
    Tot j (readSVertexWithProperties dec) := by
  unfold readSVertexWithProperties
  refine Tot_bind (Tot_readSVertex j) (fun _ => Tot_bind (Tot_ReadInt16 j) (fun _ => ?_))
  exact Tot_ite _ (Tot_abort j _) (Tot_bind (Tot_decodeProperties hd _ _) (fun _ => Tot_pure j _))

theorem Tot_readEdge (j : Nat) (d : DirectionType) : Tot j (readEdge d) := by
  unfold readEdge
  refine Tot_bind (Tot_ReadString j) (fun _ => Tot_bind (Tot_ReadInt64 j) (fun _ =>
    Tot_bind (Tot_ReadInt32 j) (fun _ => Tot_bind (Tot_ReadInt64 j) (fun _ =>
    Tot_bind (Tot_ReadInt32 j) (fun _ => ?_)))))
  exact Tot_ite _ (Tot_pure j _) (Tot_pure j _)

theorem Tot_readSEdge (j : Nat) (d : DirectionType) : Tot j (readSEdge d) := by
  unfold readSEdge
  refine Tot_bind (Tot_ReadString j) (fun _ => Tot_bind (Tot_ReadString j) (fun _ =>
    Tot_bind (Tot_ReadString j) (fun _ => Tot_bind (Tot_ReadString j) (fun _ =>
    Tot_bind (Tot_ReadString j) (fun _ => ?_)))))
  exact Tot_ite _ (Tot_pure j _) (Tot_pure j _)

theorem Tot_readEdgeWithProperties {j : Nat} {dec : Dec Element} (hd : Tot j dec)
    (d : DirectionType) : Tot j (readEdgeWithProperties dec d) := by
  unfold readEdgeWithProperties
  refine Tot_bind (Tot_readEdge j d) (fun _ => Tot_bind (Tot_ReadInt32 j) (fun _ => ?_))
  exact Tot_ite _ (Tot_abort j _) (Tot_bind (Tot_decodeProperties hd _ _) (fun _ => Tot_pure j _))

theorem Tot_readSEdgeWithProperties {j : Nat} {dec : Dec Element} (hd : Tot j dec)
    (d : DirectionType) : Tot j (readSEdgeWithProperties dec d) := by
  unfold readSEdgeWithProperties
  refine Tot_bind (Tot_readSEdge j d) (fun _ => Tot_bind (Tot_ReadInt16 j) (fun _ => ?_))
  exact Tot_ite _ (Tot_abort j _) (Tot_bind (Tot_decodeProperties hd _ _) (fun _ => Tot_pure j _))

theorem Tot_decodeColumnarBinType (j : Nat) : Tot j decodeColumnarBinType := by
  unfold decodeColumnarBinType
  refine Tot_bind (Tot_ReadInt8 j) (fun _ => Tot_bind (Tot_ReadInt8 j) (fun _ => ?_))
  refine Tot_ite _ (Tot_readColumnarEdge j _) (Tot_ite _ (Tot_readColumnarEdge j _) ?_)
  exact Tot_ite _ (Tot_readColumnarVertex j) (Tot_ite _ (Tot_readProperties j)
    (Tot_ite _ (Tot_readValues j) (Tot_abort j _)))

theorem Tot_skipElements {j : Nat} {dec : Dec Element} (hd : Tot j dec) (n : Nat) :
    Tot j (skipElements dec n) := by
  induction n with
  | zero => exact Tot_pure j _
  | succ n ih => unfold skipElements; exact Tot_bind hd (fun _ => ih)

theorem Tot_decodeElements {j : Nat} {dec : Dec Element} (hd : Tot j dec) (n : Nat) :
    ∀ acc, Tot j (decodeElements dec n acc) := by
  induction n with
  | zero => intro acc; exact Tot_pure j _
  | succ n ih => intro acc; unfold decodeElements; exact Tot_bind hd (fun _ => ih _)

theorem Tot_decodeColumnarBatches (j : Nat) (n : Nat) :
    ∀ acc, Tot j (decodeColumnarBatches n acc) := by
  induction n with
  | zero => intro acc; exact Tot_pure j _
  | succ n ih =>
    intro acc; unfold decodeColumnarBatches
    exact Tot_bind (Tot_decodeColumnarBinType j) (fun _ => ih _)

theorem NoFuel_mapAssign (r : List (Element × Element)) (key value : Element) :
    NoFuel (mapAssign r key value) := by
  unfold mapAssign
  split
  · split
    · exact NoFuel_ok _
    · split <;> exact NoFuel_ok _
  · exact NoFuel_panic _

theorem Tot_decodeEntries {j : Nat} {dec : Dec Element} (hd : Tot j dec) (n : Nat) :
    ∀ acc, Tot j (decodeEntries dec n acc) := by
  induction n with
  | zero => intro acc; exact Tot_pure j _
  | succ n ih =>
    intro acc; unfold decodeEntries
    exact Tot_bind hd (fun _ => Tot_bind hd (fun _ =>
      Tot_bind (Tot_lift j _ (NoFuel_mapAssign _ _ _)) (fun _ => ih _)))

theorem NoFuel_linkedAssign (elems : List ((Nat × Element) × Element)) (key : Nat × Element)
    (value : Element) : NoFuel (linkedAssign elems key value) := by
  unfold linkedAssign
  split
  · split <;> exact NoFuel_ok _
  · exact NoFuel_panic _

theorem Tot_decodeLinkedEntries {j : Nat} {dec : Dec Element} (hd : Tot j dec) (n : Nat) :
    ∀ keys acc, Tot j (decodeLinkedEntries dec n keys acc) := by
  induction n with
  | zero => intro keys acc; exact Tot_pure j _
  | succ n ih =>
    intro keys acc; unfold decodeLinkedEntries
    exact Tot_bind hd (fun _ => Tot_bind hd (fun _ =>
      Tot_bind (Tot_lift j _ (NoFuel_linkedAssign _ _ _)) (fun _ => ih _ _)))

/-- The `switch` stays within the budget of the recursive calls it makes. -/
theorem Tot_DecodeExSwitch {j : Nat} {self : Bool → Dec Element} (hs : ∀ us, Tot j (self us))
    (useStruct : Bool) (ty : CoreDataType) : Tot j (DecodeExSwitch self useStruct ty) := by
  unfold DecodeExSwitch
  refine Tot_ite _ (Tot_pure j _) ?_
  refine Tot_ite _ (Tot_pure j _) ?_
  refine Tot_ite _ (Tot_bind (Tot_ReadInt32 j) (fun _ => Tot_pure j _)) ?_
  refine Tot_ite _ (Tot_bind (Tot_ReadInt64 j) (fun _ => Tot_pure j _)) ?_
  refine Tot_ite _ (Tot_bind (Tot_ReadInt32 j) (fun _ => Tot_pure j _)) ?_
  refine Tot_ite _ (Tot_bind (Tot_ReadInt64 j) (fun _ => Tot_pure j _)) ?_
  refine Tot_ite _ (Tot_bind (Tot_ReadString j) (fun _ => Tot_pure j _)) ?_
  refine Tot_ite _ (Tot_bind (Tot_readVertex j) (fun _ => Tot_pure j _)) ?_
  refine Tot_ite _ (Tot_bind (Tot_readVertexWithProperties (hs _)) (fun _ => Tot_pure j _)) ?_
  refine Tot_ite _ (Tot_bind (Tot_readSVertex j) (fun _ => Tot_pure j _)) ?_
  refine Tot_ite _ (Tot_bind (Tot_readSVertexWithProperties (hs _)) (fun _ => Tot_pure j _)) ?_
  refine Tot_ite _ ?_ ?_
  · refine Tot_bind (Tot_ReadInt8 j) (fun _ => Tot_ite _ (Tot_fail j _) ?_)
    refine Tot_bind (Tot_ReadInt32 j) (fun _ => ?_)
    refine Tot_bind (Tot_skipElements (hs _) _) (fun _ => ?_)
    refine Tot_bind (Tot_ReadInt8 j) (fun _ => Tot_ite _ (Tot_fail j _) ?_)
    refine Tot_bind (Tot_ReadInt32 j) (fun _ => Tot_ite _ (Tot_abort j _) ?_)
    exact Tot_bind (Tot_decodeElements (hs _) _ _)
      (fun _ => Tot_ite _ (Tot_pure j _) (Tot_pure j _))
  refine Tot_ite _ (Tot_bind (Tot_readEdge j _) (fun _ => Tot_pure j _)) ?_
  refine Tot_ite _ (Tot_bind (Tot_readEdge j _) (fun _ => Tot_pure j _)) ?_
  refine Tot_ite _ (Tot_bind (Tot_readEdge j _) (fun _ => Tot_pure j _)) ?_
  refine Tot_ite _ (Tot_bind (Tot_readEdgeWithProperties (hs _) _) (fun _ => Tot_pure j _)) ?_
  refine Tot_ite _ (Tot_bind (Tot_readEdgeWithProperties (hs _) _) (fun _ => Tot_pure j _)) ?_
  refine Tot_ite _ (Tot_bind (Tot_readEdgeWithProperties (hs _) _) (fun _ => Tot_pure j _)) ?_
  refine Tot_ite _ (Tot_bind (Tot_readSEdge j _) (fun _ => Tot_pure j _)) ?_
  refine Tot_ite _ (Tot_bind (Tot_readSEdge j _) (fun _ => Tot_pure j _)) ?_
  refine Tot_ite _ (Tot_bind (Tot_readSEdge j _) (fun _ => Tot_pure j _)) ?_
  refine Tot_ite _ (Tot_bind (Tot_readSEdgeWithProperties (hs _) _) (fun _ => Tot_pure j _)) ?_
  refine Tot_ite _ (Tot_bind (Tot_readSEdgeWithProperties (hs _) _) (fun _ => Tot_pure j _)) ?_
  refine Tot_ite _ (Tot_bind (Tot_readSEdgeWithProperties (hs _) _) (fun _ => Tot_pure j _)) ?_
  refine Tot_ite _ ?_ ?_
  · refine Tot_bind (Tot_ReadInt32 j) (fun _ => Tot_ite _ (Tot_pure j _) ?_)
    refine Tot_bind (Tot_PeekInt8 j) (fun _ => Tot_ite _ ?_ (Tot_ite _ (Tot_abort j _) ?_))
    · exact Tot_bind (Tot_decodeColumnarBatches j _ _) (fun _ => Tot_pure j _)
    · exact Tot_bind (Tot_decodeElements (hs _) _ _)
        (fun _ => Tot_ite _ (Tot_pure j _) (Tot_pure j _))
  refine Tot_ite _ ?_ ?_
  · refine Tot_bind (Tot_ReadInt32 j) (fun _ => ?_)
    exact Tot_bind (Tot_decodeEntries (hs _) _ _)
      (fun _ => Tot_ite _ (Tot_pure j _) (Tot_pure j _))
  refine Tot_ite _ ?_ ?_
  · refine Tot_bind (Tot_ReadInt32 j) (fun _ => Tot_ite _ (Tot_abort j _) ?_)
    refine Tot_bind (Tot_decodeLinkedEntries (hs _) _ _ _) (fun p => ?_)
    obtain ⟨keys, elems⟩ := p
    exact Tot_pure j _
  refine Tot_ite _ ?_ (Tot_fail j _)
  exact Tot_bind (Tot_ReadString j) (fun _ => Tot_bind (Tot_decodeValue j) (fun _ => Tot_pure j _))

/-- Budget adequacy: a budget of one more than the unread bytes is never used up. -/
theorem Tot_DecodeExFuel (j : Nat) : ∀ useStruct, Tot j (DecodeExFuel (j + 1) useStruct) := by
  induction j with
  | zero =>
    intro us
    show Tot 0 (baseReader.ReadInt8 >>= _)
    exact Tot_step (fun a i hi => absurd hi (by omega))
  | succ k ih =>
    intro us
    show Tot (k + 1) (baseReader.ReadInt8 >>= _)
    refine Tot_step (fun a i hi => ?_)
    exact Tot_DecodeExSwitch (fun us1 => Tot_mono (ih us1) (by omega)) _ _

/-- `structure.DecodeEx` ends on every reader: the budget of the model is
never the reason for its result. -/
theorem DecodeEx_fuel (useStruct : Bool) (w : baseReader) :
    NoFuel (DecodeEx useStruct w).1 := by
  unfold DecodeEx
  by_cases hp : w.p ≤ w.b.length
  · exact (Tot_DecodeExFuel (w.b.length - w.p) useStruct w hp (Nat.le_refl _)).1
  · have h0 : w.b.length - w.p = 0 := by omega
    rw [h0]
    have e : baseReader.Next 1 w = (.panic .sliceBoundsOutOfRange, w) := by
      unfold baseReader.Next
      rw [if_neg (by decide), if_pos (by omega)]
    have e1 : baseReader.ReadInt8 w = (.panic .sliceBoundsOutOfRange, w) := by
      unfold baseReader.ReadInt8
      rw [Dec.bind_panic e]
    show NoFuel ((baseReader.ReadInt8 >>= _) w).1
    rw [Dec.bind_panic e1]
    exact NoFuel_panic _

end Structure
namespace Protocol

theorem Quiet_pure {α : Type} (a : α) : Quiet (Pure.pure a : Dec α) := by
  intro r hp
  refine ⟨by simp [pure_run], ?_⟩
  intro a' r' h
  rw [pure_run] at h
  cases h
  exact hp

theorem Quiet_fail {α : Type} (e : GoError) : Quiet (Dec.fail e : Dec α) := by
  intro r _
  exact ⟨by simp [Dec.fail], by intro a' r' h; simp [Dec.fail] at h⟩

theorem Quiet_bind {α β : Type} {x : Dec α} {f : α → Dec β}
    (hx : Quiet x) (hf : ∀ a, Quiet (f a)) : Quiet (x >>= f) := by
  intro r hp
  obtain ⟨h1, h2⟩ := hx r hp
  show (∀ p, (Dec.bind x f r).1 ≠ _) ∧ ∀ a r', Dec.bind x f r = _ → _
  unfold Dec.bind
  rcases hxr : x r with ⟨o, r1⟩
  rw [hxr] at h1 h2
  cases o with
  | ok a => exact hf a r1 (h2 a r1 rfl)
  | error e => exact ⟨by simp, by intro a r' h; simp at h⟩
  | panic e => exact absurd rfl (h1 e)
  | outOfFuel => exact ⟨by simp, by intro a r' h; simp at h⟩

theorem Quiet_ite {α : Type} (c : Prop) [Decidable c] {x y : Dec α}
    (hx : Quiet x) (hy : Quiet y) : Quiet (if c then x else y) := by
  split
  · exact hx
  · exact hy

theorem Quiet_Next (n : Int) : Quiet (baseReader.Next n) := by
  intro r hp
  unfold baseReader.Next
  split
  · exact ⟨by simp, by intro a r' h; simp at h⟩
  · split
    · omega
    · simp only []
      split
      · exact ⟨by simp, by intro a r' h; simp at h⟩
      · rename_i h1 h2 h3
        refine ⟨by simp, ?_⟩
        intro a r' h
        simp only [Prod.mk.injEq] at h
        obtain ⟨_, hr⟩ := h
        subst hr
        simp only [List.length_drop] at h3
        show r.p + n.toNat ≤ r.b.length
        omega

theorem Quiet_ReadInt8 : Quiet baseReader.ReadInt8 :=
  Quiet_bind (Quiet_Next 1) (fun _ => Quiet_pure _)

theorem Quiet_ReadInt32 : Quiet BigEndianReader.ReadInt32 :=
  Quiet_bind (Quiet_Next 4) (fun _ => Quiet_pure _)

theorem Quiet_ReadInt64 : Quiet BigEndianReader.ReadInt64 :=
  Quiet_bind (Quiet_Next 8) (fun _ => Quiet_pure _)

theorem Quiet_ReadBytes : Quiet BigEndianReader.ReadBytes :=
  Quiet_bind Quiet_ReadInt32 (fun _ => Quiet_bind (Quiet_Next _) (fun _ => Quiet_pure _))

theorem Quiet_ReadString : Quiet BigEndianReader.ReadString :=
  Quiet_bind Quiet_ReadBytes (fun _ => Quiet_pure _)

end Protocol

namespace Structure
open Protocol

theorem Quiet_decodeValue : Quiet decodeValue := by
  unfold decodeValue
  refine Quiet_bind Quiet_ReadInt8 (fun _ => ?_)
  refine Quiet_ite _ (Quiet_pure _) (Quiet_ite _ (Quiet_pure _) ?_)
  refine Quiet_ite _ (Quiet_bind Quiet_ReadInt32 (fun _ => Quiet_pure _)) ?_
  refine Quiet_ite _ (Quiet_bind Quiet_ReadInt64 (fun _ => Quiet_pure _)) ?_
  refine Quiet_ite _ (Quiet_bind Quiet_ReadInt32 (fun _ => Quiet_pure _)) ?_
  refine Quiet_ite _ (Quiet_bind Quiet_ReadInt64 (fun _ => Quiet_pure _)) ?_
  exact Quiet_ite _ (Quiet_bind Quiet_ReadBytes (fun _ => Quiet_pure _)) (Quiet_fail _)

theorem Quiet_readVertex : Quiet readVertex :=
  Quiet_bind Quiet_ReadInt64 (fun _ => Quiet_bind Quiet_ReadInt32 (fun _ => Quiet_pure _))

theorem Quiet_readSVertex : Quiet readSVertex :=
  Quiet_bind Quiet_ReadString (fun _ => Quiet_bind Quiet_ReadString (fun _ => Quiet_pure _))

theorem Quiet_readEdge (d : DirectionType) : Quiet (readEdge d) := by
  unfold readEdge
  refine Quiet_bind Quiet_ReadString (fun _ => Quiet_bind Quiet_ReadInt64 (fun _ =>
    Quiet_bind Quiet_ReadInt32 (fun _ => Quiet_bind Quiet_ReadInt64 (fun _ =>
    Quiet_bind Quiet_ReadInt32 (fun _ => ?_)))))
  exact Quiet_ite _ (Quiet_pure _) (Quiet_pure _)

theorem Quiet_readSEdge (d : DirectionType) : Quiet (readSEdge d) := by
  unfold readSEdge
  refine Quiet_bind Quiet_ReadString (fun _ => Quiet_bind Quiet_ReadString (fun _ =>
    Quiet_bind Quiet_ReadString (fun _ => Quiet_bind Quiet_ReadString (fun _ =>
    Quiet_bind Quiet_ReadString (fun _ => ?_)))))
  exact Quiet_ite _ (Quiet_pure _) (Quiet_pure _)

/-- Outside the nesting tags the `switch` reads a fixed shape or rejects the
tag: it cannot panic. -/
theorem Quiet_DecodeExSwitch (self : Bool → Dec Element) (useStruct : Bool) (ty : CoreDataType)
    (h : ¬ nestingTag ty) : Quiet (DecodeExSwitch self useStruct ty) := by
  simp only [nestingTag, not_or] at h
  obtain ⟨h1, h2, h3, h4, h5, h6, h7, h8, h9, h10, h11, h12⟩ := h
  unfold DecodeExSwitch
  simp only [h1, h2, h3, h4, h5, h6, h7, h8, h9, h10, h11, h12, if_false]
  refine Quiet_ite _ (Quiet_pure _) (Quiet_ite _ (Quiet_pure _) ?_)
  refine Quiet_ite _ (Quiet_bind Quiet_ReadInt32 (fun _ => Quiet_pure _)) ?_
  refine Quiet_ite _ (Quiet_bind Quiet_ReadInt64 (fun _ => Quiet_pure _)) ?_
  refine Quiet_ite _ (Quiet_bind Quiet_ReadInt32 (fun _ => Quiet_pure _)) ?_
  refine Quiet_ite _ (Quiet_bind Quiet_ReadInt64 (fun _ => Quiet_pure _)) ?_
  refine Quiet_ite _ (Quiet_bind Quiet_ReadString (fun _ => Quiet_pure _)) ?_
  refine Quiet_ite _ (Quiet_bind Quiet_readVertex (fun _ => Quiet_pure _)) ?_
  refine Quiet_ite _ (Quiet_bind Quiet_readSVertex (fun _ => Quiet_pure _)) ?_
  refine Quiet_ite _ (Quiet_bind (Quiet_readEdge _) (fun _ => Quiet_pure _)) ?_
  refine Quiet_ite _ (Quiet_bind (Quiet_readEdge _) (fun _ => Quiet_pure _)) ?_
  refine Quiet_ite _ (Quiet_bind (Quiet_readEdge _) (fun _ => Quiet_pure _)) ?_
  refine Quiet_ite _ (Quiet_bind (Quiet_readSEdge _) (fun _ => Quiet_pure _)) ?_
  refine Quiet_ite _ (Quiet_bind (Quiet_readSEdge _) (fun _ => Quiet_pure _)) ?_
  refine Quiet_ite _ (Quiet_bind (Quiet_readSEdge _) (fun _ => Quiet_pure _)) ?_
  refine Quiet_ite _ ?_ (Quiet_fail _)
  exact Quiet_bind Quiet_ReadString (fun _ => Quiet_bind Quiet_decodeValue (fun _ => Quiet_pure _))

/-- A tag that is neither flat nor nesting has no case: the `default` case
returns the error. -/
theorem DecodeExSwitch_unknown (self : Bool → Dec Element) (useStruct : Bool) (ty : CoreDataType)
    (h1 : ¬ flatTag ty) (h2 : ¬ nestingTag ty) :
    DecodeExSwitch self useStruct ty = Dec.fail (.unknownCoreDataType ty) := by
  simp only [nestingTag, flatTag, not_or] at h1 h2
  obtain ⟨a1, a2, a3, a4, a5, a6, a7, a8, a9, a10, a11, a12, a13, a14, a15, a16⟩ := h1
  obtain ⟨b1, b2, b3, b4, b5, b6, b7, b8, b9, b10, b11, b12⟩ := h2
  unfold DecodeExSwitch
  simp only [a1, a2, a3, a4, a5, a6, a7, a8, a9, a10, a11, a12, a13, a14, a15, a16,
    b1, b2, b3, b4, b5, b6, b7, b8, b9, b10, b11, b12, if_false]

theorem ofInt8_toNat (x : UInt8) : CoreDataType.ofInt8 (int8 (x.toNat : Int)) = x.toNat := by
  have := toNat_lt_256 x
  show (uint8 (int8 (x.toNat : Int)) : Nat) = x.toNat
  unfold uint8 int8
  omega

/-- On a reader with an unread byte `x`, `DecodeEx` is the `switch` on `x` run
behind it. -/
theorem DecodeEx_cons (useStruct : Bool) (w : baseReader) (x : UInt8) (rest : Bytes)
    (h : w.At (x :: rest)) :
    DecodeEx useStruct w
      = DecodeExSwitch (DecodeExFuel (w.b.length - w.p)) useStruct x.toNat (w.adv 1) := by
  rw [DecodeEx_eq]
  unfold DecodeExBody
  rw [Dec.bind_ok (baseReader.ReadInt8_at h).1, ofInt8_toNat]

theorem DecodeEx_nil (useStruct : Bool) (w : baseReader) (h : w.At []) :
    DecodeEx useStruct w = (.error .ErrUnexpectedEOB, w) := by
  rw [DecodeEx_eq]
  unfold DecodeExBody
  obtain ⟨hp, hd⟩ := h
  have h0 : w.b.length - w.p = 0 := by
    have := congrArg List.length hd
    rw [List.length_drop] at this
    simpa using this
  rw [Dec.bind_error (ReadInt8_eob w hp h0)]

end Structure
namespace Protocol

theorem baseReader.PeekInt8_at {r : baseReader} {x : UInt8} {rest : VeGraph.Bytes}
    (h : r.At (x :: rest)) : baseReader.PeekInt8 r = (.ok (int8 x.toNat), r) := by
  obtain ⟨_, hd⟩ := h
  have hg : r.b.get? r.p = some x := by
    have := @List.getElem?_drop _ r.b r.p 0
    rw [hd] at this
    simpa using this.symm
  unfold baseReader.PeekInt8
  rw [hg]

end Protocol

namespace Structure
open Protocol

theorem Reads_peek {α : Type} {f : Int → Dec α} {x : UInt8} {xs : Bytes} {a : α}
    (h : Reads (f (int8 x.toNat)) (x :: xs) a) : Reads (baseReader.PeekInt8 >>= f) (x :: xs) a := by
  intro r rest hr
  rw [Dec.bind_ok (baseReader.PeekInt8_at (show r.At (x :: (xs ++ rest)) from hr))]
  exact h r rest hr

theorem Ends_peek {α : Type} {f : Int → Dec α} {x : UInt8} {xs : Bytes} {o : Outcome α}
    (h : Ends (f (int8 x.toNat)) (x :: xs) o) : Ends (baseReader.PeekInt8 >>= f) (x :: xs) o := by
  intro r rest hr
  rw [Dec.bind_ok (baseReader.PeekInt8_at (show r.At (x :: (xs ++ rest)) from hr))]
  exact h r rest hr

theorem Ends_abort {α : Type} (p : Panic) : Ends (Dec.abort p : Dec α) [] (.panic p) := by
  intro r rest _
  rfl

/-- `decodeColumnarBinType` on a target shape it has no case for. -/
theorem ends_decodeColumnarBinType (x y : UInt8) (hy : ¬ columnarShape y.toNat) :
    Ends decodeColumnarBinType [x, y]
      (.panic (.explicit "[decodeColumnarBinType]: unknow type")) := by
  simp only [columnarShape, not_or] at hy
  obtain ⟨⟨a1, a2, a3, a4⟩, ⟨a5, a6⟩, ⟨a7, a8⟩, a9, a10⟩ := hy
  unfold decodeColumnarBinType
  show Ends (baseReader.ReadInt8 >>= _) ([x] ++ [y]) _
  refine Ends_bind_right (reads_ReadInt8 x) ?_
  show Ends (baseReader.ReadInt8 >>= _) ([y] ++ []) _
  refine Ends_bind_right (reads_ReadInt8 y) ?_
  simp only [ofInt8_toNat, a1, a2, a3, a4, a5, a6, a7, a8, a9, a10, or_self, if_false]
  exact Ends_abort _

/-- A `List` with a positive count whose first member carries the columnar
tag and a target shape without a case: the `panic` of `decodeColumnarBinType`
comes out of the `switch`. -/
theorem ends_columnar_list (self : Bool → Dec Element) (useStruct : Bool) (n : Int)
    (h0 : 0 < n) (hn : n < 2 ^ 31) (y : UInt8) (hy : ¬ columnarShape y.toNat) :
    Ends (DecodeExSwitch self useStruct ListType) (be32 n ++ [40, y])
      (.panic (.explicit "[decodeColumnarBinType]: unknow type")) := by
  have hv : isInt32 n := ⟨by omega, hn⟩
  have hne : n ≠ 0 := by omega
  obtain ⟨k, hk⟩ : ∃ k, n.toNat = k + 1 := ⟨n.toNat - 1, by omega⟩
  unfold DecodeExSwitch
  simp only [TrueType, FalseType, Int32Type, Int64Type, FloatType, DoubleType, StringType,
    VertexType, VertexWithPropertiesType, SVertexType, SVertexWithPropertiesType, PathType,
    ForwardEdgeType, ReverseEdgeType, DoubleEdgeType, ForwardEdgeWithPropertiesType,
    ReverseEdgeWithPropertiesType, DoubleEdgeWithPropertiesType, ForwardSEdgeType,
    ReverseSEdgeType, DoubleSEdgeType, ForwardSEdgeWithPropertiesType,
    ReverseSEdgeWithPropertiesType, DoubleSEdgeWithPropertiesType, ListType]
  simp only [Nat.reduceEqDiff, if_false, if_true]
  refine Ends_bind_right (reads_ReadInt32 hv) ?_
  rw [if_neg hne]
  refine Ends_peek ?_
  have h40 : CoreDataType.ofInt8 (int8 ((40 : UInt8).toNat : Int)) = ColumnarBinType := by
    rw [ofInt8_toNat]; rfl
  rw [if_pos h40, hk]
  refine Ends_bind_left (o := .panic (.explicit "[decodeColumnarBinType]: unknow type")) ?_ rfl
  unfold decodeColumnarBatches
  exact Ends_bind_left (o := .panic (.explicit "[decodeColumnarBinType]: unknow type"))
    (ends_decodeColumnarBinType 40 y hy) rfl

/-- C8 (amended): on every reader `structure.DecodeEx` ends with an element,
an error or a panic.  It returns `ErrUnexpectedEOB` when no byte is left; on
every buffer, however truncated, that starts with a scalar tag, a `Property`
tag, the tag of a vertex or edge without properties or an unknown tag it
returns an element or an error and does not panic, and an unknown tag is the
error `unknownCoreDataType`.  A `List` with a positive count whose first member
carries the columnar tag 40 and a target shape `decodeColumnarBinType` has no
case for ends in the explicit `panic` of that function. -/
theorem C8_decode_outcomes (useStruct : Bool) (w : baseReader) :
    ((∃ e, (DecodeEx useStruct w).1 = .ok e) ∨ (∃ err, (DecodeEx useStruct w).1 = .error err)
      ∨ (∃ p, (DecodeEx useStruct w).1 = .panic p))
    ∧ (w.At [] → (DecodeEx useStruct w).1 = .error .ErrUnexpectedEOB)
    ∧ (∀ x rest, w.At (x :: rest) → ¬ nestingTag x.toNat →
        (∃ e, (DecodeEx useStruct w).1 = .ok e) ∨ (∃ err, (DecodeEx useStruct w).1 = .error err))
    ∧ (∀ x rest, w.At (x :: rest) → ¬ flatTag x.toNat → ¬ nestingTag x.toNat →
        (DecodeEx useStruct w).1 = .error (.unknownCoreDataType x.toNat))
    ∧ (∀ (n : Int) (y : UInt8) (rest : Bytes), 0 < n → n < 2 ^ 31 → ¬ columnarShape y.toNat →
        w.At (13 :: (be32 n ++ 40 :: y :: rest)) →
        (DecodeEx useStruct w).1 = .panic (.explicit "[decodeColumnarBinType]: unknow type")) := by
  have hfuel := DecodeEx_fuel useStruct w
  refine ⟨?_, ?_, ?_, ?_, ?_⟩
  · cases h : (DecodeEx useStruct w).1 with
    | ok e => exact Or.inl ⟨e, rfl⟩
    | error err => exact Or.inr (Or.inl ⟨err, rfl⟩)
    | panic p => exact Or.inr (Or.inr ⟨p, rfl⟩)
    | outOfFuel => exact absurd h hfuel
  · intro h
    rw [DecodeEx_nil useStruct w h]
  · intro x rest h hq
    have hquiet := (Quiet_DecodeExSwitch (DecodeExFuel (w.b.length - w.p)) useStruct x.toNat hq
      (w.adv 1) (baseReader.ReadInt8_at h).2.1).1
    rw [← DecodeEx_cons useStruct w x rest h] at hquiet
    cases h1 : (DecodeEx useStruct w).1 with
    | ok e => exact Or.inl ⟨e, rfl⟩
    | error err => exact Or.inr ⟨err, rfl⟩
    | panic p => exact absurd h1 (hquiet p)
    | outOfFuel => exact absurd h1 hfuel
  · intro x rest h h1 h2
    rw [DecodeEx_cons useStruct w x rest h, DecodeExSwitch_unknown _ _ _ h1 h2]
    rfl
  · intro n y rest h0 hn hy h
    rw [DecodeEx_cons useStruct w 13 _ h]
    have hat : (w.adv 1).At ((be32 n ++ [40, y]) ++ rest) := by
      have := (baseReader.ReadInt8_at h).2
      simpa [List.append_assoc] using this
    exact ends_columnar_list _ useStruct n h0 hn y hy (w.adv 1) rest hat

theorem C8_decode_outcomes_witness :
    (∃ e, (DecodeEx false { p := 0, b := [3, 0, 0], nocopy := false }).1 = .ok e)
      ∨ (∃ err, (DecodeEx false { p := 0, b := [3, 0, 0], nocopy := false }).1 = .error err) :=
  (C8_decode_outcomes false { p := 0, b := [3, 0, 0], nocopy := false }).2.2.1 3 [0, 0]
    (by simp [baseReader.At])
    (by decide)

/-- C8 fails as stated at the buffer `0D 00 00 00 01 28 63`: a `List` of one
member whose first byte is the columnar tag 40, with the target shape 99 that
`decodeColumnarBinType` has no case for.  `structure.DecodeEx` ends in the
`panic` of that function, with neither an element nor an error. -/
theorem C8_counterexample :
    (DecodeEx false { p := 0, b := [13, 0, 0, 0, 1, 40, 99], nocopy := false }).1
      = .panic (.explicit "[decodeColumnarBinType]: unknow type") :=
  rfl

end Structure
namespace Client
open Protocol

theorem int16_magic (m : Nat) (hm : m < 2 ^ 16) (k : Int) (h0 : 0 ≤ k) (hk : k < 2 ^ 15) :
    int16 (m : Int) = k ↔ (m : Int) = k := by
  unfold int16; omega

/-- The magic number `client.DecodeEx` reads from a buffer of two bytes or more. -/
theorem ReadInt16_magic (a b : UInt8) (rest : Bytes) (nc : Bool) :
    BigEndianReader.ReadInt16 { p := 0, b := a :: b :: rest, nocopy := nc }
      = (.ok (int16 ((b.toNat + a.toNat * 2 ^ 8 : Nat) : Int)),
          { p := 2, b := a :: b :: rest, nocopy := nc }) := by
  have hat : baseReader.At { p := 0, b := a :: b :: rest, nocopy := nc } ([a, b] ++ rest) := by
    simp [baseReader.At]
  exact (@ReadInt16_raw _ [a, b] rest rfl hat).1

theorem ReadInt16_short (bts : Bytes) (nc : Bool) (h : bts.length < 2) :
    BigEndianReader.ReadInt16 { p := 0, b := bts, nocopy := nc }
      = (.error .ErrUnexpectedEOB, { p := 0, b := bts, nocopy := nc }) := by
  have e : baseReader.Next 2 { p := 0, b := bts, nocopy := nc }
      = (.error .ErrUnexpectedEOB, { p := 0, b := bts, nocopy := nc }) := by
    unfold baseReader.Next
    rw [if_neg (by decide), if_neg (by simp)]
    simp only []
    rw [if_pos (by simp only [List.drop_zero]; omega)]
  unfold BigEndianReader.ReadInt16
  rw [Dec.bind_error e]

theorem decodeBody_short (sd : Bytes → Option Bytes) (bts : Bytes) (us : Bool)
    (h : bts.length < 2) : decodeBody sd bts us = .error .ErrUnexpectedEOB := by
  unfold decodeBody
  simp only [baseReader.Reset]
  rw [ReadInt16_short bts false h]

theorem decodeBody_cons (sd : Bytes → Option Bytes) (a b : UInt8) (rest : Bytes) (us : Bool) :
    decodeBody sd (a :: b :: rest) us =
      if int16 ((b.toNat + a.toNat * 2 ^ 8 : Nat) : Int) = BinaryV1MagicNumber then
        (Structure.DecodeEx us { p := 2, b := a :: b :: rest, nocopy := false }).1
      else if int16 ((b.toNat + a.toNat * 2 ^ 8 : Nat) : Int) = BinaryV1CompressionMagicNumber then
        match sd rest with
        | some unComprBytes =>
          (Structure.DecodeEx us { p := 0, b := unComprBytes, nocopy := false }).1
        | none => .error (.gremlinError .SYSTEM_ERROR)
      else .error (.gremlinError .SYSTEM_ERROR) := by
  unfold decodeBody
  simp only [baseReader.Reset]
  rw [ReadInt16_magic a b rest false]
  simp only [baseReader.Bytes]
  have h2 : ¬ ((a :: b :: rest).length < 2) := by simp
  rw [if_neg h2]
  rfl

/-- The body of `client.DecodeEx` ends on every buffer. -/
theorem NoFuel_decodeBody (sd : Bytes → Option Bytes) (bts : Bytes) (us : Bool) :
    NoFuel (decodeBody sd bts us) := by
  match bts with
  | [] => rw [decodeBody_short sd [] us (by simp)]; exact NoFuel_error _
  | [a] => rw [decodeBody_short sd [a] us (by simp)]; exact NoFuel_error _
  | a :: b :: rest =>
    rw [decodeBody_cons]
    split
    · exact Structure.DecodeEx_fuel _ _
    · split
      · split
        · exact Structure.DecodeEx_fuel _ _
        · exact NoFuel_error _
      · exact NoFuel_error _

end Client
namespace Structure
open Protocol

theorem errRet_cases (ty : CoreDataType) :
    errRet ty = .nilInterface ∨ errRet ty = .nilVertex ∨ errRet ty = .nilEdge := by
  unfold errRet
  split
  · exact Or.inr (Or.inl rfl)
  · split
    · exact Or.inr (Or.inr rfl)
    · exact Or.inl rfl

/-- Both results of `structure.DecodeEx`, by its outcome: next to an error
stands what the case of the tag returns there. -/
theorem DecodeEx_results (us : Bool) (w : baseReader) :
    ∃ r, DecodeEx.results us w = resultsOf r (DecodeEx us w).1
      ∧ (r = .nilInterface ∨ r = .nilVertex ∨ r = .nilEdge)
      ∧ ∀ x rest, w.At (x :: rest) → r = errRet x.toNat := by
  rw [DecodeEx_eq]
  unfold DecodeExBody DecodeEx.results
  rcases h : baseReader.ReadInt8 w with ⟨o, w1⟩
  cases o with
  | ok i8 =>
    refine ⟨errRet (CoreDataType.ofInt8 i8), by rw [Dec.bind_ok h], errRet_cases _, ?_⟩
    intro x rest hat
    have h1 := (baseReader.ReadInt8_at hat).1
    rw [h] at h1
    have h2 : i8 = int8 (x.toNat : Int) := Outcome.ok.inj (congrArg Prod.fst h1)
    rw [h2, ofInt8_toNat]
  | error e =>
    refine ⟨.nilInterface, by rw [Dec.bind_error h]; rfl, Or.inl rfl, ?_⟩
    intro x rest hat
    have h1 := (baseReader.ReadInt8_at hat).1
    rw [h] at h1
    cases congrArg Prod.fst h1
  | panic p =>
    refine ⟨.nilInterface, by rw [Dec.bind_panic h]; rfl, Or.inl rfl, ?_⟩
    intro x rest hat
    have h1 := (baseReader.ReadInt8_at hat).1
    rw [h] at h1
    cases congrArg Prod.fst h1
  | outOfFuel =>
    refine ⟨.nilInterface, ?_, Or.inl rfl, ?_⟩
    · show Results.outOfFuel = resultsOf _ (Dec.bind _ _ w).1
      unfold Dec.bind
      rw [h]
      rfl
    · intro x rest hat
      have h1 := (baseReader.ReadInt8_at hat).1
      rw [h] at h1
      cases congrArg Prod.fst h1

end Structure
namespace Client
open Protocol Structure

/-- Both results of the body of `client.DecodeEx`, by its outcome. -/
theorem decodeBody_results (sd : Bytes → Option Bytes) (bts : Bytes) (us : Bool) :
    ∃ r, decodeBodyResults sd bts us = resultsOf r (decodeBody sd bts us)
      ∧ (r = .nilInterface ∨ r = .nilVertex ∨ r = .nilEdge) := by
  unfold decodeBodyResults decodeBody
  simp only []
  rcases h : BigEndianReader.ReadInt16
    (baseReader.Reset { p := 0, b := [], nocopy := false } bts false) with ⟨o, r1⟩
  cases o with
  | ok m =>
    simp only []
    split
    · obtain ⟨r, hr, hc, _⟩ := DecodeEx_results us r1
      exact ⟨r, hr, hc⟩
    · split
      · cases hb : r1.Bytes with
        | ok rest =>
          simp only []
          cases hs : sd rest with
          | some un =>
            obtain ⟨r, hr, hc, _⟩ := DecodeEx_results us (baseReader.Reset r1 un false)
            exact ⟨r, hr, hc⟩
          | none => exact ⟨.nilInterface, rfl, Or.inl rfl⟩
        | error e => exact ⟨.nilInterface, rfl, Or.inl rfl⟩
        | panic p => exact ⟨.nilInterface, rfl, Or.inl rfl⟩
        | outOfFuel => exact ⟨.nilInterface, rfl, Or.inl rfl⟩
      · exact ⟨.nilInterface, rfl, Or.inl rfl⟩
  | error e => exact ⟨.nilInterface, rfl, Or.inl rfl⟩
  | panic p => exact ⟨.nilInterface, rfl, Or.inl rfl⟩
  | outOfFuel => exact ⟨.nilInterface, rfl, Or.inl rfl⟩

/-- C9: `client.DecodeEx` with both of its results.  On the buffer
`01 01 08 00` (the magic number, the tag of a vertex and one more byte) it
returns an error together with an `Element` that is not nil: the interface
holds the nil `*Vertex` that `readVertex` returned, because the case is
`return readVertex(w)`; on `01 01 0A` it returns an error together with an
`Element` that holds a nil `*Edge`.  On every buffer the call ends by returning
an element with a nil error, or an error with the nil interface, a nil
`*Vertex` or a nil `*Edge`, and it never panics: a panic of the body is turned
into the nil interface with `SYSTEM_ERROR`.  With the magic number `0x0101`,
when `structure.DecodeEx` fails on the rest, the first result is the nil
interface exactly for the tags other than the vertex and edge tags. -/
theorem C9_nil_pointer_with_error (snappyDecode : Bytes → Option Bytes) (useStruct : Bool) :
    DecodeExResults snappyDecode [1, 1, 8, 0] useStruct
        = .returns .nilVertex (some .ErrUnexpectedEOB)
    ∧ DecodeExResults snappyDecode [1, 1, 10] useStruct
        = .returns .nilEdge (some .ErrUnexpectedEOB)
    ∧ (∀ bts : Bytes,
        (∃ e, DecodeExResults snappyDecode bts useStruct = .returns (.elem e) none)
        ∨ (∃ err, DecodeExResults snappyDecode bts useStruct = .returns .nilInterface (some err))
        ∨ (∃ err, DecodeExResults snappyDecode bts useStruct = .returns .nilVertex (some err))
        ∨ (∃ err, DecodeExResults snappyDecode bts useStruct = .returns .nilEdge (some err)))
    ∧ (∀ (bts : Bytes) (p : Panic), decodeBodyResults snappyDecode bts useStruct = .panics p →
        DecodeExResults snappyDecode bts useStruct
          = .returns .nilInterface (some (.gremlinError .SYSTEM_ERROR)))
    ∧ (∀ (a b x : UInt8) (rest : Bytes) (err : GoError), a.toNat * 2 ^ 8 + b.toNat = 0x0101 →
        (Structure.DecodeEx useStruct { p := 2, b := a :: b :: x :: rest, nocopy := false }).1
          = .error err →
        DecodeExResults snappyDecode (a :: b :: x :: rest) useStruct
          = .returns (errRet x.toNat) (some err)) := by
  refine ⟨rfl, rfl, ?_, ?_, ?_⟩
  · intro bts
    obtain ⟨r, hr, hc⟩ := decodeBody_results snappyDecode bts useStruct
    have hfuel := NoFuel_decodeBody snappyDecode bts useStruct
    unfold DecodeExResults
    rw [hr]
    cases h : decodeBody snappyDecode bts useStruct with
    | ok e => exact Or.inl ⟨e, rfl⟩
    | error err =>
      rcases hc with rfl | rfl | rfl
      · exact Or.inr (Or.inl ⟨err, rfl⟩)
      · exact Or.inr (Or.inr (Or.inl ⟨err, rfl⟩))
      · exact Or.inr (Or.inr (Or.inr ⟨err, rfl⟩))
    | panic p => exact Or.inr (Or.inl ⟨_, rfl⟩)
    | outOfFuel => exact absurd h hfuel
  · intro bts p hp
    unfold DecodeExResults
    rw [hp]
  · intro a b x rest err hm herr
    have hmag : int16 ((b.toNat + a.toNat * 2 ^ 8 : Nat) : Int) = BinaryV1MagicNumber := by
      rw [show b.toNat + a.toNat * 2 ^ 8 = 257 by omega]
      rfl
    have hbody : decodeBodyResults snappyDecode (a :: b :: x :: rest) useStruct
        = Structure.DecodeEx.results useStruct
            { p := 2, b := a :: b :: x :: rest, nocopy := false } := by
      unfold decodeBodyResults
      simp only [baseReader.Reset]
      rw [ReadInt16_magic a b (x :: rest) false]
      simp only []
      rw [if_pos hmag]
    obtain ⟨r, hr, _, hx⟩ := DecodeEx_results useStruct
      { p := 2, b := a :: b :: x :: rest, nocopy := false }
    have hat : baseReader.At { p := 2, b := a :: b :: x :: rest, nocopy := false } (x :: rest) :=
      ⟨by simp, rfl⟩
    unfold DecodeExResults
    rw [hbody, hr, herr, hx x rest hat]
    rfl

/-- C10: `client.DecodeEx` reads the first two bytes as a big-endian 16-bit
magic number.  A buffer of fewer than two bytes is `ErrUnexpectedEOB`.  With
the magic number 0x0101 the result is the result of `structure.DecodeEx` on the
reader behind the two bytes (its element, or its error; a panic of it is
recovered into `SYSTEM_ERROR`); with a magic number other than 0x0101 and
0x0102 it is the error `SYSTEM_ERROR`.  The bytes of the client test, `01 01`
and the encoding of a one-edge `List`, decode to that list. -/
theorem C10_client_dispatch (snappyDecode : Bytes → Option Bytes) (useStruct : Bool) :
    (∀ bts : Bytes, bts.length < 2 →
        DecodeEx snappyDecode bts useStruct = .error .ErrUnexpectedEOB)
    ∧ (∀ (a b : UInt8) (rest : Bytes), a.toNat * 2 ^ 8 + b.toNat = 0x0101 →
        decodeBody snappyDecode (a :: b :: rest) useStruct
            = (Structure.DecodeEx useStruct { p := 2, b := a :: b :: rest, nocopy := false }).1
        ∧ (∀ e, (Structure.DecodeEx useStruct { p := 2, b := a :: b :: rest, nocopy := false }).1
              = .ok e → DecodeEx snappyDecode (a :: b :: rest) useStruct = .ok e)
        ∧ (∀ err, (Structure.DecodeEx useStruct { p := 2, b := a :: b :: rest, nocopy := false }).1
              = .error err → DecodeEx snappyDecode (a :: b :: rest) useStruct = .error err))
    ∧ (∀ (a b : UInt8) (rest : Bytes), a.toNat * 2 ^ 8 + b.toNat ≠ 0x0101 →
        a.toNat * 2 ^ 8 + b.toNat ≠ 0x0102 →
        DecodeEx snappyDecode (a :: b :: rest) useStruct = .error (.gremlinError .SYSTEM_ERROR))
    ∧ DecodeEx snappyDecode
        [1, 1, 13, 0, 0, 0, 1, 10, 0, 0, 0, 4, 108, 105, 107, 101, 0, 0, 0, 0, 0, 0, 0, 1,
          0, 0, 3, 234, 0, 0, 0, 0, 0, 0, 0, 2, 0, 0, 3, 234] false
        = .ok (.List [.Edge ⟨⟨1, 1002, Structure.IdTypeInt64Int32, [], [], []⟩,
            ⟨2, 1002, Structure.IdTypeInt64Int32, [], [], []⟩, [108, 105, 107, 101], []⟩]) := by
  refine ⟨?_, ?_, ?_, rfl⟩
  · intro bts h
    unfold DecodeEx
    rw [decodeBody_short snappyDecode bts useStruct h]
  · intro a b rest hm
    have ha := toNat_lt_256 a
    have hb := toNat_lt_256 b
    have hmagic : int16 ((b.toNat + a.toNat * 2 ^ 8 : Nat) : Int) = BinaryV1MagicNumber := by
      unfold int16 BinaryV1MagicNumber; omega
    have hbody : decodeBody snappyDecode (a :: b :: rest) useStruct
        = (Structure.DecodeEx useStruct { p := 2, b := a :: b :: rest, nocopy := false }).1 := by
      rw [decodeBody_cons, if_pos hmagic]
    refine ⟨hbody, ?_, ?_⟩
    · intro e he
      unfold DecodeEx
      rw [hbody, he]
    · intro err he
      unfold DecodeEx
      rw [hbody, he]
  · intro a b rest h1 h2
    have ha := toNat_lt_256 a
    have hb := toNat_lt_256 b
    have hm1 : ¬ int16 ((b.toNat + a.toNat * 2 ^ 8 : Nat) : Int) = BinaryV1MagicNumber := by
      unfold int16 BinaryV1MagicNumber; omega
    have hm2 : ¬ int16 ((b.toNat + a.toNat * 2 ^ 8 : Nat) : Int)
        = BinaryV1CompressionMagicNumber := by
      unfold int16 BinaryV1CompressionMagicNumber; omega
    unfold DecodeEx
    rw [decodeBody_cons, if_neg hm1, if_neg hm2]

end Client
namespace Structure
open Protocol

theorem encOf_eq {e : Element} {X : Bytes} (h : EncodeTo e [] = .ok X) : encOf e = X := by
  unfold encOf; rw [h]

/-- What `DecodeEx` reads back starts with a tag byte, and not with the tag of
a columnar batch. -/
theorem reads_first_byte {self : Bool → Dec Element} {X : Bytes} {e : Element}
    (h : Reads (DecodeExBody self false) X e) :
    ∃ x rest, X = x :: rest ∧ x.toNat ≠ ColumnarBinType := by
  have hat : baseReader.At { p := 0, b := X, nocopy := false } (X ++ []) := by
    simp [baseReader.At]
  have hr := (h _ _ hat).1
  cases X with
  | nil =>
    exfalso
    unfold DecodeExBody at hr
    rw [Dec.bind_error (ReadInt8_eob { p := 0, b := [], nocopy := false } (Nat.le_refl _) rfl)] at hr
    cases hr
  | cons x rest =>
    refine ⟨x, rest, rfl, ?_⟩
    intro hx
    have hat1 : baseReader.At { p := 0, b := x :: rest, nocopy := false } (x :: rest) := by
      simp [baseReader.At]
    unfold DecodeExBody at hr
    rw [Dec.bind_ok (baseReader.ReadInt8_at hat1).1, ofInt8_toNat, hx,
      DecodeExSwitch_unknown _ _ _ (by decide) (by decide)] at hr
    cases hr

theorem roundTrips_intro {e : Element} {X : Bytes}
    (h1 : ∀ w : BigEndianWriter, EncodeTo e w = .ok (w ++ X))
    (h2 : ∀ self, ReadsProperties self → Reads (DecodeExBody self false) X e) :
    RoundTrips e := by
  have hX : encOf e = X := encOf_eq (by simpa using h1 [])
  obtain ⟨x, rest, hcons, _⟩ := reads_first_byte (h2 _ (readsProperties_fuel 0))
  unfold RoundTrips
  rw [hX]
  refine ⟨h1, ?_⟩
  intro k hk
  have hlen : 1 ≤ X.length := by rw [hcons]; simp
  obtain ⟨j, hj⟩ : ∃ j, k = j + 2 := ⟨k - 2, by omega⟩
  rw [hj]
  exact h2 _ (readsProperties_fuel j)

theorem Edge.wire_form {e : Edge} (hw : e.wire) :
    (e.OutV.VType = IdTypeInt64Int32 ∨ e.OutV.VType = IdTypeStringString)
    ∧ ((e.OutV.VType = IdTypeInt64Int32 ∧ e.InV.VType = IdTypeInt64Int32)
      ∨ (e.OutV.VType = IdTypeStringString ∧ e.InV.VType = IdTypeStringString)) := by
  have hform : e.OutV.VType = IdTypeInt64Int32 ∨ e.OutV.VType = IdTypeStringString := by
    rcases hw.1.2 with ⟨h, _⟩ | ⟨h, _⟩
    · exact Or.inl h
    · exact Or.inr h
  refine ⟨hform, ?_⟩
  rcases hform with h | h
  · exact Or.inl ⟨h, by rw [← hw.2.2.1]; exact h⟩
  · exact Or.inr ⟨h, by rw [← hw.2.2.1]; exact h⟩

theorem reads_Edge {self : Bool → Dec Element} (hself : ReadsProperties self) {e : Edge}
    (hw : e.wire) : Reads (DecodeExBody self false) (encEdge e) (.Edge e) := by
  obtain ⟨hform, _⟩ := Edge.wire_form hw
  rw [encEdge_eq_payload e hform]
  have hsf : e.OutV.VType = if decide (e.OutV.VType = IdTypeStringString) = true
      then IdTypeStringString else IdTypeInt64Int32 := by
    rcases hform with h | h
    · rw [h]; rfl
    · rw [h]; rfl
  have hnp : decide (e.Properties ≠ []) = false → e.Properties = [] := by
    intro h
    simpa using h
  exact reads_edgePayload hself false _ _ .DirectionType_Forward hw hsf hnp

/-- The scalars, properties, vertices and edges of `baseWire` round-trip on
their own. -/
theorem roundTrips_of_baseWire (e : Element) (h : baseWire e) : RoundTrips e := by
  cases e with
  | Bool b =>
    refine roundTrips_intro (X := [byte (if b then 1 else 2)]) ?_
      (fun self _ => reads_Bool self false b)
    intro w
    cases b
    · simp only [EncodeTo, WriteInt8_eq _ FalseType (by decide)]
      simp [FalseType]
    · simp only [EncodeTo, WriteInt8_eq _ TrueType (by decide)]
      simp [TrueType]
  | Int32 x =>
    refine roundTrips_intro (X := byte 3 :: be32 x) ?_ (fun self _ => reads_Int32 self false h)
    intro w
    simp only [EncodeTo, WriteInt8_eq _ Int32Type (by decide), WriteInt32_eq,
      int32_of_isInt32 x h]
    simp [Int32Type]
  | Int64 x =>
    refine roundTrips_intro (X := byte 4 :: be64 x) ?_ (fun self _ => reads_Int64 self false h)
    intro w
    simp only [EncodeTo, WriteInt8_eq _ Int64Type (by decide), WriteInt64_eq,
      int64_of_isInt64 x h]
    simp [Int64Type]
  | Float32 x =>
    refine roundTrips_intro (X := byte 5 :: bits32 x) ?_
      (fun self _ => reads_Float32 self false h)
    intro w
    simp only [EncodeTo, WriteInt8_eq _ FloatType (by decide), WriteFloat_eq]
    simp [FloatType]
  | Float64 x =>
    refine roundTrips_intro (X := byte 6 :: bits64 x) ?_
      (fun self _ => reads_Float64 self false h)
    intro w
    simp only [EncodeTo, WriteInt8_eq _ DoubleType (by decide), WriteDouble_eq]
    simp [DoubleType]
  | String x =>
    refine roundTrips_intro (X := byte 7 :: beStr x) ?_ (fun self _ => reads_String self false h)
    intro w
    simp only [EncodeTo, WriteInt8_eq _ StringType (by decide), WriteString_eq]
    simp [StringType]
  | Property p =>
    exact roundTrips_intro (EncodeTo_Property p) (fun self _ => reads_Property self false h)
  | Vertex v =>
    have hv : v.VType = IdTypeInt64Int32 ∨ v.VType = IdTypeStringString := by
      rcases h.1 with ⟨h1, _⟩ | ⟨h1, _⟩
      · exact Or.inl h1
      · exact Or.inr h1
    exact roundTrips_intro (fun w => EncodeTo_Vertex v w hv)
      (fun self hself => reads_Vertex hself false h)
  | Edge e =>
    exact roundTrips_intro (fun w => EncodeTo_Edge e w (Edge.wire_form h).2)
      (fun self hself => reads_Edge hself h)
  | Path _ => exact absurd h (by simp [baseWire])
  | PathStruct _ => exact absurd h (by simp [baseWire])
  | List _ => exact absurd h (by simp [baseWire])
  | ListStruct _ => exact absurd h (by simp [baseWire])
  | Map _ => exact absurd h (by simp [baseWire])
  | MapStruct _ => exact absurd h (by simp [baseWire])
  | LinkedMap _ _ => exact absurd h (by simp [baseWire])

theorem encodeElems_eq (ms : List Element)
    (h : ∀ m ∈ ms, ∀ w : BigEndianWriter, EncodeTo m w = .ok (w ++ encOf m)) :
    ∀ w : BigEndianWriter, encodeElems ms w = .ok (w ++ encAll ms) := by
  induction ms with
  | nil => intro w; simp [encodeElems, encAll]
  | cons m rest ih =>
    intro w
    have h1 := h m (List.mem_cons_self _ _) w
    have h2 := ih (fun q hq => h q (List.mem_cons_of_mem _ hq)) (w ++ encOf m)
    rw [encodeElems, h1]
    show encodeElems rest (w ++ encOf m) = _
    rw [h2]
    simp [encAll]

theorem reads_decodeElements {dec : Dec Element} (ms : List Element)
    (h : ∀ m ∈ ms, Reads dec (encOf m) m) (acc : List Element) :
    Reads (decodeElements dec ms.length acc) (encAll ms) (acc ++ ms) := by
  induction ms generalizing acc with
  | nil => simpa [decodeElements, encAll] using Reads_pure acc
  | cons m rest ih =>
    have h1 := h m (List.mem_cons_self _ _)
    have h2 := ih (fun q hq => h q (List.mem_cons_of_mem _ hq)) (acc ++ [m])
    show Reads (decodeElements dec (rest.length + 1) acc) _ _
    unfold decodeElements
    exact Reads_of_eq (Reads_bind h1 h2) rfl (by simp)

theorem encOf_length_le {m : Element} {ms : List Element} (h : m ∈ ms) :
    (encOf m).length ≤ (encAll ms).length := by
  induction ms with
  | nil => cases h
  | cons x rest ih =>
    simp only [encAll, List.length_append]
    rcases List.mem_cons.mp h with rfl | h1
    · omega
    · have := ih h1
      omega

/-- The `ListType` case on what `List.EncodeTo` writes behind the tag. -/
theorem reads_ListSwitch {self : Bool → Dec Element} (ms : List Element)
    (hn : ms.length < 2 ^ 31) (h : ∀ m ∈ ms, Reads (self false) (encOf m) m)
    (hfirst : ∀ m ∈ ms, ∃ x rest, encOf m = x :: rest ∧ x.toNat ≠ ColumnarBinType) :
    Reads (DecodeExSwitch self false ListType) (be32 ms.length ++ encAll ms) (.List ms) := by
  have hv : isInt32 (ms.length : Int) := by unfold isInt32; omega
  unfold DecodeExSwitch
  simp only [TrueType, FalseType, Int32Type, Int64Type, FloatType, DoubleType, StringType,
    VertexType, VertexWithPropertiesType, SVertexType, SVertexWithPropertiesType, PathType,
    ForwardEdgeType, ReverseEdgeType, DoubleEdgeType, ForwardEdgeWithPropertiesType,
    ReverseEdgeWithPropertiesType, DoubleEdgeWithPropertiesType, ForwardSEdgeType,
    ReverseSEdgeType, DoubleSEdgeType, ForwardSEdgeWithPropertiesType,
    ReverseSEdgeWithPropertiesType, DoubleSEdgeWithPropertiesType, ListType]
  simp only [Nat.reduceEqDiff, if_false, if_true]
  refine Reads_bind (reads_ReadInt32 hv) ?_
  cases ms with
  | nil =>
    simp only [List.length_nil, Nat.cast_zero, if_true, encAll]
    exact Reads_pure _
  | cons m rest =>
    have hne : ¬ (((m :: rest).length : Nat) : Int) = 0 := by simp; omega
    rw [if_neg hne]
    obtain ⟨x, xs, hx, hx40⟩ := hfirst m (List.mem_cons_self _ _)
    have hall : encAll (m :: rest) = x :: (xs ++ encAll rest) := by
      simp [encAll, hx]
    have hdec := reads_decodeElements (m :: rest) h []
    rw [hall] at hdec ⊢
    refine Reads_peek ?_
    have hx1 : ¬ CoreDataType.ofInt8 (int8 (x.toNat : Int)) = ColumnarBinType := by
      rw [ofInt8_toNat]; exact hx40
    rw [if_neg hx1, if_neg (by omega), Int.toNat_ofNat]
    refine Reads_of_eq (Reads_bind hdec (Reads_pure _)) (by simp) (by simp)

/-- The `PathType` case on what `Path.EncodeTo` writes behind the tag. -/
theorem reads_PathSwitch {self : Bool → Dec Element} (ms : List Element)
    (hn : ms.length < 2 ^ 31) (h : ∀ m ∈ ms, Reads (self false) (encOf m) m) :
    Reads (DecodeExSwitch self false PathType)
      (byte 13 :: (be32 0 ++ byte 13 :: (be32 ms.length ++ encAll ms))) (.Path ms) := by
  have hv : isInt32 (ms.length : Int) := by unfold isInt32; omega
  have h0 : isInt32 (0 : Int) := by unfold isInt32; omega
  have h13 : CoreDataType.ofInt8 (int8 ((byte 13).toNat : Int)) = ListType := ofInt8_byte 13 (by decide)
  unfold DecodeExSwitch
  simp only [TrueType, FalseType, Int32Type, Int64Type, FloatType, DoubleType, StringType,
    VertexType, VertexWithPropertiesType, SVertexType, SVertexWithPropertiesType, PathType]
  simp only [Nat.reduceEqDiff, if_false, if_true]
  refine Reads_bind (reads_ReadInt8 (byte 13)) ?_
  rw [if_neg (by rw [h13]; exact fun h => h rfl)]
  refine Reads_bind (reads_ReadInt32 h0) ?_
  show Reads (skipElements (self false) (Int.toNat 0) >>= _) ([] ++ _) _
  refine Reads_bind (Reads_pure ()) ?_
  refine Reads_bind (reads_ReadInt8 (byte 13)) ?_
  rw [if_neg (by rw [h13]; exact fun h => h rfl)]
  refine Reads_bind (reads_ReadInt32 hv) ?_
  rw [if_neg (by omega), Int.toNat_ofNat]
  exact Reads_of_eq (Reads_bind (reads_decodeElements ms h []) (Reads_pure _)) (by simp) (by simp)

theorem roundTrips_first_byte {m : Element} (h : RoundTrips m) :
    ∃ x rest, encOf m = x :: rest ∧ x.toNat ≠ ColumnarBinType :=
  @reads_first_byte (DecodeExFuel (encOf m).length) _ _
    (h.2 ((encOf m).length + 1) (Nat.lt_succ_self _))

theorem EncodeTo_List (ms : List Element) (hn : ms.length < 2 ^ 31)
    (hms : ∀ m ∈ ms, RoundTrips m) (w : BigEndianWriter) :
    EncodeTo (.List ms) w = .ok (w ++ byte 13 :: (be32 ms.length ++ encAll ms)) := by
  simp only [EncodeTo, WriteInt8_eq _ ListType (by decide), WriteInt32_eq, int32_of_lt _ hn]
  rw [encodeElems_eq ms (fun m hm => (hms m hm).1)]
  simp [ListType]

theorem EncodeTo_Path (ms : List Element) (hn : ms.length < 2 ^ 31)
    (hms : ∀ m ∈ ms, RoundTrips m) (w : BigEndianWriter) :
    EncodeTo (.Path ms) w
      = .ok (w ++ byte 9 :: byte 13 :: (be32 0 ++ byte 13 :: (be32 ms.length ++ encAll ms))) := by
  simp only [EncodeTo, WriteInt8_eq _ ListType (by decide), WriteInt8_eq _ PathType (by decide),
    WriteInt32_eq, int32_of_lt _ hn]
  rw [encodeElems_eq ms (fun m hm => (hms m hm).1)]
  simp [ListType, PathType]

/-- A `List` of fewer than 2^31 members that round-trip on their own
round-trips on its own. -/
theorem roundTrips_List (ms : List Element) (hn : ms.length < 2 ^ 31)
    (hms : ∀ m ∈ ms, RoundTrips m) : RoundTrips (.List ms) := by
  have henc := EncodeTo_List ms hn hms
  have hX : encOf (.List ms) = byte 13 :: (be32 ms.length ++ encAll ms) :=
    encOf_eq (by simpa using henc [])
  unfold RoundTrips
  rw [hX]
  refine ⟨henc, ?_⟩
  intro k hk
  simp only [List.length_cons, List.length_append, be32_length] at hk
  obtain ⟨j, hj⟩ : ∃ j, k = j + 1 := ⟨k - 1, by omega⟩
  rw [hj]
  refine reads_DecodeExBody (t := 13) (by decide) (reads_ListSwitch ms hn ?_ ?_)
  · intro m hm
    have := encOf_length_le hm
    exact (hms m hm).2 j (by omega)
  · intro m hm
    exact roundTrips_first_byte (hms m hm)

/-- A `Path` of fewer than 2^31 members that round-trip on their own
round-trips on its own. -/
theorem roundTrips_Path (ms : List Element) (hn : ms.length < 2 ^ 31)
    (hms : ∀ m ∈ ms, RoundTrips m) : RoundTrips (.Path ms) := by
  have henc := EncodeTo_Path ms hn hms
  have hX : encOf (.Path ms)
      = byte 9 :: byte 13 :: (be32 0 ++ byte 13 :: (be32 ms.length ++ encAll ms)) :=
    encOf_eq (by simpa using henc [])
  unfold RoundTrips
  rw [hX]
  refine ⟨henc, ?_⟩
  intro k hk
  simp only [List.length_cons, List.length_append, be32_length] at hk
  obtain ⟨j, hj⟩ : ∃ j, k = j + 1 := ⟨k - 1, by omega⟩
  rw [hj]
  refine reads_DecodeExBody (t := 9) (by decide) (reads_PathSwitch ms hn ?_)
  intro m hm
  have := encOf_length_le hm
  exact (hms m hm).2 j (by omega)

/-- An element that round-trips on its own is returned by `structure.Decode`
from the bytes `EncodeTo` writes into an empty writer. -/
theorem Decode_of_roundTrips {e : Element} (h : RoundTrips e) (nocopy : Bool) :
    (EncodeTo e []).isOk = true ∧
    ∀ bytes, EncodeTo e [] = .ok bytes →
      (Decode (baseReader.Reset { p := 0, b := [], nocopy := false } bytes nocopy)).1 = .ok e := by
  have he : EncodeTo e [] = .ok (encOf e) := by simpa using h.1 []
  refine ⟨by rw [he]; rfl, ?_⟩
  intro bytes hb
  rw [he] at hb
  cases hb
  have hat : baseReader.At { p := 0, b := encOf e, nocopy := nocopy } (encOf e ++ []) := by
    simp [baseReader.At]
  have hr := (h.2 ((encOf e).length + 1) (Nat.lt_succ_self _) _ _ hat).1
  show (DecodeExFuel ((encOf e).length - 0 + 1) false _).1 = _
  rw [Nat.sub_zero]
  exact congrArg Prod.fst hr

theorem Ends_abort_at {α : Type} (p : Panic) (xs : Bytes) :
    Ends (Dec.abort p : Dec α) xs (.panic p) := by
  intro r rest _
  rfl

theorem encodeElems_bools (n : Nat) (w : BigEndianWriter) :
    encodeElems (List.replicate n (.Bool true)) w = .ok (w ++ List.replicate n (byte 1)) := by
  induction n generalizing w with
  | zero => simp [encodeElems]
  | succ n ih =>
    rw [List.replicate_succ, encodeElems]
    have h1 : EncodeTo (.Bool true) w = .ok (w ++ [byte 1]) := by
      simp only [EncodeTo, if_true, WriteInt8_eq _ TrueType (by decide)]
      simp [TrueType]
    rw [h1]
    show encodeElems (List.replicate n (.Bool true)) (w ++ [byte 1]) = _
    rw [ih, List.replicate_succ]
    simp

/-- A `List` of `m + 1` members `Bool(true)` whose count wraps to a negative
`int32`: `EncodeTo` writes the wrapped count, and `Decode` of the bytes panics
in `make([]Element, 0, length)`. -/
theorem list_of_bools_panics (m : Nat) (hneg : int32 ((m + 1 : Nat) : Int) < 0) (nocopy : Bool) :
    EncodeTo (.List (List.replicate (m + 1) (.Bool true))) []
      = .ok (byte 13 :: (be32 (int32 ((m + 1 : Nat) : Int)) ++ byte 1 :: List.replicate m (byte 1)))
    ∧ (Decode (baseReader.Reset { p := 0, b := [], nocopy := false }
        (byte 13 :: (be32 (int32 ((m + 1 : Nat) : Int)) ++ byte 1 :: List.replicate m (byte 1)))
        nocopy)).1 = .panic .makesliceOutOfRange := by
  constructor
  · simp only [EncodeTo, WriteInt8_eq _ ListType (by decide), WriteInt32_eq,
      List.length_replicate]
    rw [encodeElems_bools, List.replicate_succ]
    simp [ListType]
  · have hv : isInt32 (int32 ((m + 1 : Nat) : Int)) := isInt32_int32 _
    have hends : ∀ self, Ends (DecodeExBody self false)
        (byte 13 :: (be32 (int32 ((m + 1 : Nat) : Int)) ++ [byte 1]))
        (.panic .makesliceOutOfRange) := by
      intro self
      refine ends_DecodeExBody (t := 13) (by decide) ?_
      unfold DecodeExSwitch
      simp only [TrueType, FalseType, Int32Type, Int64Type, FloatType, DoubleType, StringType,
        VertexType, VertexWithPropertiesType, SVertexType, SVertexWithPropertiesType, PathType,
        ForwardEdgeType, ReverseEdgeType, DoubleEdgeType, ForwardEdgeWithPropertiesType,
        ReverseEdgeWithPropertiesType, DoubleEdgeWithPropertiesType, ForwardSEdgeType,
        ReverseSEdgeType, DoubleSEdgeType, ForwardSEdgeWithPropertiesType,
        ReverseSEdgeWithPropertiesType, DoubleSEdgeWithPropertiesType, ListType]
      simp only [Nat.reduceEqDiff, if_false, if_true]
      refine Ends_bind_right (reads_ReadInt32 hv) ?_
      rw [if_neg (by omega)]
      refine Ends_peek ?_
      have h1 : ¬ CoreDataType.ofInt8 (int8 ((byte 1).toNat : Int)) = ColumnarBinType := by
        rw [ofInt8_byte 1 (by decide)]; decide
      rw [if_neg h1, if_pos hneg]
      exact Ends_abort_at _ _
    have := @Decode_of_ends _ (List.replicate m (byte 1)) _ nocopy hends
    simpa [List.append_assoc] using this

/-- C5 (amended): for every `List` and every `Path` (the empty ones included)
with fewer than 2^31 members, each of which round-trips on its own (wherever
the bytes `EncodeTo` writes for it stand in a buffer, `Decode` returns the
member and stops right behind them), `EncodeTo` succeeds and `structure.Decode`
of the bytes written returns the container of the same variant with the same
members in the same order.  The container round-trips on its own in the same
sense, so it can be a member again, to any depth; and the scalars, Properties,
Vertices and Edges of `baseWire` round-trip on their own. -/
theorem C5_container_roundtrip (ms : List Element) (hms : ∀ m ∈ ms, RoundTrips m)
    (hn : ms.length < 2 ^ 31) (nocopy : Bool) :
    ((EncodeTo (.List ms) []).isOk = true ∧
      ∀ bytes, EncodeTo (.List ms) [] = .ok bytes →
        (Decode (baseReader.Reset { p := 0, b := [], nocopy := false } bytes nocopy)).1
          = .ok (.List ms))
    ∧ ((EncodeTo (.Path ms) []).isOk = true ∧
      ∀ bytes, EncodeTo (.Path ms) [] = .ok bytes →
        (Decode (baseReader.Reset { p := 0, b := [], nocopy := false } bytes nocopy)).1
          = .ok (.Path ms))
    ∧ RoundTrips (.List ms) ∧ RoundTrips (.Path ms)
    ∧ ∀ m, baseWire m → RoundTrips m :=
  ⟨Decode_of_roundTrips (roundTrips_List ms hn hms) nocopy,
    Decode_of_roundTrips (roundTrips_Path ms hn hms) nocopy,
    roundTrips_List ms hn hms, roundTrips_Path ms hn hms, roundTrips_of_baseWire⟩

/-- C5 (amended) at the list `[Int32(7), "a", [true, Path{}], Path{Int64(1), Vertex(5, 2)}]`:
a `List` that holds scalars, a nested `List` with an empty `Path` in it, and a
`Path` with a vertex. -/
theorem C5_container_roundtrip_witness :
    (Decode (baseReader.Reset { p := 0, b := [], nocopy := false }
      [13, 0, 0, 0, 4, 3, 0, 0, 0, 7, 7, 0, 0, 0, 1, 97, 13, 0, 0, 0, 2, 1, 9, 13, 0, 0, 0, 0,
        13, 0, 0, 0, 0, 9, 13, 0, 0, 0, 0, 13, 0, 0, 0, 2, 4, 0, 0, 0, 0, 0, 0, 0, 1, 8, 0, 0,
        0, 0, 0, 0, 0, 5, 0, 0, 0, 2] false)).1
      = .ok (.List [.Int32 7, .String [97], .List [.Bool true, .Path []],
          .Path [.Int64 1, .Vertex ⟨5, 2, IdTypeInt64Int32, [], [], []⟩]]) :=
  (C5_container_roundtrip
    [.Int32 7, .String [97], .List [.Bool true, .Path []],
      .Path [.Int64 1, .Vertex ⟨5, 2, IdTypeInt64Int32, [], [], []⟩]]
    (by
      intro m hm
      simp only [List.mem_cons, List.mem_singleton, List.not_mem_nil, or_false] at hm
      rcases hm with rfl | rfl | rfl | rfl
      · exact roundTrips_of_baseWire _ (by simp [baseWire, isInt32])
      · exact roundTrips_of_baseWire _ (by simp [baseWire])
      · refine (C5_container_roundtrip [.Bool true, .Path []] ?_ (by simp) false).2.2.1
        intro m hm
        simp only [List.mem_cons, List.mem_singleton, List.not_mem_nil, or_false] at hm
        rcases hm with rfl | rfl
        · exact roundTrips_of_baseWire _ (by simp [baseWire])
        · exact (C5_container_roundtrip [] (by simp) (by simp) false).2.2.2.1
      · refine (C5_container_roundtrip
          [.Int64 1, .Vertex ⟨5, 2, IdTypeInt64Int32, [], [], []⟩] ?_ (by simp) false).2.2.2.1
        intro m hm
        simp only [List.mem_cons, List.mem_singleton, List.not_mem_nil, or_false] at hm
        rcases hm with rfl | rfl
        · exact roundTrips_of_baseWire _ (by simp [baseWire, isInt64])
        · exact roundTrips_of_baseWire _
            (by simp [baseWire, Vertex.wire, isInt64, isInt32, IdTypeInt64Int32]))
    (by simp) false).1.2 _ rfl

/-- C5 fails as stated at the `List` of 2^31 members `Bool(true)`: each member
round-trips on its own (`EncodeTo` writes the byte `01`, which `Decode` reads
back as `Bool(true)`), `List.EncodeTo` writes the count `int32(2^31) = -2^31`,
and `structure.Decode` of the bytes written panics in
`make([]Element, 0, length)` instead of returning the list. -/
theorem C5_counterexample :
    (∀ m ∈ List.replicate 2147483648 (Element.Bool true),
      EncodeTo m [] = .ok [1]
      ∧ (Decode (baseReader.Reset { p := 0, b := [], nocopy := false } [1] false)).1 = .ok m)
    ∧ ∃ bytes, EncodeTo (.List (List.replicate 2147483648 (.Bool true))) [] = .ok bytes
      ∧ (Decode (baseReader.Reset { p := 0, b := [], nocopy := false } bytes false)).1
        = .panic .makesliceOutOfRange := by
  refine ⟨?_, _, list_of_bools_panics 2147483647 (by decide) false⟩
  intro m hm
  rw [List.eq_of_mem_replicate hm]
  exact ⟨rfl, rfl⟩

end Structure
namespace Structure
open Protocol

theorem tag_out_of_range {t : Nat}
    (h : ¬ ((1 ≤ t ∧ t ≤ 19) ∨ (24 ≤ t ∧ t ≤ 32))) : ¬ flatTag t ∧ ¬ nestingTag t := by
  constructor
  · rintro (h1 | h1 | h1 | h1 | h1 | h1 | h1 | h1 | h1 | h1 | h1 | h1 | h1 | h1 | h1 | h1) <;>
      exact h (by rw [h1]; decide)
  · rintro (h1 | h1 | h1 | h1 | h1 | h1 | h1 | h1 | h1 | h1 | h1 | h1) <;>
      exact h (by rw [h1]; decide)

/-- C11: on a reader with no unread byte `structure.DecodeEx` returns the
error `ErrUnexpectedEOB`, and on a reader whose next byte is not one of the
tags 1..19 and 24..32 (0, 20..23, 33..255, so the columnar tag 40 and the
marker 41 too) it returns the error `unknown coreDataType`, behind the tag
byte; in both cases no element is returned. -/
theorem C11_unknown_tag (useStruct : Bool) (w : baseReader) :
    (w.At [] → DecodeEx useStruct w = (.error .ErrUnexpectedEOB, w))
    ∧ ∀ (x : UInt8) (rest : Bytes), w.At (x :: rest) →
        ¬ ((1 ≤ x.toNat ∧ x.toNat ≤ 19) ∨ (24 ≤ x.toNat ∧ x.toNat ≤ 32)) →
        DecodeEx useStruct w = (.error (.unknownCoreDataType x.toNat), w.adv 1) := by
  refine ⟨DecodeEx_nil useStruct w, ?_⟩
  intro x rest h hx
  obtain ⟨h1, h2⟩ := tag_out_of_range hx
  rw [DecodeEx_cons useStruct w x rest h, DecodeExSwitch_unknown _ _ _ h1 h2]
  rfl

/-- C11 at the buffers `28` (the columnar tag), `29` (the client-side marker)
and `00 01`, and at the empty buffer. -/
theorem C11_unknown_tag_witness :
    (DecodeEx false { p := 0, b := [40], nocopy := false }).1 = .error (.unknownCoreDataType 40)
    ∧ (DecodeEx true { p := 0, b := [41], nocopy := false }).1 = .error (.unknownCoreDataType 41)
    ∧ (DecodeEx false { p := 0, b := [0, 1], nocopy := false }).1 = .error (.unknownCoreDataType 0)
    ∧ (DecodeEx false { p := 0, b := [], nocopy := false }).1 = .error .ErrUnexpectedEOB :=
  ⟨congrArg Prod.fst ((C11_unknown_tag false { p := 0, b := [40], nocopy := false }).2 40 []
      (by simp [baseReader.At]) (by decide)),
    congrArg Prod.fst ((C11_unknown_tag true { p := 0, b := [41], nocopy := false }).2 41 []
      (by simp [baseReader.At]) (by decide)),
    congrArg Prod.fst ((C11_unknown_tag false { p := 0, b := [0, 1], nocopy := false }).2 0 [1]
      (by simp [baseReader.At]) (by decide)),
    congrArg Prod.fst ((C11_unknown_tag false { p := 0, b := [], nocopy := false }).1
      (by simp [baseReader.At]))⟩

theorem Ends_fail {α : Type} (e : GoError) (xs : Bytes) :
    Ends (Dec.fail e : Dec α) xs (.error e) := by
  intro r rest _
  rfl

/-- `decodeValue` on a tag byte outside 1..7. -/
theorem ends_decodeValue (t : UInt8) (ht : ¬ (1 ≤ t.toNat ∧ t.toNat ≤ 7)) :
    Ends decodeValue [t] (.error (.valueNotBasicType t.toNat)) := by
  unfold decodeValue
  show Ends (baseReader.ReadInt8 >>= _) ([t] ++ []) _
  refine Ends_bind_right (reads_ReadInt8 t) ?_
  have hne : ∀ k : Nat, 1 ≤ k → k ≤ 7 → ¬ t.toNat = k := fun k h1 h2 h => ht (by omega)
  simp only [ofInt8_toNat, TrueType, FalseType, Int32Type, Int64Type, FloatType, DoubleType,
    StringType]
  rw [if_neg (hne 1 (by decide) (by decide)), if_neg (hne 2 (by decide) (by decide)),
    if_neg (hne 3 (by decide) (by decide)), if_neg (hne 4 (by decide) (by decide)),
    if_neg (hne 5 (by decide) (by decide)), if_neg (hne 6 (by decide) (by decide)),
    if_neg (hne 7 (by decide) (by decide))]
  exact Ends_fail _ _

/-- The `PropertyType` case with a value tag outside 1..7. -/
theorem ends_Property (self : Bool → Dec Element) (us : Bool) {key : Bytes}
    (hk : key.length < 2 ^ 31) (t : UInt8) (ht : ¬ (1 ≤ t.toNat ∧ t.toNat ≤ 7)) :
    Ends (DecodeExBody self us) (byte 15 :: (beStr key ++ [t]))
      (.error (.valueNotBasicType t.toNat)) := by
  refine ends_DecodeExBody (t := 15) (by decide) ?_
  have h1 : Ends (decodeValue >>= fun value =>
      (Pure.pure (Element.Property { Key := key, Value := value }) : Dec Element)) [t]
      (.error (.valueNotBasicType t.toNat)) :=
    Ends_bind_left (ends_decodeValue t ht) rfl
  exact Ends_of_eq (Ends_bind_right
    (f := fun key => decodeValue >>= fun value =>
      (Pure.pure (Element.Property { Key := key, Value := value }) : Dec Element))
    (reads_ReadString hk) h1) rfl

end Structure
namespace Structure
open Protocol

theorem DecodeEx_of_ends {xs rest : Bytes} {o : Outcome Element} (us : Bool) (w : baseReader)
    (h : ∀ self, Ends (DecodeExBody self us) xs o) (hat : w.At (xs ++ rest)) :
    (DecodeEx us w).1 = o := by
  rw [DecodeEx_eq]
  exact h _ w rest hat

theorem DecodeEx_of_reads {xs rest : Bytes} {a : Element} (us : Bool) (w : baseReader)
    (h : ∀ self, Reads (DecodeExBody self us) xs a) (hat : w.At (xs ++ rest)) :
    DecodeEx us w = (.ok a, w.adv xs.length) := by
  rw [DecodeEx_eq]
  exact (h _ w rest hat).1

/-- C12: behind tag 15 and a key shorter than 2^31 bytes, a value tag outside
1..7 (a vertex, a list, a nested property, ...) makes `structure.DecodeEx`
return the error `value can only be basic type`; the bytes of a value of
one of the six types (tag 1 or 2 for a bool, 3 for an int32, 4 for an int64, 5
for a float32, 6 for a float64, 7 for a string, and the payload of that type)
make it return the Property with that key and that value, with the cursor
right behind the value. -/
theorem C12_property_value (useStruct : Bool) (w : baseReader) (key : Bytes)
    (hk : key.length < 2 ^ 31) :
    (∀ (t : UInt8) (rest : Bytes), ¬ (1 ≤ t.toNat ∧ t.toNat ≤ 7) →
        w.At (byte 15 :: (beStr key ++ t :: rest)) →
        (DecodeEx useStruct w).1 = .error (.valueNotBasicType t.toNat))
    ∧ (∀ (v : PropertyValue) (rest : Bytes), v.valid → v.fits →
        w.At (byte 15 :: (beStr key ++ (encValue v ++ rest))) →
        DecodeEx useStruct w
          = (.ok (.Property ⟨key, v⟩), w.adv (1 + (beStr key).length + (encValue v).length)))
    ∧ (∀ v : PropertyValue, ∃ (t : UInt8) (payload : Bytes), encValue v = t :: payload
        ∧ (t.toNat = 1 ↔ v = .bool true) ∧ (t.toNat = 2 ↔ v = .bool false)
        ∧ (t.toNat = 3 ↔ ∃ x, v = .int32 x) ∧ (t.toNat = 4 ↔ ∃ x, v = .int64 x)
        ∧ (t.toNat = 5 ↔ ∃ x, v = .float32 x) ∧ (t.toNat = 6 ↔ ∃ x, v = .float64 x)
        ∧ (t.toNat = 7 ↔ ∃ x, v = .string x)) := by
  refine ⟨?_, ?_, ?_⟩
  · intro t rest ht hat
    have hat1 : w.At ((byte 15 :: (beStr key ++ [t])) ++ rest) := by
      simpa [List.append_assoc] using hat
    exact DecodeEx_of_ends useStruct w (fun self => ends_Property self useStruct hk t ht) hat1
  · intro v rest hv hf hat
    have hat1 : w.At (encProperty ⟨key, v⟩ ++ rest) := by
      simpa [encProperty, List.append_assoc] using hat
    have hr := DecodeEx_of_reads useStruct w
      (fun self => reads_Property self useStruct (p := ⟨key, v⟩) ⟨hk, hv, hf⟩) hat1
    rw [hr]
    simp [encProperty, Nat.add_assoc, Nat.add_comm]
  · intro v
    cases v with
    | bool b => cases b <;> exact ⟨_, _, rfl, by simp [byte_toNat]⟩
    | int32 x => exact ⟨_, _, rfl, by simp [byte_toNat]⟩
    | int64 x => exact ⟨_, _, rfl, by simp [byte_toNat]⟩
    | float32 x => exact ⟨_, _, rfl, by simp [byte_toNat]⟩
    | float64 x => exact ⟨_, _, rfl, by simp [byte_toNat]⟩
    | string x => exact ⟨_, _, rfl, by simp [byte_toNat]⟩

/-- C12 at the key `a`: the value tag 8 (a vertex) is rejected, and the value
`03 00 00 00 07` is read as `int32(7)`. -/
theorem C12_property_value_witness :
    (DecodeEx false { p := 0, b := [15, 0, 0, 0, 1, 97, 8], nocopy := false }).1
      = .error (.valueNotBasicType 8)
    ∧ (DecodeEx false { p := 0, b := [15, 0, 0, 0, 1, 97, 3, 0, 0, 0, 7], nocopy := false }).1
      = .ok (.Property ⟨[97], .int32 7⟩) :=
  ⟨(C12_property_value false { p := 0, b := [15, 0, 0, 0, 1, 97, 8], nocopy := false } [97]
      (by decide)).1 8 [] (by decide) ⟨by decide, rfl⟩,
    congrArg Prod.fst
      ((C12_property_value false
        { p := 0, b := [15, 0, 0, 0, 1, 97, 3, 0, 0, 0, 7], nocopy := false } [97]
        (by decide)).2.1 (.int32 7) [] (by simp [PropertyValue.valid, isInt32])
        (by simp [PropertyValue.fits]) ⟨by decide, rfl⟩)⟩

end Structure
namespace Protocol

/-- `Next` on a reader whose cursor is inside its buffer, by the three cases
of its code. -/
theorem Next_cases (r : baseReader) (n : Int) (hp : r.p ≤ r.b.length) :
    (n < 0 → baseReader.Next n r = (.error .ErrNegativeInt, r))
    ∧ (0 ≤ n → n ≤ (r.b.length : Int) - r.p →
        baseReader.Next n r
          = (.ok ((r.b.drop r.p).take n.toNat), { r with p := r.p + n.toNat }))
    ∧ ((r.b.length : Int) - r.p < n → baseReader.Next n r = (.error .ErrUnexpectedEOB, r)) := by
  refine ⟨fun h => ?_, fun h0 h1 => ?_, fun h => ?_⟩
  · unfold baseReader.Next
    rw [if_pos h]
  · unfold baseReader.Next
    rw [if_neg (by omega), if_neg (by omega)]
    simp only []
    rw [if_neg (by rw [List.length_drop]; omega)]
  · unfold baseReader.Next
    rw [if_neg (by omega), if_neg (by omega)]
    simp only []
    rw [if_pos (by rw [List.length_drop]; omega)]

/-- C17: on a reader with buffer `b` and position `p` (inside `b`, as every
reader has it that was `Reset` and moved by `Next`), `Next(n)` succeeds exactly
when `0 <= n <= len(b) - p`; it then returns the `n` bytes `b[p .. p+n)` and
moves the position to `p + n`, inside `b` again.  For `n < 0` it returns
`ErrNegativeInt`, for `n > len(b) - p` it returns `ErrUnexpectedEOB`, and a
failed call leaves the reader as it was. -/
theorem C17_next_contract (r : baseReader) (n : Int) (hp : r.p ≤ r.b.length) :
    ((∃ bs r1, baseReader.Next n r = (.ok bs, r1)) ↔ (0 ≤ n ∧ n ≤ (r.b.length : Int) - r.p))
    ∧ (0 ≤ n → n ≤ (r.b.length : Int) - r.p →
        baseReader.Next n r
            = (.ok ((r.b.drop r.p).take n.toNat), { p := r.p + n.toNat, b := r.b, nocopy := r.nocopy })
        ∧ (((r.b.drop r.p).take n.toNat).length : Int) = n
        ∧ r.p + n.toNat ≤ r.b.length)
    ∧ (n < 0 → baseReader.Next n r = (.error .ErrNegativeInt, r))
    ∧ ((r.b.length : Int) - r.p < n → baseReader.Next n r = (.error .ErrUnexpectedEOB, r))
    ∧ (∀ o r1, baseReader.Next n r = (o, r1) → o.isOk = false → r1 = r) := by
  obtain ⟨h1, h2, h3⟩ := Next_cases r n hp
  refine ⟨⟨?_, ?_⟩, ?_, h1, h3, ?_⟩
  · rintro ⟨bs, r1, h⟩
    by_cases hn : n < 0
    · rw [h1 hn] at h; cases h
    · by_cases hb : (r.b.length : Int) - r.p < n
      · rw [h3 hb] at h; cases h
      · omega
  · rintro ⟨h0, hle⟩
    exact ⟨_, _, h2 h0 hle⟩
  · intro h0 hle
    refine ⟨h2 h0 hle, ?_, by omega⟩
    rw [List.length_take, List.length_drop]
    omega
  · intro o r1 h hno
    by_cases hn : n < 0
    · rw [h1 hn] at h; cases h; rfl
    · by_cases hb : (r.b.length : Int) - r.p < n
      · rw [h3 hb] at h; cases h; rfl
      · rw [h2 (by omega) (by omega)] at h
        cases h
        simp [Outcome.isOk] at hno

/-- C17 on the buffer `01 02 03 04` at position 1: `Next(2)` returns `02 03`
and moves to position 3, `Next(4)` is `ErrUnexpectedEOB` and `Next(-1)` is
`ErrNegativeInt`. -/
theorem C17_next_contract_witness :
    baseReader.Next 2 { p := 1, b := [1, 2, 3, 4], nocopy := false }
      = (.ok [2, 3], { p := 3, b := [1, 2, 3, 4], nocopy := false })
    ∧ baseReader.Next 4 { p := 1, b := [1, 2, 3, 4], nocopy := false }
      = (.error .ErrUnexpectedEOB, { p := 1, b := [1, 2, 3, 4], nocopy := false })
    ∧ baseReader.Next (-1) { p := 1, b := [1, 2, 3, 4], nocopy := false }
      = (.error .ErrNegativeInt, { p := 1, b := [1, 2, 3, 4], nocopy := false }) :=
  ⟨((C17_next_contract { p := 1, b := [1, 2, 3, 4], nocopy := false } 2 (by decide)).2.1
      (by decide) (by decide)).1,
    (C17_next_contract { p := 1, b := [1, 2, 3, 4], nocopy := false } 4 (by decide)).2.2.2.1
      (by decide),
    (C17_next_contract { p := 1, b := [1, 2, 3, 4], nocopy := false } (-1) (by decide)).2.2.1
      (by decide)⟩

end Protocol
namespace Protocol

theorem Next_at_cases {r : baseReader} {suf : VeGraph.Bytes} (h : r.At suf) (n : Int) :
    (n < 0 → baseReader.Next n r = (.error .ErrNegativeInt, r))
    ∧ (0 ≤ n → n ≤ (suf.length : Int) →
        baseReader.Next n r = (.ok (suf.take n.toNat), r.adv n.toNat))
    ∧ ((suf.length : Int) < n → baseReader.Next n r = (.error .ErrUnexpectedEOB, r)) := by
  obtain ⟨hp, hd⟩ := h
  have hlen : suf.length = r.b.length - r.p := by rw [← hd, List.length_drop]
  obtain ⟨h1, h2, h3⟩ := Next_cases r n hp
  refine ⟨h1, fun h0 hle => ?_, fun hlt => h3 (by omega)⟩
  rw [h2 h0 (by omega), hd]
  rfl

/-- `ReadBytes` behind a length prefix `b4`, by the value of the prefix. -/
theorem ReadBytes_cases {r : baseReader} {b4 rest : VeGraph.Bytes} (h4 : b4.length = 4)
    (hat : r.At (b4 ++ rest)) :
    (int32 (bigEndianUint32 b4) < 0 →
        BigEndianReader.ReadBytes r = (.error .ErrNegativeInt, r.adv 4))
    ∧ (0 ≤ int32 (bigEndianUint32 b4) → int32 (bigEndianUint32 b4) ≤ (rest.length : Int) →
        BigEndianReader.ReadBytes r
          = (.ok (rest.take (int32 (bigEndianUint32 b4)).toNat),
              r.adv (4 + (int32 (bigEndianUint32 b4)).toNat)))
    ∧ ((rest.length : Int) < int32 (bigEndianUint32 b4) →
        BigEndianReader.ReadBytes r = (.error .ErrUnexpectedEOB, r.adv 4)) := by
  obtain ⟨e1, hat1⟩ := ReadInt32_raw h4 hat
  obtain ⟨h1, h2, h3⟩ := Next_at_cases hat1 (int32 (bigEndianUint32 b4))
  refine ⟨fun h => ?_, fun h0 hle => ?_, fun h => ?_⟩
  · unfold BigEndianReader.ReadBytes
    rw [Dec.bind_ok e1, Dec.bind_error (h1 h)]
  · unfold BigEndianReader.ReadBytes
    rw [Dec.bind_ok e1, Dec.bind_ok (h2 h0 hle), pure_run, baseReader.adv_adv]
  · unfold BigEndianReader.ReadBytes
    rw [Dec.bind_ok e1, Dec.bind_error (h3 h)]

theorem ReadString_eq (r : baseReader) :
    BigEndianReader.ReadString r = BigEndianReader.ReadBytes r := by
  unfold BigEndianReader.ReadString
  show Dec.bind BigEndianReader.ReadBytes _ r = _
  unfold Dec.bind
  rcases h : BigEndianReader.ReadBytes r with ⟨o, r1⟩
  cases o <;> rfl

end Protocol

namespace Structure
open Protocol

/-- C18: behind a four-byte prefix that reads as the big-endian signed length
`L`, `ReadBytes` and `ReadString` return the next `L` bytes and move the cursor
`4 + L` bytes on when `0 <= L` and `L` bytes are left; they return
`ErrUnexpectedEOB` when fewer than `L` bytes are left and `ErrNegativeInt` when
`L < 0` (the cursor is then behind the prefix).  A `String` element (tag 7)
whose buffer is shorter than the length it declares is `ErrUnexpectedEOB`. -/
theorem C18_read_bytes (r : baseReader) (b4 rest : Bytes) (h4 : b4.length = 4)
    (hat : r.At (b4 ++ rest)) :
    (0 ≤ int32 (bigEndianUint32 b4) → int32 (bigEndianUint32 b4) ≤ (rest.length : Int) →
        BigEndianReader.ReadBytes r
          = (.ok (rest.take (int32 (bigEndianUint32 b4)).toNat),
              r.adv (4 + (int32 (bigEndianUint32 b4)).toNat))
        ∧ BigEndianReader.ReadString r
          = (.ok (rest.take (int32 (bigEndianUint32 b4)).toNat),
              r.adv (4 + (int32 (bigEndianUint32 b4)).toNat))
        ∧ ((rest.take (int32 (bigEndianUint32 b4)).toNat).length : Int)
          = int32 (bigEndianUint32 b4))
    ∧ ((rest.length : Int) < int32 (bigEndianUint32 b4) →
        BigEndianReader.ReadBytes r = (.error .ErrUnexpectedEOB, r.adv 4)
        ∧ BigEndianReader.ReadString r = (.error .ErrUnexpectedEOB, r.adv 4))
    ∧ (int32 (bigEndianUint32 b4) < 0 →
        BigEndianReader.ReadBytes r = (.error .ErrNegativeInt, r.adv 4)
        ∧ BigEndianReader.ReadString r = (.error .ErrNegativeInt, r.adv 4))
    ∧ (∀ (useStruct : Bool) (w : baseReader), w.At (7 :: (b4 ++ rest)) →
        (rest.length : Int) < int32 (bigEndianUint32 b4) →
        (DecodeEx useStruct w).1 = .error .ErrUnexpectedEOB) := by
  obtain ⟨h1, h2, h3⟩ := ReadBytes_cases h4 hat
  refine ⟨fun h0 hle => ⟨h2 h0 hle, by rw [ReadString_eq]; exact h2 h0 hle, ?_⟩,
    fun h => ⟨h3 h, by rw [ReadString_eq]; exact h3 h⟩,
    fun h => ⟨h1 h, by rw [ReadString_eq]; exact h1 h⟩, ?_⟩
  · rw [List.length_take]
    omega
  · intro us w hw hlt
    rw [DecodeEx_cons us w 7 _ hw]
    have hat1 := (baseReader.ReadInt8_at hw).2
    have hs := (ReadBytes_cases h4 hat1).2.2 hlt
    rw [← ReadString_eq] at hs
    unfold DecodeExSwitch
    simp only [TrueType, FalseType, Int32Type, Int64Type, FloatType, DoubleType, StringType]
    have h7 : (7 : UInt8).toNat = 7 := rfl
    simp only [h7, Nat.reduceEqDiff, if_false, if_true]
    rw [Dec.bind_error hs]

/-- C18 on the buffer `00 00 00 02 61 62 63` (two bytes declared, three
there) and on the `String` element `07 00 00 00 05 61 62` (five bytes declared,
two there). -/
theorem C18_read_bytes_witness :
    BigEndianReader.ReadString { p := 0, b := [0, 0, 0, 2, 97, 98, 99], nocopy := false }
      = (.ok [97, 98], { p := 6, b := [0, 0, 0, 2, 97, 98, 99], nocopy := false })
    ∧ (DecodeEx false { p := 0, b := [7, 0, 0, 0, 5, 97, 98], nocopy := false }).1
      = .error .ErrUnexpectedEOB :=
  ⟨((C18_read_bytes { p := 0, b := [0, 0, 0, 2, 97, 98, 99], nocopy := false } [0, 0, 0, 2]
      [97, 98, 99] rfl ⟨by decide, rfl⟩).1 (by decide) (by decide)).2.1,
    (C18_read_bytes { p := 0, b := [0, 0, 0, 5, 97, 98], nocopy := false } [0, 0, 0, 5]
      [97, 98] rfl ⟨by decide, rfl⟩).2.2.2 false
      { p := 0, b := [7, 0, 0, 0, 5, 97, 98], nocopy := false } ⟨by decide, rfl⟩ (by decide)⟩

end Structure
namespace Protocol

/-- C19 (what the code does): `ReadBool` consumes one byte and returns
`n > 0` for the byte read as a signed `int8`, so it returns true exactly for
the bytes 0x01..0x7F and false for 0x00 and for 0x80..0xFF; on the one-byte
buffer `80` it returns false. -/
theorem C19_read_bool_signed :
    (∀ (r : baseReader) (x : UInt8) (rest : VeGraph.Bytes), r.At (x :: rest) →
      baseReader.ReadBool r = (.ok (decide (1 ≤ x.toNat ∧ x.toNat ≤ 127)), r.adv 1))
    ∧ baseReader.ReadBool { p := 0, b := [0x80], nocopy := false }
      = (.ok false, { p := 1, b := [0x80], nocopy := false })
    ∧ baseReader.ReadBool { p := 0, b := [0xFF], nocopy := false }
      = (.ok false, { p := 1, b := [0xFF], nocopy := false }) := by
  refine ⟨?_, rfl, rfl⟩
  intro r x rest h
  unfold baseReader.ReadBool
  rw [Dec.bind_ok (baseReader.ReadInt8_at h).1, pure_run]
  have hx := toNat_lt_256 x
  have : (int8 (x.toNat : Int) > 0) ↔ (1 ≤ x.toNat ∧ x.toNat ≤ 127) := by
    unfold int8; omega
  simp only [this]

/-- C20 (what the code does): with a byte `x` under the cursor `PeekInt8`
returns `x` and leaves the reader as it is, and `ReadInt8` returns the same `x`
and moves one byte on; at the end of the buffer `ReadInt8` returns
`ErrUnexpectedEOB` while `PeekInt8` panics on the index `r.b[r.p]`. -/
theorem C20_peek_at_end :
    (∀ (r : baseReader) (x : UInt8) (rest : VeGraph.Bytes), r.At (x :: rest) →
      baseReader.PeekInt8 r = (.ok (int8 x.toNat), r)
      ∧ baseReader.ReadInt8 r = (.ok (int8 x.toNat), r.adv 1))
    ∧ (∀ r : baseReader, r.At [] →
      baseReader.PeekInt8 r = (.panic .indexOutOfRange, r)
      ∧ baseReader.ReadInt8 r = (.error .ErrUnexpectedEOB, r))
    ∧ baseReader.PeekInt8 { p := 0, b := [], nocopy := false }
      = (.panic .indexOutOfRange, { p := 0, b := [], nocopy := false }) := by
  refine ⟨fun r x rest h => ⟨baseReader.PeekInt8_at h, (baseReader.ReadInt8_at h).1⟩, ?_, rfl⟩
  intro r h
  obtain ⟨hp, hd⟩ := h
  have h0 : r.b.length - r.p = 0 := by
    have := congrArg List.length hd
    rw [List.length_drop] at this
    simpa using this
  refine ⟨?_, ReadInt8_eob r hp h0⟩
  unfold baseReader.PeekInt8
  have hg : r.b.get? r.p = none := by
    rw [List.get?_eq_none]
    omega
  rw [hg]

end Protocol
namespace Structure
open Protocol

theorem switch_Map (self : Bool → Dec Element) (us : Bool) :
    DecodeExSwitch self us MapType = (do
      let length ← BigEndianReader.ReadInt32
      let r ← decodeEntries (self us) length.toNat []
      if us then return .MapStruct r
      else return .Map r) := by
  unfold DecodeExSwitch
  simp only [TrueType, FalseType, Int32Type, Int64Type, FloatType, DoubleType, StringType,
    VertexType, VertexWithPropertiesType, SVertexType, SVertexWithPropertiesType, PathType,
    ForwardEdgeType, ReverseEdgeType, DoubleEdgeType, ForwardEdgeWithPropertiesType,
    ReverseEdgeWithPropertiesType, DoubleEdgeWithPropertiesType, ForwardSEdgeType,
    ReverseSEdgeType, DoubleSEdgeType, ForwardSEdgeWithPropertiesType,
    ReverseSEdgeWithPropertiesType, DoubleSEdgeWithPropertiesType, ListType, MapType]
  simp only [Nat.reduceEqDiff, if_false, if_true]

theorem switch_LinkedMap (self : Bool → Dec Element) (us : Bool) :
    DecodeExSwitch self us LinkedMapType = (do
      let length ← BigEndianReader.ReadInt32
      if length < 0 then Dec.abort .makesliceOutOfRange else do
      let (keys, elems) ← decodeLinkedEntries (self us) length.toNat [] []
      return .LinkedMap elems keys) := by
  unfold DecodeExSwitch
  simp only [TrueType, FalseType, Int32Type, Int64Type, FloatType, DoubleType, StringType,
    VertexType, VertexWithPropertiesType, SVertexType, SVertexWithPropertiesType, PathType,
    ForwardEdgeType, ReverseEdgeType, DoubleEdgeType, ForwardEdgeWithPropertiesType,
    ReverseEdgeWithPropertiesType, DoubleEdgeWithPropertiesType, ForwardSEdgeType,
    ReverseSEdgeType, DoubleSEdgeType, ForwardSEdgeWithPropertiesType,
    ReverseSEdgeWithPropertiesType, DoubleSEdgeWithPropertiesType, ListType, MapType,
    LinkedMapType]
  simp only [Nat.reduceEqDiff, if_false, if_true]

theorem switch_List (self : Bool → Dec Element) (us : Bool) :
    DecodeExSwitch self us ListType = (do
      let length ← BigEndianReader.ReadInt32
      if length = 0 then return .List [] else do
      let nextType ← baseReader.PeekInt8
      if CoreDataType.ofInt8 nextType = ColumnarBinType then do
        let r ← decodeColumnarBatches length.toNat []
        return .List r
      else do
      if length < 0 then Dec.abort .makesliceOutOfRange else do
      let r ← decodeElements (self us) length.toNat []
      if us then return .ListStruct r
      else return .List r) := by
  unfold DecodeExSwitch
  simp only [TrueType, FalseType, Int32Type, Int64Type, FloatType, DoubleType, StringType,
    VertexType, VertexWithPropertiesType, SVertexType, SVertexWithPropertiesType, PathType,
    ForwardEdgeType, ReverseEdgeType, DoubleEdgeType, ForwardEdgeWithPropertiesType,
    ReverseEdgeWithPropertiesType, DoubleEdgeWithPropertiesType, ForwardSEdgeType,
    ReverseSEdgeType, DoubleSEdgeType, ForwardSEdgeWithPropertiesType,
    ReverseSEdgeWithPropertiesType, DoubleSEdgeWithPropertiesType, ListType]
  simp only [Nat.reduceEqDiff, if_false, if_true]

theorem switch_Path (self : Bool → Dec Element) (us : Bool) :
    DecodeExSwitch self us PathType = (do
      let lt ← baseReader.ReadInt8
      if CoreDataType.ofInt8 lt ≠ ListType then Dec.fail (.unsupportedPathLabels lt) else do
      let labelsLength ← BigEndianReader.ReadInt32
      skipElements (self us) labelsLength.toNat
      let objlisttype ← baseReader.ReadInt8
      if CoreDataType.ofInt8 objlisttype ≠ ListType then
        Dec.fail (.unsupportedPathObjects objlisttype) else do
      let objectListLength ← BigEndianReader.ReadInt32
      if objectListLength < 0 then Dec.abort .makesliceOutOfRange else do
      let p ← decodeElements (self us) objectListLength.toNat []
      if us then return .PathStruct p
      else return .Path p) := by
  unfold DecodeExSwitch
  simp only [TrueType, FalseType, Int32Type, Int64Type, FloatType, DoubleType, StringType,
    VertexType, VertexWithPropertiesType, SVertexType, SVertexWithPropertiesType, PathType]
  simp only [Nat.reduceEqDiff, if_false, if_true]

theorem switch_VertexWithProperties (self : Bool → Dec Element) (us : Bool) :
    DecodeExSwitch self us VertexWithPropertiesType = (do
      let v ← readVertexWithProperties (self false)
      return .Vertex v) := by
  unfold DecodeExSwitch
  simp only [TrueType, FalseType, Int32Type, Int64Type, FloatType, DoubleType, StringType,
    VertexType, VertexWithPropertiesType]
  simp only [Nat.reduceEqDiff, if_false, if_true]

theorem switch_SVertexWithProperties (self : Bool → Dec Element) (us : Bool) :
    DecodeExSwitch self us SVertexWithPropertiesType = (do
      let v ← readSVertexWithProperties (self false)
      return .Vertex v) := by
  unfold DecodeExSwitch
  simp only [TrueType, FalseType, Int32Type, Int64Type, FloatType, DoubleType, StringType,
    VertexType, VertexWithPropertiesType, SVertexType, SVertexWithPropertiesType]
  simp only [Nat.reduceEqDiff, if_false, if_true]

theorem switch_EdgeWithProperties (self : Bool → Dec Element) (us : Bool) (d : DirectionType) :
    DecodeExSwitch self us (edgeTag false true d) = (do
      let e ← readEdgeWithProperties (self false) d
      return .Edge e) := by
  unfold DecodeExSwitch
  cases d <;>
  · simp only [edgeTag, TrueType, FalseType, Int32Type, Int64Type, FloatType, DoubleType,
      StringType, VertexType, VertexWithPropertiesType, SVertexType, SVertexWithPropertiesType,
      PathType, ForwardEdgeType, ReverseEdgeType, DoubleEdgeType, ForwardEdgeWithPropertiesType,
      ReverseEdgeWithPropertiesType, DoubleEdgeWithPropertiesType]
    simp

theorem switch_SEdgeWithProperties (self : Bool → Dec Element) (us : Bool) (d : DirectionType) :
    DecodeExSwitch self us (edgeTag true true d) = (do
      let e ← readSEdgeWithProperties (self false) d
      return .Edge e) := by
  unfold DecodeExSwitch
  cases d <;>
  · simp only [edgeTag, TrueType, FalseType, Int32Type, Int64Type, FloatType, DoubleType,
      StringType, VertexType, VertexWithPropertiesType, SVertexType, SVertexWithPropertiesType,
      PathType, ForwardEdgeType, ReverseEdgeType, DoubleEdgeType, ForwardEdgeWithPropertiesType,
      ReverseEdgeWithPropertiesType, DoubleEdgeWithPropertiesType, ForwardSEdgeType,
      ReverseSEdgeType, DoubleSEdgeType, ForwardSEdgeWithPropertiesType,
      ReverseSEdgeWithPropertiesType, DoubleSEdgeWithPropertiesType]
    simp

end Structure
namespace Structure
open Protocol

theorem Ends_pure {α : Type} (a : α) (xs : Bytes) : Ends (Pure.pure a : Dec α) xs (.ok a) := by
  intro r rest _
  rfl

/-- A negative `int32` property count: `make([]*Property, 0, pptLen)` panics. -/
theorem ends_count32_negative {α : Type} (dec : Dec Element) (k : List Property → Dec α)
    {n : Int} (hn : n < 0) (h32 : -2 ^ 31 ≤ n) :
    Ends (BigEndianReader.ReadInt32 >>= fun pptLen =>
        if pptLen < 0 then Dec.abort .makesliceOutOfRange
        else decodeProperties dec pptLen.toNat [] >>= k)
      (be32 n) (.panic .makesliceOutOfRange) := by
  have hv : isInt32 n := ⟨h32, by omega⟩
  show Ends _ (be32 n ++ []) _
  refine Ends_bind_right (reads_ReadInt32 hv) ?_
  rw [if_pos hn]
  exact Ends_abort_at _ _

/-- A negative `int16` property count: `make([]*Property, pptLen)` panics. -/
theorem ends_count16_negative {α : Type} (dec : Dec Element) (k : List Property → Dec α)
    {n : Int} (hn : n < 0) (h16 : -2 ^ 15 ≤ n) :
    Ends (BigEndianReader.ReadInt16 >>= fun pptLen =>
        if pptLen < 0 then Dec.abort .makesliceOutOfRange
        else decodeProperties dec pptLen.toNat [] >>= k)
      (be16 n) (.panic .makesliceOutOfRange) := by
  show Ends _ (be16 n ++ []) _
  refine Ends_bind_right (reads_ReadInt16 h16 (by omega)) ?_
  rw [if_pos hn]
  exact Ends_abort_at _ _

theorem reads_Map_negative (self : Bool → Dec Element) (us : Bool) {n : Int} (hn : n < 0)
    (h32 : -2 ^ 31 ≤ n) :
    Reads (DecodeExBody self us) (byte 14 :: be32 n)
      (if us then .MapStruct [] else .Map []) := by
  have hv : isInt32 n := ⟨h32, by omega⟩
  have h0 : n.toNat = 0 := by omega
  refine reads_DecodeExBody (t := 14) (by decide) ?_
  rw [show (14 : CoreDataType) = MapType from rfl, switch_Map]
  show Reads _ (be32 n ++ []) _
  refine Reads_bind (reads_ReadInt32 hv) ?_
  rw [h0]
  show Reads (decodeEntries (self us) 0 [] >>= _) ([] ++ []) _
  refine Reads_bind (Reads_pure _) ?_
  cases us
  · exact Reads_pure _
  · exact Reads_pure _

theorem ends_LinkedMap_negative (self : Bool → Dec Element) (us : Bool) {n : Int} (hn : n < 0)
    (h32 : -2 ^ 31 ≤ n) :
    Ends (DecodeExBody self us) (byte 32 :: be32 n) (.panic .makesliceOutOfRange) := by
  have hv : isInt32 n := ⟨h32, by omega⟩
  refine ends_DecodeExBody (t := 32) (by decide) ?_
  rw [show (32 : CoreDataType) = LinkedMapType from rfl, switch_LinkedMap]
  show Ends _ (be32 n ++ []) _
  refine Ends_bind_right (reads_ReadInt32 hv) ?_
  rw [if_pos hn]
  exact Ends_abort_at _ _

theorem ends_List_negative (self : Bool → Dec Element) (us : Bool) {n : Int} (hn : n < 0)
    (h32 : -2 ^ 31 ≤ n) (x : UInt8) :
    Ends (DecodeExBody self us) (byte 13 :: (be32 n ++ [x]))
      (if x.toNat = 40 then .ok (.List []) else .panic .makesliceOutOfRange) := by
  have hv : isInt32 n := ⟨h32, by omega⟩
  have h0 : n.toNat = 0 := by omega
  refine ends_DecodeExBody (t := 13) (by decide) ?_
  rw [show (13 : CoreDataType) = ListType from rfl, switch_List]
  refine Ends_bind_right (reads_ReadInt32 hv) ?_
  rw [if_neg (by omega)]
  refine Ends_peek ?_
  rw [ofInt8_toNat]
  by_cases hx : x.toNat = 40
  · rw [if_pos hx, if_pos (show x.toNat = ColumnarBinType from hx), h0]
    show Ends (decodeColumnarBatches 0 [] >>= _) _ _
    unfold decodeColumnarBatches
    exact Ends_pure _ _
  · rw [if_neg hx, if_neg (show ¬ x.toNat = ColumnarBinType from hx), if_pos hn]
    exact Ends_abort_at _ _

theorem ends_Path_negative (self : Bool → Dec Element) (us : Bool) {n : Int} (hn : n < 0)
    (h32 : -2 ^ 31 ≤ n) :
    Ends (DecodeExBody self us) (byte 9 :: (byte 13 :: (be32 0 ++ (byte 13 :: be32 n))))
      (.panic .makesliceOutOfRange) := by
  have hv : isInt32 n := ⟨h32, by omega⟩
  have h0 : isInt32 (0 : Int) := by unfold isInt32; omega
  have h13 : CoreDataType.ofInt8 (int8 ((byte 13).toNat : Int)) = ListType :=
    ofInt8_byte 13 (by decide)
  refine ends_DecodeExBody (t := 9) (by decide) ?_
  rw [show (9 : CoreDataType) = PathType from rfl, switch_Path]
  refine Ends_bind_right (reads_ReadInt8 (byte 13)) ?_
  rw [if_neg (by rw [h13]; exact fun h => h rfl)]
  refine Ends_bind_right (reads_ReadInt32 h0) ?_
  show Ends (skipElements (self us) (Int.toNat 0) >>= _) ([] ++ _) _
  refine Ends_bind_right (Reads_pure ()) ?_
  refine Ends_bind_right (reads_ReadInt8 (byte 13)) ?_
  rw [if_neg (by rw [h13]; exact fun h => h rfl)]
  show Ends _ (be32 n ++ []) _
  refine Ends_bind_right (reads_ReadInt32 hv) ?_
  rw [if_pos hn]
  exact Ends_abort_at _ _

theorem ends_Vertex_negative (self : Bool → Dec Element) (us : Bool) {n : Int} (hn : n < 0)
    (h32 : -2 ^ 31 ≤ n) {id ty : Int} (hid : isInt64 id) (hty : isInt32 ty) :
    Ends (DecodeExBody self us) (byte 16 :: ((be64 id ++ be32 ty) ++ be32 n))
      (.panic .makesliceOutOfRange) := by
  refine ends_DecodeExBody (t := 16) (by decide) ?_
  rw [show (16 : CoreDataType) = VertexWithPropertiesType from rfl, switch_VertexWithProperties]
  refine Ends_bind_left (o := .panic .makesliceOutOfRange) ?_ rfl
  unfold readVertexWithProperties
  exact Ends_bind_right (reads_readVertex hid hty) (ends_count32_negative _ _ hn h32)

theorem ends_SVertex_negative (self : Bool → Dec Element) (us : Bool) {n : Int} (hn : n < 0)
    (h16 : -2 ^ 15 ≤ n) {sid stype : Bytes} (hid : sid.length < 2 ^ 31)
    (hty : stype.length < 2 ^ 31) :
    Ends (DecodeExBody self us) (byte 25 :: ((beStr sid ++ beStr stype) ++ be16 n))
      (.panic .makesliceOutOfRange) := by
  refine ends_DecodeExBody (t := 25) (by decide) ?_
  rw [show (25 : CoreDataType) = SVertexWithPropertiesType from rfl,
    switch_SVertexWithProperties]
  refine Ends_bind_left (o := .panic .makesliceOutOfRange) ?_ rfl
  unfold readSVertexWithProperties
  exact Ends_bind_right (reads_readSVertex hid hty) (ends_count16_negative _ _ hn h16)

theorem edgeTag_lt (s p : Bool) (d : DirectionType) : edgeTag s p d < 256 := by
  cases s <;> cases p <;> cases d <;> decide

theorem ends_Edge_negative (self : Bool → Dec Element) (us : Bool) {n : Int} (hn : n < 0)
    (h32 : -2 ^ 31 ≤ n) (d : DirectionType) {label : Bytes} {aid aty bid bty : Int}
    (hl : label.length < 2 ^ 31) (h1 : isInt64 aid) (h2 : isInt32 aty) (h3 : isInt64 bid)
    (h4 : isInt32 bty) :
    Ends (DecodeExBody self us)
      (byte (edgeTag false true d)
        :: ((beStr label ++ (be64 aid ++ (be32 aty ++ (be64 bid ++ be32 bty)))) ++ be32 n))
      (.panic .makesliceOutOfRange) := by
  refine ends_DecodeExBody (edgeTag_lt _ _ _) ?_
  rw [switch_EdgeWithProperties]
  refine Ends_bind_left (o := .panic .makesliceOutOfRange) ?_ rfl
  unfold readEdgeWithProperties
  exact Ends_bind_right (reads_readEdge d hl h1 h2 h3 h4) (ends_count32_negative _ _ hn h32)

theorem ends_SEdge_negative (self : Bool → Dec Element) (us : Bool) {n : Int} (hn : n < 0)
    (h16 : -2 ^ 15 ≤ n) (d : DirectionType) {label asid asty bsid bsty : Bytes}
    (hl : label.length < 2 ^ 31) (h1 : asid.length < 2 ^ 31) (h2 : asty.length < 2 ^ 31)
    (h3 : bsid.length < 2 ^ 31) (h4 : bsty.length < 2 ^ 31) :
    Ends (DecodeExBody self us)
      (byte (edgeTag true true d)
        :: ((beStr label ++ (beStr asid ++ (beStr asty ++ (beStr bsid ++ beStr bsty))))
          ++ be16 n))
      (.panic .makesliceOutOfRange) := by
  refine ends_DecodeExBody (edgeTag_lt _ _ _) ?_
  rw [switch_SEdgeWithProperties]
  refine Ends_bind_left (o := .panic .makesliceOutOfRange) ?_ rfl
  unfold readSEdgeWithProperties
  exact Ends_bind_right (reads_readSEdge d hl h1 h2 h3 h4) (ends_count16_negative _ _ hn h16)

end Structure
namespace Structure
open Protocol

/-- What the container cases of `DecodeEx` do with a negative declared count
`n`: none of them returns an error.  A `Map` decodes to the empty map; a `List`
whose next byte is the columnar tag 40 decodes to the empty list; a `List`
followed by another byte, the object list of a `Path`, a `LinkedMap` and the
property list of a vertex or an edge (32-bit count with int64 ids, 16-bit count
with string ids) make `structure.DecodeEx` panic in `make` with a negative
size. -/
theorem negative_count_outcomes (useStruct : Bool) (w : baseReader) (n : Int) (hn : n < 0)
    (h32 : -2 ^ 31 ≤ n) :
    (∀ rest, w.At (byte 14 :: (be32 n ++ rest)) →
        DecodeEx useStruct w = (.ok (if useStruct then .MapStruct [] else .Map []), w.adv 5))
    ∧ (∀ rest, w.At (byte 13 :: (be32 n ++ 40 :: rest)) →
        (DecodeEx useStruct w).1 = .ok (.List []))
    ∧ (∀ (x : UInt8) rest, x.toNat ≠ 40 → w.At (byte 13 :: (be32 n ++ x :: rest)) →
        (DecodeEx useStruct w).1 = .panic .makesliceOutOfRange)
    ∧ (∀ rest, w.At (byte 9 :: (byte 13 :: (be32 0 ++ (byte 13 :: (be32 n ++ rest))))) →
        (DecodeEx useStruct w).1 = .panic .makesliceOutOfRange)
    ∧ (∀ rest, w.At (byte 32 :: (be32 n ++ rest)) →
        (DecodeEx useStruct w).1 = .panic .makesliceOutOfRange)
    ∧ (∀ (id ty : Int) rest, isInt64 id → isInt32 ty →
        w.At (byte 16 :: (be64 id ++ (be32 ty ++ (be32 n ++ rest)))) →
        (DecodeEx useStruct w).1 = .panic .makesliceOutOfRange)
    ∧ (∀ (d : DirectionType) (label : Bytes) (aid aty bid bty : Int) rest,
        label.length < 2 ^ 31 → isInt64 aid → isInt32 aty → isInt64 bid → isInt32 bty →
        w.At (byte (edgeTag false true d)
          :: (beStr label ++ (be64 aid ++ (be32 aty ++ (be64 bid ++ (be32 bty
            ++ (be32 n ++ rest))))))) →
        (DecodeEx useStruct w).1 = .panic .makesliceOutOfRange)
    ∧ (-2 ^ 15 ≤ n → ∀ (sid stype : Bytes) rest, sid.length < 2 ^ 31 → stype.length < 2 ^ 31 →
        w.At (byte 25 :: (beStr sid ++ (beStr stype ++ (be16 n ++ rest)))) →
        (DecodeEx useStruct w).1 = .panic .makesliceOutOfRange)
    ∧ (-2 ^ 15 ≤ n → ∀ (d : DirectionType) (label asid asty bsid bsty : Bytes) rest,
        label.length < 2 ^ 31 → asid.length < 2 ^ 31 → asty.length < 2 ^ 31 →
        bsid.length < 2 ^ 31 → bsty.length < 2 ^ 31 →
        w.At (byte (edgeTag true true d)
          :: (beStr label ++ (beStr asid ++ (beStr asty ++ (beStr bsid ++ (beStr bsty
            ++ (be16 n ++ rest))))))) →
        (DecodeEx useStruct w).1 = .panic .makesliceOutOfRange) := by
  refine ⟨?_, ?_, ?_, ?_, ?_, ?_, ?_, ?_, ?_⟩
  · intro rest hat
    have hat1 : w.At ((byte 14 :: be32 n) ++ rest) := by simpa using hat
    have := DecodeEx_of_reads useStruct w
      (fun self => reads_Map_negative self useStruct hn h32) hat1
    simpa [be32_length] using this
  · intro rest hat
    have hat1 : w.At ((byte 13 :: (be32 n ++ [40])) ++ rest) := by
      simpa [List.append_assoc] using hat
    have := DecodeEx_of_ends useStruct w
      (fun self => ends_List_negative self useStruct hn h32 40) hat1
    rw [this]
    rfl
  · intro x rest hx hat
    have hat1 : w.At ((byte 13 :: (be32 n ++ [x])) ++ rest) := by
      simpa [List.append_assoc] using hat
    have := DecodeEx_of_ends useStruct w
      (fun self => ends_List_negative self useStruct hn h32 x) hat1
    rw [this, if_neg hx]
  · intro rest hat
    have hat1 : w.At ((byte 9 :: (byte 13 :: (be32 0 ++ (byte 13 :: be32 n)))) ++ rest) := by
      simpa [List.append_assoc] using hat
    exact DecodeEx_of_ends useStruct w
      (fun self => ends_Path_negative self useStruct hn h32) hat1
  · intro rest hat
    have hat1 : w.At ((byte 32 :: be32 n) ++ rest) := by simpa using hat
    exact DecodeEx_of_ends useStruct w
      (fun self => ends_LinkedMap_negative self useStruct hn h32) hat1
  · intro id ty rest hid hty hat
    have hat1 : w.At ((byte 16 :: ((be64 id ++ be32 ty) ++ be32 n)) ++ rest) := by
      simpa [List.append_assoc] using hat
    exact DecodeEx_of_ends useStruct w
      (fun self => ends_Vertex_negative self useStruct hn h32 hid hty) hat1
  · intro d label aid aty bid bty rest hl h1 h2 h3 h4 hat
    have hat1 : w.At ((byte (edgeTag false true d)
        :: ((beStr label ++ (be64 aid ++ (be32 aty ++ (be64 bid ++ be32 bty)))) ++ be32 n))
        ++ rest) := by
      simpa [List.append_assoc] using hat
    exact DecodeEx_of_ends useStruct w
      (fun self => ends_Edge_negative self useStruct hn h32 d hl h1 h2 h3 h4) hat1
  · intro h16 sid stype rest hid hty hat
    have hat1 : w.At ((byte 25 :: ((beStr sid ++ beStr stype) ++ be16 n)) ++ rest) := by
      simpa [List.append_assoc] using hat
    exact DecodeEx_of_ends useStruct w
      (fun self => ends_SVertex_negative self useStruct hn h16 hid hty) hat1
  · intro h16 d label asid asty bsid bsty rest hl h1 h2 h3 h4 hat
    have hat1 : w.At ((byte (edgeTag true true d)
        :: ((beStr label ++ (beStr asid ++ (beStr asty ++ (beStr bsid ++ beStr bsty))))
          ++ be16 n)) ++ rest) := by
      simpa [List.append_assoc] using hat
    exact DecodeEx_of_ends useStruct w
      (fun self => ends_SEdge_negative self useStruct hn h16 d hl h1 h2 h3 h4) hat1

end Structure
namespace Structure
open Protocol

theorem float32Eq_symm (a b : Nat) : float32Eq a b = float32Eq b a := by
  unfold float32Eq
  simp only []
  rw [Bool.eq_iff_iff]
  simp only [Bool.and_eq_true, Bool.or_eq_true, Bool.not_eq_true', decide_eq_true_eq,
    decide_eq_false_iff_not]
  constructor <;> rintro ⟨⟨h1, h2⟩, h3 | h3⟩ <;> first
    | exact ⟨⟨h2, h1⟩, Or.inl h3.symm⟩
    | exact ⟨⟨h2, h1⟩, Or.inr ⟨h3.2, h3.1⟩⟩

theorem float32Eq_trans {a b c : Nat} (h1 : float32Eq a b = true) (h2 : float32Eq b c = true) :
    float32Eq a c = true := by
  unfold float32Eq at *
  simp only [Bool.and_eq_true, Bool.or_eq_true, Bool.not_eq_true', decide_eq_true_eq,
    decide_eq_false_iff_not] at *
  obtain ⟨⟨ha, hb⟩, h1⟩ := h1
  obtain ⟨⟨_, hc⟩, h2⟩ := h2
  refine ⟨⟨ha, hc⟩, ?_⟩
  rcases h1 with h1 | h1 <;> rcases h2 with h2 | h2
  · exact Or.inl (h1.trans h2)
  · exact Or.inr ⟨by rw [h1]; exact h2.1, h2.2⟩
  · exact Or.inr ⟨h1.1, by rw [← h2]; exact h1.2⟩
  · exact Or.inr ⟨h1.1, h2.2⟩

theorem float64Eq_symm (a b : Nat) : float64Eq a b = float64Eq b a := by
  unfold float64Eq
  simp only []
  rw [Bool.eq_iff_iff]
  simp only [Bool.and_eq_true, Bool.or_eq_true, Bool.not_eq_true', decide_eq_true_eq,
    decide_eq_false_iff_not]
  constructor <;> rintro ⟨⟨h1, h2⟩, h3 | h3⟩ <;> first
    | exact ⟨⟨h2, h1⟩, Or.inl h3.symm⟩
    | exact ⟨⟨h2, h1⟩, Or.inr ⟨h3.2, h3.1⟩⟩

theorem float64Eq_trans {a b c : Nat} (h1 : float64Eq a b = true) (h2 : float64Eq b c = true) :
    float64Eq a c = true := by
  unfold float64Eq at *
  simp only [Bool.and_eq_true, Bool.or_eq_true, Bool.not_eq_true', decide_eq_true_eq,
    decide_eq_false_iff_not] at *
  obtain ⟨⟨ha, hb⟩, h1⟩ := h1
  obtain ⟨⟨_, hc⟩, h2⟩ := h2
  refine ⟨⟨ha, hc⟩, ?_⟩
  rcases h1 with h1 | h1 <;> rcases h2 with h2 | h2
  · exact Or.inl (h1.trans h2)
  · exact Or.inr ⟨by rw [h1]; exact h2.1, h2.2⟩
  · exact Or.inr ⟨h1.1, by rw [← h2]; exact h1.2⟩
  · exact Or.inr ⟨h1.1, h2.2⟩

theorem keyEq_Bool (a : Bool) (b : Element) :
    keyEq (.Bool a) b = match b with | .Bool c => a == c | _ => false := by
  cases b <;> rfl

theorem keyEq_Int32 (a : Int) (b : Element) :
    keyEq (.Int32 a) b = match b with | .Int32 c => a == c | _ => false := by
  cases b <;> rfl

theorem keyEq_Int64 (a : Int) (b : Element) :
    keyEq (.Int64 a) b = match b with | .Int64 c => a == c | _ => false := by
  cases b <;> rfl

theorem keyEq_Float32 (a : Nat) (b : Element) :
    keyEq (.Float32 a) b = match b with | .Float32 c => float32Eq a c | _ => false := by
  cases b <;> rfl

theorem keyEq_Float64 (a : Nat) (b : Element) :
    keyEq (.Float64 a) b = match b with | .Float64 c => float64Eq a c | _ => false := by
  cases b <;> rfl

theorem keyEq_String (a : Bytes) (b : Element) :
    keyEq (.String a) b = match b with | .String c => a == c | _ => false := by
  cases b <;> rfl

/-- Go `==` on two scalar keys is symmetric. -/
theorem keyEq_symm {a b : Element} (ha : scalarKey a) (hb : scalarKey b) :
    keyEq a b = keyEq b a := by
  cases a <;> simp only [scalarKey] at ha <;> cases b <;> simp only [scalarKey] at hb <;>
    simp only [keyEq_Bool, keyEq_Int32, keyEq_Int64, keyEq_Float32, keyEq_Float64,
      keyEq_String] <;>
    first
    | rfl
    | exact float32Eq_symm _ _
    | exact float64Eq_symm _ _
    | (rw [Bool.eq_iff_iff]; simp only [beq_iff_eq]; exact eq_comm)

/-- Go `==` on scalar keys is transitive. -/
theorem keyEq_trans {a b c : Element} (ha : scalarKey a) (hb : scalarKey b) (hc : scalarKey c)
    (h1 : keyEq a b = true) (h2 : keyEq b c = true) : keyEq a c = true := by
  cases a <;> simp only [scalarKey] at ha <;> cases b <;> simp only [scalarKey] at hb <;>
    simp only [keyEq_Bool, keyEq_Int32, keyEq_Int64, keyEq_Float32, keyEq_Float64,
      keyEq_String] at h1 <;>
    first
    | (simp at h1; done)
    | (cases c <;> simp only [scalarKey] at hc <;>
        simp only [keyEq_Bool, keyEq_Int32, keyEq_Int64, keyEq_Float32, keyEq_Float64,
          keyEq_String] at h2 ⊢ <;>
        first
        | (simp at h2; done)
        | exact float32Eq_trans h1 h2
        | exact float64Eq_trans h1 h2
        | (simp only [beq_iff_eq] at h1 h2 ⊢; rw [h1, h2]))

end Structure
namespace Structure
open Protocol

theorem mem_putEntry_self (r : List (Element × Element)) (kv : Element × Element) :
    kv ∈ putEntry r kv := by
  unfold putEntry
  split
  · rename_i h
    obtain ⟨e, he, hk⟩ := List.any_eq_true.mp h
    exact List.mem_map.mpr ⟨e, he, by rw [if_pos hk]⟩
  · exact List.mem_append_right _ (List.mem_singleton_self _)

theorem mem_putEntry_of_mem {r : List (Element × Element)} {kv e : Element × Element}
    (he : e ∈ r) (hk : keyEq e.1 kv.1 = false) : e ∈ putEntry r kv := by
  unfold putEntry
  split
  · exact List.mem_map.mpr ⟨e, he, by rw [if_neg (by rw [hk]; exact Bool.false_ne_true)]⟩
  · exact List.mem_append_left _ he

theorem mem_putEntry {r : List (Element × Element)} {kv x : Element × Element}
    (hx : x ∈ putEntry r kv) : x = kv ∨ (x ∈ r ∧ keyEq x.1 kv.1 = false) := by
  unfold putEntry at hx
  split at hx
  · obtain ⟨e, he, hxe⟩ := List.mem_map.mp hx
    by_cases hk : keyEq e.1 kv.1 = true
    · rw [if_pos hk] at hxe
      exact Or.inl hxe.symm
    · rw [if_neg hk] at hxe
      subst hxe
      exact Or.inr ⟨he, by simpa using hk⟩
  · rename_i hany
    rcases List.mem_append.mp hx with h | h
    · refine Or.inr ⟨h, ?_⟩
      cases hk : keyEq x.1 kv.1
      · rfl
      · exact absurd (List.any_eq_true.mpr ⟨x, h, hk⟩) hany
    · exact Or.inl (List.mem_singleton.mp h)

theorem length_putEntry (r : List (Element × Element)) (kv : Element × Element) :
    (putEntry r kv).length
      = if r.any (fun e => keyEq e.1 kv.1) then r.length else r.length + 1 := by
  unfold putEntry
  split <;> simp

theorem distinct_putEntry {r : List (Element × Element)} {kv : Element × Element}
    (hd : DistinctKeys r) (hr : ∀ e ∈ r, scalarKey e.1) (hkv : scalarKey kv.1) :
    DistinctKeys (putEntry r kv) := by
  unfold putEntry
  split
  · unfold DistinctKeys
    rw [List.pairwise_map]
    refine List.Pairwise.imp_of_mem ?_ hd
    intro a b ha hb hab
    have sa := hr a ha
    have sb := hr b hb
    by_cases h1 : keyEq a.1 kv.1 = true <;> by_cases h2 : keyEq b.1 kv.1 = true
    · exfalso
      have h3 : keyEq kv.1 b.1 = true := by rw [keyEq_symm hkv sb]; exact h2
      have := keyEq_trans sa hkv sb h1 h3
      rw [hab] at this
      exact Bool.false_ne_true this
    · rw [if_pos h1, if_neg h2]
      cases h3 : keyEq kv.1 b.1
      · rfl
      · exact absurd (by rw [keyEq_symm sb hkv]; exact h3) h2
    · rw [if_neg h1, if_pos h2]
      cases h3 : keyEq a.1 kv.1
      · rfl
      · exact absurd h3 h1
    · rw [if_neg h1, if_neg h2]
      exact hab
  · rename_i hany
    unfold DistinctKeys
    rw [List.pairwise_append]
    refine ⟨hd, List.pairwise_singleton _ _, ?_⟩
    intro a ha b hb
    rw [List.mem_singleton.mp hb]
    cases hk : keyEq a.1 kv.1
    · rfl
    · exact absurd (List.any_eq_true.mpr ⟨a, ha, hk⟩) hany

theorem wireMap_snoc (init : List (Element × Element)) (kv : Element × Element) :
    wireMap (init ++ [kv]) = putEntry (wireMap init) kv := by
  simp [wireMap, List.foldl_append]

end Structure
namespace Structure
open Protocol

theorem lastOf_mem {pairs : List (Element × Element)} {e : Element × Element}
    (h : LastOf pairs e) : e ∈ pairs := by
  obtain ⟨pre, post, hp, _⟩ := h
  rw [hp]
  exact List.mem_append_right _ (List.mem_cons_self _ _)

/-- What the loop `r[key] = value` over the entries on the wire builds: the
entries of the map are the last occurrences of the keys, no two of them have
equal keys, and the map is shorter than the wire exactly when a key is
repeated on the wire. -/
theorem wireMap_spec (pairs : List (Element × Element)) (hk : ∀ kv ∈ pairs, scalarKey kv.1) :
    (∀ e, e ∈ wireMap pairs ↔ LastOf pairs e)
    ∧ DistinctKeys (wireMap pairs)
    ∧ (wireMap pairs).length ≤ pairs.length
    ∧ ((wireMap pairs).length < pairs.length ↔ ¬ DistinctKeys pairs)
    ∧ (∀ e ∈ pairs, ∀ k, scalarKey k → keyEq e.1 k = true →
        ∃ e1 ∈ wireMap pairs, keyEq e1.1 k = true) := by
  induction pairs using List.reverseRecOn with
  | nil =>
    refine ⟨?_, List.Pairwise.nil, Nat.le_refl _, ?_, ?_⟩
    · intro e
      constructor
      · intro h; cases h
      · intro h; exact absurd (lastOf_mem h) (List.not_mem_nil _)
    · constructor
      · intro h; exact absurd h (Nat.lt_irrefl _)
      · intro h; exact absurd List.Pairwise.nil h
    · intro e he; cases he
  | append_singleton init kv ih =>
    have hki : ∀ q ∈ init, scalarKey q.1 := fun q hq => hk q (List.mem_append_left _ hq)
    have hkv : scalarKey kv.1 := hk kv (List.mem_append_right _ (List.mem_singleton_self _))
    obtain ⟨ih1, ih2, ih3, ih4, ih5⟩ := ih hki
    have hsub : ∀ e ∈ wireMap init, e ∈ init := fun e he => lastOf_mem ((ih1 e).mp he)
    have hkr : ∀ e ∈ wireMap init, scalarKey e.1 := fun e he => hki e (hsub e he)
    rw [wireMap_snoc]
    refine ⟨?_, distinct_putEntry ih2 hkr hkv, ?_, ?_, ?_⟩
    · intro x
      constructor
      · intro hx
        rcases mem_putEntry hx with rfl | ⟨hxr, hxk⟩
        · exact ⟨init, [], rfl, fun q hq => absurd hq (List.not_mem_nil _)⟩
        · obtain ⟨pre, post, hp, hpost⟩ := (ih1 x).mp hxr
          refine ⟨pre, post ++ [kv], by rw [hp]; simp, ?_⟩
          intro q hq
          rcases List.mem_append.mp hq with h | h
          · exact hpost q h
          · rw [List.mem_singleton.mp h, keyEq_symm hkv (hkr x hxr)]
            exact hxk
      · rintro ⟨pre, post, hp, hpost⟩
        rcases List.eq_nil_or_concat post with rfl | ⟨L, b, hpb⟩
        · have h := List.append_inj' (show pre ++ [x] = init ++ [kv] from hp.symm) rfl
          rw [List.singleton_inj.mp h.2]
          exact mem_putEntry_self _ _
        · rw [List.concat_eq_append] at hpb
          subst hpb
          have h := List.append_inj'
            (show (pre ++ x :: L) ++ [b] = init ++ [kv] by rw [hp]; simp) rfl
          have hb : b = kv := List.singleton_inj.mp h.2
          have hx : x ∈ wireMap init :=
            (ih1 x).mpr ⟨pre, L, h.1.symm, fun q hq =>
              hpost q (List.mem_append_left _ hq)⟩
          refine mem_putEntry_of_mem hx ?_
          rw [keyEq_symm (hkr x hx) hkv, ← hb]
          exact hpost b (List.mem_append_right _ (List.mem_singleton_self _))
    · rw [length_putEntry, List.length_append, List.length_singleton]
      split <;> omega
    · rw [length_putEntry, List.length_append, List.length_singleton]
      unfold DistinctKeys
      rw [List.pairwise_append]
      split
      · rename_i hany
        obtain ⟨e, he, hek⟩ := List.any_eq_true.mp hany
        constructor
        · intro _ hd
          have := hd.2.2 e (hsub e he) kv (List.mem_singleton_self _)
          rw [hek] at this
          exact Bool.noConfusion this
        · intro _
          omega
      · rename_i hany
        have hno : ∀ a ∈ init, keyEq a.1 kv.1 = false := by
          intro a ha
          cases hak : keyEq a.1 kv.1
          · rfl
          · obtain ⟨e1, he1, hk1⟩ := ih5 a ha kv.1 hkv hak
            exact absurd (List.any_eq_true.mpr ⟨e1, he1, hk1⟩) hany
        constructor
        · intro hlt hd
          exact (ih4.mp (by omega)) hd.1
        · intro hd
          have : ¬ DistinctKeys init := by
            intro hdi
            exact hd ⟨hdi, List.pairwise_singleton _ _, fun a ha b hb => by
              rw [List.mem_singleton.mp hb]; exact hno a ha⟩
          have := ih4.mpr this
          omega
    · intro e he k sk hek
      rcases List.mem_append.mp he with h | h
      · obtain ⟨e1, he1, hk1⟩ := ih5 e h k sk hek
        cases h2 : keyEq e1.1 kv.1
        · exact ⟨e1, mem_putEntry_of_mem he1 h2, hk1⟩
        · refine ⟨kv, mem_putEntry_self _ _, ?_⟩
          have h3 : keyEq kv.1 e1.1 = true := by rw [keyEq_symm hkv (hkr e1 he1)]; exact h2
          exact keyEq_trans hkv (hkr e1 he1) sk h3 hk1
      · rw [List.mem_singleton.mp h] at hek
        exact ⟨kv, mem_putEntry_self _ _, hek⟩

end Structure
namespace Structure
open Protocol

theorem scalarKey_baseWire {k : Element} (h : scalarKey k) : baseWire k := by
  cases k <;> first | exact h | exact absurd h (by simp [scalarKey])

theorem mapAssign_scalar (r : List (Element × Element)) {key : Element} (value : Element)
    (hk : scalarKey key) : mapAssign r key value = .ok (putEntry r (key, value)) := by
  have h1 : hashable key = true := by
    cases key <;> first | rfl | exact absurd hk (by simp [scalarKey])
  have h2 : freshPointer key = false := by
    cases key <;> first | rfl | exact absurd hk (by simp [scalarKey])
  unfold mapAssign putEntry
  rw [if_pos h1, if_neg (by rw [h2]; exact Bool.false_ne_true)]
  split <;> rfl

theorem Reads_lift {α : Type} (a : α) : Reads (Dec.lift (.ok a)) [] a := by
  intro r rest h
  exact ⟨by simp [Dec.lift, baseReader.adv_zero], by simpa [baseReader.adv_zero] using h⟩

theorem reads_decodeEntries {dec : Dec Element} (pairs : List (Element × Element))
    (hk : ∀ kv ∈ pairs, scalarKey kv.1)
    (h : ∀ kv ∈ pairs, Reads dec (encOf kv.1) kv.1 ∧ Reads dec (encOf kv.2) kv.2)
    (acc : List (Element × Element)) :
    Reads (decodeEntries dec pairs.length acc) (encPairsOf pairs) (pairs.foldl putEntry acc) := by
  induction pairs generalizing acc with
  | nil => simpa [decodeEntries, encPairsOf] using Reads_pure acc
  | cons kv rest ih =>
    obtain ⟨h1, h2⟩ := h kv (List.mem_cons_self _ _)
    have hkv := hk kv (List.mem_cons_self _ _)
    have h3 := ih (fun q hq => hk q (List.mem_cons_of_mem _ hq))
      (fun q hq => h q (List.mem_cons_of_mem _ hq)) (putEntry acc kv)
    show Reads (decodeEntries dec (rest.length + 1) acc) _ _
    unfold decodeEntries
    refine Reads_bind h1 (Reads_bind h2 ?_)
    rw [mapAssign_scalar acc kv.2 hkv]
    exact Reads_of_eq (Reads_bind (Reads_lift _) h3) (by simp) rfl

theorem encOf_key_le {kv : Element × Element} {pairs : List (Element × Element)}
    (h : kv ∈ pairs) :
    (encOf kv.1).length ≤ (encPairsOf pairs).length
    ∧ (encOf kv.2).length ≤ (encPairsOf pairs).length := by
  induction pairs with
  | nil => cases h
  | cons x rest ih =>
    simp only [encPairsOf, List.length_append]
    rcases List.mem_cons.mp h with rfl | h1
    · omega
    · have := ih h1
      omega

/-- The `MapType` case on a count and that many entries with scalar keys. -/
theorem reads_MapSwitch {self : Bool → Dec Element} (us : Bool) (pairs : List (Element × Element))
    (hn : pairs.length < 2 ^ 31) (hk : ∀ kv ∈ pairs, scalarKey kv.1)
    (h : ∀ kv ∈ pairs, Reads (self us) (encOf kv.1) kv.1 ∧ Reads (self us) (encOf kv.2) kv.2) :
    Reads (DecodeExSwitch self us MapType) (be32 pairs.length ++ encPairsOf pairs)
      (if us then .MapStruct (wireMap pairs) else .Map (wireMap pairs)) := by
  have hv : isInt32 (pairs.length : Int) := by unfold isInt32; omega
  rw [switch_Map]
  refine Reads_bind (reads_ReadInt32 hv) ?_
  rw [Int.toNat_ofNat]
  cases us
  · exact Reads_of_eq (Reads_bind (reads_decodeEntries pairs hk h []) (Reads_pure _))
      (by simp) rfl
  · exact Reads_of_eq (Reads_bind (reads_decodeEntries pairs hk h []) (Reads_pure _))
      (by simp) rfl

theorem At_length {w : baseReader} {suf : Bytes} (h : w.At suf) :
    w.b.length - w.p = suf.length := by
  obtain ⟨_, hd⟩ := h
  rw [← hd, List.length_drop]

/-- C14: for every `Map` payload with a declared count below 2^31 followed by
that many entries whose keys are scalars and whose values round-trip,
`structure.Decode` returns the `Map` the loop `r[key] = value` builds: its
entries are exactly the last occurrences on the wire of the keys, no two of its
keys are equal, and it has fewer entries than the declared count exactly when a
key is repeated on the wire (keys compared with Go `==`). -/
theorem C14_map_decode (pairs : List (Element × Element)) (hn : pairs.length < 2 ^ 31)
    (hk : ∀ kv ∈ pairs, scalarKey kv.1) (hv : ∀ kv ∈ pairs, RoundTrips kv.2)
    (w : baseReader) (rest : Bytes)
    (hat : w.At (byte 14 :: (be32 pairs.length ++ (encPairsOf pairs ++ rest)))) :
    DecodeEx false w = (.ok (.Map (wireMap pairs)), w.adv (5 + (encPairsOf pairs).length))
    ∧ (∀ e, e ∈ wireMap pairs ↔ LastOf pairs e)
    ∧ DistinctKeys (wireMap pairs)
    ∧ (wireMap pairs).length ≤ pairs.length
    ∧ ((wireMap pairs).length < pairs.length ↔ ¬ DistinctKeys pairs) := by
  obtain ⟨s1, s2, s3, s4, _⟩ := wireMap_spec pairs hk
  refine ⟨?_, s1, s2, s3, s4⟩
  have hlen := At_length hat
  simp only [List.length_cons, List.length_append, be32_length] at hlen
  have hat1 : w.At ((byte 14 :: (be32 pairs.length ++ encPairsOf pairs)) ++ rest) := by
    simpa [List.append_assoc] using hat
  rw [DecodeEx_eq]
  have hr : Reads (DecodeExBody (DecodeExFuel (w.b.length - w.p)) false)
      (byte 14 :: (be32 pairs.length ++ encPairsOf pairs)) (.Map (wireMap pairs)) := by
    refine reads_DecodeExBody (t := 14) (by decide) ?_
    refine reads_MapSwitch false pairs hn hk ?_
    intro kv hkv
    obtain ⟨l1, l2⟩ := encOf_key_le hkv
    exact ⟨(roundTrips_of_baseWire _ (scalarKey_baseWire (hk kv hkv))).2 _ (by omega),
      (hv kv hkv).2 _ (by omega)⟩
  have := (hr w rest hat1).1
  rw [this, List.length_cons, List.length_append, be32_length,
    show 4 + (encPairsOf pairs).length + 1 = 5 + (encPairsOf pairs).length by omega]

end Structure
namespace Structure
open Protocol

/-- C14 at the payload with the count 3 and the entries `1: "a"`, `2: true`,
`1: int64(5)`: the key `Int32(1)` is repeated, the map has two entries and maps
`Int32(1)` to the value of its last occurrence. -/
theorem C14_map_decode_witness :
    (DecodeEx false { p := 0, b := [14, 0, 0, 0, 3, 3, 0, 0, 0, 1, 7, 0, 0, 0, 1, 97,
        3, 0, 0, 0, 2, 1, 3, 0, 0, 0, 1, 4, 0, 0, 0, 0, 0, 0, 0, 5], nocopy := false }).1
      = .ok (.Map [(.Int32 1, .Int64 5), (.Int32 2, .Bool true)]) :=
  congrArg Prod.fst
    (C14_map_decode [(.Int32 1, .String [97]), (.Int32 2, .Bool true), (.Int32 1, .Int64 5)]
      (by simp)
      (by
        intro kv hkv
        simp only [List.mem_cons, List.mem_singleton, List.not_mem_nil, or_false] at hkv
        rcases hkv with rfl | rfl | rfl <;> simp [scalarKey, isInt32])
      (by
        intro kv hkv
        simp only [List.mem_cons, List.mem_singleton, List.not_mem_nil, or_false] at hkv
        rcases hkv with rfl | rfl | rfl
        · exact roundTrips_of_baseWire _ (by simp [baseWire])
        · exact roundTrips_of_baseWire _ (by simp [baseWire])
        · exact roundTrips_of_baseWire _ (by simp [baseWire, isInt64]))
      { p := 0, b := [14, 0, 0, 0, 3, 3, 0, 0, 0, 1, 7, 0, 0, 0, 1, 97,
        3, 0, 0, 0, 2, 1, 3, 0, 0, 0, 1, 4, 0, 0, 0, 0, 0, 0, 0, 5], nocopy := false } []
      ⟨by decide, rfl⟩).1

end Structure
namespace Structure
open Protocol

end Structure
namespace Protocol

theorem reads_Next (xs : VeGraph.Bytes) : Structure.Reads (baseReader.Next xs.length) xs xs :=
  fun _ _ h => baseReader.Next_at h

theorem reads_LE_ReadUint16 (a b : UInt8) :
    Structure.Reads LittleEndianReader.ReadUint16 [a, b] (littleEndianUint16 [a, b]) :=
  Structure.Reads_of_eq (Structure.Reads_bind (reads_Next [a, b]) (Structure.Reads_pure _))
    rfl rfl

theorem reads_LE_ReadInt32 (xs : VeGraph.Bytes) (h : xs.length = 4) :
    Structure.Reads LittleEndianReader.ReadInt32 xs (int32 (littleEndianUint32 xs)) := by
  have h1 := reads_Next xs
  rw [h] at h1
  exact Structure.Reads_of_eq (Structure.Reads_bind h1 (Structure.Reads_pure _)) (by simp) rfl

end Protocol

namespace Columnar
open Protocol Structure

/-- `decode` on a buffer that does not start with the magic number. -/
theorem ends_decode_magic (table : Table) (a b : UInt8)
    (h : littleEndianUint16 [a, b] ≠ 17985) :
    Ends (decode table) [a, b] (.error .errUnknownProtocol) := by
  unfold decode
  refine Ends_of_eq (Ends_bind_right (reads_LE_ReadUint16 a b) ?_) (List.append_nil _)
  rw [if_pos (by simpa [uint16, ProtoColumnarMagicNumberUint16] using h)]
  exact Ends_fail _ _

/-- `decode` on a buffer that starts with the magic number and another version. -/
theorem ends_decode_version (table : Table) (c d : UInt8)
    (h : littleEndianUint16 [c, d] ≠ 1) :
    Ends (decode table) [65, 70, c, d] (.error .errUnknownProtocolVersion) := by
  unfold decode
  refine (Ends_bind_right (reads_LE_ReadUint16 65 70) (?_ : Ends _ [c, d] _) :
    Ends _ ([65, 70] ++ [c, d]) _)
  rw [if_neg (by decide)]
  refine Ends_of_eq (Ends_bind_right (reads_LE_ReadUint16 c d) ?_) (List.append_nil _)
  rw [if_pos (by simpa [uint16, Protocol_ColumnarV1] using h)]
  exact Ends_fail _ _

theorem columnarDecode_of_ends {xs rest : Bytes} {o : Outcome Table}
    (h : Ends (decode Table.zero) xs o) : Columnar.Decode (xs ++ rest) = o :=
  h _ rest (baseReader.at_start _ _)

theorem le16_magic (a b : UInt8) : littleEndianUint16 [a, b] = 17985 ↔ a = 65 ∧ b = 70 := by
  constructor
  · intro h
    have ha := toNat_lt_256 a
    have hb := toNat_lt_256 b
    simp only [littleEndianUint16, List.getD_cons_zero, List.getD_cons_succ] at h
    have h1 : a.toNat = 65 := by omega
    have h2 : b.toNat = 70 := by omega
    exact ⟨UInt8.ext (by rw [h1]; rfl), UInt8.ext (by rw [h2]; rfl)⟩
  · rintro ⟨rfl, rfl⟩
    rfl

end Columnar
namespace Columnar
open Protocol Structure

theorem decode_at_header (table : Table) (r : baseReader) (rest : Bytes)
    (h : r.At (65 :: 70 :: 1 :: 0 :: rest)) :
    decode table r = decodeRows table (r.adv 4) ∧ (r.adv 4).At rest := by
  have h1 : r.At ([65, 70] ++ ([1, 0] ++ rest)) := h
  obtain ⟨e1, a1⟩ := reads_LE_ReadUint16 65 70 r _ h1
  obtain ⟨e2, a2⟩ := reads_LE_ReadUint16 1 0 _ _ a1
  rw [baseReader.adv_adv] at e2 a2
  refine ⟨?_, a2⟩
  unfold decode
  rw [Dec.bind_ok e1, if_neg (by decide), Dec.bind_ok e2, if_neg (by decide)]
  rfl

/-- `decodeRows` on a negative row count. -/
theorem ends_decodeRows_negative (table : Table) (n4 : Bytes) (h4 : n4.length = 4)
    (hn : int32 (littleEndianUint32 n4) < 0) :
    Ends (decodeRows table) n4 (.error .errUnexpectRowCount) := by
  unfold decodeRows
  refine Ends_of_eq (Ends_bind_right (reads_LE_ReadInt32 n4 h4) ?_) (List.append_nil _)
  rw [if_neg (by omega), if_pos hn]
  exact Ends_fail _ _

/-- `decodeRows` on the row count 0: the table as it was, and nothing more is read. -/
theorem reads_decodeRows_zero (table : Table) (n4 : Bytes) (h4 : n4.length = 4)
    (hn : int32 (littleEndianUint32 n4) = 0) : Reads (decodeRows table) n4 table := by
  unfold decodeRows
  refine Reads_of_eq (Reads_bind (reads_LE_ReadInt32 n4 h4) ?_) (List.append_nil _) rfl
  rw [if_pos hn]
  exact Reads_pure _

/-- `decodeRows` on a positive row count and a field count that is not. -/
theorem ends_decodeRows_fieldLen (table : Table) (n4 f4 : Bytes) (h4 : n4.length = 4)
    (hf4 : f4.length = 4) (hn : 0 < int32 (littleEndianUint32 n4))
    (hf : int32 (littleEndianUint32 f4) ≤ 0) :
    Ends (decodeRows table) (n4 ++ f4) (.error .errUnexpectFieldLen) := by
  unfold decodeRows
  refine Ends_bind_right (reads_LE_ReadInt32 n4 h4) ?_
  rw [if_neg (by omega), if_neg (by omega)]
  refine Ends_of_eq (Ends_bind_right (reads_LE_ReadInt32 f4 hf4) ?_) (List.append_nil _)
  rw [if_pos hf]
  exact Ends_fail _ _

/-- `columnar.Decode` behind a valid magic number and version. -/
theorem Decode_header (rest : Bytes) :
    Columnar.Decode (65 :: 70 :: 1 :: 0 :: rest)
      = (decodeRows Table.zero { p := 4, b := 65 :: 70 :: 1 :: 0 :: rest, nocopy := true }).1
    ∧ baseReader.At { p := 4, b := 65 :: 70 :: 1 :: 0 :: rest, nocopy := true } rest := by
  obtain ⟨h1, h2⟩ := decode_at_header Table.zero
    (GetLittleEndianReader (65 :: 70 :: 1 :: 0 :: rest) true) rest (baseReader.at_start _ _)
  exact ⟨congrArg Prod.fst h1, h2⟩

/-- C21: on every buffer of at least 4 bytes whose first two bytes, read
little-endian, are not 17985, `columnar.Decode` returns `errUnknownProtocol`;
when they are 17985 and the next two bytes, read little-endian, are not 1, it
returns `errUnknownProtocolVersion`; and a call that returns an error returns
no table. -/
theorem C21_magic_version (a b c d : UInt8) (rest : Bytes) :
    (littleEndianUint16 [a, b] ≠ 17985 →
      Columnar.Decode (a :: b :: c :: d :: rest) = .error .errUnknownProtocol)
    ∧ (littleEndianUint16 [a, b] = 17985 → littleEndianUint16 [c, d] ≠ 1 →
      Columnar.Decode (a :: b :: c :: d :: rest) = .error .errUnknownProtocolVersion)
    ∧ ∀ (bs : Bytes) (e : GoError), Columnar.Decode bs = .error e →
        ∀ tb : Table, Columnar.Decode bs ≠ .ok tb := by
  refine ⟨fun h => ?_, fun h1 h2 => ?_, fun bs e h tb h1 => ?_⟩
  · exact @columnarDecode_of_ends [a, b] (c :: d :: rest) _ (ends_decode_magic Table.zero a b h)
  · obtain ⟨rfl, rfl⟩ := (le16_magic a b).mp h1
    exact @columnarDecode_of_ends [65, 70, c, d] rest _ (ends_decode_version Table.zero c d h2)
  · rw [h] at h1
    cases h1

/-- C21 at a buffer with the magic number and the version 2, and at a buffer
with another magic number. -/
theorem C21_magic_version_witness :
    Columnar.Decode [65, 70, 2, 0, 0, 0, 0, 0] = .error .errUnknownProtocolVersion
    ∧ Columnar.Decode [66, 70, 1, 0, 0, 0, 0, 0] = .error .errUnknownProtocol :=
  ⟨(C21_magic_version 65 70 2 0 [0, 0, 0, 0]).2.1 (by decide) (by decide),
    (C21_magic_version 66 70 1 0 [0, 0, 0, 0]).1 (by decide)⟩

/-- C22: behind a valid magic number and version and the four bytes `n4` of the
row count `r`, read little-endian as an `int32`: for `r < 0` `columnar.Decode`
returns `errUnexpectRowCount`; for `r = 0` it returns the empty table, with
`FieldCount() = 0` and `RowCount() = 0`, whatever bytes follow, and leaves the
cursor behind the row count; for `r > 0` and a field count, in the next four
bytes, that is not positive it returns `errUnexpectFieldLen`. -/
theorem C22_row_count (n4 rest : Bytes) (h4 : n4.length = 4) :
    (int32 (littleEndianUint32 n4) < 0 →
      Columnar.Decode (65 :: 70 :: 1 :: 0 :: (n4 ++ rest)) = .error .errUnexpectRowCount)
    ∧ (int32 (littleEndianUint32 n4) = 0 →
      decode Table.zero (GetLittleEndianReader (65 :: 70 :: 1 :: 0 :: (n4 ++ rest)) true)
        = (.ok Table.zero, { p := 8, b := 65 :: 70 :: 1 :: 0 :: (n4 ++ rest), nocopy := true })
      ∧ Columnar.Decode (65 :: 70 :: 1 :: 0 :: (n4 ++ rest)) = .ok Table.zero
      ∧ Table.zero.FieldCount = 0 ∧ Table.zero.RowCount = 0)
    ∧ (0 < int32 (littleEndianUint32 n4) →
      ∀ f4 rest1 : Bytes, f4.length = 4 → rest = f4 ++ rest1 →
        int32 (littleEndianUint32 f4) ≤ 0 →
        Columnar.Decode (65 :: 70 :: 1 :: 0 :: (n4 ++ rest)) = .error .errUnexpectFieldLen) := by
  obtain ⟨e1, a1⟩ := Decode_header (n4 ++ rest)
  obtain ⟨e2, _⟩ := decode_at_header Table.zero
    (GetLittleEndianReader (65 :: 70 :: 1 :: 0 :: (n4 ++ rest)) true) (n4 ++ rest)
    (baseReader.at_start _ _)
  refine ⟨fun h => ?_, fun h => ?_, fun h f4 rest1 hf4 hr hf => ?_⟩
  · rw [e1]
    exact ends_decodeRows_negative Table.zero n4 h4 h _ rest a1
  · have h5 := (reads_decodeRows_zero Table.zero n4 h4 h _ rest a1).1
    refine ⟨?_, ?_, rfl, rfl⟩
    · rw [e2]
      show decodeRows Table.zero _ = _
      rw [show (GetLittleEndianReader (65 :: 70 :: 1 :: 0 :: (n4 ++ rest)) true).adv 4
        = { p := 4, b := 65 :: 70 :: 1 :: 0 :: (n4 ++ rest), nocopy := true } from rfl, h5, h4]
      rfl
    · rw [e1, h5]
  · rw [e1]
    subst hr
    have a2 : baseReader.At
        { p := 4, b := 65 :: 70 :: 1 :: 0 :: (n4 ++ (f4 ++ rest1)), nocopy := true }
        ((n4 ++ f4) ++ rest1) := by
      simpa [List.append_assoc] using a1
    exact ends_decodeRows_fieldLen Table.zero n4 f4 h4 hf4 h hf _ rest1 a2

/-- C22 at the row counts -1 and 0 and at the row count 1 with the field count 0. -/
theorem C22_row_count_witness :
    Columnar.Decode [65, 70, 1, 0, 255, 255, 255, 255, 9, 9] = .error .errUnexpectRowCount
    ∧ Columnar.Decode [65, 70, 1, 0, 0, 0, 0, 0, 9, 9] = .ok Table.zero
    ∧ Columnar.Decode [65, 70, 1, 0, 1, 0, 0, 0, 0, 0, 0, 0] = .error .errUnexpectFieldLen :=
  ⟨(C22_row_count [255, 255, 255, 255] [9, 9] rfl).1 (by decide),
    ((C22_row_count [0, 0, 0, 0] [9, 9] rfl).2.1 (by decide)).2.1,
    (C22_row_count [1, 0, 0, 0] [0, 0, 0, 0] rfl).2.2 (by decide) [0, 0, 0, 0] [] rfl rfl
      (by decide)⟩

end Columnar
namespace Columnar
open Protocol Structure

theorem fieldsWF_zero : FieldsWF InlinableFields.zero := ⟨rfl, rfl⟩

theorem fieldsOf_zero : fieldsOf InlinableFields.zero = [] := rfl

theorem fieldsOf_length {mf : InlinableFields} (h : FieldsWF mf) :
    (fieldsOf mf).length = mf.len := by
  obtain ⟨h1, h2⟩ := h
  unfold fieldsOf
  rw [List.length_take, List.length_append, h1, h2]
  omega

theorem take_set_succ {α : Type} (l : List α) (k : Nat) (x : α) (h : k < l.length) :
    (l.set k x).take (k + 1) = l.take k ++ [x] := by
  induction l generalizing k with
  | nil => simp at h
  | cons y ys ih =>
    cases k with
    | zero => simp
    | succ k =>
      simp only [List.set_cons_succ, List.take_succ_cons, List.cons_append, List.cons.injEq,
        true_and]
      exact ih k (by simpa using h)

theorem Append_spec {mf : InlinableFields} (h : FieldsWF mf) (f : Field) :
    FieldsWF (mf.Append f) ∧ fieldsOf (mf.Append f) = fieldsOf mf ++ [f]
      ∧ (mf.Append f).len = mf.len + 1 := by
  obtain ⟨h1, h2⟩ := h
  unfold InlinableFields.Append InlinableFieldsArrayLen
  by_cases hl : mf.len < 12
  · rw [if_pos hl]
    have hs : mf.slice = [] := List.eq_nil_of_length_eq_zero (by omega)
    refine ⟨⟨by simp [h1], by simp [hs]; omega⟩, ?_, rfl⟩
    unfold fieldsOf
    simp only [hs, List.append_nil]
    exact take_set_succ _ _ _ (by omega)
  · rw [if_neg hl]
    refine ⟨⟨h1, by simp [h2]; omega⟩, ?_, rfl⟩
    unfold fieldsOf
    simp only []
    rw [List.take_of_length_le (by simp [h1, h2]; omega),
      List.take_of_length_le (by simp [h1, h2]; omega), List.append_assoc]

/-- `Field(idx)` is the field at `idx` of the list. -/
theorem Field_of_get {mf : InlinableFields} (h : FieldsWF mf) {idx : Nat} {f : Field}
    (hf : (fieldsOf mf)[idx]? = some f) : mf.Field idx = .ok f := by
  obtain ⟨h1, h2⟩ := h
  have hlt : idx < mf.len := by
    have := (List.getElem?_eq_some_iff.mp hf).1
    rw [fieldsOf_length ⟨h1, h2⟩] at this
    exact this
  unfold fieldsOf at hf
  rw [List.getElem?_take_of_lt hlt] at hf
  unfold InlinableFields.Field InlinableFieldsArrayLen
  rw [if_neg (by omega)]
  by_cases h12 : idx < 12
  · rw [if_pos h12]
    rw [List.getElem?_append_left (by omega)] at hf
    rw [List.get?_eq_getElem?, hf]
  · rw [if_neg h12]
    rw [List.getElem?_append_right (by omega), h1] at hf
    rw [List.get?_eq_getElem?, hf]

end Columnar
namespace Columnar
open Protocol Structure

theorem find_range_none (p : Nat → Bool) (hi : Nat) (h : ∀ j < hi, p j = false) :
    (List.range hi).find? p = none := by
  rw [List.find?_eq_none]
  intro x hx
  rw [h x (List.mem_range.mp hx)]
  exact Bool.false_ne_true

theorem find_range_some (p : Nat → Bool) (hi i : Nat) (hlt : i < hi) (hp : p i = true)
    (hmin : ∀ j < i, p j = false) : (List.range hi).find? p = some i := by
  induction hi with
  | zero => omega
  | succ k ih =>
    rw [List.range_succ, List.find?_append]
    by_cases hik : i < k
    · rw [ih hik]
      rfl
    · have : i = k := by omega
      subst this
      rw [find_range_none p i hmin]
      simp [hp]

theorem fieldsOf_get {mf : InlinableFields} (h : FieldsWF mf) {j : Nat} (hj : j < mf.len) :
    (fieldsOf mf)[j]? = some (if j < 12 then mf.array.getD j Field.zero
      else mf.slice.getD (j - 12) Field.zero) := by
  obtain ⟨h1, h2⟩ := h
  unfold fieldsOf
  rw [List.getElem?_take_of_lt hj]
  by_cases h12 : j < 12
  · rw [if_pos h12, List.getElem?_append_left (by omega), List.getD_eq_getElem?_getD,
      List.getElem?_eq_getElem (by omega)]
    rfl
  · rw [if_neg h12, List.getElem?_append_right (by omega), h1, List.getD_eq_getElem?_getD,
      List.getElem?_eq_getElem (by omega)]
    rfl

/-- `FieldIdx` finds no field with a name the schema does not hold. -/
theorem FieldIdx_absent {mf : InlinableFields} (h : FieldsWF mf) {name : Bytes}
    (hn : ∀ f ∈ fieldsOf mf, f.Name ≠ name) : mf.FieldIdx name = (0, false) := by
  have key : ∀ j, j < mf.len → (if j < 12 then mf.array.getD j Field.zero
      else mf.slice.getD (j - 12) Field.zero).Name ≠ name := by
    intro j hj
    exact hn _ (List.getElem?_mem (fieldsOf_get h hj))
  obtain ⟨h1, h2⟩ := h
  unfold InlinableFields.FieldIdx InlinableFieldsArrayLen findName
  by_cases hl : mf.len < 12
  · rw [if_pos hl, find_range_none]
    intro j hj
    have := key j hj
    rw [if_pos (by omega)] at this
    simpa using this
  · rw [if_neg hl, find_range_none, find_range_none]
    · intro j hj
      have := key (j + 12) (by omega)
      rw [if_neg (by omega), Nat.add_sub_cancel] at this
      simpa using this
    · intro j hj
      have := key j (by omega)
      rw [if_pos hj] at this
      simpa using this

/-- `FieldIdx` finds the field at `i`, when no earlier field has its name. -/
theorem FieldIdx_present {mf : InlinableFields} (h : FieldsWF mf) {i : Nat} {f : Field}
    (hf : (fieldsOf mf)[i]? = some f)
    (hmin : ∀ j < i, ∀ g, (fieldsOf mf)[j]? = some g → g.Name ≠ f.Name) :
    mf.FieldIdx f.Name = (i, true) := by
  have hi : i < mf.len := by
    have := (List.getElem?_eq_some_iff.mp hf).1
    rwa [fieldsOf_length h] at this
  have key : ∀ j, j < i → (if j < 12 then mf.array.getD j Field.zero
      else mf.slice.getD (j - 12) Field.zero).Name ≠ f.Name := by
    intro j hj
    exact hmin j hj _ (fieldsOf_get h (by omega))
  have hfi := fieldsOf_get h hi
  rw [hf] at hfi
  have hfi := Option.some.inj hfi
  obtain ⟨h1, h2⟩ := h
  unfold InlinableFields.FieldIdx InlinableFieldsArrayLen findName
  by_cases hl : mf.len < 12
  · rw [if_pos hl, find_range_some _ _ i hi]
    · rw [if_pos (by omega)] at hfi
      simp [hfi, List.getD_eq_getElem?_getD]
    · intro j hj
      have := key j hj
      rw [if_pos (by omega)] at this
      simpa using this
  · rw [if_neg hl]
    by_cases hi12 : i < 12
    · rw [find_range_some _ _ i hi12]
      · rw [if_pos hi12] at hfi
        simp [hfi, List.getD_eq_getElem?_getD]
      · intro j hj
        have := key j hj
        rw [if_pos (by omega)] at this
        simpa using this
    · rw [find_range_none, find_range_some _ _ (i - 12) (by omega)]
      · simp only [Prod.mk.injEq, and_true]
        omega
      · rw [if_neg hi12] at hfi
        simp [hfi, List.getD_eq_getElem?_getD]
      · intro j hj
        have := key (j + 12) (by omega)
        rw [if_neg (by omega), Nat.add_sub_cancel] at this
        simpa using this
      · intro j hj
        have := key j (by omega)
        rw [if_pos hj] at this
        simpa using this

/-- `FieldIdx` finds a field for every name the schema holds. -/
theorem FieldIdx_found {mf : InlinableFields} (h : FieldsWF mf) {name : Bytes}
    (hn : ∃ f ∈ fieldsOf mf, f.Name = name) : (mf.FieldIdx name).2 = true := by
  by_contra hc
  have hex : ∃ i : Nat, ∃ f : Field, (fieldsOf mf)[i]? = some f ∧ f.Name = name := by
    obtain ⟨f, hf, hfn⟩ := hn
    obtain ⟨i, hi⟩ := List.getElem?_of_mem hf
    exact ⟨i, f, hi, hfn⟩
  classical
  let i := Nat.find hex
  obtain ⟨f, hf, hfn⟩ := Nat.find_spec hex
  have hmin : ∀ j < i, ∀ g, (fieldsOf mf)[j]? = some g → g.Name ≠ f.Name := by
    intro j hj g hg hgn
    exact Nat.find_min hex hj ⟨g, hg, by rw [hgn, hfn]⟩
  have := FieldIdx_present h hf hmin
  rw [hfn] at this
  rw [this] at hc
  exact hc rfl

end Columnar
namespace Columnar
open Protocol Structure

theorem columnsOf_length {ic : InlinableColumns} (h : ColumnsWF ic) :
    (columnsOf ic).length = ic.len := by
  obtain ⟨h1, h2⟩ := h
  unfold columnsOf
  rw [List.length_take, List.length_append, h1, h2]
  omega

/-- The columns of a fresh table after `ResizeInlinableColumns`: `size` zero
columns. -/
theorem Resize_zero (size : Nat) :
    (ResizeInlinableColumns Table.zero size).Schema = Table.zero.Schema
    ∧ ColumnsWF (ResizeInlinableColumns Table.zero size).Columns
    ∧ (ResizeInlinableColumns Table.zero size).Columns.len = size
    ∧ columnsOf (ResizeInlinableColumns Table.zero size).Columns
        = List.replicate size Column.zero := by
  unfold ResizeInlinableColumns InlinableFieldsArrayLen
  by_cases hs : size < 12
  · rw [if_pos hs]
    refine ⟨rfl, ⟨rfl, ?_⟩, rfl, ?_⟩
    · show ([] : List Column).length = size - 12
      simp; omega
    · show (List.replicate 12 Column.zero ++ []).take size = _
      rw [List.append_nil, List.take_replicate, Nat.min_eq_left (by omega)]
  · rw [if_neg hs]
    simp only [Table.zero, InlinableColumns.zero, List.length_nil, ge_iff_le, Nat.le_zero_eq,
      List.take_nil, List.nil_append, Nat.sub_zero, InlinableFieldsArrayLen]
    by_cases h0 : size - 12 = 0
    · rw [if_pos h0]
      refine ⟨rfl, ⟨by simp, by simp; omega⟩, rfl, ?_⟩
      unfold columnsOf
      simp only [List.append_nil]
      rw [List.take_of_length_le (by simp; omega)]
      congr 1
      omega
    · rw [if_neg h0]
      refine ⟨rfl, ⟨by simp, by simp⟩, rfl, ?_⟩
      unfold columnsOf
      simp only []
      rw [List.take_of_length_le (by simp; omega), List.append_replicate_replicate]
      congr 1
      omega

theorem columnsOf_get {ic : InlinableColumns} (h : ColumnsWF ic) {j : Nat} (hj : j < ic.len) :
    (columnsOf ic)[j]? = (if j < 12 then ic.array[j]? else ic.slice[j - 12]?) := by
  obtain ⟨h1, h2⟩ := h
  unfold columnsOf
  rw [List.getElem?_take_of_lt hj]
  by_cases h12 : j < 12
  · rw [if_pos h12, List.getElem?_append_left (by omega)]
  · rw [if_neg h12, List.getElem?_append_right (by omega), h1]

/-- `ColumnPtr(idx)` points to the column at `idx` of the list. -/
theorem ColumnPtr_of_get {ic : InlinableColumns} (h : ColumnsWF ic) {idx : Nat} {c : Column}
    (hc : (columnsOf ic)[idx]? = some c) : ic.ColumnPtr idx = .ok c := by
  have hlt : idx < ic.len := by
    have := (List.getElem?_eq_some_iff.mp hc).1
    rwa [columnsOf_length h] at this
  rw [columnsOf_get h hlt] at hc
  unfold InlinableColumns.ColumnPtr InlinableFieldsArrayLen
  rw [if_neg (by omega)]
  by_cases h12 : idx < 12
  · rw [if_pos h12] at hc ⊢
    rw [List.get?_eq_getElem?, hc]
  · rw [if_neg h12] at hc ⊢
    rw [List.get?_eq_getElem?, hc]

/-- `Column(idx)` is the column at `idx` of the list. -/
theorem Column_of_get {ic : InlinableColumns} (h : ColumnsWF ic) {idx : Nat} {c : Column}
    (hc : (columnsOf ic)[idx]? = some c) : ic.Column idx = .ok c := by
  have hlt : idx < ic.len := by
    have := (List.getElem?_eq_some_iff.mp hc).1
    rwa [columnsOf_length h] at this
  rw [columnsOf_get h hlt] at hc
  unfold InlinableColumns.Column InlinableFieldsArrayLen
  by_cases h12 : idx < 12
  · rw [if_pos h12] at hc ⊢
    rw [List.get?_eq_getElem?, hc]
  · rw [if_neg h12] at hc ⊢
    rw [List.get?_eq_getElem?, hc]

/-- A store through `ColumnPtr(idx)` replaces the column at `idx` of the list. -/
theorem store_spec {ic : InlinableColumns} (h : ColumnsWF ic) (idx : Nat) (c : Column) :
    ColumnsWF (ic.store idx c) ∧ (ic.store idx c).len = ic.len
      ∧ columnsOf (ic.store idx c) = (columnsOf ic).set idx c := by
  obtain ⟨h1, h2⟩ := h
  unfold InlinableColumns.store InlinableFieldsArrayLen
  by_cases h12 : idx < 12
  · rw [if_pos h12]
    refine ⟨⟨by simp [h1], h2⟩, rfl, ?_⟩
    unfold columnsOf
    simp only []
    rw [← List.set_append_left _ _ (by omega), List.set_take]
  · rw [if_neg h12]
    refine ⟨⟨h1, by simp [h2]⟩, rfl, ?_⟩
    unfold columnsOf
    simp only []
    rw [← List.set_take, List.set_append_right _ _ (by omega), h1]

/-- `RowCount()` of a table with a column is the length of its first column. -/
theorem RowCount_of_get {t : Table} (h : ColumnsWF t.Columns) {c : Column}
    (hc : (columnsOf t.Columns)[0]? = some c) : t.RowCount = c.length := by
  have hlt : 0 < t.Columns.len := by
    have := (List.getElem?_eq_some_iff.mp hc).1
    rwa [columnsOf_length h] at this
  rw [columnsOf_get h hlt, if_pos (by omega)] at hc
  unfold Table.RowCount
  rw [if_neg (by omega), List.getD_eq_getElem?_getD, hc]
  rfl

end Columnar
namespace Columnar
open Protocol Structure

theorem le32_length (v : Int) : (le32 v).length = 4 := rfl

theorem littleEndianUint32_le32 (v : Int) : littleEndianUint32 (le32 v) = uint32 v := by
  have h := uint32_lt v
  simp only [littleEndianUint32, le32, List.getD_cons_zero, List.getD_cons_succ, byte_toNat]
  omega

theorem reads_le32 {v : Int} (hv : isInt32 v) : Reads LittleEndianReader.ReadInt32 (le32 v) v := by
  have := reads_LE_ReadInt32 (le32 v) rfl
  rwa [littleEndianUint32_le32, int32_uint32 v hv] at this

theorem reads_LE_ReadString {s : Bytes} (hs : s.length < 2 ^ 31) :
    Reads LittleEndianReader.ReadString (le32 s.length ++ s) s := by
  have hv : isInt32 (s.length : Int) := by unfold isInt32; omega
  unfold LittleEndianReader.ReadString LittleEndianReader.ReadBytes
  refine Reads_of_eq (Reads_bind (Reads_bind (reads_le32 hv)
    (Reads_bind (reads_Next s) (Reads_pure _))) (Reads_pure _)) (by simp) rfl

/-- The schema loop on the entries of fields whose names are new. -/
theorem reads_decodeFields (cs : List ColumnWire) (n : Nat) (hcs : ∀ c ∈ cs, c.WF n) :
    ∀ table : Table, FieldsWF table.Schema.fields →
      ((fieldsOf table.Schema.fields).map (fun f => f.Name) ++ cs.map (fun c => c.name)).Nodup →
      Reads (decodeFields cs.length table) (schemaBytes cs)
        (cs.foldl (fun t c => addField t c.field) table) := by
  induction cs with
  | nil => intro table _ _; exact Reads_pure _
  | cons c rest ih =>
    intro table hwf hnd
    obtain ⟨hty, hname, _, _⟩ := hcs c (List.mem_cons_self _ _)
    have hfresh : (table.Schema.FieldIdx c.name).2 = false := by
      have : table.Schema.fields.FieldIdx c.name = (0, false) := by
        refine FieldIdx_absent hwf ?_
        intro f hf hfn
        rw [List.nodup_append] at hnd
        exact hnd.2.2 (List.mem_map.mpr ⟨f, hf, hfn⟩) (List.mem_cons_self _ _)
      unfold Schema.FieldIdx
      rw [this]
    obtain ⟨w1, w2, _⟩ := Append_spec hwf c.field
    have hnd1 : ((fieldsOf (addField table c.field).Schema.fields).map (fun f => f.Name)
        ++ rest.map (fun c => c.name)).Nodup := by
      show ((fieldsOf (table.Schema.fields.Append c.field)).map _ ++ _).Nodup
      rw [w2]
      simpa [ColumnWire.field, List.append_assoc] using hnd
    have h3 := ih (fun q hq => hcs q (List.mem_cons_of_mem _ hq)) (addField table c.field) w1 hnd1
    show Reads (decodeFields (rest.length + 1) table) (fieldBytes c ++ schemaBytes rest) _
    unfold decodeFields fieldBytes
    refine @Reads_of_eq _ _
      (le32 c.type ++ ((le32 c.name.length ++ c.name) ++ (le32 0 ++ schemaBytes rest))) _ _ _
      (Reads_bind (reads_le32 hty) (Reads_bind (reads_LE_ReadString hname) ?_))
      (by simp [List.append_assoc]) rfl
    rw [if_neg (by rw [hfresh]; exact Bool.false_ne_true)]
    refine Reads_bind (reads_le32 (by decide)) ?_
    rw [if_neg (by decide)]
    exact h3

end Columnar
namespace Columnar
open Protocol Structure

theorem RoundUp8_eq (x : Int) (h0 : -7 ≤ x) (h1 : x < 2 ^ 62) :
    Util.RoundUp8 x = (x + 7) - (x + 7) % 8 := by
  unfold Util.RoundUp8 int64
  omega

theorem RoundUp8_bounds (x : Int) (h0 : 0 ≤ x) (h1 : x < 2 ^ 62) :
    x ≤ Util.RoundUp8 x ∧ Util.RoundUp8 x < x + 8 ∧ Util.RoundUp8 x % 8 = 0 := by
  rw [RoundUp8_eq x (by omega) h1]
  omega

/-- The table after the schema loop has appended the fields of `cs`. -/
theorem foldl_addField (cs : List ColumnWire) :
    ∀ table : Table, FieldsWF table.Schema.fields →
      (cs.foldl (fun t c => addField t c.field) table).Columns = table.Columns
      ∧ FieldsWF (cs.foldl (fun t c => addField t c.field) table).Schema.fields
      ∧ fieldsOf (cs.foldl (fun t c => addField t c.field) table).Schema.fields
          = fieldsOf table.Schema.fields ++ cs.map ColumnWire.field
      ∧ (cs.foldl (fun t c => addField t c.field) table).Schema.fields.len
          = table.Schema.fields.len + cs.length := by
  induction cs with
  | nil => intro table h; exact ⟨rfl, h, by simp, rfl⟩
  | cons c rest ih =>
    intro table h
    obtain ⟨w1, w2, w3⟩ := Append_spec h c.field
    obtain ⟨i1, i2, i3, i4⟩ := ih (addField table c.field) w1
    refine ⟨i1, i2, ?_, ?_⟩
    · rw [List.foldl_cons, i3]
      show fieldsOf (table.Schema.fields.Append c.field) ++ _ = _
      rw [w2]
      simp
    · rw [List.foldl_cons, i4]
      show (table.Schema.fields.Append c.field).len + _ = _
      rw [w3, List.length_cons]
      omega

theorem uint32_of_lt (n : Nat) (h : n < 2 ^ 32) : uint32 (n : Int) = n := by
  unfold uint32
  omega

/-- One iteration of the data loop on the regions of a column of the wire. -/
theorem reads_decodeColumn (n : Nat) (hn : n < 2 ^ 31) (c : ColumnWire) (hc : c.WF n)
    (table : Table) (i : Nat) (hcol : table.Columns.ColumnPtr i = .ok Column.zero)
    (hfield : table.Schema.fields.Field i = .ok c.field) :
    Reads (decodeColumn n i table) (columnBytes c)
      { table with Columns := table.Columns.store i (c.column n) } := by
  obtain ⟨_, _, hbm, hbody⟩ := hc
  have hb : ((uint32 ((n : Int) + 7) / 8 : Nat) : Int) = (((n + 7) / 8 : Nat) : Int) := by
    have : uint32 ((n : Int) + 7) = n + 7 := by
      have := uint32_of_lt (n + 7) (by omega)
      rwa [Nat.cast_add] at this
    rw [this]
  unfold decodeColumn columnBytes
  rw [hcol, hfield, hb, ← hbm]
  refine Reads_of_eq (Reads_bind (Reads_lift _) (Reads_bind (reads_Next c.bitmap)
    (Reads_bind (Reads_lift _) ?_))) (List.nil_append _) rfl
  show Reads (match valueSize c.type with
    | some slotSize => _
    | none => _) _ _
  unfold ColumnWire.column
  cases hvs : valueSize c.type with
  | some slotSize =>
    rw [hvs] at hbody
    obtain ⟨ho, hcells⟩ := hbody
    simp only []
    rw [ho, ← hcells]
    exact Reads_of_eq (Reads_bind (reads_Next c.cells) (Reads_pure _)) (List.append_nil _) rfl
  | none =>
    rw [hvs] at hbody
    obtain ⟨ho, hcells⟩ := hbody
    simp only []
    rw [← ho]
    refine Reads_bind (reads_Next c.offsets) ?_
    rw [← hcells]
    exact Reads_of_eq (Reads_bind (reads_Next c.cells) (Reads_pure _)) (List.append_nil _) rfl

end Columnar
namespace Columnar
open Protocol Structure

/-- The data loop on the regions of columns of the wire, into zero columns. -/
theorem reads_decodeColumns (n : Nat) (hn : n < 2 ^ 31) (todo : List ColumnWire)
    (htodo : ∀ c ∈ todo, c.WF n) :
    ∀ (table : Table) (i : Nat), ColumnsWF table.Columns → FieldsWF table.Schema.fields →
      (∀ (k : Nat) (c : ColumnWire), todo[k]? = some c →
        (fieldsOf table.Schema.fields)[i + k]? = some c.field
        ∧ (columnsOf table.Columns)[i + k]? = some Column.zero) →
      ∃ table1, Reads (decodeColumns n todo.length i table) (dataBytes todo) table1
        ∧ table1.Schema = table.Schema ∧ ColumnsWF table1.Columns
        ∧ table1.Columns.len = table.Columns.len
        ∧ columnsOf table1.Columns
            = (columnsOf table.Columns).take i ++ todo.map (ColumnWire.column n)
              ++ (columnsOf table.Columns).drop (i + todo.length) := by
  induction todo with
  | nil =>
    intro table i hc _ _
    exact ⟨table, Reads_pure _, rfl, hc, rfl, by simp⟩
  | cons c rest ih =>
    intro table i hcw hfw hget
    obtain ⟨g1, g2⟩ := hget 0 c (by simp)
    rw [Nat.add_zero] at g1 g2
    have hilt : i < (columnsOf table.Columns).length := (List.getElem?_eq_some_iff.mp g2).1
    obtain ⟨s1, s2, s3⟩ := store_spec hcw i (c.column n)
    have h1 := reads_decodeColumn n hn c (htodo c (List.mem_cons_self _ _)) table i
      (ColumnPtr_of_get hcw g2) (Field_of_get hfw g1)
    obtain ⟨table1, r1, q1, q2, q3, q4⟩ :=
      ih (fun q hq => htodo q (List.mem_cons_of_mem _ hq))
        { table with Columns := table.Columns.store i (c.column n) } (i + 1) s1 hfw
        (by
          intro k c1 hk
          obtain ⟨a1, a2⟩ := hget (k + 1) c1 (by simpa using hk)
          refine ⟨by rw [show i + 1 + k = i + (k + 1) by omega]; exact a1, ?_⟩
          show (columnsOf (table.Columns.store i (c.column n)))[i + 1 + k]? = _
          rw [s3, List.getElem?_set_ne (by omega), show i + 1 + k = i + (k + 1) by omega]
          exact a2)
    refine ⟨table1, ?_, q1, q2, by rw [q3]; exact s2, ?_⟩
    · show Reads (decodeColumns n (rest.length + 1) i table) (columnBytes c ++ dataBytes rest) _
      unfold decodeColumns
      exact Reads_bind h1 r1
    · rw [q4]
      show List.take (i + 1) (columnsOf (table.Columns.store i (c.column n))) ++ _
        ++ List.drop (i + 1 + rest.length) (columnsOf (table.Columns.store i (c.column n))) = _
      rw [s3, take_set_succ _ _ _ hilt, List.drop_set_of_lt _ _ (by omega), List.map_cons,
        List.length_cons, show i + 1 + rest.length = i + (rest.length + 1) by omega]
      simp [List.append_assoc]

theorem batchBytes_length (n : Nat) (cs : List ColumnWire) (pad : Bytes) :
    (batchBytes n cs pad).length
      = 16 + (schemaBytes cs).length + pad.length + (dataBytes cs).length := by
  unfold batchBytes
  rw [List.length_append, List.length_append, List.length_append, List.length_append,
    List.length_append, List.length_append, le32_length, le32_length, le32_length]
  show 4 + _ = _
  omega

theorem Dec.cursor_run (r : baseReader) : Dec.cursor r = (.ok r.p, r) := rfl

/-- `decode` on a well-formed batch, from a fresh reader into a fresh table. -/
theorem decode_batch (n : Nat) (cs : List ColumnWire) (pad rest : Bytes)
    (h : BatchWF n cs pad) (nocopy : Bool) :
    ∃ tb, decode Table.zero (GetLittleEndianReader (batchBytes n cs pad ++ rest) nocopy)
        = (.ok tb, (GetLittleEndianReader (batchBytes n cs pad ++ rest) nocopy).adv
            (batchBytes n cs pad).length)
      ∧ IsTableOf n cs tb := by
  obtain ⟨hn0, hn, hf0, hf, hnd, hwf, hpad⟩ := h
  have hat0 : baseReader.At (GetLittleEndianReader (batchBytes n cs pad ++ rest) nocopy)
      (65 :: 70 :: 1 :: 0 :: (le32 n ++ (le32 cs.length ++ (schemaBytes cs ++ (le32 0
        ++ (pad ++ (dataBytes cs ++ rest))))))) := by
    have := baseReader.at_start (batchBytes n cs pad ++ rest) nocopy
    simpa [batchBytes, List.append_assoc] using this
  obtain ⟨e0, a0⟩ := decode_at_header Table.zero _ _ hat0
  obtain ⟨e1, a1⟩ := reads_le32 (v := (n : Int)) (by unfold isInt32; omega) _ _ a0
  obtain ⟨e2, a2⟩ := reads_le32 (v := (cs.length : Int)) (by unfold isInt32; omega) _ _ a1
  obtain ⟨z1, z2, z3, z4⟩ := Resize_zero cs.length
  have hfw1 : FieldsWF (ResizeInlinableColumns Table.zero cs.length).Schema.fields := by
    rw [z1]; exact fieldsWF_zero
  have hfo1 : fieldsOf (ResizeInlinableColumns Table.zero cs.length).Schema.fields = [] := by
    rw [z1]; rfl
  obtain ⟨e3, a3⟩ := reads_decodeFields cs n hwf (ResizeInlinableColumns Table.zero cs.length)
    hfw1 (by rw [hfo1]; simpa using hnd) _ _ a2
  obtain ⟨f1, f2, f3, f4⟩ := foldl_addField cs (ResizeInlinableColumns Table.zero cs.length) hfw1
  rw [hfo1, List.nil_append] at f3
  obtain ⟨e4, a4⟩ := reads_le32 (v := 0) (by decide) _ _ a3
  simp only [baseReader.adv_adv, le32_length] at e1 a1 e2 a2 e3 a3 e4 a4
  have a5 : baseReader.At
      ((GetLittleEndianReader (batchBytes n cs pad ++ rest) nocopy).adv
        (4 + 4 + 4 + (schemaBytes cs).length + 4)) (pad ++ (dataBytes cs ++ rest)) := a4
  obtain ⟨e5, a5'⟩ := reads_Next pad _ _ a5
  obtain ⟨tb, r6, q1, q2, q3, q4⟩ := reads_decodeColumns n hn cs hwf
    (cs.foldl (fun t c => addField t c.field) (ResizeInlinableColumns Table.zero cs.length)) 0
    (by rw [f1]; exact z2) f2
    (by
      intro k c hk
      rw [Nat.zero_add, f3, f1, z4, List.getElem?_map, hk, List.getElem?_replicate,
        if_pos (List.getElem?_eq_some_iff.mp hk).1]
      exact ⟨rfl, rfl⟩)
  obtain ⟨e6, a6⟩ := r6 _ _ a5'
  refine ⟨tb, ?_, ?_⟩
  · rw [e0]
    unfold decodeRows
    rw [Dec.bind_ok e1, if_neg (by omega), if_neg (by omega), Dec.bind_ok e2, if_neg (by omega)]
    simp only [Int.toNat_ofNat]
    rw [show cs.length + Table.zero.Schema.fields.len = cs.length from rfl, Dec.bind_ok e3,
      Dec.bind_ok e4, if_neg (by decide), Dec.bind_ok (Dec.cursor_run _)]
    have hp : (((GetLittleEndianReader (batchBytes n cs pad ++ rest) nocopy).adv
        (4 + 4 + 4 + (schemaBytes cs).length + 4)).p : Int) = 16 + (schemaBytes cs).length := by
      show ((0 + (4 + 4 + 4 + (schemaBytes cs).length + 4) : Nat) : Int) = _
      push_cast
      omega
    rw [hp, ← hpad, Dec.bind_ok e5]
    show decodeColumns n cs.length 0 _ _ = _
    rw [e6, batchBytes_length]
    simp only [baseReader.adv_adv]
    exact congrArg (fun k => (Outcome.ok tb,
      (GetLittleEndianReader (batchBytes n cs pad ++ rest) nocopy).adv k)) (by omega)
  · refine ⟨by rw [q1]; exact f2, q2, by rw [q1]; exact f3, ?_, ?_, ?_⟩
    · rw [q4, f1, z4]
      simp
    · rw [q1, f4, z1]
      show 0 + cs.length = cs.length
      omega
    · rw [q3, f1, z3]

end Columnar
namespace Columnar
open Protocol Structure

theorem column_bitmap (n : Nat) (c : ColumnWire) :
    (c.column n).nullBitmap.bytes = c.bitmap ∧ (c.column n).length = n := by
  unfold ColumnWire.column
  split <;> exact ⟨rfl, rfl⟩

theorem bitmap_length {n : Nat} {c : ColumnWire} (hn : n < 2 ^ 31) (hc : c.WF n) :
    (n + 7) / 8 ≤ c.bitmap.length ∧ c.bitmap.length < (n + 7) / 8 + 8
      ∧ c.bitmap.length % 8 = 0 := by
  obtain ⟨_, _, hbm, _⟩ := hc
  have := RoundUp8_bounds (((n + 7) / 8 : Nat) : Int) (by omega) (by omega)
  omega

/-- `IsNull(i)` on a decoded column: bit `i mod 8` of byte `i / 8` of the null
bitmap is 0. -/
theorem column_IsNull {n : Nat} {c : ColumnWire} (hn : n < 2 ^ 31) (hc : c.WF n) {i : Nat}
    (hi : i < n) :
    (c.column n).IsNull i = .ok (!(c.bitmap.getD (i / 8) 0).toNat.testBit (i % 8)) := by
  obtain ⟨h1, _, _⟩ := bitmap_length hn hc
  have hlt : i / 8 < c.bitmap.length := by omega
  unfold Column.IsNull
  rw [(column_bitmap n c).1, List.get?_eq_getElem?, List.getElem?_eq_getElem hlt,
    List.getD_eq_getElem?_getD, List.getElem?_eq_getElem hlt]
  simp only [Option.getD_some]
  rw [Nat.one_shiftLeft, Nat.and_two_pow]
  cases h : (c.bitmap[i / 8]).toNat.testBit (i % 8) <;> simp

theorem column_fixed {n : Nat} {c : ColumnWire} {s : Nat} (hn : n < 2 ^ 31) (hc : c.WF n)
    (hs : valueSize c.type = some s) :
    (c.column n).data = c.cells.take (s * n) ∧ (c.column n).padding = c.cells.drop (s * n)
    ∧ (c.column n).data.length = s * n ∧ (c.column n).slotSize = s
    ∧ (c.cells.length : Int) = Util.RoundUp8 ((s : Int) * n) ∧ s ≤ 8 := by
  obtain ⟨_, _, _, hbody⟩ := hc
  rw [hs] at hbody
  have hs8 : s ≤ 8 := by
    unfold valueSize at hs
    split_ifs at hs <;> (cases hs; decide)
  have hb := RoundUp8_bounds ((s : Int) * n) (Int.mul_nonneg (by omega) (by omega)) (by
    have : (s : Int) * n ≤ 8 * n := by
      apply Int.mul_le_mul_of_nonneg_right <;> omega
    omega)
  unfold ColumnWire.column
  rw [hs]
  refine ⟨rfl, rfl, ?_, rfl, hbody.2, hs8⟩
  show (c.cells.take (s * n)).length = s * n
  rw [List.length_take]
  have : ((s * n : Nat) : Int) ≤ c.cells.length := by
    rw [hbody.2]; push_cast; exact hb.1
  omega

/-- A raw read inside the data of a decoded fixed-size column: the bytes of the
data region from `off` on. -/
theorem column_rawRead {n : Nat} {c : ColumnWire} {s : Nat} (hn : n < 2 ^ 31) (hc : c.WF n)
    (hs : valueSize c.type = some s) {off : Nat} (hoff : off < s * n) (w : Nat) :
    (c.column n).rawRead off w = .ok ((c.cells.drop off).take w) := by
  obtain ⟨h1, h2, h3, _⟩ := column_fixed hn hc hs
  unfold Column.rawRead
  rw [if_pos (by omega), h1, h2, List.take_append_drop]

/-- `GetInt32(i)` on a decoded column of 4-byte slots: the little-endian
`int32` at bytes `[4i, 4i+4)` of the data region. -/
theorem column_GetInt32 {n : Nat} {c : ColumnWire} (hn : n < 2 ^ 31) (hc : c.WF n)
    (hs : valueSize c.type = some 4) {i : Nat} (hi : i < n) :
    (c.column n).GetInt32 i = .ok (int32 (littleEndianUint32 ((c.cells.drop (4 * i)).take 4))) := by
  unfold Column.GetInt32
  rw [column_rawRead hn hc hs (by omega), Nat.mul_comm]

/-- `GetInt64(i)` on a decoded column of 8-byte slots. -/
theorem column_GetInt64 {n : Nat} {c : ColumnWire} (hn : n < 2 ^ 31) (hc : c.WF n)
    (hs : valueSize c.type = some 8) {i : Nat} (hi : i < n) :
    (c.column n).GetInt64 i = .ok (int64 (littleEndianUint64 ((c.cells.drop (8 * i)).take 8))) := by
  unfold Column.GetInt64
  rw [column_rawRead hn hc hs (by omega), Nat.mul_comm]

/-- `GetFloat32(i)` on a decoded column of 4-byte slots. -/
theorem column_GetFloat32 {n : Nat} {c : ColumnWire} (hn : n < 2 ^ 31) (hc : c.WF n)
    (hs : valueSize c.type = some 4) {i : Nat} (hi : i < n) :
    (c.column n).GetFloat32 i = .ok (littleEndianUint32 ((c.cells.drop (4 * i)).take 4)) := by
  unfold Column.GetFloat32
  rw [column_rawRead hn hc hs (by omega), Nat.mul_comm]

/-- `GetFloat64(i)` on a decoded column of 8-byte slots. -/
theorem column_GetFloat64 {n : Nat} {c : ColumnWire} (hn : n < 2 ^ 31) (hc : c.WF n)
    (hs : valueSize c.type = some 8) {i : Nat} (hi : i < n) :
    (c.column n).GetFloat64 i = .ok (littleEndianUint64 ((c.cells.drop (8 * i)).take 8)) := by
  unfold Column.GetFloat64
  rw [column_rawRead hn hc hs (by omega), Nat.mul_comm]

/-- `GetBool(i)` on a decoded column of 1-byte slots. -/
theorem column_GetBool {n : Nat} {c : ColumnWire} (hn : n < 2 ^ 31) (hc : c.WF n)
    (hs : valueSize c.type = some 1) {i : Nat} (hi : i < n) :
    (c.column n).GetBool i = .ok (decide (((c.cells.drop i).take 1).getD 0 0 ≠ 0)) := by
  unfold Column.GetBool
  rw [column_rawRead hn hc hs (by omega)]

/-- The accessors of a decoded table, by the columns of the wire. -/
theorem table_access {n : Nat} {cs : List ColumnWire} {tb : Table} (h : IsTableOf n cs tb)
    {j : Nat} {c : ColumnWire} (hj : cs[j]? = some c) :
    tb.Schema.fields.Field j = .ok c.field
    ∧ tb.Columns.ColumnPtr j = .ok (c.column n)
    ∧ tb.GetColumnByIdx j = .ok (c.column n)
    ∧ tb.FieldCount = cs.length := by
  obtain ⟨h1, h2, h3, h4, h5, _⟩ := h
  have g1 : (fieldsOf tb.Schema.fields)[j]? = some c.field := by
    rw [h3, List.getElem?_map, hj]; rfl
  have g2 : (columnsOf tb.Columns)[j]? = some (c.column n) := by
    rw [h4, List.getElem?_map, hj]; rfl
  exact ⟨Field_of_get h1 g1, ColumnPtr_of_get h2 g2, Column_of_get h2 g2, h5⟩

/-- `RowCount()` of a decoded table is the row count of the batch. -/
theorem table_RowCount {n : Nat} {cs : List ColumnWire} {tb : Table} (h : IsTableOf n cs tb)
    (hcs : 0 < cs.length) : tb.RowCount = n := by
  obtain ⟨_, h2, _, h4, _, _⟩ := h
  obtain ⟨c, hc⟩ : ∃ c, cs[0]? = some c := ⟨cs[0], List.getElem?_eq_getElem hcs⟩
  have g2 : (columnsOf tb.Columns)[0]? = some (c.column n) := by
    rw [h4, List.getElem?_map, hc]; rfl
  rw [RowCount_of_get h2 g2]
  exact (column_bitmap n c).2

/-- `GetColumnPtr(name)` of a decoded table: the column of the field with that
name, nil when there is none. -/
theorem table_GetColumnPtr {n : Nat} {cs : List ColumnWire} {tb : Table} (h : IsTableOf n cs tb)
    (hnd : (cs.map (fun c => c.name)).Nodup) :
    (∀ (j : Nat) (c : ColumnWire), cs[j]? = some c →
      tb.GetColumnPtr c.name = .ok (some (c.column n)))
    ∧ ∀ name : Bytes, (∀ c ∈ cs, c.name ≠ name) → tb.GetColumnPtr name = .ok none := by
  have hacc := @table_access n cs tb h
  obtain ⟨h1, h2, h3, h4, _, _⟩ := h
  constructor
  · intro j c hj
    have g1 : (fieldsOf tb.Schema.fields)[j]? = some c.field := by
      rw [h3, List.getElem?_map, hj]; rfl
    have hidx : tb.Schema.fields.FieldIdx c.field.Name = (j, true) := by
      refine FieldIdx_present h1 g1 ?_
      intro k hk g hg hgn
      rw [h3, List.getElem?_map] at hg
      obtain ⟨c1, hc1, rfl⟩ := Option.map_eq_some'.mp hg
      have hjlt := (List.getElem?_eq_some_iff.mp hj).1
      have hklt := (List.getElem?_eq_some_iff.mp hc1).1
      have e1 : (cs.map (fun c => c.name))[k]? = some c1.name := by
        rw [List.getElem?_map, hc1]; rfl
      have e2 : (cs.map (fun c => c.name))[j]? = some c.name := by
        rw [List.getElem?_map, hj]; rfl
      refine (List.nodup_iff_getElem?_ne_getElem?.mp hnd) k j hk (by simpa using hjlt) ?_
      rw [e1, e2]
      exact congrArg some hgn
    unfold Table.GetColumnPtr
    rw [show c.name = c.field.Name from rfl, hidx]
    simp only []
    rw [(hacc hj).2.1]
  · intro name hname
    have : tb.Schema.fields.FieldIdx name = (0, false) := by
      refine FieldIdx_absent h1 ?_
      intro f hf
      rw [h3] at hf
      obtain ⟨c, hc, rfl⟩ := List.mem_map.mp hf
      exact hname c hc
    unfold Table.GetColumnPtr
    rw [this]

end Columnar
namespace Columnar
open Protocol Structure

theorem columnarDecode_eq (bs : Bytes) :
    Columnar.Decode bs = (decode Table.zero (GetLittleEndianReader bs true)).1 := rfl

/-- `columnar.Decode` on a well-formed batch. -/
theorem Decode_batch (n : Nat) (cs : List ColumnWire) (pad rest : Bytes)
    (h : BatchWF n cs pad) :
    ∃ tb, Columnar.Decode (batchBytes n cs pad ++ rest) = .ok tb ∧ IsTableOf n cs tb := by
  obtain ⟨tb, h1, h2⟩ := decode_batch n cs pad rest h true
  refine ⟨tb, ?_, h2⟩
  rw [columnarDecode_eq, h1]

/-- The columns of a batch start at the first multiple of 8 behind the schema. -/
theorem batchBytes_drop (n : Nat) (cs : List ColumnWire) (pad : Bytes) (h : BatchWF n cs pad) :
    (batchBytes n cs pad).drop (Util.RoundUp8 (16 + (schemaBytes cs).length)).toNat
      = dataBytes cs := by
  obtain ⟨_, _, _, _, _, _, hpad⟩ := h
  have e : batchBytes n cs pad
      = ([65, 70, 1, 0] ++ (le32 n ++ (le32 cs.length ++ (schemaBytes cs ++ (le32 0 ++ pad)))))
        ++ dataBytes cs := by
    simp [batchBytes, List.append_assoc]
  have hl : ([65, 70, 1, 0] ++ (le32 n ++ (le32 cs.length ++ (schemaBytes cs
      ++ (le32 0 ++ pad))))).length = (Util.RoundUp8 (16 + (schemaBytes cs).length)).toNat := by
    rw [List.length_append, List.length_append, List.length_append, List.length_append,
      List.length_append, le32_length, le32_length, le32_length]
    show 4 + _ = _
    omega
  rw [e, ← hl, List.drop_left]

/-- C24: for every well-formed batch of `n > 0` rows and every field of it with
a fixed-size type of slot size `s`, `columnar.Decode` returns a table in which
the column of the field has as null bitmap the `RoundUp8(ceil(n/8))` bytes of
the batch in front of its data region (for the first field they start at the
first multiple of 8 behind the schema) and as data the first `s*n` bytes of the
data region of `RoundUp8(s*n)` bytes that follows; for every row `i < n`,
`IsNull(i)` holds exactly when bit `i mod 8` of byte `i / 8` of the bitmap is 0,
and on a column of 4-byte slots `GetInt32(i)` is the little-endian `int32` at
bytes `[4i, 4i+4)` of the data region. -/
theorem C24_fixed_column (n : Nat) (cs : List ColumnWire) (pad rest : Bytes)
    (h : BatchWF n cs pad) (j : Nat) (c : ColumnWire) (hj : cs[j]? = some c) (s : Nat)
    (hs : valueSize c.type = some s) :
    ∃ tb col, Columnar.Decode (batchBytes n cs pad ++ rest) = .ok tb
      ∧ tb.GetColumnByIdx j = .ok col ∧ tb.GetColumnPtr c.name = .ok (some col)
      ∧ (c.bitmap.length : Int) = Util.RoundUp8 (((n + 7) / 8 : Nat) : Int)
      ∧ (c.cells.length : Int) = Util.RoundUp8 ((s : Int) * n)
      ∧ c.offsets = []
      ∧ (j = 0 → (batchBytes n cs pad).drop (Util.RoundUp8 (16 + (schemaBytes cs).length)).toNat
            = c.bitmap ++ (c.cells ++ dataBytes (cs.drop 1)))
      ∧ col.nullBitmap.bytes = c.bitmap
      ∧ col.data = c.cells.take (s * n) ∧ col.data.length = s * n
      ∧ ∀ i, i < n →
          col.IsNull i = .ok (!(c.bitmap.getD (i / 8) 0).toNat.testBit (i % 8))
          ∧ (s = 4 → col.GetInt32 i
              = .ok (int32 (littleEndianUint32 ((c.cells.drop (4 * i)).take 4)))) := by
  obtain ⟨tb, h1, h2⟩ := Decode_batch n cs pad rest h
  have hn := h.2.1
  have hc : c.WF n := h.2.2.2.2.2.1 c (List.getElem?_mem hj)
  obtain ⟨f1, f2, f3, _, f5, _⟩ := column_fixed hn hc hs
  have ho : c.offsets = [] := by
    have := hc.2.2.2
    rw [hs] at this
    exact this.1
  refine ⟨tb, c.column n, h1, (table_access h2 hj).2.2.1,
    (table_GetColumnPtr h2 h.2.2.2.2.1).1 j c hj, hc.2.2.1, f5, ho, ?_,
    (column_bitmap n c).1, f1, f3, ?_⟩
  · intro hj0
    subst hj0
    rw [batchBytes_drop n cs pad h]
    cases cs with
    | nil => simp at hj
    | cons c0 rest0 =>
      simp only [List.getElem?_cons_zero, Option.some.injEq] at hj
      subst hj
      simp [dataBytes, columnBytes, ho]
  · intro i hi
    refine ⟨column_IsNull hn hc hi, ?_⟩
    intro hs4
    subst hs4
    exact column_GetInt32 hn hc hs hi

end Columnar
namespace Columnar
open Protocol Structure

/-- C24 at the batch of 3 rows with the one `INT32` field `x` and the values
`[1, null, 3]`. -/
theorem C24_fixed_column_witness :
    ∃ tb col, Columnar.Decode [65, 70, 1, 0, 3, 0, 0, 0, 1, 0, 0, 0,
        2, 0, 0, 0, 1, 0, 0, 0, 120, 0, 0, 0, 0, 0, 0, 0, 0, 0, 0, 0,
        5, 0, 0, 0, 0, 0, 0, 0,
        1, 0, 0, 0, 0, 0, 0, 0, 3, 0, 0, 0, 0, 0, 0, 0] = .ok tb
      ∧ tb.GetColumnPtr [120] = .ok (some col)
      ∧ col.IsNull 0 = .ok false ∧ col.IsNull 1 = .ok true ∧ col.IsNull 2 = .ok false
      ∧ col.GetInt32 0 = .ok 1 ∧ col.GetInt32 2 = .ok 3 :=
  have hwf : BatchWF 3 [⟨[120], 2, [5, 0, 0, 0, 0, 0, 0, 0], [],
      [1, 0, 0, 0, 0, 0, 0, 0, 3, 0, 0, 0, 0, 0, 0, 0]⟩] [0, 0, 0] :=
    ⟨by decide, by decide, by decide, by decide, by decide,
      fun c hc => by
        rw [List.mem_singleton.mp hc]
        exact ⟨by decide, by decide, by decide, by decide, by decide⟩,
      by decide⟩
  let ⟨tb, col, h1, _, h3, _, _, _, _, _, _, _, h11⟩ :=
    C24_fixed_column 3 [⟨[120], 2, [5, 0, 0, 0, 0, 0, 0, 0], [],
      [1, 0, 0, 0, 0, 0, 0, 0, 3, 0, 0, 0, 0, 0, 0, 0]⟩] [0, 0, 0] []
      hwf 0 _ rfl 4 rfl
  ⟨tb, col, h1, h3, (h11 0 (by decide)).1, (h11 1 (by decide)).1, (h11 2 (by decide)).1,
    (h11 0 (by decide)).2 rfl, (h11 2 (by decide)).2 rfl⟩

end Columnar
namespace Structure
open Protocol

/-- `Decode` of the encoding of a string-id vertex whose property count does not
fit 15 bits but wraps to a negative `int16`. -/
theorem decode_svertex_wrapped (ps : List Property) (hneg : int16 (ps.length : Int) < 0)
    (hne : ps.length ≠ 0) (nocopy : Bool) :
    (Decode (baseReader.Reset { p := 0, b := [], nocopy := false }
      (encVertex ⟨0, 0, IdTypeStringString, [], [], ps⟩) nocopy)).1
      = .panic .makesliceOutOfRange := by
  have hsplit : encVertex ⟨0, 0, IdTypeStringString, [], [], ps⟩
      = (byte 25 :: ((beStr [] ++ beStr []) ++ be16 (int16 ps.length))) ++ encProperties ps := by
    have h0 : ¬ (IdTypeStringString = IdTypeInt64Int32) := by decide
    simp [encVertex, h0, hne]
  rw [hsplit]
  refine Decode_of_ends nocopy (fun self => ?_)
  exact ends_SVertex_negative self false hneg (by unfold int16; omega) (by decide) (by decide)

/-- C37: `EncodeTo` writes the property count of a string-id Vertex (tag 25) and
of a string-id Edge (tag 29) as `int16(n)` in two bytes and the count of the
int64-id forms (tags 16, 17) as `int32(n)` in four bytes.  For every string-id
vertex that fits the format with `1 <= n <= 32767` properties the two bytes
written are read back by `ReadInt16` as `n`, and decoding the encoding returns
the vertex; for the string-id vertex with 32768 properties the count written
is `-32768`, not `n`, and decoding its encoding panics in `make` instead of
returning the vertex. -/
theorem C37_property_count (v : Vertex) (hv : v.wire) (hs : v.VType = IdTypeStringString)
    (h1 : 1 ≤ v.Properties.length) (nocopy : Bool) :
    (∀ w : BigEndianWriter, EncodeTo (.Vertex v) w
        = .ok (w ++ byte 25 :: (beStr v.SId ++ (beStr v.SType
            ++ (be16 (int16 v.Properties.length) ++ encProperties v.Properties)))))
    ∧ v.Properties.length ≤ 32767
    ∧ int16 (v.Properties.length : Int) = v.Properties.length
    ∧ Reads BigEndianReader.ReadInt16 (be16 (int16 v.Properties.length)) v.Properties.length
    ∧ (∀ bytes, EncodeTo (.Vertex v) [] = .ok bytes →
        (Decode (baseReader.Reset { p := 0, b := [], nocopy := false } bytes nocopy)).1
          = .ok (.Vertex v))
    ∧ (∀ (u : Vertex) (w : BigEndianWriter), u.VType = IdTypeInt64Int32 →
        1 ≤ u.Properties.length →
        EncodeTo (.Vertex u) w = .ok (w ++ byte 16 :: (be64 u.Id ++ (be32 u.Type_
          ++ (be32 (int32 u.Properties.length) ++ encProperties u.Properties)))))
    ∧ (∀ (e : Edge) (w : BigEndianWriter), e.OutV.VType = IdTypeStringString →
        e.InV.VType = IdTypeStringString → 1 ≤ e.Properties.length →
        EncodeTo (.Edge e) w = .ok (w ++ byte 29 :: (beStr e.Type_ ++ (beStr e.OutV.SId
          ++ (beStr e.OutV.SType ++ (beStr e.InV.SId ++ (beStr e.InV.SType
          ++ (be16 (int16 e.Properties.length) ++ encProperties e.Properties))))))))
    ∧ ∃ u : Vertex, u.VType = IdTypeStringString ∧ u.Properties.length = 32768
        ∧ int16 (u.Properties.length : Int) = -32768
        ∧ ∃ bytes, EncodeTo (.Vertex u) [] = .ok bytes
          ∧ (Decode (baseReader.Reset { p := 0, b := [], nocopy := false } bytes nocopy)).1
            = .panic .makesliceOutOfRange := by
  have hlen : v.Properties.length < 2 ^ 15 := by
    rcases hv.1 with h | h
    · rw [hs] at h; exact absurd h.1 (by decide)
    · exact h.2.2.2.2.2
  have h0 : ¬ (IdTypeStringString = IdTypeInt64Int32) := by decide
  have h16 : int16 (v.Properties.length : Int) = v.Properties.length := int16_of_lt _ hlen
  refine ⟨fun w => ?_, by omega, h16, ?_, (Decode_of_roundTrips
    (roundTrips_of_baseWire (.Vertex v) hv) nocopy).2, fun u w hu hu1 => ?_,
    fun e w ho hi he1 => ?_, ?_⟩
  · rw [EncodeTo_Vertex v w (Or.inr hs)]
    simp [encVertex, hs, h0, Nat.ne_of_gt h1]
  · rw [h16]
    exact reads_ReadInt16 (by omega) (by omega)
  · rw [EncodeTo_Vertex u w (Or.inl hu)]
    simp [encVertex, hu, Nat.ne_of_gt hu1]
  · rw [EncodeTo_Edge e w (Or.inr ⟨ho, hi⟩)]
    simp [encEdge, ho, h0, Nat.ne_of_gt he1]
  · refine ⟨⟨0, 0, IdTypeStringString, [], [], List.replicate 32768 ⟨[], .bool true⟩⟩, rfl,
      List.length_replicate _ _, ?_, _, EncodeTo_Vertex _ [] (Or.inr rfl), ?_⟩
    · rw [List.length_replicate]; rfl
    · rw [List.nil_append]
      exact decode_svertex_wrapped _ (by rw [List.length_replicate]; decide)
        (by rw [List.length_replicate]; decide) nocopy

/-- C37 at the string-id vertex `("a", "b")` with the one property `k: true`. -/
theorem C37_property_count_witness :
    EncodeTo (.Vertex ⟨0, 0, IdTypeStringString, [97], [98], [⟨[107], .bool true⟩]⟩) []
      = .ok [25, 0, 0, 0, 1, 97, 0, 0, 0, 1, 98, 0, 1, 15, 0, 0, 0, 1, 107, 1]
    ∧ Reads BigEndianReader.ReadInt16 [0, 1] 1 :=
  have h := C37_property_count ⟨0, 0, IdTypeStringString, [97], [98], [⟨[107], .bool true⟩]⟩
    ⟨Or.inr ⟨rfl, rfl, rfl, by decide, by decide, by decide⟩, fun p hp => by
      rw [List.mem_singleton.mp hp]
      exact ⟨by decide, trivial, trivial⟩⟩ rfl (by decide) false
  ⟨h.1 [], h.2.2.2.1⟩

end Structure
namespace Structure
open Protocol

theorem switch_String (self : Bool → Dec Element) (us : Bool) :
    DecodeExSwitch self us StringType = (do
      let s ← BigEndianReader.ReadString
      return .String s) := by
  unfold DecodeExSwitch
  simp only [TrueType, FalseType, Int32Type, Int64Type, FloatType, DoubleType, StringType]
  simp only [Nat.reduceEqDiff, if_false, if_true]

/-- `DecodeEx` on the tag of a `String` and a negative length: the error
`ErrNegativeInt`, with the cursor left behind the length. -/
theorem DecodeEx_string_negative (us : Bool) (w : baseReader) {v : Int} (hv : isInt32 v)
    (hn : v < 0) (rest : Bytes) (hat : w.At (byte 7 :: (be32 v ++ rest))) :
    DecodeEx us w = (.error .ErrNegativeInt, w.adv 5) := by
  obtain ⟨e1, a1⟩ := baseReader.ReadInt8_at hat
  obtain ⟨e2, a2⟩ := ReadInt32_at hv a1
  rw [baseReader.adv_adv] at e2 a2
  have e3 : BigEndianReader.ReadString (w.adv 1) = (.error .ErrNegativeInt, w.adv 5) := by
    unfold BigEndianReader.ReadString BigEndianReader.ReadBytes
    refine Dec.bind_error ?_
    rw [Dec.bind_ok e2]
    exact Dec.bind_error (Next_negative v hn _)
  rw [DecodeEx_eq]
  unfold DecodeExBody
  rw [Dec.bind_ok e1]
  show DecodeExSwitch _ us (CoreDataType.ofInt8 (int8 ((byte 7).toNat : Int))) _ = _
  rw [ofInt8_byte 7 (by decide), show (7 : CoreDataType) = StringType from rfl, switch_String]
  exact Dec.bind_error e3

end Structure
namespace Structure
open Protocol

/-- `DecodeEx` wherever the bytes of an element that round-trips stand. -/
theorem DecodeEx_of_roundTrips {e : Element} (h : RoundTrips e) (w : baseReader) (s : Bytes)
    (hat : w.At (encOf e ++ s)) :
    DecodeEx false w = (.ok e, w.adv (encOf e).length) ∧ (w.adv (encOf e).length).At s := by
  have hl := At_length hat
  rw [List.length_append] at hl
  exact h.2 (w.b.length - w.p + 1) (by omega) w s hat

/-- `EncodeTo` accepts a `String` of 2^31 bytes, and `DecodeEx` on the bytes
written returns `ErrNegativeInt` with the cursor at 5. -/
theorem decode_long_string (str : Bytes) (hs : str.length = 2147483648) (s : Bytes) :
    EncodeTo (.String str) [] = .ok (byte 7 :: beStr str)
    ∧ 5 < (byte 7 :: beStr str).length
    ∧ DecodeEx false { p := 0, b := byte 7 :: beStr str ++ s, nocopy := false }
        = (.error .ErrNegativeInt, { p := 5, b := byte 7 :: beStr str ++ s, nocopy := false }) := by
  refine ⟨?_, ?_, ?_⟩
  · simp only [EncodeTo, WriteInt8_eq _ StringType (by decide), WriteString_eq]
    simp [StringType]
  · rw [List.length_cons, beStr_length, hs]
    decide
  · have hat : baseReader.At { p := 0, b := byte 7 :: beStr str ++ s, nocopy := false }
        (byte 7 :: (be32 (int32 (str.length : Int)) ++ (str ++ s))) := by
      have := baseReader.at_start (byte 7 :: beStr str ++ s) false
      simpa [beStr, List.append_assoc] using this
    exact DecodeEx_string_negative false _ (isInt32_int32 _)
      (by rw [hs]; decide) _ hat

/-- C35, refuted as stated: `EncodeTo` accepts the `String` of 2^31 zero bytes and
writes the length `int32(2^31) = -2^31`; whatever bytes `s` follow, decoding
returns `ErrNegativeInt` and leaves the cursor at 5, not behind the bytes
written. -/
theorem C35_counterexample :
    ∃ bytes, EncodeTo (.String (List.replicate 2147483648 0)) [] = .ok bytes
      ∧ 5 < bytes.length
      ∧ ∀ s : Bytes, DecodeEx false { p := 0, b := bytes ++ s, nocopy := false }
          = (.error .ErrNegativeInt, { p := 5, b := bytes ++ s, nocopy := false }) :=
  ⟨_, (decode_long_string _ (List.length_replicate _ _) []).1,
    (decode_long_string _ (List.length_replicate _ _) []).2.1,
    fun s => (decode_long_string _ (List.length_replicate _ _) s).2.2⟩

/-- C35 (amended): for every element that round-trips on its own (the scalars,
Properties, Vertices and Edges whose strings and counts fit the length fields of
the format, and every `List` and `Path` of fewer than 2^31 such members, nested
to any depth) and every byte sequence `s`: wherever the bytes of the element
followed by `s` stand in a reader, `DecodeEx` returns the element, as it does on
the bytes of the element alone, and leaves the cursor right behind them, so
that exactly `s` remains unread. -/
theorem C35_exact_consumption (e : Element) (h : RoundTrips e) (w : baseReader) (s : Bytes)
    (hat : w.At (encOf e ++ s)) :
    EncodeTo e [] = .ok (encOf e)
    ∧ DecodeEx false w = (.ok e, w.adv (encOf e).length)
    ∧ (w.adv (encOf e).length).At s
    ∧ (DecodeEx false { p := 0, b := encOf e, nocopy := w.nocopy }).1 = .ok e
    ∧ (∀ m, baseWire m → RoundTrips m)
    ∧ ∀ ms : List Element, (∀ m ∈ ms, RoundTrips m) → ms.length < 2 ^ 31 →
        RoundTrips (.List ms) ∧ RoundTrips (.Path ms) := by
  obtain ⟨h1, h2⟩ := DecodeEx_of_roundTrips h w s hat
  refine ⟨by simpa using h.1 [], h1, h2, ?_, roundTrips_of_baseWire,
    fun ms hms hn => ⟨roundTrips_List ms hn hms, roundTrips_Path ms hn hms⟩⟩
  have hat0 : baseReader.At { p := 0, b := encOf e, nocopy := w.nocopy } (encOf e ++ []) := by
    simp [baseReader.At]
  rw [(DecodeEx_of_roundTrips h _ [] hat0).1]

/-- C35 at the list `[Int32(7), "a"]` followed by the bytes `[9, 9]`. -/
theorem C35_exact_consumption_witness :
    DecodeEx false ⟨0, [13, 0, 0, 0, 2, 3, 0, 0, 0, 7, 7, 0, 0, 0, 1, 97, 9, 9], false⟩
      = (.ok (.List [.Int32 7, .String [97]]),
          ⟨16, [13, 0, 0, 0, 2, 3, 0, 0, 0, 7, 7, 0, 0, 0, 1, 97, 9, 9], false⟩) :=
  (C35_exact_consumption (.List [.Int32 7, .String [97]])
    (roundTrips_List _ (by decide) (fun m hm => by
      simp only [List.mem_cons, List.mem_singleton, List.not_mem_nil, or_false] at hm
      rcases hm with rfl | rfl
      · exact roundTrips_of_baseWire _ (by simp [baseWire, isInt32])
      · exact roundTrips_of_baseWire _ (by simp [baseWire])))
    ⟨0, [13, 0, 0, 0, 2, 3, 0, 0, 0, 7, 7, 0, 0, 0, 1, 97, 9, 9], false⟩
    [9, 9] ⟨by decide, rfl⟩).2.1

end Structure
namespace Protocol

/-- A sequence of two calls that returns a value: the first call returned one,
and the second returned on it. -/
theorem Dec.bind_eq_ok {α β : Type} {x : Dec α} {f : α → Dec β} {r r1 : baseReader} {b : β}
    (h : (x >>= f) r = (.ok b, r1)) : ∃ a r0, x r = (.ok a, r0) ∧ f a r0 = (.ok b, r1) := by
  have h1 : Dec.bind x f r = (.ok b, r1) := h
  unfold Dec.bind at h1
  rcases hx : x r with ⟨o, r0⟩
  rw [hx] at h1
  cases o with
  | ok a => exact ⟨a, r0, rfl, h1⟩
  | error e => simp at h1
  | panic p => simp at h1
  | outOfFuel => simp at h1

theorem Dec.pure_eq_ok {α : Type} {a b : α} {r r1 : baseReader}
    (h : (Pure.pure a : Dec α) r = (.ok b, r1)) : a = b ∧ r = r1 := by
  have h1 : ((Outcome.ok a, r) : Outcome α × baseReader) = (.ok b, r1) := h
  simp only [Prod.mk.injEq, Outcome.ok.injEq] at h1
  exact h1

theorem Dec.fail_ne_ok {α : Type} {e : GoError} {b : α} {r r1 : baseReader}
    (h : (Dec.fail e : Dec α) r = (.ok b, r1)) : False := by
  have h1 : ((Outcome.error e, r) : Outcome α × baseReader) = (.ok b, r1) := h
  simp at h1

theorem Dec.abort_ne_ok {α : Type} {e : Panic} {b : α} {r r1 : baseReader}
    (h : (Dec.abort e : Dec α) r = (.ok b, r1)) : False := by
  have h1 : ((Outcome.panic e, r) : Outcome α × baseReader) = (.ok b, r1) := h
  simp at h1

end Protocol

namespace Structure
open Protocol

/-- What the `MapType` case returns with `useStruct` is a `MapStruct`. -/
theorem switch_Map_struct {self : Bool → Dec Element} {r r1 : baseReader} {e : Element}
    (h : DecodeExSwitch self true MapType r = (.ok e, r1)) : ∃ m, e = .MapStruct m := by
  rw [switch_Map] at h
  obtain ⟨_, _, _, h1⟩ := Dec.bind_eq_ok h
  obtain ⟨m, _, _, h2⟩ := Dec.bind_eq_ok h1
  rw [if_pos rfl] at h2
  exact ⟨m, (Dec.pure_eq_ok h2).1.symm⟩

/-- What the `PathType` case returns with `useStruct` is a `PathStruct`. -/
theorem switch_Path_struct {self : Bool → Dec Element} {r r1 : baseReader} {e : Element}
    (h : DecodeExSwitch self true PathType r = (.ok e, r1)) : ∃ p, e = .PathStruct p := by
  rw [switch_Path] at h
  obtain ⟨lt, _, _, h1⟩ := Dec.bind_eq_ok h
  by_cases c1 : CoreDataType.ofInt8 lt ≠ ListType
  · rw [if_pos c1] at h1
    exact (Dec.fail_ne_ok h1).elim
  rw [if_neg c1] at h1
  obtain ⟨_, _, _, h2⟩ := Dec.bind_eq_ok h1
  obtain ⟨_, _, _, h3⟩ := Dec.bind_eq_ok h2
  obtain ⟨ot, _, _, h4⟩ := Dec.bind_eq_ok h3
  by_cases c2 : CoreDataType.ofInt8 ot ≠ ListType
  · rw [if_pos c2] at h4
    exact (Dec.fail_ne_ok h4).elim
  rw [if_neg c2] at h4
  obtain ⟨n, _, _, h5⟩ := Dec.bind_eq_ok h4
  by_cases c3 : n < 0
  · rw [if_pos c3] at h5
    exact (Dec.abort_ne_ok h5).elim
  rw [if_neg c3] at h5
  obtain ⟨p, _, _, h6⟩ := Dec.bind_eq_ok h5
  rw [if_pos rfl] at h6
  exact ⟨p, (Dec.pure_eq_ok h6).1.symm⟩

/-- What the `ListType` case returns with `useStruct`, by the count and the
byte behind it. -/
theorem switch_List_struct {self : Bool → Dec Element} {r r1 : baseReader} {e : Element}
    {n : Int} (hn : isInt32 n) {rest : Bytes} (hat : r.At (be32 n ++ rest)) :
    (n = 0 → DecodeExSwitch self true ListType r = (.ok (.List []), r.adv 4))
    ∧ (DecodeExSwitch self true ListType r = (.ok e, r1) → n ≠ 0 →
        (∀ x xs, rest = x :: xs → x.toNat = ColumnarBinType → ∃ l, e = .List l)
        ∧ (∀ x xs, rest = x :: xs → x.toNat ≠ ColumnarBinType → ∃ l, e = .ListStruct l)) := by
  obtain ⟨e1, a1⟩ := ReadInt32_at hn hat
  rw [switch_List]
  constructor
  · intro h0
    rw [Dec.bind_ok e1, if_pos h0]
    rfl
  · intro h hne
    rw [Dec.bind_ok e1, if_neg hne] at h
    constructor
    · intro x xs hx hx40
      subst hx
      rw [Dec.bind_ok (baseReader.PeekInt8_at a1), ofInt8_toNat, if_pos hx40] at h
      obtain ⟨l, _, _, h2⟩ := Dec.bind_eq_ok h
      exact ⟨l, (Dec.pure_eq_ok h2).1.symm⟩
    · intro x xs hx hx40
      subst hx
      rw [Dec.bind_ok (baseReader.PeekInt8_at a1), ofInt8_toNat, if_neg hx40] at h
      by_cases c3 : n < 0
      · rw [if_pos c3] at h
        exact (Dec.abort_ne_ok h).elim
      rw [if_neg c3] at h
      obtain ⟨l, _, _, h2⟩ := Dec.bind_eq_ok h
      rw [if_pos rfl] at h2
      exact ⟨l, (Dec.pure_eq_ok h2).1.symm⟩

end Structure
namespace Structure
open Protocol

/-- C38: with `useStruct = true`, whenever `DecodeEx` returns an element from a
payload that starts with the `Map` tag 14 the element is a `MapStruct`, and from
a payload that starts with the `Path` tag 9 it is a `PathStruct`.  On a `List`
payload (tag 13 and a count): the count 0 gives the plain empty `List`, with the
cursor behind the count; a count other than 0 followed by the columnar tag 40
gives, whenever an element is returned, a plain `List`; and a count other than 0
followed by any other byte gives, whenever an element is returned, a
`ListStruct`.  The payloads of the map `1: true`, of the path `[false]` and of
the list `[true]` are decoded to a `MapStruct`, a `PathStruct` and a
`ListStruct`. -/
theorem C38_use_struct (w : baseReader) (rest : Bytes) (e : Element) (r1 : baseReader) :
    (w.At (byte 14 :: rest) → DecodeEx true w = (.ok e, r1) → ∃ m, e = .MapStruct m)
    ∧ (w.At (byte 9 :: rest) → DecodeEx true w = (.ok e, r1) → ∃ p, e = .PathStruct p)
    ∧ (∀ n : Int, isInt32 n → ∀ tail : Bytes, rest = be32 n ++ tail → w.At (byte 13 :: rest) →
        (n = 0 → DecodeEx true w = (.ok (.List []), w.adv 5))
        ∧ (DecodeEx true w = (.ok e, r1) → n ≠ 0 →
            (∀ x xs, tail = x :: xs → x.toNat = 40 → ∃ l, e = .List l)
            ∧ (∀ x xs, tail = x :: xs → x.toNat ≠ 40 → ∃ l, e = .ListStruct l)))
    ∧ (DecodeEx true ⟨0, [14, 0, 0, 0, 1, 3, 0, 0, 0, 1, 1], false⟩).1
        = .ok (.MapStruct [(.Int32 1, .Bool true)])
    ∧ (DecodeEx true ⟨0, [9, 13, 0, 0, 0, 0, 13, 0, 0, 0, 1, 2], false⟩).1
        = .ok (.PathStruct [.Bool false])
    ∧ (DecodeEx true ⟨0, [13, 0, 0, 0, 1, 1], false⟩).1 = .ok (.ListStruct [.Bool true]) := by
  refine ⟨fun hat h => ?_, fun hat h => ?_, fun n hn tail ht hat => ?_, rfl, rfl, rfl⟩
  · rw [DecodeEx_cons true w _ rest hat, byte_toNat] at h
    exact switch_Map_struct h
  · rw [DecodeEx_cons true w _ rest hat, byte_toNat] at h
    exact switch_Path_struct h
  · subst ht
    have a1 : (w.adv 1).At (be32 n ++ tail) := (baseReader.ReadInt8_at hat).2
    have key := @switch_List_struct (DecodeExFuel (w.b.length - w.p)) (w.adv 1) r1 e n hn tail a1
    rw [DecodeEx_cons true w _ _ hat, byte_toNat]
    refine ⟨fun h0 => ?_, fun h hne => key.2 h hne⟩
    have := key.1 h0
    rw [baseReader.adv_adv] at this
    exact this

/-- C38 at the `List` payload with the count 0, `13, 0, 0, 0, 0`: the plain
empty `List`. -/
theorem C38_use_struct_witness :
    DecodeEx true ⟨0, [13, 0, 0, 0, 0], false⟩ = (.ok (.List []), ⟨5, [13, 0, 0, 0, 0], false⟩) :=
  ((C38_use_struct ⟨0, [13, 0, 0, 0, 0], false⟩ [0, 0, 0, 0] (.List [])
    ⟨5, [13, 0, 0, 0, 0], false⟩).2.2.1 0 (by decide) [] rfl ⟨by decide, rfl⟩).1 rfl

end Structure
namespace Columnar
open Protocol Structure

/-- The store after `Append` of the fields of a list. -/
theorem foldl_Append (fs : List Field) :
    ∀ mf : InlinableFields, FieldsWF mf →
      FieldsWF (fs.foldl InlinableFields.Append mf)
      ∧ fieldsOf (fs.foldl InlinableFields.Append mf) = fieldsOf mf ++ fs
      ∧ (fs.foldl InlinableFields.Append mf).len = mf.len + fs.length := by
  induction fs with
  | nil => intro mf h; exact ⟨h, by simp, rfl⟩
  | cons f rest ih =>
    intro mf h
    obtain ⟨w1, w2, w3⟩ := Append_spec h f
    obtain ⟨i1, i2, i3⟩ := ih (mf.Append f) w1
    refine ⟨i1, ?_, ?_⟩
    · rw [List.foldl_cons, i2, w2]; simp
    · rw [List.foldl_cons, i3, w3, List.length_cons]; omega

/-- The iterator at position `i` of a store: `HasNext`, `Cursor` and `Next`. -/
theorem FieldIter_at {mf : InlinableFields} (h : FieldsWF mf) {i : Nat} {f : Field}
    (hf : (fieldsOf mf)[i]? = some f) :
    FieldIter.HasNext ⟨mf, i⟩ = true ∧ FieldIter.Cursor ⟨mf, i⟩ = i
    ∧ FieldIter.Next ⟨mf, i⟩ = (.ok f, ⟨mf, i + 1⟩) := by
  have hi : i < mf.len := by
    have := (List.getElem?_eq_some_iff.mp hf).1
    rwa [fieldsOf_length h] at this
  have hg := fieldsOf_get h hi
  rw [hf] at hg
  have hg := Option.some.inj hg
  obtain ⟨h1, h2⟩ := h
  refine ⟨by simp [FieldIter.HasNext, hi], rfl, ?_⟩
  unfold FieldIter.Next InlinableFieldsArrayLen
  simp only []
  rw [if_neg (by omega)]
  by_cases h12 : i < 12
  · rw [if_pos h12] at hg ⊢
    rw [List.get?_eq_getElem?, List.getElem?_eq_getElem (by omega)]
    simp only []
    rw [hg, List.getD_eq_getElem?_getD, List.getElem?_eq_getElem (by omega)]
    rfl
  · rw [if_neg h12] at hg ⊢
    rw [List.get?_eq_getElem?, List.getElem?_eq_getElem (by omega)]
    simp only []
    rw [hg, List.getD_eq_getElem?_getD, List.getElem?_eq_getElem (by omega)]
    rfl

/-- C34: the store made by `Append` of the fields `f_0 .. f_{k-1}` to the empty
`InlinableFields` (any `k`: below, at or above the inline capacity 12) behaves
as the list of these fields: `len` is `k`; `Field(i)` is `f_i` for `i < k`;
`FieldIdx(name)` is `(i, true)` for the least `i` with `f_i.Name = name` and
`(0, false)` when no field has that name; and the iterator, which starts at 0,
has at every position `i < k` a next field, `Cursor() = i`, and `Next()` returns
`f_i` and moves to `i + 1`, while at position `k` it has no next field and
`Next()` returns the zero field. -/
theorem C34_fields_as_list (fs : List Field) :
    (fs.foldl InlinableFields.Append InlinableFields.zero).len = fs.length
    ∧ (∀ (i : Nat) (f : Field), fs[i]? = some f →
        (fs.foldl InlinableFields.Append InlinableFields.zero).Field i = .ok f)
    ∧ (∀ (i : Nat) (f : Field), fs[i]? = some f →
        (∀ j < i, ∀ g, fs[j]? = some g → g.Name ≠ f.Name) →
        (fs.foldl InlinableFields.Append InlinableFields.zero).FieldIdx f.Name = (i, true))
    ∧ (∀ name : Bytes, (∀ f ∈ fs, f.Name ≠ name) →
        (fs.foldl InlinableFields.Append InlinableFields.zero).FieldIdx name = (0, false))
    ∧ (fs.foldl InlinableFields.Append InlinableFields.zero).FieldIter
        = ⟨fs.foldl InlinableFields.Append InlinableFields.zero, 0⟩
    ∧ (∀ (i : Nat) (f : Field), fs[i]? = some f →
        FieldIter.HasNext ⟨fs.foldl InlinableFields.Append InlinableFields.zero, i⟩ = true
        ∧ FieldIter.Cursor ⟨fs.foldl InlinableFields.Append InlinableFields.zero, i⟩ = i
        ∧ FieldIter.Next ⟨fs.foldl InlinableFields.Append InlinableFields.zero, i⟩
            = (.ok f, ⟨fs.foldl InlinableFields.Append InlinableFields.zero, i + 1⟩))
    ∧ FieldIter.HasNext ⟨fs.foldl InlinableFields.Append InlinableFields.zero, fs.length⟩
        = false
    ∧ FieldIter.Next ⟨fs.foldl InlinableFields.Append InlinableFields.zero, fs.length⟩
        = (.ok Field.zero, ⟨fs.foldl InlinableFields.Append InlinableFields.zero, fs.length⟩) := by
  obtain ⟨w1, w2, w3⟩ := foldl_Append fs InlinableFields.zero fieldsWF_zero
  rw [fieldsOf_zero, List.nil_append] at w2
  have hlen : (fs.foldl InlinableFields.Append InlinableFields.zero).len = fs.length := by
    rw [w3]; show 0 + fs.length = fs.length; omega
  refine ⟨hlen, fun i f hf => Field_of_get w1 (by rw [w2]; exact hf), fun i f hf hmin => ?_,
    fun name hn => FieldIdx_absent w1 (by rw [w2]; exact hn), rfl,
    fun i f hf => FieldIter_at w1 (by rw [w2]; exact hf), ?_, ?_⟩
  · exact FieldIdx_present w1 (by rw [w2]; exact hf) (by rw [w2]; exact hmin)
  · simp [FieldIter.HasNext, hlen]
  · unfold FieldIter.Next
    simp only []
    rw [if_pos (by rw [hlen])]

end Columnar
namespace Structure
open Protocol Columnar

theorem fieldLoop_eq {α : Type} (body : Nat → Field → α → Outcome α) {mf : InlinableFields}
    (h : FieldsWF mf) :
    ∀ (todo : List Field) (k fuel : Nat) (acc : α), (fieldsOf mf).drop k = todo →
      todo.length ≤ fuel → fieldLoop body fuel ⟨mf, k⟩ acc = fieldsFold body k todo acc := by
  intro todo
  induction todo with
  | nil =>
    intro k fuel acc hd _
    have hk : mf.len ≤ k := by
      have := List.drop_eq_nil_iff.mp hd
      rwa [fieldsOf_length h] at this
    have hn : FieldIter.HasNext ⟨mf, k⟩ = false := by
      unfold FieldIter.HasNext
      simp only [decide_eq_false_iff_not]
      omega
    cases fuel <;> simp [fieldLoop, hn, fieldsFold]
  | cons f rest ih =>
    intro k fuel acc hd hfuel
    have hf : (fieldsOf mf)[k]? = some f := by
      have := congrArg (fun l => l[0]?) hd
      simpa [List.getElem?_drop] using this
    have hrest : (fieldsOf mf).drop (k + 1) = rest := by
      have := congrArg List.tail hd
      simpa [List.tail_drop] using this
    obtain ⟨a1, a2, a3⟩ := FieldIter_at h hf
    cases fuel with
    | zero => simp at hfuel
    | succ m =>
      unfold fieldLoop
      rw [if_pos a1, a3, a2]
      simp only [fieldsFold]
      cases hb : body k f acc with
      | ok acc1 =>
        show fieldLoop body m ⟨mf, k + 1⟩ acc1 = fieldsFold body (k + 1) rest acc1
        exact ih (k + 1) m acc1 hrest (by simpa using hfuel)
      | error e => rfl
      | panic p => rfl
      | outOfFuel => rfl

theorem cellLoop_eq {α β : Type} (pCol : Column) (get : Column → Nat → Outcome β)
    (add : α → Nat → β → α) :
    ∀ (n i0 : Nat) (acc : α),
      (∀ i, i0 ≤ i → i < i0 + n → ∃ b, pCol.IsNull i = .ok b
        ∧ (b = false → ∃ x, get pCol i = .ok x)) →
      cellLoop pCol get add n i0 acc
        = .ok ((List.range' i0 n).foldl (cellStep pCol get add) acc) := by
  intro n
  induction n with
  | zero => intro i0 acc _; rfl
  | succ m ih =>
    intro i0 acc h
    obtain ⟨b, hb, hx⟩ := h i0 (Nat.le_refl _) (by omega)
    have hrest : ∀ i, i0 + 1 ≤ i → i < i0 + 1 + m → ∃ b, pCol.IsNull i = .ok b
        ∧ (b = false → ∃ x, get pCol i = .ok x) := fun i h1 h2 => h i (by omega) (by omega)
    unfold cellLoop
    rw [hb]
    cases b with
    | true =>
      show cellLoop pCol get add m (i0 + 1) acc = _
      rw [ih (i0 + 1) acc hrest, List.range'_succ, List.foldl_cons]
      simp only [cellStep, hb]
    | false =>
      obtain ⟨x, hx⟩ := hx rfl
      show (get pCol i0 >>= fun x => cellLoop pCol get add m (i0 + 1) (add acc i0 x)) = _
      rw [hx]
      show cellLoop pCol get add m (i0 + 1) (add acc i0 x) = _
      rw [ih (i0 + 1) _ hrest, List.range'_succ, List.foldl_cons]
      simp only [cellStep, hb, hx]

theorem foldl_cellStep_append {β : Type} (pCol : Column) (get : Column → Nat → Outcome β)
    (f : β → Element) (rows : List Nat) (acc : List Element) :
    rows.foldl (cellStep pCol get (fun (ret : List Element) _ x => ret ++ [f x])) acc
      = acc ++ (rows.filterMap (cellAt pCol get)).map f := by
  induction rows generalizing acc with
  | nil => simp
  | cons i rest ih =>
    rw [List.foldl_cons, ih, List.filterMap_cons]
    cases h1 : pCol.IsNull i with
    | ok b =>
      cases b with
      | false => cases h2 : get pCol i <;> simp [cellStep, cellAt, h1, h2]
      | true => simp [cellStep, cellAt, h1]
    | error e => simp [cellStep, cellAt, h1]
    | panic p => simp [cellStep, cellAt, h1]
    | outOfFuel => simp [cellStep, cellAt, h1]

theorem Reads_lift_eq {α : Type} {o : Outcome α} {a : α} (h : o = .ok a) :
    Reads (Dec.lift o) [] a := by
  subst h; exact Reads_lift a

theorem reads_NoCopyReadBytes (bs : Bytes) (h : bs.length < 2 ^ 31) :
    Reads BigEndianReader.NoCopyReadBytes (be32 bs.length ++ bs) bs := by
  have hv : isInt32 (bs.length : Int) := by unfold isInt32; omega
  unfold BigEndianReader.NoCopyReadBytes
  refine Reads_of_eq (Reads_bind (reads_ReadInt32 hv) (Reads_bind (Protocol.reads_Next bs)
    (Reads_pure _))) (by simp) rfl

end Structure
namespace Structure
open Protocol Columnar

theorem cellAt_isSome {β : Type} {n : Nat} {c : ColumnWire} (hn : n < 2 ^ 31) (hc : c.WF n)
    (get : Column → Nat → Outcome β)
    (hget : ∀ i < n, c.isSet i = true → ∃ x, get (c.column n) i = .ok x) {i : Nat} (hi : i < n) :
    (cellAt (c.column n) get i).isSome = c.isSet i := by
  unfold cellAt
  rw [column_IsNull hn hc hi]
  cases hs : c.isSet i with
  | true =>
    obtain ⟨x, hx⟩ := hget i hi hs
    have hs1 : (c.bitmap.getD (i / 8) 0).toNat.testBit (i % 8) = true := hs
    rw [hs1, hx]
    rfl
  | false =>
    have hs1 : (c.bitmap.getD (i / 8) 0).toNat.testBit (i % 8) = false := hs
    rw [hs1]
    rfl

theorem length_filterMap_eq {α β : Type} (f : α → Option β) (p : α → Bool) (xs : List α)
    (h : ∀ x ∈ xs, (f x).isSome = p x) : (xs.filterMap f).length = (xs.filter p).length := by
  induction xs with
  | nil => rfl
  | cons x rest ih =>
    have hx := h x (List.mem_cons_self _ _)
    have ih1 := ih (fun y hy => h y (List.mem_cons_of_mem _ hy))
    rw [List.filterMap_cons, List.filter_cons]
    cases hf : f x with
    | none =>
      rw [hf] at hx
      have : p x = false := by simpa using hx.symm
      simp [this, ih1]
    | some b =>
      rw [hf] at hx
      have : p x = true := by simpa using hx.symm
      simp [this, ih1]

/-- The rows of a decoded column are read without failure when the getter
returns on the rows that hold a value. -/
theorem cellLoop_column {α β : Type} {n : Nat} {c : ColumnWire} (hn : n < 2 ^ 31) (hc : c.WF n)
    (get : Column → Nat → Outcome β)
    (hget : ∀ i < n, c.isSet i = true → ∃ x, get (c.column n) i = .ok x)
    (add : α → Nat → β → α) (acc : α) :
    cellLoop (c.column n) get add n 0 acc
      = .ok ((List.range n).foldl (cellStep (c.column n) get add) acc) := by
  rw [List.range_eq_range']
  refine cellLoop_eq _ _ _ n 0 acc (fun i _ hi => ?_)
  have hi : i < n := by omega
  refine ⟨_, column_IsNull hn hc hi, fun hb => hget i hi ?_⟩
  unfold ColumnWire.isSet
  simpa using hb

theorem values_fold {n m : Nat} {cs : List ColumnWire} {tb : Table} (ht : IsTableOf n cs tb)
    (hm : m = n) (hn : n < 2 ^ 31) (hwf : ∀ c ∈ cs, c.WF n)
    (hcols : ∀ c ∈ cs, c.name ≠ VtxIdKey → c.name ≠ VtxTypeKey →
      ∃ get, scalarGetter c.type = some get
        ∧ ∀ i < n, c.isSet i = true → ∃ x, get (c.column n) i = .ok x) :
    ∀ (suf pre : List ColumnWire) (acc : List Element), cs = pre ++ suf →
      fieldsFold (fun fieldIdx field (acc : List Element) =>
        if field.Name = VtxIdKey ∨ field.Name = VtxTypeKey then .ok acc
        else do
          let pCol ← tb.GetColumnByIdx fieldIdx
          match scalarGetter field.Type_ with
          | some get => cellLoop pCol get (fun (ret : List Element) _ x => ret ++ [x]) m 0 acc
          | none => .panic (.explicit "unsupport type")) pre.length
        (suf.map ColumnWire.field) acc = .ok (acc ++ (suf.map (valuesOf n)).flatten) := by
  rw [hm]
  intro suf
  induction suf with
  | nil => intro pre acc _; simp [fieldsFold]
  | cons c rest ih =>
    intro pre acc hcs
    have hmem : c ∈ cs := by rw [hcs]; simp
    have hget : cs[pre.length]? = some c := by
      rw [hcs, List.getElem?_append_right (Nat.le_refl _)]; simp
    have hnext := fun acc => ih (pre ++ [c]) acc (by rw [hcs]; simp)
    rw [List.length_append, List.length_singleton] at hnext
    rw [List.map_cons, fieldsFold]
    show ((if c.name = VtxIdKey ∨ c.name = VtxTypeKey then Outcome.ok acc else _) >>= _) = _
    by_cases hskip : c.name = VtxIdKey ∨ c.name = VtxTypeKey
    · rw [if_pos hskip]
      show fieldsFold _ (pre.length + 1) _ acc = _
      rw [hnext acc, List.map_cons, List.flatten_cons]
      simp [valuesOf, hskip]
    · rw [if_neg hskip]
      obtain ⟨get, hg, hok⟩ := hcols c hmem (fun h => hskip (Or.inl h)) (fun h => hskip (Or.inr h))
      have hg1 : scalarGetter c.field.Type_ = some get := hg
      rw [(table_access ht hget).2.2.1]
      show ((match scalarGetter c.field.Type_ with
        | some get => cellLoop (c.column n) get (fun (ret : List Element) _ x => ret ++ [x]) n 0 acc
        | none => Outcome.panic (.explicit "unsupport type")) >>= _) = _
      rw [hg1]
      show (cellLoop (c.column n) get (fun (ret : List Element) _ x => ret ++ [x]) n 0 acc
        >>= _) = _
      rw [cellLoop_column hn (hwf c hmem) get hok]
      show fieldsFold _ (pre.length + 1) _ _ = _
      rw [hnext, List.map_cons, List.flatten_cons]
      have := foldl_cellStep_append (c.column n) get id (List.range n) acc
      simp only [id, List.map_id_fun, id_eq] at this
      rw [this]
      simp [valuesOf, hskip, hg, List.append_assoc]

theorem valuesOf_length {n : Nat} {c : ColumnWire} (hn : n < 2 ^ 31) (hc : c.WF n)
    (hcol : c.name ≠ VtxIdKey → c.name ≠ VtxTypeKey →
      ∃ get, scalarGetter c.type = some get
        ∧ ∀ i < n, c.isSet i = true → ∃ x, get (c.column n) i = .ok x) :
    (valuesOf n c).length = if c.name = VtxIdKey ∨ c.name = VtxTypeKey then 0
      else ((List.range n).filter c.isSet).length := by
  unfold valuesOf
  by_cases hskip : c.name = VtxIdKey ∨ c.name = VtxTypeKey
  · rw [if_pos hskip, if_pos hskip]; rfl
  · rw [if_neg hskip, if_neg hskip]
    obtain ⟨get, hg, hok⟩ := hcol (fun h => hskip (Or.inl h)) (fun h => hskip (Or.inr h))
    rw [hg]
    exact length_filterMap_eq _ _ _ (fun i hi => cellAt_isSome hn hc get hok (List.mem_range.mp hi))

end Structure
namespace Structure
open Protocol Columnar

/-- `decodeColumnarBinType` behind its two tag bytes: the first is dropped, the
second selects the reader. -/
theorem decodeColumnarBinType_at (x : UInt8) (t : Nat) (ht : t < 256) (xs : Bytes)
    (els : List Element)
    (h : Reads (if t = ForwardEdgeType ∨ t = DoubleEdgeType ∨ t = ForwardEdgeWithPropertiesType
          ∨ t = DoubleEdgeWithPropertiesType then
        readColumnarEdge .DirectionType_Forward
      else if t = ReverseEdgeType ∨ t = ReverseEdgeWithPropertiesType then
        readColumnarEdge .DirectionType_Reverse
      else if t = VertexType ∨ t = VertexWithPropertiesType then readColumnarVertex
      else if t = PropertyType then readProperties
      else if t = ValueType then readValues
      else Dec.abort (.explicit "[decodeColumnarBinType]: unknow type")) xs els) :
    Reads decodeColumnarBinType (x :: byte t :: xs) els := by
  unfold decodeColumnarBinType
  refine (Reads_bind (f := fun _ => _) (reads_ReadInt8 x) (Reads_bind (reads_ReadInt8 (byte t))
    (?_ : Reads _ xs els)) : Reads _ ([x] ++ ([byte t] ++ xs)) els)
  show Reads (if CoreDataType.ofInt8 (int8 ((byte t).toNat : Int)) = ForwardEdgeType ∨ _ then _
    else _) xs els
  rw [ofInt8_byte t ht]
  exact h

/-- `readValues` on a well-formed batch. -/
theorem reads_readValues (n : Nat) (cs : List ColumnWire) (pad : Bytes)
    (h : BatchWF n cs pad) (hlen : (batchBytes n cs pad).length < 2 ^ 31)
    (hcols : ∀ c ∈ cs, c.name ≠ VtxIdKey → c.name ≠ VtxTypeKey →
      ∃ get, scalarGetter c.type = some get
        ∧ ∀ i < n, c.isSet i = true → ∃ x, get (c.column n) i = .ok x) :
    Reads readValues (be32 (batchBytes n cs pad).length ++ batchBytes n cs pad)
      ((cs.map (valuesOf n)).flatten) := by
  obtain ⟨tb, hdec, ht⟩ := Decode_batch n cs pad [] h
  rw [List.append_nil] at hdec
  obtain ⟨hn0, hn, hf0, hf, hnd, hwf, hpad⟩ := h
  have hrow := table_RowCount ht hf0
  have hloop := values_fold ht hrow hn hwf hcols cs [] [] rfl
  rw [List.length_nil, List.nil_append, ← ht.2.2.1] at hloop
  rw [← fieldLoop_eq _ ht.1 _ 0 tb.FieldCount [] (List.drop_zero _)
    (by rw [ht.2.2.1, List.length_map]; exact Nat.le_of_eq ht.2.2.2.2.1.symm)] at hloop
  unfold readValues
  refine Reads_of_eq (Reads_bind (reads_NoCopyReadBytes _ hlen) (Reads_bind (Reads_lift_eq hdec)
    (Reads_bind (Reads_lift_eq hloop) (Reads_pure _)))) (by simp) rfl

theorem sum_valuesOf_length {n : Nat} (hn : n < 2 ^ 31) (cs : List ColumnWire)
    (hwf : ∀ c ∈ cs, c.WF n)
    (hcols : ∀ c ∈ cs, c.name ≠ VtxIdKey → c.name ≠ VtxTypeKey →
      ∃ get, scalarGetter c.type = some get
        ∧ ∀ i < n, c.isSet i = true → ∃ x, get (c.column n) i = .ok x) :
    ((cs.map (valuesOf n)).flatten).length
      = ((cs.filter (fun c => decide (¬ (c.name = VtxIdKey ∨ c.name = VtxTypeKey)))).map
          (fun c => ((List.range n).filter c.isSet).length)).sum := by
  induction cs with
  | nil => rfl
  | cons c rest ih =>
    have ih1 := ih (fun d hd => hwf d (List.mem_cons_of_mem _ hd))
      (fun d hd => hcols d (List.mem_cons_of_mem _ hd))
    have hc := valuesOf_length hn (hwf c (List.mem_cons_self _ _))
      (hcols c (List.mem_cons_self _ _))
    rw [List.map_cons, List.flatten_cons, List.length_append, ih1, hc, List.filter_cons]
    by_cases hskip : c.name = VtxIdKey ∨ c.name = VtxTypeKey
    · simp [hskip]
    · simp [hskip]

end Structure
namespace Structure
open Protocol Columnar

theorem decodeElements_length {dec : Dec Element} :
    ∀ (n : Nat) (acc : List Element) (r r1 : baseReader) (l : List Element),
      decodeElements dec n acc r = (.ok l, r1) → l.length = acc.length + n := by
  intro n
  induction n with
  | zero =>
    intro acc r r1 l h
    rw [← (Dec.pure_eq_ok h).1]; rfl
  | succ m ih =>
    intro acc r r1 l h
    unfold decodeElements at h
    obtain ⟨e, r0, _, h1⟩ := Dec.bind_eq_ok h
    have := ih _ _ _ _ h1
    rw [this, List.length_append, List.length_singleton]
    omega

theorem reads_decodeColumnarBatches (bs : List (Bytes × List Element))
    (h : ∀ b ∈ bs, Reads decodeColumnarBinType b.1 b.2) (acc : List Element) :
    Reads (decodeColumnarBatches bs.length acc) ((bs.map Prod.fst).flatten)
      (acc ++ (bs.map Prod.snd).flatten) := by
  induction bs generalizing acc with
  | nil => simpa [decodeColumnarBatches] using Reads_pure acc
  | cons b rest ih =>
    have h1 := h b (List.mem_cons_self _ _)
    have h2 := ih (fun c hc => h c (List.mem_cons_of_mem _ hc)) (acc ++ b.2)
    unfold decodeColumnarBatches
    exact Reads_of_eq (Reads_bind h1 h2) (by simp) (by simp [List.append_assoc])

/-- **C30** (`DecodeEx`, `ListType` case). The payload is the tag 13, a count
`k` with `1 ≤ k < 2^31`, and further bytes starting with the byte `x`.

* `x = 40`: whenever the bytes behind the count are `k` columnar batches, each
  read by `decodeColumnarBinType`, the result is the `List` of the elements of
  the batches concatenated in wire order; its length is the sum of the sizes of
  the batches (not `k`), and the cursor stops behind the last batch.
* `x ≠ 40`: every result is a list of exactly `k` elements (`ListStruct` with
  `useStruct`, else `List`); and when the bytes behind the count are the
  encodings of `k` elements that round-trip, `Decode` returns the `List` of
  these elements in order. -/
theorem C30_columnar_list (us : Bool) (k : Nat) (hk1 : 1 ≤ k) (hk : k < 2 ^ 31) (x : UInt8)
    (xs : Bytes) (w : baseReader) (hat : w.At (byte 13 :: (be32 k ++ x :: xs))) :
    (x.toNat = ColumnarBinType →
      ∀ (batches : List (Bytes × List Element)) (rest : Bytes), batches.length = k →
        (∀ b ∈ batches, Reads decodeColumnarBinType b.1 b.2) →
        x :: xs = (batches.map Prod.fst).flatten ++ rest →
        DecodeEx us w = (.ok (.List ((batches.map Prod.snd).flatten)),
            w.adv (5 + ((batches.map Prod.fst).flatten).length))
          ∧ ((batches.map Prod.snd).flatten).length = (batches.map (fun b => b.2.length)).sum)
    ∧ (x.toNat ≠ ColumnarBinType →
      (∀ e w1, DecodeEx us w = (.ok e, w1) →
        ∃ l : List Element, l.length = k ∧ e = if us then .ListStruct l else .List l)
      ∧ (∀ (ms : List Element) (rest : Bytes), ms.length = k → (∀ m ∈ ms, RoundTrips m) →
          x :: xs = encAll ms ++ rest → us = false →
          DecodeEx us w = (.ok (.List ms), w.adv (5 + (encAll ms).length)))) := by
  have hv : isInt32 (k : Int) := by unfold isInt32; omega
  obtain ⟨e0, a0⟩ := baseReader.ReadInt8_at hat
  obtain ⟨e1, a1⟩ := ReadInt32_at hv a0
  have hne : ¬ ((k : Nat) : Int) = 0 := by omega
  have hstart : DecodeEx us w = ((do
      let nextType ← baseReader.PeekInt8
      if CoreDataType.ofInt8 nextType = ColumnarBinType then do
        let r ← decodeColumnarBatches ((k : Int)).toNat []
        return Element.List r
      else do
      if (k : Int) < 0 then Dec.abort .makesliceOutOfRange else do
      let r ← decodeElements (DecodeExFuel (w.b.length - w.p) us) ((k : Int)).toNat []
      if us then return Element.ListStruct r
      else return Element.List r) : Dec Element) ((w.adv 1).adv 4) := by
    rw [DecodeEx_eq]
    unfold DecodeExBody
    rw [Dec.bind_ok e0]
    show DecodeExSwitch _ us (CoreDataType.ofInt8 (int8 ((byte 13).toNat : Int))) (w.adv 1) = _
    rw [ofInt8_byte 13 (by decide)]
    show DecodeExSwitch _ us ListType (w.adv 1) = _
    rw [switch_List, Dec.bind_ok e1, if_neg hne]
  rw [hstart, Dec.bind_ok (baseReader.PeekInt8_at a1), ofInt8_toNat, Int.toNat_ofNat]
  constructor
  · intro hx batches rest hlen hb hbytes
    rw [if_pos hx]
    rw [hbytes] at a1
    have hr := reads_decodeColumnarBatches batches hb []
    rw [hlen, List.nil_append] at hr
    obtain ⟨e2, _⟩ := hr _ rest a1
    rw [Dec.bind_ok e2]
    refine ⟨?_, ?_⟩
    · show (Outcome.ok _, _) = _
      rw [baseReader.adv_adv, baseReader.adv_adv,
        show 1 + (4 + ((batches.map Prod.fst).flatten).length)
          = 5 + ((batches.map Prod.fst).flatten).length by omega]
    · rw [List.length_flatten, List.map_map]
      rfl
  · intro hx
    rw [if_neg hx, if_neg (by omega)]
    constructor
    · intro e w1 h
      obtain ⟨l, r0, h1, h2⟩ := Dec.bind_eq_ok h
      have hl := decodeElements_length _ _ _ _ _ h1
      refine ⟨l, by simpa using hl, ?_⟩
      cases us with
      | true => exact (Dec.pure_eq_ok h2).1.symm
      | false => exact (Dec.pure_eq_ok h2).1.symm
    · intro ms rest hlen hms hbytes hus
      subst hus
      rw [hbytes] at a1
      have hlen1 := At_length hat
      rw [hbytes] at hlen1
      simp only [List.length_cons, List.length_append, be32_length] at hlen1
      have hr := reads_decodeElements ms (fun m hm => by
        have := encOf_length_le hm
        exact (hms m hm).2 (w.b.length - w.p) (by omega)) []
      rw [hlen, List.nil_append] at hr
      obtain ⟨e2, _⟩ := hr _ rest a1
      rw [Dec.bind_ok e2]
      show (Outcome.ok _, _) = _
      rw [baseReader.adv_adv, baseReader.adv_adv,
        show 1 + (4 + (encAll ms).length) = 5 + (encAll ms).length by omega]

end Structure
namespace Structure
open Protocol Columnar

/-- The batch of 3 rows with the `INT64` column `id` and the `INT32` column `x`
holding `[1, null, 3]`, read as a batch of values. -/
theorem reads_values_sample :
    Reads decodeColumnarBinType
      (40 :: byte 41 :: (be32 (batchBytes 3
        [⟨[105, 100], 3, [7, 0, 0, 0, 0, 0, 0, 0], [],
          [9, 0, 0, 0, 0, 0, 0, 0, 8, 0, 0, 0, 0, 0, 0, 0, 7, 0, 0, 0, 0, 0, 0, 0]⟩,
         ⟨[120], 2, [5, 0, 0, 0, 0, 0, 0, 0], [],
          [1, 0, 0, 0, 0, 0, 0, 0, 3, 0, 0, 0, 0, 0, 0, 0]⟩] [0, 0, 0, 0, 0]).length
        ++ batchBytes 3
        [⟨[105, 100], 3, [7, 0, 0, 0, 0, 0, 0, 0], [],
          [9, 0, 0, 0, 0, 0, 0, 0, 8, 0, 0, 0, 0, 0, 0, 0, 7, 0, 0, 0, 0, 0, 0, 0]⟩,
         ⟨[120], 2, [5, 0, 0, 0, 0, 0, 0, 0], [],
          [1, 0, 0, 0, 0, 0, 0, 0, 3, 0, 0, 0, 0, 0, 0, 0]⟩] [0, 0, 0, 0, 0]))
      [.Int32 1, .Int32 3] := by
  refine decodeColumnarBinType_at 40 41 (by decide) _ _ ?_
  simp only [ForwardEdgeType, DoubleEdgeType, ForwardEdgeWithPropertiesType,
    DoubleEdgeWithPropertiesType, ReverseEdgeType, ReverseEdgeWithPropertiesType, VertexType,
    VertexWithPropertiesType, PropertyType, ValueType]
  simp only [Nat.reduceEqDiff, or_self, if_false, if_true]
  refine reads_readValues 3 _ _
    ⟨by decide, by decide, by decide, by decide, by decide,
      fun c hc => by
        rcases List.mem_cons.mp hc with rfl | hc
        · exact ⟨by decide, by decide, by decide, by decide, by decide⟩
        · rw [List.mem_singleton.mp hc]
          exact ⟨by decide, by decide, by decide, by decide, by decide⟩,
      by decide⟩
    (by decide)
    (fun c hc h1 _ => by
      rcases List.mem_cons.mp hc with rfl | hc
      · exact absurd rfl h1
      · rw [List.mem_singleton.mp hc]
        refine ⟨_, rfl, fun i hi _ => ?_⟩
        interval_cases i
        · exact ⟨_, rfl⟩
        · exact ⟨_, rfl⟩
        · exact ⟨_, rfl⟩)

/-- C30 at the list payload with the count 1 whose one batch is a batch of
values with two cells that are not null: the list has two elements. -/
theorem C30_columnar_list_witness :
    (DecodeEx false ⟨0, byte 13 :: (be32 1 ++ 40 :: byte 41 :: (be32 (batchBytes 3
        [⟨[105, 100], 3, [7, 0, 0, 0, 0, 0, 0, 0], [],
          [9, 0, 0, 0, 0, 0, 0, 0, 8, 0, 0, 0, 0, 0, 0, 0, 7, 0, 0, 0, 0, 0, 0, 0]⟩,
         ⟨[120], 2, [5, 0, 0, 0, 0, 0, 0, 0], [],
          [1, 0, 0, 0, 0, 0, 0, 0, 3, 0, 0, 0, 0, 0, 0, 0]⟩] [0, 0, 0, 0, 0]).length
        ++ batchBytes 3
        [⟨[105, 100], 3, [7, 0, 0, 0, 0, 0, 0, 0], [],
          [9, 0, 0, 0, 0, 0, 0, 0, 8, 0, 0, 0, 0, 0, 0, 0, 7, 0, 0, 0, 0, 0, 0, 0]⟩,
         ⟨[120], 2, [5, 0, 0, 0, 0, 0, 0, 0], [],
          [1, 0, 0, 0, 0, 0, 0, 0, 3, 0, 0, 0, 0, 0, 0, 0]⟩] [0, 0, 0, 0, 0])), false⟩).1
      = .ok (.List [.Int32 1, .Int32 3]) :=
  congrArg Prod.fst
    ((C30_columnar_list false 1 (by decide) (by decide) 40
      (byte 41 :: (be32 (batchBytes 3
        [⟨[105, 100], 3, [7, 0, 0, 0, 0, 0, 0, 0], [],
          [9, 0, 0, 0, 0, 0, 0, 0, 8, 0, 0, 0, 0, 0, 0, 0, 7, 0, 0, 0, 0, 0, 0, 0]⟩,
         ⟨[120], 2, [5, 0, 0, 0, 0, 0, 0, 0], [],
          [1, 0, 0, 0, 0, 0, 0, 0, 3, 0, 0, 0, 0, 0, 0, 0]⟩] [0, 0, 0, 0, 0]).length
        ++ batchBytes 3
        [⟨[105, 100], 3, [7, 0, 0, 0, 0, 0, 0, 0], [],
          [9, 0, 0, 0, 0, 0, 0, 0, 8, 0, 0, 0, 0, 0, 0, 0, 7, 0, 0, 0, 0, 0, 0, 0]⟩,
         ⟨[120], 2, [5, 0, 0, 0, 0, 0, 0, 0], [],
          [1, 0, 0, 0, 0, 0, 0, 0, 3, 0, 0, 0, 0, 0, 0, 0]⟩] [0, 0, 0, 0, 0]))
      ⟨0, byte 13 :: (be32 1 ++ 40 :: byte 41 :: (be32 (batchBytes 3
        [⟨[105, 100], 3, [7, 0, 0, 0, 0, 0, 0, 0], [],
          [9, 0, 0, 0, 0, 0, 0, 0, 8, 0, 0, 0, 0, 0, 0, 0, 7, 0, 0, 0, 0, 0, 0, 0]⟩,
         ⟨[120], 2, [5, 0, 0, 0, 0, 0, 0, 0], [],
          [1, 0, 0, 0, 0, 0, 0, 0, 3, 0, 0, 0, 0, 0, 0, 0]⟩] [0, 0, 0, 0, 0]).length
        ++ batchBytes 3
        [⟨[105, 100], 3, [7, 0, 0, 0, 0, 0, 0, 0], [],
          [9, 0, 0, 0, 0, 0, 0, 0, 8, 0, 0, 0, 0, 0, 0, 0, 7, 0, 0, 0, 0, 0, 0, 0]⟩,
         ⟨[120], 2, [5, 0, 0, 0, 0, 0, 0, 0], [],
          [1, 0, 0, 0, 0, 0, 0, 0, 3, 0, 0, 0, 0, 0, 0, 0]⟩] [0, 0, 0, 0, 0])), false⟩
      ⟨by decide, rfl⟩).1 rfl
      [(40 :: byte 41 :: (be32 (batchBytes 3
        [⟨[105, 100], 3, [7, 0, 0, 0, 0, 0, 0, 0], [],
          [9, 0, 0, 0, 0, 0, 0, 0, 8, 0, 0, 0, 0, 0, 0, 0, 7, 0, 0, 0, 0, 0, 0, 0]⟩,
         ⟨[120], 2, [5, 0, 0, 0, 0, 0, 0, 0], [],
          [1, 0, 0, 0, 0, 0, 0, 0, 3, 0, 0, 0, 0, 0, 0, 0]⟩] [0, 0, 0, 0, 0]).length
        ++ batchBytes 3
        [⟨[105, 100], 3, [7, 0, 0, 0, 0, 0, 0, 0], [],
          [9, 0, 0, 0, 0, 0, 0, 0, 8, 0, 0, 0, 0, 0, 0, 0, 7, 0, 0, 0, 0, 0, 0, 0]⟩,
         ⟨[120], 2, [5, 0, 0, 0, 0, 0, 0, 0], [],
          [1, 0, 0, 0, 0, 0, 0, 0, 3, 0, 0, 0, 0, 0, 0, 0]⟩] [0, 0, 0, 0, 0]), [.Int32 1, .Int32 3])] [] rfl
      (fun b hb => by rw [List.mem_singleton.mp hb]; exact reads_values_sample)
      (by simp)).1

end Structure
namespace Structure
open Protocol Columnar

theorem cellStep_eq {α β : Type} (pCol : Column) (get : Column → Nat → Outcome β)
    (add : α → Nat → β → α) (acc : α) (i : Nat) :
    cellStep pCol get add acc i
      = match cellAt pCol get i with
        | some x => add acc i x
        | none => acc := by
  unfold cellStep cellAt
  cases pCol.IsNull i with
  | ok b =>
    cases b with
    | false => cases get pCol i <;> rfl
    | true => rfl
  | error e => rfl
  | panic p => rfl
  | outOfFuel => rfl

/-- The loop over the rows of `xs[i] = upd(xs[i], Property(name, value of row i))`. -/
theorem rows_fold {T : Type} (upd : T → Property → T) (name : Bytes)
    (addf : List T → Nat → PropertyValue → List T)
    (hadd : ∀ ws i x, addf ws i x = match ws.get? i with
      | some v => ws.set i (upd v { Key := name, Value := x })
      | none => ws)
    (col : Column) (get : Column → Nat → Outcome PropertyValue) (vs : List T) :
    ∀ m, ((List.range m).foldl (cellStep col get addf) vs).length = vs.length
      ∧ ∀ i, ((List.range m).foldl (cellStep col get addf) vs)[i]?
        = (vs[i]?).map (fun v => if i < m then
            (match cellAt col get i with
              | some x => upd v { Key := name, Value := x }
              | none => v) else v) := by
  intro m
  induction m with
  | zero =>
    refine ⟨rfl, fun i => ?_⟩
    simp
  | succ m ih =>
    obtain ⟨ih1, ih2⟩ := ih
    rw [List.range_succ, List.foldl_append, List.foldl_cons, List.foldl_nil, cellStep_eq]
    generalize (List.range m).foldl (cellStep col get addf) vs = ws at ih1 ih2 ⊢
    cases hc : cellAt col get m with
    | none =>
      refine ⟨ih1, fun i => ?_⟩
      rw [ih2 i]
      by_cases him : i < m
      · simp [him, show i < m + 1 by omega]
      · by_cases hie : i = m
        · subst hie; simp [hc]
        · simp [him, show ¬ i < m + 1 by omega]
    | some x =>
      show (addf ws m x).length = _ ∧ ∀ i, (addf ws m x)[i]? = _
      rw [hadd, List.get?_eq_getElem?, ih2 m]
      cases hv : vs[m]? with
      | none =>
        refine ⟨ih1, fun i => ?_⟩
        show ws[i]? = _
        rw [ih2 i]
        by_cases him : i < m
        · simp [him, show i < m + 1 by omega]
        · by_cases hie : i = m
          · subst hie; simp [hv]
          · simp [him, show ¬ i < m + 1 by omega]
      | some v =>
        simp only [Option.map_some', Nat.lt_irrefl, if_false]
        refine ⟨by rw [List.length_set, ih1], fun i => ?_⟩
        by_cases hie : i = m
        · subst hie
          have hlt : i < ws.length := by
            rw [ih1]; exact (List.getElem?_eq_some_iff.mp hv).1
          rw [List.getElem?_set_self hlt, hv]
          simp [hc]
        · rw [List.getElem?_set_ne (fun h => hie h.symm), ih2 i]
          by_cases him : i < m
          · simp [him, show i < m + 1 by omega]
          · simp [him, show ¬ i < m + 1 by omega]

/-- The loop over the rows on the list of one record per row. -/
theorem rows_fold_map {T : Type} (upd : T → Property → T) (name : Bytes)
    (addf : List T → Nat → PropertyValue → List T)
    (hadd : ∀ ws i x, addf ws i x = match ws.get? i with
      | some v => ws.set i (upd v { Key := name, Value := x })
      | none => ws)
    (col : Column) (get : Column → Nat → Outcome PropertyValue) (g : Nat → T) (n : Nat) :
    (List.range n).foldl (cellStep col get addf) ((List.range n).map g)
      = (List.range n).map (fun i => match cellAt col get i with
          | some x => upd (g i) { Key := name, Value := x }
          | none => g i) := by
  obtain ⟨h1, h2⟩ := rows_fold upd name addf hadd col get ((List.range n).map g) n
  apply List.ext_getElem?
  intro i
  rw [h2 i]
  by_cases hi : i < n
  · simp [List.getElem?_map, List.getElem?_range hi, hi]
  · simp [List.getElem?_map, List.getElem?_eq_none (show (List.range n).length ≤ i by simp; omega)]

end Structure
namespace Structure
open Protocol Columnar

/-- The getter of the property pass returns on every row of a decoded column
of a fixed-size type, and on the rows of a string column where `GetString`
returns. -/
theorem propertyGetter_returns {n : Nat} {c : ColumnWire} (hn : n < 2 ^ 31) (hc : c.WF n)
    (hty : 1 ≤ c.type ∧ c.type ≤ 6)
    (hstr : c.type = ValueType_STRING → ∀ i < n, c.isSet i = true →
      ∃ s, (c.column n).GetString i = .ok s) :
    ∃ get, propertyGetter c.type = some get
      ∧ ∀ i < n, c.isSet i = true → ∃ x, get (c.column n) i = .ok x := by
  have hcases : c.type = 1 ∨ c.type = 2 ∨ c.type = 3 ∨ c.type = 4 ∨ c.type = 5 ∨ c.type = 6 := by
    omega
  rcases hcases with h | h | h | h | h | h
  · refine ⟨_, by rw [h]; rfl, fun i hi _ => ?_⟩
    exact ⟨_, by rw [column_GetBool hn hc (by rw [h]; rfl) hi]; rfl⟩
  · refine ⟨_, by rw [h]; rfl, fun i hi _ => ?_⟩
    exact ⟨_, by rw [column_GetInt32 hn hc (by rw [h]; rfl) hi]; rfl⟩
  · refine ⟨_, by rw [h]; rfl, fun i hi _ => ?_⟩
    exact ⟨_, by rw [column_GetInt64 hn hc (by rw [h]; rfl) hi]; rfl⟩
  · refine ⟨_, by rw [h]; rfl, fun i hi _ => ?_⟩
    exact ⟨_, by rw [column_GetFloat32 hn hc (by rw [h]; rfl) hi]; rfl⟩
  · refine ⟨_, by rw [h]; rfl, fun i hi _ => ?_⟩
    exact ⟨_, by rw [column_GetFloat64 hn hc (by rw [h]; rfl) hi]; rfl⟩
  · refine ⟨_, by rw [h]; rfl, fun i hi hs => ?_⟩
    obtain ⟨s, hs⟩ := hstr h i hi hs
    exact ⟨_, by rw [hs]; rfl⟩

theorem propertiesAt_append (skip : Bytes → Bool) (n : Nat) (pre : List ColumnWire)
    (c : ColumnWire) (i : Nat) :
    propertiesAt skip n (pre ++ [c]) i
      = propertiesAt skip n pre i ++ (if skip c.name then [] else (propertyAt n c i).toList) := by
  unfold propertiesAt
  rw [List.filter_append, List.filterMap_append]
  cases hs : skip c.name with
  | true => simp [List.filter_cons, hs]
  | false =>
    simp only [List.filter_cons, hs, Bool.not_false, if_true, List.filter_nil,
      List.filterMap_cons, List.filterMap_nil]
    cases propertyAt n c i <;> simp

/-- The property pass of `readColumnarVertex` and `readColumnarEdge`: every
record takes the properties of its row, in schema order. -/
theorem props_fold {T : Type} (upd : T → Property → T)
    (addf : Bytes → List T → Nat → PropertyValue → List T)
    (hadd : ∀ name ws i x, addf name ws i x = match ws.get? i with
      | some v => ws.set i (upd v { Key := name, Value := x })
      | none => ws)
    (p : Bytes → Prop) [DecidablePred p]
    {n m : Nat} {cs : List ColumnWire} {tb : Table} (ht : IsTableOf n cs tb)
    (hm : m = n) (hn : n < 2 ^ 31) (hwf : ∀ c ∈ cs, c.WF n)
    (hcols : ∀ c ∈ cs, ¬ p c.name → ∃ get, propertyGetter c.type = some get
        ∧ ∀ i < n, c.isSet i = true → ∃ x, get (c.column n) i = .ok x)
    (base : Nat → T) :
    ∀ (suf pre : List ColumnWire), cs = pre ++ suf →
      fieldsFold (fun fieldIdx field (acc : List T) =>
        if p field.Name then .ok acc
        else do
          let pCol ← tb.GetColumnByIdx fieldIdx
          match propertyGetter field.Type_ with
          | some get => cellLoop pCol get (addf field.Name) m 0 acc
          | none => .panic (.explicit "unsupport type")) pre.length
        (suf.map ColumnWire.field)
        ((List.range n).map (fun i =>
          (propertiesAt (fun nm => decide (p nm)) n pre i).foldl upd (base i)))
      = .ok ((List.range n).map (fun i =>
          (propertiesAt (fun nm => decide (p nm)) n cs i).foldl upd (base i))) := by
  rw [hm]
  intro suf
  induction suf with
  | nil =>
    intro pre hcs
    rw [List.append_nil] at hcs
    rw [hcs]
    rfl
  | cons c rest ih =>
    intro pre hcs
    have hmem : c ∈ cs := by rw [hcs]; simp
    have hget : cs[pre.length]? = some c := by
      rw [hcs, List.getElem?_append_right (Nat.le_refl _)]; simp
    have hnext := ih (pre ++ [c]) (by rw [hcs]; simp)
    rw [List.length_append, List.length_singleton] at hnext
    rw [List.map_cons, fieldsFold]
    show ((if p c.name then Outcome.ok _ else _) >>= _) = _
    by_cases hskip : p c.name
    · rw [if_pos hskip]
      show fieldsFold _ (pre.length + 1) _ _ = _
      rw [← hnext]
      congr 1
      apply List.map_congr_left
      intro i _
      rw [propertiesAt_append]
      simp [hskip]
    · rw [if_neg hskip]
      obtain ⟨get, hg, hok⟩ := hcols c hmem hskip
      have hg1 : propertyGetter c.field.Type_ = some get := hg
      rw [(table_access ht hget).2.2.1]
      show ((match propertyGetter c.field.Type_ with
        | some get => cellLoop (c.column n) get (addf c.field.Name) n 0 _
        | none => Outcome.panic (.explicit "unsupport type")) >>= _) = _
      rw [hg1]
      show (cellLoop (c.column n) get (addf c.name) n 0 _ >>= _) = _
      rw [cellLoop_column hn (hwf c hmem) get hok,
        rows_fold_map upd c.name (addf c.name) (hadd c.name)]
      show fieldsFold _ (pre.length + 1) _ _ = _
      rw [← hnext]
      congr 1
      apply List.map_congr_left
      intro i _
      rw [propertiesAt_append]
      simp only [hskip, decide_False, Bool.false_eq_true, if_false, List.foldl_append]
      unfold propertyAt
      rw [hg]
      dsimp only
      cases cellAt (c.column n) get i <;> rfl

end Structure
namespace Structure
open Protocol Columnar

theorem foldl_vertex_properties (ps : List Property) (v : Vertex) :
    ps.foldl (fun (v : Vertex) p => { v with Properties := v.Properties ++ [p] }) v
      = { v with Properties := v.Properties ++ ps } := by
  induction ps generalizing v with
  | nil => simp
  | cons p rest ih => rw [List.foldl_cons, ih]; simp

/-- The first loop of `readColumnarVertex` on decoded identity columns. -/
theorem vertexRows_eq {n : Nat} {idc tyc : ColumnWire} (hn : n < 2 ^ 31)
    (hidc : idc.WF n) (htyc : tyc.WF n)
    (hidt : idc.type = ValueType_INT64) (htyt : tyc.type = ValueType_INT32) :
    ∀ (m i0 : Nat) (acc : List Vertex), i0 + m ≤ n →
      vertexRows (some (idc.column n)) (some (tyc.column n)) m i0 acc
        = .ok (acc ++ (List.range' i0 m).map (fun i =>
            { Vertex.zero with Id := idc.int64At i, Type_ := tyc.int32At i })) := by
  intro m
  induction m with
  | zero => intro i0 acc _; simp [vertexRows]
  | succ m ih =>
    intro i0 acc hle
    have h1 := column_GetInt64 hn hidc (by rw [hidt]; rfl) (show i0 < n by omega)
    have h2 := column_GetInt32 hn htyc (by rw [htyt]; rfl) (show i0 < n by omega)
    unfold vertexRows viaPtr
    simp only [h1, h2]
    show vertexRows _ _ m (i0 + 1) _ = _
    rw [ih (i0 + 1) _ (by omega), List.range'_succ, List.map_cons, List.append_assoc]
    rfl

/-- What the property pass takes from a column that is not an identity column:
nothing on a null row, a property named after the column on any other row. -/
theorem propertyAt_spec {n : Nat} {c : ColumnWire} (hn : n < 2 ^ 31) (hc : c.WF n)
    (hcol : ∃ get, propertyGetter c.type = some get
      ∧ ∀ i < n, c.isSet i = true → ∃ x, get (c.column n) i = .ok x) {i : Nat} (hi : i < n) :
    (c.isSet i = false → propertyAt n c i = none)
    ∧ (c.isSet i = true → ∃ v, propertyAt n c i = some { Key := c.name, Value := v }) := by
  obtain ⟨get, hg, hok⟩ := hcol
  have hsome := cellAt_isSome hn hc get hok hi
  unfold propertyAt
  rw [hg]
  dsimp only
  constructor
  · intro hs
    rw [hs] at hsome
    cases hcell : cellAt (c.column n) get i with
    | none => rfl
    | some v => rw [hcell] at hsome; simp at hsome
  · intro hs
    rw [hs] at hsome
    cases hcell : cellAt (c.column n) get i with
    | none => rw [hcell] at hsome; simp at hsome
    | some v => exact ⟨v, rfl⟩

/-- `readColumnarVertex` on a well-formed batch with the two identity columns. -/
theorem reads_readColumnarVertex (n : Nat) (cs : List ColumnWire) (pad : Bytes)
    (h : BatchWF n cs pad) (hlen : (batchBytes n cs pad).length < 2 ^ 31)
    (idc tyc : ColumnWire) (hid : idc ∈ cs) (hty : tyc ∈ cs)
    (hidn : idc.name = ClientProtoVtxIdKey) (htyn : tyc.name = ClientProtoVtxTypeKey)
    (hidt : idc.type = ValueType_INT64) (htyt : tyc.type = ValueType_INT32)
    (hcols : ∀ c ∈ cs, ¬ (c.name = ClientProtoVtxIdKey ∨ c.name = ClientProtoVtxTypeKey) →
      ∃ get, propertyGetter c.type = some get
        ∧ ∀ i < n, c.isSet i = true → ∃ x, get (c.column n) i = .ok x) :
    Reads readColumnarVertex (be32 (batchBytes n cs pad).length ++ batchBytes n cs pad)
      ((List.range n).map (fun i => Element.Vertex
        { Vertex.zero with
          Id := idc.int64At i, Type_ := tyc.int32At i,
          Properties := propertiesAt (fun nm => decide (nm = ClientProtoVtxIdKey
            ∨ nm = ClientProtoVtxTypeKey)) n cs i })) := by
  obtain ⟨tb, hdec, ht⟩ := Decode_batch n cs pad [] h
  rw [List.append_nil] at hdec
  obtain ⟨hn0, hn, hf0, hf, hnd, hwf, hpad⟩ := h
  have hrow := table_RowCount ht hf0
  obtain ⟨j1, hj1⟩ := List.getElem?_of_mem hid
  obtain ⟨j2, hj2⟩ := List.getElem?_of_mem hty
  have hp1 := (table_GetColumnPtr ht hnd).1 j1 idc hj1
  have hp2 := (table_GetColumnPtr ht hnd).1 j2 tyc hj2
  rw [hidn] at hp1
  rw [htyn] at hp2
  have hrows := vertexRows_eq hn (hwf idc hid) (hwf tyc hty) hidt htyt n 0 [] (by omega)
  rw [List.nil_append, ← List.range_eq_range'] at hrows
  have hfold := props_fold (fun (v : Vertex) p => { v with Properties := v.Properties ++ [p] })
    addVertexProperty (fun name ws i x => by unfold addVertexProperty; cases ws.get? i <;> rfl)
    (fun nm => nm = ClientProtoVtxIdKey ∨ nm = ClientProtoVtxTypeKey) ht hrow hn hwf hcols
    (fun i => { Vertex.zero with Id := idc.int64At i, Type_ := tyc.int32At i }) cs [] rfl
  rw [List.length_nil, ← ht.2.2.1] at hfold
  rw [← fieldLoop_eq _ ht.1 _ 0 tb.FieldCount _ (List.drop_zero _)
    (by rw [ht.2.2.1, List.length_map]; exact Nat.le_of_eq ht.2.2.2.2.1.symm)] at hfold
  have hrows1 := (congrArg (fun k => vertexRows (some (idc.column n)) (some (tyc.column n))
    k 0 []) hrow).trans hrows
  unfold readColumnarVertex
  refine Reads_of_eq (Reads_bind (reads_NoCopyReadBytes _ hlen) (Reads_bind (Reads_lift_eq hdec)
    (Reads_bind (Reads_lift_eq hp1) (Reads_bind (Reads_lift_eq hp2)
    (Reads_bind (Reads_lift_eq hrows1) (Reads_bind (Reads_lift_eq hfold) (Reads_pure _)))))))
    (by simp) ?_
  rw [List.map_map]
  apply List.map_congr_left
  intro i _
  simp only [Function.comp, foldl_vertex_properties]
  rfl

end Structure
namespace Structure
open Protocol Columnar

theorem propertyAt_key {n : Nat} {c : ColumnWire} {i : Nat} {p : Property}
    (h : propertyAt n c i = some p) : p.Key = c.name := by
  unfold propertyAt at h
  cases hg : propertyGetter c.type with
  | none => rw [hg] at h; simp at h
  | some get =>
    rw [hg] at h
    dsimp only at h
    cases hcell : cellAt (c.column n) get i with
    | none => rw [hcell] at h; simp at h
    | some v =>
      rw [hcell] at h
      simp only [Option.map_some', Option.some.injEq] at h
      rw [← h]

theorem propertiesAt_key {skip : Bytes → Bool} {n : Nat} {cs : List ColumnWire} {i : Nat}
    {p : Property} (h : p ∈ propertiesAt skip n cs i) :
    ∃ c ∈ cs, skip c.name = false ∧ propertyAt n c i = some p ∧ p.Key = c.name := by
  unfold propertiesAt at h
  obtain ⟨c, hc, hp⟩ := List.mem_filterMap.mp h
  obtain ⟨hc1, hc2⟩ := List.mem_filter.mp hc
  exact ⟨c, hc1, by simpa using hc2, hp, propertyAt_key hp⟩

end Structure
namespace Structure
open Protocol Columnar

theorem foldl_edge_properties (ps : List Property) (e : Edge) :
    ps.foldl (fun (e : Edge) p => { e with Properties := e.Properties ++ [p] }) e
      = { e with Properties := e.Properties ++ ps } := by
  induction ps generalizing e with
  | nil => simp
  | cons p rest ih => rw [List.foldl_cons, ih]; simp

theorem schemaBytes_length (cs : List ColumnWire) :
    (schemaBytes cs).length = (cs.map (fun c => 12 + c.name.length)).sum := by
  induction cs with
  | nil => rfl
  | cons c rest ih =>
    rw [schemaBytes, List.length_append, ih, List.map_cons, List.sum_cons, fieldBytes,
      List.length_append, List.length_append, List.length_append, le32_length, le32_length,
      le32_length]
    omega

theorem dataBytes_length (cs : List ColumnWire) :
    (dataBytes cs).length
      = (cs.map (fun c => c.bitmap.length + c.offsets.length + c.cells.length)).sum := by
  induction cs with
  | nil => rfl
  | cons c rest ih =>
    rw [dataBytes, List.length_append, ih, List.map_cons, List.sum_cons, columnBytes,
      List.length_append, List.length_append]
    omega

/-- The first loop of `readColumnarEdge` on decoded identity columns. -/
theorem edgeRows_eq {n : Nat} {sid sty lab eid ety : ColumnWire} (hn : n < 2 ^ 31)
    (hsid : sid.WF n) (hsty : sty.WF n) (heid : eid.WF n) (hety : ety.WF n)
    (hsidt : sid.type = ValueType_INT64) (hstyt : sty.type = ValueType_INT32)
    (heidt : eid.type = ValueType_INT64) (hetyt : ety.type = ValueType_INT32)
    (label : Nat → Bytes) (hlab : ∀ i < n, (lab.column n).GetString i = .ok (label i))
    (dir : DirectionType) :
    ∀ (m i0 : Nat) (acc : List Edge), i0 + m ≤ n →
      edgeRows dir (some (sid.column n)) (some (sty.column n)) (some (lab.column n))
          (some (eid.column n)) (some (ety.column n)) m i0 acc
        = .ok (acc ++ (List.range' i0 m).map (fun i =>
            if dir = .DirectionType_Reverse then
              { OutV := { Vertex.zero with Id := eid.int64At i, Type_ := ety.int32At i },
                InV := { Vertex.zero with Id := sid.int64At i, Type_ := sty.int32At i },
                Type_ := label i, Properties := [] }
            else
              { OutV := { Vertex.zero with Id := sid.int64At i, Type_ := sty.int32At i },
                InV := { Vertex.zero with Id := eid.int64At i, Type_ := ety.int32At i },
                Type_ := label i, Properties := [] })) := by
  intro m
  induction m with
  | zero => intro i0 acc _; simp [edgeRows]
  | succ m ih =>
    intro i0 acc hle
    have h0 := hlab i0 (by omega)
    have h1 := column_GetInt64 hn hsid (by rw [hsidt]; rfl) (show i0 < n by omega)
    have h2 := column_GetInt32 hn hsty (by rw [hstyt]; rfl) (show i0 < n by omega)
    have h3 := column_GetInt64 hn heid (by rw [heidt]; rfl) (show i0 < n by omega)
    have h4 := column_GetInt32 hn hety (by rw [hetyt]; rfl) (show i0 < n by omega)
    unfold edgeRows viaPtr
    simp only [h0, h1, h2, h3, h4]
    show edgeRows _ _ _ _ _ _ m (i0 + 1) _ = _
    rw [ih (i0 + 1) _ (by omega), List.range'_succ, List.map_cons, List.append_assoc]
    rfl

/-- `readColumnarEdge` on a well-formed batch with the five identity columns. -/
theorem reads_readColumnarEdge (dir : DirectionType) (n : Nat) (cs : List ColumnWire)
    (pad : Bytes) (h : BatchWF n cs pad) (hlen : (batchBytes n cs pad).length < 2 ^ 31)
    (sid sty lab eid ety : ColumnWire)
    (hsid : sid ∈ cs) (hsty : sty ∈ cs) (hlabm : lab ∈ cs) (heid : eid ∈ cs) (hety : ety ∈ cs)
    (hsidn : sid.name = ClientProtoEdgeStartVIdKey)
    (hstyn : sty.name = ClientProtoEdgeStartVTypeKey)
    (hlabn : lab.name = ClientProtoEdgeTypeKey)
    (heidn : eid.name = ClientProtoVtxIdKey) (hetyn : ety.name = ClientProtoVtxTypeKey)
    (hsidt : sid.type = ValueType_INT64) (hstyt : sty.type = ValueType_INT32)
    (heidt : eid.type = ValueType_INT64) (hetyt : ety.type = ValueType_INT32)
    (label : Nat → Bytes) (hlab : ∀ i < n, (lab.column n).GetString i = .ok (label i))
    (hcols : ∀ c ∈ cs, ¬ (c.name = ClientProtoEdgeStartVTypeKey
        ∨ c.name = ClientProtoEdgeStartVIdKey ∨ c.name = ClientProtoVtxIdKey
        ∨ c.name = ClientProtoVtxTypeKey ∨ c.name = ClientProtoEdgeTypeKey) →
      ∃ get, propertyGetter c.type = some get
        ∧ ∀ i < n, c.isSet i = true → ∃ x, get (c.column n) i = .ok x) :
    Reads (readColumnarEdge dir) (be32 (batchBytes n cs pad).length ++ batchBytes n cs pad)
      ((List.range n).map (fun i => Element.Edge
        (if dir = .DirectionType_Reverse then
          { OutV := { Vertex.zero with Id := eid.int64At i, Type_ := ety.int32At i },
            InV := { Vertex.zero with Id := sid.int64At i, Type_ := sty.int32At i },
            Type_ := label i,
            Properties := propertiesAt (fun nm => decide (nm = ClientProtoEdgeStartVTypeKey
              ∨ nm = ClientProtoEdgeStartVIdKey ∨ nm = ClientProtoVtxIdKey
              ∨ nm = ClientProtoVtxTypeKey ∨ nm = ClientProtoEdgeTypeKey)) n cs i }
        else
          { OutV := { Vertex.zero with Id := sid.int64At i, Type_ := sty.int32At i },
            InV := { Vertex.zero with Id := eid.int64At i, Type_ := ety.int32At i },
            Type_ := label i,
            Properties := propertiesAt (fun nm => decide (nm = ClientProtoEdgeStartVTypeKey
              ∨ nm = ClientProtoEdgeStartVIdKey ∨ nm = ClientProtoVtxIdKey
              ∨ nm = ClientProtoVtxTypeKey ∨ nm = ClientProtoEdgeTypeKey)) n cs i }))) := by
  obtain ⟨tb, hdec, ht⟩ := Decode_batch n cs pad [] h
  rw [List.append_nil] at hdec
  obtain ⟨hn0, hn, hf0, hf, hnd, hwf, hpad⟩ := h
  have hrow := table_RowCount ht hf0
  obtain ⟨j1, hj1⟩ := List.getElem?_of_mem hsid
  obtain ⟨j2, hj2⟩ := List.getElem?_of_mem hsty
  obtain ⟨j3, hj3⟩ := List.getElem?_of_mem hlabm
  obtain ⟨j4, hj4⟩ := List.getElem?_of_mem heid
  obtain ⟨j5, hj5⟩ := List.getElem?_of_mem hety
  have hp1 := (table_GetColumnPtr ht hnd).1 j1 sid hj1
  have hp2 := (table_GetColumnPtr ht hnd).1 j2 sty hj2
  have hp3 := (table_GetColumnPtr ht hnd).1 j3 lab hj3
  have hp4 := (table_GetColumnPtr ht hnd).1 j4 eid hj4
  have hp5 := (table_GetColumnPtr ht hnd).1 j5 ety hj5
  rw [hsidn] at hp1
  rw [hstyn] at hp2
  rw [hlabn] at hp3
  rw [heidn] at hp4
  rw [hetyn] at hp5
  have hrows := edgeRows_eq hn (hwf sid hsid) (hwf sty hsty) (hwf eid heid) (hwf ety hety)
    hsidt hstyt heidt hetyt label hlab dir n 0 [] (by omega)
  rw [List.nil_append, ← List.range_eq_range'] at hrows
  have hfold := props_fold (fun (e : Edge) p => { e with Properties := e.Properties ++ [p] })
    addEdgeProperty (fun name ws i x => by unfold addEdgeProperty; cases ws.get? i <;> rfl)
    (fun nm => nm = ClientProtoEdgeStartVTypeKey
        ∨ nm = ClientProtoEdgeStartVIdKey ∨ nm = ClientProtoVtxIdKey
        ∨ nm = ClientProtoVtxTypeKey ∨ nm = ClientProtoEdgeTypeKey) ht hrow hn hwf hcols
    (fun i => if dir = .DirectionType_Reverse then
        { OutV := { Vertex.zero with Id := eid.int64At i, Type_ := ety.int32At i },
          InV := { Vertex.zero with Id := sid.int64At i, Type_ := sty.int32At i },
          Type_ := label i, Properties := [] }
      else
        { OutV := { Vertex.zero with Id := sid.int64At i, Type_ := sty.int32At i },
          InV := { Vertex.zero with Id := eid.int64At i, Type_ := ety.int32At i },
          Type_ := label i, Properties := [] }) cs [] rfl
  rw [List.length_nil, ← ht.2.2.1] at hfold
  rw [← fieldLoop_eq _ ht.1 _ 0 tb.FieldCount _ (List.drop_zero _)
    (by rw [ht.2.2.1, List.length_map]; exact Nat.le_of_eq ht.2.2.2.2.1.symm)] at hfold
  have hrows1 := (congrArg (fun k => edgeRows dir (some (sid.column n)) (some (sty.column n))
    (some (lab.column n)) (some (eid.column n)) (some (ety.column n)) k 0 []) hrow).trans hrows
  unfold readColumnarEdge
  refine Reads_of_eq (Reads_bind (reads_NoCopyReadBytes _ hlen) (Reads_bind (Reads_lift_eq hdec)
    (Reads_bind (Reads_lift_eq hp1) (Reads_bind (Reads_lift_eq hp2)
    (Reads_bind (Reads_lift_eq hp3) (Reads_bind (Reads_lift_eq hp4)
    (Reads_bind (Reads_lift_eq hp5)
    (Reads_bind (Reads_lift_eq hrows1) (Reads_bind (Reads_lift_eq hfold) (Reads_pure _))))))))))
    (by simp) ?_
  rw [List.map_map]
  apply List.map_congr_left
  intro i _
  simp only [Function.comp, foldl_edge_properties]
  by_cases hd : dir = .DirectionType_Reverse
  · simp only [hd, if_true]; rfl
  · simp only [hd, if_false]; rfl

end Structure
namespace Structure
open Protocol Columnar

/-- **C28** (`readColumnarEdge`, reached through `decodeColumnarBinType`). The
batch is well-formed with `n` rows and holds the five identity columns: start
id (`INT64`), start type (`INT32`), edge type (with `GetString` returning
`label i` on every row `i`), end id (`INT64`) and end type (`INT32`); its other
columns have one of the six property types. Then the reader returns `n` edges
in row order, edge `i` with the label `label i`.  With a shape tag of the
forward direction (10, 12, 17, 19) `OutV` is the start vertex of row `i` and
`InV` the end vertex; with a shape tag of the reverse direction (11, 18) the
two are exchanged. -/
theorem C28_columnar_edge (n : Nat) (cs : List ColumnWire) (pad : Bytes) (x : UInt8)
    (h : BatchWF n cs pad) (hlen : (batchBytes n cs pad).length < 2 ^ 31)
    (sid sty lab eid ety : ColumnWire)
    (hsid : sid ∈ cs) (hsty : sty ∈ cs) (hlabm : lab ∈ cs) (heid : eid ∈ cs) (hety : ety ∈ cs)
    (hsidn : sid.name = ClientProtoEdgeStartVIdKey)
    (hstyn : sty.name = ClientProtoEdgeStartVTypeKey)
    (hlabn : lab.name = ClientProtoEdgeTypeKey)
    (heidn : eid.name = ClientProtoVtxIdKey) (hetyn : ety.name = ClientProtoVtxTypeKey)
    (hsidt : sid.type = ValueType_INT64) (hstyt : sty.type = ValueType_INT32)
    (heidt : eid.type = ValueType_INT64) (hetyt : ety.type = ValueType_INT32)
    (label : Nat → Bytes) (hlab : ∀ i < n, (lab.column n).GetString i = .ok (label i))
    (hcols : ∀ c ∈ cs, ¬ (c.name = ClientProtoEdgeStartVTypeKey
        ∨ c.name = ClientProtoEdgeStartVIdKey ∨ c.name = ClientProtoVtxIdKey
        ∨ c.name = ClientProtoVtxTypeKey ∨ c.name = ClientProtoEdgeTypeKey) →
      1 ≤ c.type ∧ c.type ≤ 6 ∧ (c.type = ValueType_STRING → ∀ i < n, c.isSet i = true →
        ∃ s, (c.column n).GetString i = .ok s)) :
    (∀ t, t = ForwardEdgeType ∨ t = DoubleEdgeType ∨ t = ForwardEdgeWithPropertiesType
        ∨ t = DoubleEdgeWithPropertiesType →
      Reads decodeColumnarBinType
        (x :: byte t :: (be32 (batchBytes n cs pad).length ++ batchBytes n cs pad))
        ((List.range n).map (fun i => Element.Edge
          { OutV := { Vertex.zero with Id := sid.int64At i, Type_ := sty.int32At i },
            InV := { Vertex.zero with Id := eid.int64At i, Type_ := ety.int32At i },
            Type_ := label i,
            Properties := propertiesAt (fun nm => decide (nm = ClientProtoEdgeStartVTypeKey
              ∨ nm = ClientProtoEdgeStartVIdKey ∨ nm = ClientProtoVtxIdKey
              ∨ nm = ClientProtoVtxTypeKey ∨ nm = ClientProtoEdgeTypeKey)) n cs i })))
    ∧ (∀ t, t = ReverseEdgeType ∨ t = ReverseEdgeWithPropertiesType →
      Reads decodeColumnarBinType
        (x :: byte t :: (be32 (batchBytes n cs pad).length ++ batchBytes n cs pad))
        ((List.range n).map (fun i => Element.Edge
          { OutV := { Vertex.zero with Id := eid.int64At i, Type_ := ety.int32At i },
            InV := { Vertex.zero with Id := sid.int64At i, Type_ := sty.int32At i },
            Type_ := label i,
            Properties := propertiesAt (fun nm => decide (nm = ClientProtoEdgeStartVTypeKey
              ∨ nm = ClientProtoEdgeStartVIdKey ∨ nm = ClientProtoVtxIdKey
              ∨ nm = ClientProtoVtxTypeKey ∨ nm = ClientProtoEdgeTypeKey)) n cs i }))) := by
  have hcols1 : ∀ c ∈ cs, ¬ (c.name = ClientProtoEdgeStartVTypeKey
        ∨ c.name = ClientProtoEdgeStartVIdKey ∨ c.name = ClientProtoVtxIdKey
        ∨ c.name = ClientProtoVtxTypeKey ∨ c.name = ClientProtoEdgeTypeKey) →
      ∃ get, propertyGetter c.type = some get
        ∧ ∀ i < n, c.isSet i = true → ∃ x, get (c.column n) i = .ok x := by
    intro c hc hskip
    obtain ⟨h1, h2, h3⟩ := hcols c hc hskip
    exact propertyGetter_returns h.2.1 (h.2.2.2.2.2.1 c hc) ⟨h1, h2⟩ h3
  have hr := fun dir => reads_readColumnarEdge dir n cs pad h hlen sid sty lab eid ety hsid hsty
    hlabm heid hety hsidn hstyn hlabn heidn hetyn hsidt hstyt heidt hetyt label hlab hcols1
  constructor
  · intro t ht
    refine decodeColumnarBinType_at x t (by rcases ht with rfl | rfl | rfl | rfl <;> decide) _ _ ?_
    rw [if_pos ht]
    exact hr .DirectionType_Forward
  · intro t ht
    refine decodeColumnarBinType_at x t (by rcases ht with rfl | rfl <;> decide) _ _ ?_
    rw [if_neg (by rcases ht with rfl | rfl <;> decide), if_pos ht]
    exact hr .DirectionType_Reverse

/-- C28 at the batch of 2 rows with the start vertices `(10, 1)`, `(11, 2)`, the
labels `a`, `b` and the end vertices `(20, 5)`, `(21, 6)`, read in the
reverse direction (tag 11). -/
theorem C28_columnar_edge_witness :
    Reads decodeColumnarBinType
      (40 :: byte 11 :: (be32 (batchBytes 2
        [⟨ClientProtoEdgeStartVIdKey, 3, [3, 0, 0, 0, 0, 0, 0, 0], [],
          [10, 0, 0, 0, 0, 0, 0, 0, 11, 0, 0, 0, 0, 0, 0, 0]⟩,
         ⟨ClientProtoEdgeStartVTypeKey, 2, [3, 0, 0, 0, 0, 0, 0, 0], [],
          [1, 0, 0, 0, 2, 0, 0, 0]⟩,
         ⟨ClientProtoEdgeTypeKey, 6, [3, 0, 0, 0, 0, 0, 0, 0],
          [0, 0, 0, 0, 1, 0, 0, 0, 2, 0, 0, 0, 0, 0, 0, 0], [97, 98, 0, 0, 0, 0, 0, 0]⟩,
         ⟨ClientProtoVtxIdKey, 3, [3, 0, 0, 0, 0, 0, 0, 0], [],
          [20, 0, 0, 0, 0, 0, 0, 0, 21, 0, 0, 0, 0, 0, 0, 0]⟩,
         ⟨ClientProtoVtxTypeKey, 2, [3, 0, 0, 0, 0, 0, 0, 0], [],
          [5, 0, 0, 0, 6, 0, 0, 0]⟩] [0]).length
        ++ batchBytes 2
        [⟨ClientProtoEdgeStartVIdKey, 3, [3, 0, 0, 0, 0, 0, 0, 0], [],
          [10, 0, 0, 0, 0, 0, 0, 0, 11, 0, 0, 0, 0, 0, 0, 0]⟩,
         ⟨ClientProtoEdgeStartVTypeKey, 2, [3, 0, 0, 0, 0, 0, 0, 0], [],
          [1, 0, 0, 0, 2, 0, 0, 0]⟩,
         ⟨ClientProtoEdgeTypeKey, 6, [3, 0, 0, 0, 0, 0, 0, 0],
          [0, 0, 0, 0, 1, 0, 0, 0, 2, 0, 0, 0, 0, 0, 0, 0], [97, 98, 0, 0, 0, 0, 0, 0]⟩,
         ⟨ClientProtoVtxIdKey, 3, [3, 0, 0, 0, 0, 0, 0, 0], [],
          [20, 0, 0, 0, 0, 0, 0, 0, 21, 0, 0, 0, 0, 0, 0, 0]⟩,
         ⟨ClientProtoVtxTypeKey, 2, [3, 0, 0, 0, 0, 0, 0, 0], [],
          [5, 0, 0, 0, 6, 0, 0, 0]⟩] [0]))
      [.Edge
          { OutV := { Vertex.zero with Id := 20, Type_ := 5 },
            InV := { Vertex.zero with Id := 10, Type_ := 1 }, Type_ := [97], Properties := [] },
        .Edge
          { OutV := { Vertex.zero with Id := 21, Type_ := 6 },
            InV := { Vertex.zero with Id := 11, Type_ := 2 }, Type_ := [98], Properties := [] }] :=
  Reads_of_eq ((C28_columnar_edge 2
    [⟨ClientProtoEdgeStartVIdKey, 3, [3, 0, 0, 0, 0, 0, 0, 0], [],
          [10, 0, 0, 0, 0, 0, 0, 0, 11, 0, 0, 0, 0, 0, 0, 0]⟩,
         ⟨ClientProtoEdgeStartVTypeKey, 2, [3, 0, 0, 0, 0, 0, 0, 0], [],
          [1, 0, 0, 0, 2, 0, 0, 0]⟩,
         ⟨ClientProtoEdgeTypeKey, 6, [3, 0, 0, 0, 0, 0, 0, 0],
          [0, 0, 0, 0, 1, 0, 0, 0, 2, 0, 0, 0, 0, 0, 0, 0], [97, 98, 0, 0, 0, 0, 0, 0]⟩,
         ⟨ClientProtoVtxIdKey, 3, [3, 0, 0, 0, 0, 0, 0, 0], [],
          [20, 0, 0, 0, 0, 0, 0, 0, 21, 0, 0, 0, 0, 0, 0, 0]⟩,
         ⟨ClientProtoVtxTypeKey, 2, [3, 0, 0, 0, 0, 0, 0, 0], [],
          [5, 0, 0, 0, 6, 0, 0, 0]⟩] [0] 40
    ⟨by decide, by decide, by decide, by decide, by decide,
      fun c hc => by
        simp only [List.mem_cons, List.mem_singleton, List.not_mem_nil, or_false] at hc
        rcases hc with rfl | rfl | rfl | rfl | rfl
        · exact ⟨by decide, by decide, by decide, by decide, by decide⟩
        · exact ⟨by decide, by decide, by decide, by decide, by decide⟩
        · exact ⟨by decide, by decide, by decide, by decide, by decide⟩
        · exact ⟨by decide, by decide, by decide, by decide, by decide⟩
        · exact ⟨by decide, by decide, by decide, by decide, by decide⟩,
      by rw [schemaBytes_length]; decide⟩
    (by rw [batchBytes_length, schemaBytes_length, dataBytes_length]; decide)
    ⟨ClientProtoEdgeStartVIdKey, 3, [3, 0, 0, 0, 0, 0, 0, 0], [],
      [10, 0, 0, 0, 0, 0, 0, 0, 11, 0, 0, 0, 0, 0, 0, 0]⟩
    ⟨ClientProtoEdgeStartVTypeKey, 2, [3, 0, 0, 0, 0, 0, 0, 0], [], [1, 0, 0, 0, 2, 0, 0, 0]⟩
    ⟨ClientProtoEdgeTypeKey, 6, [3, 0, 0, 0, 0, 0, 0, 0],
      [0, 0, 0, 0, 1, 0, 0, 0, 2, 0, 0, 0, 0, 0, 0, 0], [97, 98, 0, 0, 0, 0, 0, 0]⟩
    ⟨ClientProtoVtxIdKey, 3, [3, 0, 0, 0, 0, 0, 0, 0], [],
      [20, 0, 0, 0, 0, 0, 0, 0, 21, 0, 0, 0, 0, 0, 0, 0]⟩
    ⟨ClientProtoVtxTypeKey, 2, [3, 0, 0, 0, 0, 0, 0, 0], [], [5, 0, 0, 0, 6, 0, 0, 0]⟩
    (by simp) (by simp) (by simp) (by simp) (by simp) rfl rfl rfl rfl rfl rfl rfl rfl rfl
    (fun i => if i = 0 then [97] else [98])
    (fun i hi => by
      interval_cases i
      · rfl
      · rfl)
    (fun c hc hskip => by
      simp only [List.mem_cons, List.mem_singleton, List.not_mem_nil, or_false] at hc
      rcases hc with rfl | rfl | rfl | rfl | rfl
      · exact absurd (Or.inr (Or.inl rfl)) hskip
      · exact absurd (Or.inl rfl) hskip
      · exact absurd (Or.inr (Or.inr (Or.inr (Or.inr rfl)))) hskip
      · exact absurd (Or.inr (Or.inr (Or.inl rfl))) hskip
      · exact absurd (Or.inr (Or.inr (Or.inr (Or.inl rfl)))) hskip)).2 11 (Or.inl rfl)) rfl rfl

end Structure
namespace Structure
open Protocol

/-- **C36** (`Int32.Eq`, `String.Eq`, `Bool.Eq`). Loose equality is not
symmetric: for every integer `n`, `Int32(n).Eq(String(d), false)` is true for
the decimal rendering `d` of `n` (the two sort strings are `d`), while
`String(d).Eq(Int32(n), false)` is false.  `Bool.Eq` and `String.Eq` compare
the variant and the value in both modes; the loose `Eq` of `Int32`, `Int64`,
`Float32` and `Float64` compares the sort strings. -/
theorem C36_loose_not_symmetric (str : Element → Outcome Bytes) (n : Int) :
    Eq (sortString str) (.Int32 n) (.String (ascii (toString n))) false = .ok true
    ∧ Eq (sortString str) (.String (ascii (toString n))) (.Int32 n) false = .ok false
    ∧ (∀ (b : Bool) (other : Element) (strict : Bool),
        Eq (sortString str) (.Bool b) other strict
          = .ok (match other with
            | .Bool val => b == val
            | _ => false))
    ∧ (∀ (s : Bytes) (other : Element) (strict : Bool),
        Eq (sortString str) (.String s) other strict
          = .ok (match other with
            | .String val => s == val
            | _ => false))
    ∧ (∀ (e other : Element),
        (∃ v, e = .Int32 v) ∨ (∃ v, e = .Int64 v) ∨ (∃ f, e = .Float32 f) ∨ (∃ f, e = .Float64 f) →
        Eq (sortString str) e other false
          = (sortString str e >>= fun a => sortString str other >>= fun b => pure (a == b))) := by
  refine ⟨?_, ?_, ?_, ?_, ?_⟩
  · simp only [Eq, sortString, Bool.false_eq_true, if_false]
    show Outcome.ok (ascii (toString n) == ascii (toString n)) = _
    rw [beq_self_eq_true]
  · simp [Eq]
  · intro b other strict
    cases other <;> simp [Eq]
  · intro s other strict
    cases other <;> simp [Eq]
  · intro e other h
    rcases h with ⟨v, rfl⟩ | ⟨v, rfl⟩ | ⟨f, rfl⟩ | ⟨f, rfl⟩ <;> simp [Eq]

end Structure
namespace Structure
open Protocol

/-- A flag map whose flags are all false answers false. -/
theorem flagGet_all_false (flags : List (Element × Bool)) (h : ∀ e ∈ flags, e.2 = false)
    (a : Element) : flagGet flags a = false := by
  unfold flagGet
  cases hf : flags.find? (fun e => keyEq e.1 a) with
  | none => rfl
  | some e => exact h e (List.mem_of_find?_eq_some hf)

theorem flagSet_mem {flags : List (Element × Bool)} {kk : Element} {b : Bool}
    {e : Element × Bool} (h : e ∈ flagSet flags kk b) : e ∈ flags ∨ e = (kk, b) := by
  unfold flagSet at h
  split_ifs at h
  · obtain ⟨x, hx, rfl⟩ := List.mem_map.mp h
    by_cases hk : keyEq x.1 kk = true
    · rw [if_pos hk]; exact Or.inr rfl
    · rw [if_neg hk]; exact Or.inl hx
  · rcases List.mem_append.mp h with h1 | h1
    · exact Or.inl h1
    · exact Or.inr (List.mem_singleton.mp h1)

/-- The flag map `Map.Eq` starts from: the keys are keys of `val`, and every
flag is false. -/
theorem flags_init (val : List (Element × Element)) :
    ∀ (acc : List (Element × Bool)),
      (∀ e ∈ acc, e.2 = false ∧ ∃ kv ∈ val, kv.1 = e.1) →
      ∀ (todo : List (Element × Element)), (∀ kv ∈ todo, kv ∈ val) →
      ∀ e ∈ todo.foldl (fun fl kv => flagSet fl kv.1 false) acc,
        e.2 = false ∧ ∃ kv ∈ val, kv.1 = e.1 := by
  intro acc hacc todo
  induction todo generalizing acc with
  | nil => intro _ e he; exact hacc e he
  | cons kv rest ih =>
    intro hin e he
    rw [List.foldl_cons] at he
    refine ih (flagSet acc kv.1 false) ?_ (fun x hx => hin x (List.mem_cons_of_mem _ hx)) e he
    intro x hx
    rcases flagSet_mem hx with h1 | h1
    · exact hacc x h1
    · rw [h1]; exact ⟨rfl, kv, hin kv (List.mem_cons_self _ _), rfl⟩

/-- In a map whose keys are pairwise different, an entry is known by its key. -/
theorem entry_of_keyEq {val : List (Element × Element)}
    (hdist : val.Pairwise (fun a b => keyEq a.1 b.1 = false ∧ keyEq b.1 a.1 = false))
    {x q : Element × Element} (hx : x ∈ val) (hq : q ∈ val) (h : keyEq x.1 q.1 = true) :
    x = q := by
  by_contra hne
  have := List.Pairwise.forall (fun a b h => ⟨h.2, h.1⟩) hdist hx hq hne
  rw [this.1] at h
  exact Bool.false_ne_true h

/-- Setting the flag of one key leaves the flag of every other key as it was. -/
theorem flagGet_flagSet_other {val : List (Element × Element)}
    (hdist : val.Pairwise (fun a b => keyEq a.1 b.1 = false ∧ keyEq b.1 a.1 = false))
    {flags : List (Element × Bool)} (hkeys : ∀ e ∈ flags, ∃ kv ∈ val, kv.1 = e.1)
    {q q1 : Element × Element} (hq : q ∈ val) (hq1 : q1 ∈ val) (hne : q1 ≠ q) (b : Bool) :
    flagGet (flagSet flags q.1 b) q1.1 = flagGet flags q1.1 := by
  have hqq1 : keyEq q.1 q1.1 = false := by
    by_contra hc
    exact hne (entry_of_keyEq hdist hq hq1 (by simpa using hc)).symm
  unfold flagSet
  split_ifs with hany
  · unfold flagGet
    have : (flags.map (fun e => if keyEq e.1 q.1 = true then (q.1, b) else e)).find?
        (fun e => keyEq e.1 q1.1)
        = flags.find? (fun e => keyEq e.1 q1.1) := by
      clear hany
      induction flags with
      | nil => rfl
      | cons e rest ih =>
        have ih1 := ih (fun x hx => hkeys x (List.mem_cons_of_mem _ hx))
        rw [List.map_cons, List.find?_cons, List.find?_cons, ih1]
        by_cases hk : keyEq e.1 q.1 = true
        · rw [if_pos hk]
          obtain ⟨kv, hkv, hkve⟩ := hkeys e (List.mem_cons_self _ _)
          have : kv = q := entry_of_keyEq hdist hkv hq (by rw [hkve]; exact hk)
          have he1 : e.1 = q.1 := by rw [← hkve, this]
          simp only [hqq1, he1]
        · rw [if_neg hk]
    rw [this]
  · unfold flagGet
    rw [List.find?_append]
    cases hf : flags.find? (fun e => keyEq e.1 q1.1) with
    | some e => rfl
    | none =>
      simp only [Option.none_or, List.find?_cons, hqq1, List.find?_nil]

/-- The inner loop of `Map.Eq` for an entry of the receiver that matches the
entry `q` of `val` and no other: it goes past every entry but `q`, and marks `q`
if `q` is there and has not been used. -/
theorem mapEqInner_found (keq veq : Element → Outcome Bool) (q : Element × Element)
    (hk : keq q.1 = .ok true) (hv : veq q.2 = .ok true) :
    ∀ (rest : List (Element × Element)) (flags : List (Element × Bool)) (found : Bool),
      (∀ x ∈ rest, x ≠ q → keq x.1 = .ok false) → rest.Nodup →
      (q ∉ rest → mapEqInner keq veq rest flags found = .ok (found, flags))
      ∧ (q ∈ rest → flagGet flags q.1 = false →
          mapEqInner keq veq rest flags found = .ok (true, flagSet flags q.1 true)) := by
  intro rest
  induction rest with
  | nil =>
    intro flags found _ _
    exact ⟨fun _ => rfl, fun h => absurd h (List.not_mem_nil _)⟩
  | cons x rest ih =>
    intro flags found hother hnd
    rw [List.nodup_cons] at hnd
    have hrest : ∀ y ∈ rest, y ≠ q → keq y.1 = .ok false :=
      fun y hy => hother y (List.mem_cons_of_mem _ hy)
    obtain ⟨kk, vv⟩ := x
    constructor
    · intro hq
      have hxq : (kk, vv) ≠ q := fun h => hq (h ▸ List.mem_cons_self _ _)
      have hqr : q ∉ rest := fun h => hq (List.mem_cons_of_mem _ h)
      have hkx : keq kk = .ok false := hother (kk, vv) (List.mem_cons_self _ _) hxq
      unfold mapEqInner
      split_ifs
      · exact (ih flags found hrest hnd.2).1 hqr
      · rw [hkx]
        exact (ih flags found hrest hnd.2).1 hqr
    · intro hq hflag
      rcases List.mem_cons.mp hq with hq1 | hq1
      · subst hq1
        have hk1 : keq kk = .ok true := hk
        have hv1 : veq vv = .ok true := hv
        have hflag1 : flagGet flags kk = false := hflag
        unfold mapEqInner
        rw [if_neg (by rw [hflag1]; exact Bool.false_ne_true), hk1]
        simp only [hv1]
        exact (ih (flagSet flags kk true) true hrest hnd.2).1 hnd.1
      · have hxq : (kk, vv) ≠ q := fun h => hnd.1 (h ▸ hq1)
        have hkx : keq kk = .ok false := hother (kk, vv) (List.mem_cons_self _ _) hxq
        unfold mapEqInner
        split_ifs
        · exact (ih flags found hrest hnd.2).2 hq1 hflag
        · rw [hkx]
          exact (ih flags found hrest hnd.2).2 hq1 hflag

end Structure
namespace Structure
open Protocol

theorem nodup_of_keys {val : List (Element × Element)}
    (hrefl : ∀ kv ∈ val, keyEq kv.1 kv.1 = true)
    (hdist : val.Pairwise (fun a b => keyEq a.1 b.1 = false ∧ keyEq b.1 a.1 = false)) :
    val.Nodup := by
  refine List.Pairwise.imp_of_mem ?_ hdist
  intro a b ha _ hab heq
  subst heq
  rw [hrefl a ha] at hab
  exact Bool.false_ne_true hab.1.symm

theorem forall₂_right {α β : Type} {R : α → β → Prop} {xs : List α} {ys : List β}
    (h : List.Forall₂ R xs ys) : ∀ y ∈ ys, ∃ x ∈ xs, R x y := by
  induction h with
  | nil => intro y hy; cases hy
  | cons hxy _ ih =>
    intro y hy
    rcases List.mem_cons.mp hy with rfl | h1
    · exact ⟨_, List.mem_cons_self _ _, hxy⟩
    · obtain ⟨x, hx, hr⟩ := ih y h1
      exact ⟨x, List.mem_cons_of_mem _ hx, hr⟩

/-- The outer loop of `Map.Eq` when every entry of the receiver has its own
partner in `val`: the one entry of `val` whose key it is `Eq` to, with a value
it is `Eq` to. -/
theorem eqEntries_true (ss : Element → Outcome Bytes) (strict : Bool)
    (val : List (Element × Element))
    (hrefl : ∀ kv ∈ val, keyEq kv.1 kv.1 = true)
    (hdist : val.Pairwise (fun a b => keyEq a.1 b.1 = false ∧ keyEq b.1 a.1 = false)) :
    ∀ (m ps : List (Element × Element)),
      List.Forall₂ (fun e q => q ∈ val ∧ Eq ss e.1 q.1 strict = .ok true
        ∧ Eq ss e.2 q.2 strict = .ok true
        ∧ ∀ x ∈ val, x ≠ q → Eq ss e.1 x.1 strict = .ok false) m ps →
      ps.Nodup →
      ∀ (flags : List (Element × Bool)), (∀ e ∈ flags, ∃ kv ∈ val, kv.1 = e.1) →
        (∀ q ∈ ps, flagGet flags q.1 = false) →
        eqEntries ss m val strict flags = .ok true := by
  have hvnd := nodup_of_keys hrefl hdist
  intro m ps h
  induction h with
  | nil => intro _ flags _ _; rfl
  | @cons e q m1 ps1 hhead htail ih =>
    intro hnd flags hkeys hunused
    rw [List.nodup_cons] at hnd
    obtain ⟨hq, hk, hv, hother⟩ := hhead
    obtain ⟨k, v⟩ := e
    have hin := (mapEqInner_found (fun kk => Eq ss k kk strict) (fun vv => Eq ss v vv strict) q
      hk hv val flags false hother hvnd).2 hq (hunused q (List.mem_cons_self _ _))
    unfold eqEntries
    rw [hin]
    refine ih hnd.2 (flagSet flags q.1 true) ?_ ?_
    · intro x hx
      rcases flagSet_mem hx with h1 | h1
      · exact hkeys x h1
      · rw [h1]; exact ⟨q, hq, rfl⟩
    · intro q1 hq1
      have hq1v : q1 ∈ val := by
        obtain ⟨_, _, hr⟩ := forall₂_right htail q1 hq1
        exact hr.1
      rw [flagGet_flagSet_other hdist hkeys hq hq1v (fun h => hnd.1 (h ▸ hq1)) true]
      exact hunused q1 (List.mem_cons_of_mem _ hq1)

end Structure
namespace Structure
open Protocol

/-- Two maps with the same entries are `Eq` in the mode `strict` when the keys
are keys of a Go map (each equal to itself, no two equal), every key and every
value is `Eq` to itself, and no key is `Eq` to another key. -/
theorem Eq_entries_perm (ss : Element → Outcome Bytes) (strict : Bool)
    (pairs m1 m2 : List (Element × Element)) (h1 : m1.Perm pairs) (h2 : m2.Perm pairs)
    (hrefl : ∀ kv ∈ pairs, keyEq kv.1 kv.1 = true)
    (hdist : pairs.Pairwise (fun a b => keyEq a.1 b.1 = false ∧ keyEq b.1 a.1 = false))
    (hself : ∀ kv ∈ pairs, Eq ss kv.1 kv.1 strict = .ok true ∧ Eq ss kv.2 kv.2 strict = .ok true)
    (hne : ∀ a ∈ pairs, ∀ b ∈ pairs, a ≠ b → Eq ss a.1 b.1 strict = .ok false) :
    eqEntries ss m1 m2 strict (m2.foldl (fun fl kv => flagSet fl kv.1 false) []) = .ok true := by
  have hsymm : Symmetric (fun a b : Element × Element =>
      keyEq a.1 b.1 = false ∧ keyEq b.1 a.1 = false) := fun _ _ h => ⟨h.2, h.1⟩
  have hrefl2 : ∀ kv ∈ m2, keyEq kv.1 kv.1 = true := fun kv h => hrefl kv (h2.mem_iff.mp h)
  have hdist2 := (h2.pairwise_iff (fun {a b} h => hsymm h)).mpr hdist
  have hrefl1 : ∀ kv ∈ m1, keyEq kv.1 kv.1 = true := fun kv h => hrefl kv (h1.mem_iff.mp h)
  have hdist1 := (h1.pairwise_iff (fun {a b} h => hsymm h)).mpr hdist
  have hinit := flags_init m2 [] (fun e he => absurd he (List.not_mem_nil _)) m2 (fun _ h => h)
  refine eqEntries_true ss strict m2 hrefl2 hdist2 m1 m1 ?_ (nodup_of_keys hrefl1 hdist1) _
    (fun e he => (hinit e he).2)
    (fun q _ => flagGet_all_false _ (fun e he => (hinit e he).1) q.1)
  rw [List.forall₂_same]
  intro e he
  have hep := h1.mem_iff.mp he
  refine ⟨h2.mem_iff.mpr hep, (hself e hep).1, (hself e hep).2, ?_⟩
  intro x hx hxe
  exact hne e hep x (h2.mem_iff.mp hx) (fun h => hxe h.symm)

theorem Eq_Map_perm (ss : Element → Outcome Bytes) (strict : Bool)
    (pairs m1 m2 : List (Element × Element)) (h1 : m1.Perm pairs) (h2 : m2.Perm pairs)
    (hrefl : ∀ kv ∈ pairs, keyEq kv.1 kv.1 = true)
    (hdist : pairs.Pairwise (fun a b => keyEq a.1 b.1 = false ∧ keyEq b.1 a.1 = false))
    (hself : ∀ kv ∈ pairs, Eq ss kv.1 kv.1 strict = .ok true ∧ Eq ss kv.2 kv.2 strict = .ok true)
    (hne : ∀ a ∈ pairs, ∀ b ∈ pairs, a ≠ b → Eq ss a.1 b.1 strict = .ok false) :
    Eq ss (.Map m1) (.Map m2) strict = .ok true
    ∧ Eq ss (.MapStruct m1) (.MapStruct m2) strict = .ok true := by
  have h := Eq_entries_perm ss strict pairs m1 m2 h1 h2 hrefl hdist hself hne
  have hl : ¬ m1.length ≠ m2.length := by rw [h1.length_eq, h2.length_eq]; simp
  constructor
  · rw [Eq, if_neg hl]; exact h
  · rw [Eq, if_neg hl]; exact h

/-- The loop of `Path.Eq` and of the strict `List.Eq` over members that are
`Eq` to themselves. -/
theorem eqElems_self (ss : Element → Outcome Bytes) (strict : Bool) (l : List Element)
    (h : ∀ m ∈ l, Eq ss m m strict = .ok true) : eqElems ss l l strict = .ok true := by
  induction l with
  | nil => rw [eqElems]
  | cons m rest ih =>
    rw [eqElems, h m (List.mem_cons_self _ _)]
    exact ih (fun x hx => h x (List.mem_cons_of_mem _ hx))

theorem Vertex.Eq_properties (v : Vertex)
    (hvt : v.VType = IdTypeInt64Int32 ∨ v.VType = IdTypeStringString)
    (hk : (v.Properties.map (fun p => p.Key)).Nodup)
    (hv : ∀ p ∈ v.Properties, valueEq p.Value p.Value = true) (strict : Bool) :
    v.Eq (.Vertex v) strict = .ok true := by
  unfold Vertex.Eq
  have hvt1 : ¬ (v.VType ≠ IdTypeInt64Int32 ∧ v.VType ≠ IdTypeStringString) := by
    rcases hvt with h | h
    · exact fun hh => hh.1 h
    · exact fun hh => hh.2 h
  simp only [ne_eq, not_true_eq_false, if_false, hvt1, or_self, and_false]
  rw [kvOf_nodup _ hk, propertiesMatch_self _ hk hv]

theorem Edge.Eq_refl (e : Edge)
    (ho : e.OutV.Eq (.Vertex e.OutV) true = .ok true)
    (hi : e.InV.Eq (.Vertex e.InV) true = .ok true)
    (hk : (e.Properties.map (fun p => p.Key)).Nodup)
    (hv : ∀ p ∈ e.Properties, valueEq p.Value p.Value = true) :
    e.Eq (.Edge e) true = .ok true := by
  unfold Edge.Eq
  simp only [ne_eq, not_true_eq_false, if_false, ho, hi]
  rw [kvOf_nodup _ hk, propertiesMatch_self _ hk hv]

end Structure
namespace Structure
open Protocol

/-- C33, refuted as stated: the `Map` with the one entry `Int32(1): Float64(NaN)`
holds the same pairs as itself, and it is not strictly `Eq` to itself, because
`Float64.Eq` compares with `==` and a NaN is not `==` to itself. -/
theorem C33_counterexample :
    Eq (sortString (fun _ => .ok [])) (.Map [(.Int32 1, .Float64 9221120237041090560)])
      (.Map [(.Int32 1, .Float64 9221120237041090560)]) true = .ok false :=
  rfl

/-- **C33** (amended; `Map.Eq`, `MapStruct.Eq`). Two maps that hold the same
entries `pairs` (the keys being those of a Go map: each equal to itself under
`==`, no two equal) are `Eq` to each other, in both directions and whatever the
order of their entries, in every mode `strict` in which each key and each value
is `Eq` to itself and no key is `Eq` to another key. -/
theorem C33_map_order (ss : Element → Outcome Bytes) (strict : Bool)
    (pairs m1 m2 : List (Element × Element)) (h1 : m1.Perm pairs) (h2 : m2.Perm pairs)
    (hrefl : ∀ kv ∈ pairs, keyEq kv.1 kv.1 = true)
    (hdist : pairs.Pairwise (fun a b => keyEq a.1 b.1 = false ∧ keyEq b.1 a.1 = false))
    (hself : ∀ kv ∈ pairs, Eq ss kv.1 kv.1 strict = .ok true ∧ Eq ss kv.2 kv.2 strict = .ok true)
    (hne : ∀ a ∈ pairs, ∀ b ∈ pairs, a ≠ b → Eq ss a.1 b.1 strict = .ok false) :
    Eq ss (.Map m1) (.Map m2) strict = .ok true
    ∧ Eq ss (.Map m2) (.Map m1) strict = .ok true
    ∧ Eq ss (.MapStruct m1) (.MapStruct m2) strict = .ok true
    ∧ Eq ss (.MapStruct m2) (.MapStruct m1) strict = .ok true :=
  ⟨(Eq_Map_perm ss strict pairs m1 m2 h1 h2 hrefl hdist hself hne).1,
    (Eq_Map_perm ss strict pairs m2 m1 h2 h1 hrefl hdist hself hne).1,
    (Eq_Map_perm ss strict pairs m1 m2 h1 h2 hrefl hdist hself hne).2,
    (Eq_Map_perm ss strict pairs m2 m1 h2 h1 hrefl hdist hself hne).2⟩

/-- C33 (amended) at the maps `1: "a", 2: true` and `2: true, 1: "a"`, in
the strict and in the loose mode. -/
theorem C33_map_order_witness :
    Eq (sortString (fun _ => .ok [])) (.Map [(.Int32 1, .String [97]), (.Int32 2, .Bool true)])
        (.Map [(.Int32 2, .Bool true), (.Int32 1, .String [97])]) true = .ok true
    ∧ Eq (sortString (fun _ => .ok [])) (.Map [(.Int32 1, .String [97]), (.Int32 2, .Bool true)])
        (.Map [(.Int32 2, .Bool true), (.Int32 1, .String [97])]) false = .ok true :=
  ⟨(C33_map_order (sortString (fun _ => .ok [])) true
      [(.Int32 1, .String [97]), (.Int32 2, .Bool true)]
      [(.Int32 1, .String [97]), (.Int32 2, .Bool true)]
      [(.Int32 2, .Bool true), (.Int32 1, .String [97])]
      (List.Perm.refl _) (List.Perm.swap _ _ _)
      (by
        intro kv hkv
        simp only [List.mem_cons, List.mem_singleton, List.not_mem_nil, or_false] at hkv
        rcases hkv with rfl | rfl <;> rfl)
      (by
        refine List.Pairwise.cons ?_ (List.Pairwise.cons (fun _ h => absurd h (List.not_mem_nil _))
          List.Pairwise.nil)
        intro b hb
        rw [List.mem_singleton.mp hb]
        exact ⟨rfl, rfl⟩)
      (by
        intro kv hkv
        simp only [List.mem_cons, List.mem_singleton, List.not_mem_nil, or_false] at hkv
        rcases hkv with rfl | rfl <;> exact ⟨rfl, rfl⟩)
      (by
        intro a ha b hb hab
        simp only [List.mem_cons, List.mem_singleton, List.not_mem_nil, or_false] at ha hb
        rcases ha with rfl | rfl <;> rcases hb with rfl | rfl
        · exact absurd rfl hab
        · rfl
        · rfl
        · exact absurd rfl hab)).1,
    (C33_map_order (sortString (fun _ => .ok [])) false
      [(.Int32 1, .String [97]), (.Int32 2, .Bool true)]
      [(.Int32 1, .String [97]), (.Int32 2, .Bool true)]
      [(.Int32 2, .Bool true), (.Int32 1, .String [97])]
      (List.Perm.refl _) (List.Perm.swap _ _ _)
      (by
        intro kv hkv
        simp only [List.mem_cons, List.mem_singleton, List.not_mem_nil, or_false] at hkv
        rcases hkv with rfl | rfl <;> rfl)
      (by
        refine List.Pairwise.cons ?_ (List.Pairwise.cons (fun _ h => absurd h (List.not_mem_nil _))
          List.Pairwise.nil)
        intro b hb
        rw [List.mem_singleton.mp hb]
        exact ⟨rfl, rfl⟩)
      (by
        intro kv hkv
        simp only [List.mem_cons, List.mem_singleton, List.not_mem_nil, or_false] at hkv
        rcases hkv with rfl | rfl <;> exact ⟨by decide, rfl⟩)
      (by
        intro a ha b hb hab
        simp only [List.mem_cons, List.mem_singleton, List.not_mem_nil, or_false] at ha hb
        rcases ha with rfl | rfl <;> rcases hb with rfl | rfl
        · exact absurd rfl hab
        · decide
        · decide
        · exact absurd rfl hab)).1⟩

end Structure
namespace Structure
open Protocol

/-- C31, refuted as stated: `Float64(NaN)` is not strictly `Eq` to itself,
because `Float64.Eq` compares with `==`; the bits are those of `math.NaN()`. -/
theorem C31_counterexample :
    Eq (sortString (fun _ => .ok [])) (.Float64 9221120237041090560)
      (.Float64 9221120237041090560) true = .ok false :=
  rfl

/-- **C31** (amended). Strict equality is reflexive on the elements built as
follows: every `Bool`, `Int32`, `Int64` and `String`; every `Float32` and
`Float64` that is `==` to itself (not a NaN); every `Property` whose value is
`==` to itself; every `Vertex` in one of the two id forms whose property keys
are pairwise distinct and whose property values are `==` to themselves; every
`Edge` whose endpoints are such vertices and whose properties are of that
kind; every `Path` and `List` (and `PathStruct`, `ListStruct`) whose members
are strictly `Eq` to themselves; and every `Map` (and `MapStruct`) whose keys
are those of a Go map, with each key and each value strictly `Eq` to itself
and no key strictly `Eq` to another key. -/
theorem C31_strict_reflexive (ss : Element → Outcome Bytes) :
    (∀ b : Bool, Eq ss (.Bool b) (.Bool b) true = .ok true)
    ∧ (∀ v : Int, Eq ss (.Int32 v) (.Int32 v) true = .ok true)
    ∧ (∀ v : Int, Eq ss (.Int64 v) (.Int64 v) true = .ok true)
    ∧ (∀ s : Bytes, Eq ss (.String s) (.String s) true = .ok true)
    ∧ (∀ f : Nat, float32Eq f f = true → Eq ss (.Float32 f) (.Float32 f) true = .ok true)
    ∧ (∀ f : Nat, float64Eq f f = true → Eq ss (.Float64 f) (.Float64 f) true = .ok true)
    ∧ (∀ p : Property, valueEq p.Value p.Value = true →
        Eq ss (.Property p) (.Property p) true = .ok true)
    ∧ (∀ v : Vertex, v.VType = IdTypeInt64Int32 ∨ v.VType = IdTypeStringString →
        (v.Properties.map (fun p => p.Key)).Nodup →
        (∀ p ∈ v.Properties, valueEq p.Value p.Value = true) →
        Eq ss (.Vertex v) (.Vertex v) true = .ok true)
    ∧ (∀ e : Edge, Eq ss (.Vertex e.OutV) (.Vertex e.OutV) true = .ok true →
        Eq ss (.Vertex e.InV) (.Vertex e.InV) true = .ok true →
        (e.Properties.map (fun p => p.Key)).Nodup →
        (∀ p ∈ e.Properties, valueEq p.Value p.Value = true) →
        Eq ss (.Edge e) (.Edge e) true = .ok true)
    ∧ (∀ l : List Element, (∀ m ∈ l, Eq ss m m true = .ok true) →
        Eq ss (.Path l) (.Path l) true = .ok true
        ∧ Eq ss (.List l) (.List l) true = .ok true
        ∧ Eq ss (.PathStruct l) (.PathStruct l) true = .ok true
        ∧ Eq ss (.ListStruct l) (.ListStruct l) true = .ok true)
    ∧ (∀ m : List (Element × Element),
        (∀ kv ∈ m, keyEq kv.1 kv.1 = true) →
        m.Pairwise (fun a b => keyEq a.1 b.1 = false ∧ keyEq b.1 a.1 = false) →
        (∀ kv ∈ m, Eq ss kv.1 kv.1 true = .ok true ∧ Eq ss kv.2 kv.2 true = .ok true) →
        (∀ a ∈ m, ∀ b ∈ m, a ≠ b → Eq ss a.1 b.1 true = .ok false) →
        Eq ss (.Map m) (.Map m) true = .ok true
        ∧ Eq ss (.MapStruct m) (.MapStruct m) true = .ok true) := by
  refine ⟨?_, ?_, ?_, ?_, ?_, ?_, ?_, ?_, ?_, ?_, ?_⟩
  · intro b; simp [Eq]
  · intro v; simp [Eq]
  · intro v; simp [Eq]
  · intro s; simp [Eq]
  · intro f hf; simp [Eq, hf]
  · intro f hf; simp [Eq, hf]
  · intro p hp; simp [Eq, hp]
  · intro v hvt hk hv
    rw [Eq]
    exact Vertex.Eq_properties v hvt hk hv true
  · intro e ho hi hk hv
    simp only [Eq] at ho hi ⊢
    exact Edge.Eq_refl e ho hi hk hv
  · intro l hl
    have h := eqElems_self ss true l hl
    refine ⟨?_, ?_, ?_, ?_⟩
    · rw [Eq]; simp [h]
    · rw [Eq]; simp [h]
    · rw [Eq]; simp [h]
    · rw [Eq]; simp [h]
  · intro m hrefl hdist hself hne
    exact Eq_Map_perm ss true m m m (List.Perm.refl _) (List.Perm.refl _) hrefl hdist hself hne

/-- C31 (amended) at the `List` of `Int32(1)` and of the vertex `(1, 2)` with
the property `a: int32(5)`. -/
theorem C31_strict_reflexive_witness :
    Eq (sortString (fun _ => .ok []))
      (.List [.Int32 1, .Vertex ⟨1, 2, IdTypeInt64Int32, [], [], [⟨[97], .int32 5⟩]⟩])
      (.List [.Int32 1, .Vertex ⟨1, 2, IdTypeInt64Int32, [], [], [⟨[97], .int32 5⟩]⟩]) true
      = .ok true :=
  ((C31_strict_reflexive (sortString (fun _ => .ok []))).2.2.2.2.2.2.2.2.2.1
    [.Int32 1, .Vertex ⟨1, 2, IdTypeInt64Int32, [], [], [⟨[97], .int32 5⟩]⟩]
    (by
      intro m hm
      simp only [List.mem_cons, List.mem_singleton, List.not_mem_nil, or_false] at hm
      rcases hm with rfl | rfl
      · exact (C31_strict_reflexive (sortString (fun _ => .ok []))).2.1 1
      · exact (C31_strict_reflexive (sortString (fun _ => .ok []))).2.2.2.2.2.2.2.1 _
          (Or.inl rfl) (by simp) (by
            intro p hp
            rw [List.mem_singleton.mp hp]
            rfl))).2.1

end Structure
namespace Structure
open Protocol

theorem map_toNat_injective : Function.Injective (fun a : Bytes => a.map UInt8.toNat) := by
  intro a b h
  exact List.map_injective_iff.mpr (fun x y hxy => UInt8.ext (by simpa using hxy)) h

/-- `sort.Strings` gives the same list for two lists with the same strings. -/
theorem sortStrings_perm {xs ys : List Bytes} (h : xs.Perm ys) :
    sortStrings xs = sortStrings ys := by
  haveI : IsTotal Bytes (fun a b => stringLe a b = true) :=
    ⟨fun a b => by
      unfold stringLe
      simp only [decide_eq_true_eq]
      exact le_total _ _⟩
  haveI : IsTrans Bytes (fun a b => stringLe a b = true) :=
    ⟨fun a b c => by
      unfold stringLe
      simp only [decide_eq_true_eq]
      exact le_trans⟩
  haveI : IsAntisymm Bytes (fun a b => stringLe a b = true) :=
    ⟨fun a b => by
      unfold stringLe
      simp only [decide_eq_true_eq]
      intro h1 h2
      exact map_toNat_injective (le_antisymm h1 h2)⟩
  unfold sortStrings
  refine List.eq_of_perm_of_sorted ?_ (List.sorted_insertionSort _ xs)
    (List.sorted_insertionSort _ ys)
  exact ((List.perm_insertionSort _ xs).trans h).trans (List.perm_insertionSort _ ys).symm

theorem sortStringAll_ok (str : Element → Outcome Bytes) (l : List Element)
    (h : ∀ m ∈ l, ∃ s, sortString str m = .ok s) :
    sortStringAll str l = .ok (l.map (sortStringOr str)) := by
  induction l with
  | nil => rw [sortStringAll]; rfl
  | cons m rest ih =>
    obtain ⟨s, hs⟩ := h m (List.mem_cons_self _ _)
    rw [sortStringAll, hs, ih (fun x hx => h x (List.mem_cons_of_mem _ hx))]
    simp [sortStringOr, hs]
    rfl

theorem sortString_List_ok (str : Element → Outcome Bytes) (l : List Element)
    (h : ∀ m ∈ l, ∃ s, sortString str m = .ok s) :
    sortString str (.List l)
      = .ok (ascii "[" ++ stringsJoin (ascii ", ") (sortStrings (l.map (sortStringOr str)))
          ++ ascii "]") := by
  rw [sortString, sortStringAll_ok str l h]
  rfl

/-- The strict loop over two lists, one of whose positions holds members that
are not `Eq`. -/
theorem eqElems_false (ss : Element → Outcome Bytes) :
    ∀ (l l1 : List Element), l.length = l1.length →
      (∀ i < l.length, ∃ b, Eq ss (l.getD i (.Bool false)) (l1.getD i (.Bool false)) true
        = .ok b) →
      (∃ i < l.length, Eq ss (l.getD i (.Bool false)) (l1.getD i (.Bool false)) true
        = .ok false) →
      eqElems ss l l1 true = .ok false := by
  intro l
  induction l with
  | nil => intro l1 _ _ h; obtain ⟨i, hi, _⟩ := h; cases hi
  | cons m rest ih =>
    intro l1 hlen hall hex
    cases l1 with
    | nil => cases hlen
    | cons x rest1 =>
      obtain ⟨b, hb⟩ := hall 0 (by simp)
      have hb : Eq ss m x true = .ok b := hb
      rw [eqElems, hb]
      cases b with
      | false => rfl
      | true =>
        refine ih rest1 (by simpa using hlen) ?_ ?_
        · intro i hi
          have := hall (i + 1) (by simp; omega)
          simpa using this
        · obtain ⟨i, hi, hf⟩ := hex
          cases i with
          | zero =>
            have hf : Eq ss m x true = .ok false := hf
            rw [hb] at hf
            cases hf
          | succ j => exact ⟨j, by simpa using hi, by simpa using hf⟩

end Structure
namespace Structure
open Protocol

/-- The loose `List.Eq` of two lists of the same length whose sort strings are
returned and coincide. -/
theorem Eq_List_loose (str : Element → Outcome Bytes) (l l1 : List Element)
    (hlen : l.length = l1.length) {s : Bytes} (h : sortString str (.List l) = .ok s)
    (h1 : sortString str (.List l1) = .ok s) :
    Eq (sortString str) (.List l) (.List l1) false = .ok true := by
  rw [Eq, if_neg (by simp [hlen])]
  simp only [Bool.false_eq_true, if_false, h, h1]
  show Outcome.ok (s == s) = _
  rw [beq_self_eq_true]

/-- **C32** (`List.Eq`, `List.sortString`). Let `l1` be a permutation of the
list `l`, the sort strings of whose members are returned.  Then the sort
strings of `List l` and `List l1` coincide, and `List l` is loosely `Eq` to
`List l1`; the same holds for two outer lists that hold `List l` and `List l1`
at the same position among the same members, and a `Map` with the value
`List l` is loosely `Eq` to the `Map` with the value `List l1` under the same
key (the keys being those of a Go map, each key and each other value loosely
`Eq` to itself, no key loosely `Eq` to another key), whatever the order of its
entries.  Strictly, `List l` is not `Eq` to `List l1` as soon as some position
holds members that are not strictly `Eq` (the comparisons of the positions
returning). -/
theorem C32_list_permutation (str : Element → Outcome Bytes) (l l1 : List Element)
    (hp : l.Perm l1) (hs : ∀ m ∈ l, ∃ s, sortString str m = .ok s) :
    sortString str (.List l) = sortString str (.List l1)
    ∧ (∃ s, sortString str (.List l) = .ok s)
    ∧ Eq (sortString str) (.List l) (.List l1) false = .ok true
    ∧ (∀ pre suf : List Element, (∀ m ∈ pre ++ suf, ∃ s, sortString str m = .ok s) →
        sortString str (.List (pre ++ .List l :: suf))
          = sortString str (.List (pre ++ .List l1 :: suf))
        ∧ Eq (sortString str) (.List (pre ++ .List l :: suf)) (.List (pre ++ .List l1 :: suf))
            false = .ok true)
    ∧ (∀ (k : Element) (pairs m2 : List (Element × Element)),
        m2.Perm ((k, .List l1) :: pairs) →
        (∀ kv ∈ (k, Element.List l1) :: pairs, keyEq kv.1 kv.1 = true) →
        ((k, Element.List l1) :: pairs).Pairwise
          (fun a b => keyEq a.1 b.1 = false ∧ keyEq b.1 a.1 = false) →
        (∀ kv ∈ (k, Element.List l1) :: pairs, Eq (sortString str) kv.1 kv.1 false = .ok true) →
        (∀ kv ∈ pairs, Eq (sortString str) kv.2 kv.2 false = .ok true) →
        (∀ a ∈ (k, Element.List l1) :: pairs, ∀ b ∈ (k, Element.List l1) :: pairs, a ≠ b →
          Eq (sortString str) a.1 b.1 false = .ok false) →
        Eq (sortString str) (.Map ((k, .List l) :: pairs)) (.Map m2) false = .ok true)
    ∧ ((∀ i < l.length, ∃ b, Eq (sortString str) (l.getD i (.Bool false))
          (l1.getD i (.Bool false)) true = .ok b) →
        (∃ i < l.length, Eq (sortString str) (l.getD i (.Bool false))
          (l1.getD i (.Bool false)) true = .ok false) →
        Eq (sortString str) (.List l) (.List l1) true = .ok false) := by
  have hs1 : ∀ m ∈ l1, ∃ s, sortString str m = .ok s := fun m hm => hs m (hp.mem_iff.mpr hm)
  have e1 := sortString_List_ok str l hs
  have e2 := sortString_List_ok str l1 hs1
  have hsame : sortString str (.List l) = sortString str (.List l1) := by
    rw [e1, e2, sortStrings_perm (hp.map _)]
  have hloose : Eq (sortString str) (.List l) (.List l1) false = .ok true :=
    Eq_List_loose str l l1 hp.length_eq e1 (hsame ▸ e1)
  refine ⟨hsame, ⟨_, e1⟩, hloose, ?_, ?_, ?_⟩
  · intro pre suf hps
    have ha : ∀ m ∈ pre ++ .List l :: suf, ∃ s, sortString str m = .ok s := by
      intro m hm
      rcases List.mem_append.mp hm with h | h
      · exact hps m (List.mem_append_left _ h)
      · rcases List.mem_cons.mp h with rfl | h
        · exact ⟨_, e1⟩
        · exact hps m (List.mem_append_right _ h)
    have hb : ∀ m ∈ pre ++ .List l1 :: suf, ∃ s, sortString str m = .ok s := by
      intro m hm
      rcases List.mem_append.mp hm with h | h
      · exact hps m (List.mem_append_left _ h)
      · rcases List.mem_cons.mp h with rfl | h
        · exact ⟨_, e2⟩
        · exact hps m (List.mem_append_right _ h)
    have f1 := sortString_List_ok str _ ha
    have f2 := sortString_List_ok str _ hb
    have hmap : (pre ++ Element.List l :: suf).map (sortStringOr str)
        = (pre ++ Element.List l1 :: suf).map (sortStringOr str) := by
      simp only [List.map_append, List.map_cons]
      rw [show sortStringOr str (.List l) = sortStringOr str (.List l1) by
        unfold sortStringOr; rw [hsame]]
    rw [hmap] at f1
    exact ⟨by rw [f1, f2], Eq_List_loose str _ _ (by simp) f1 f2⟩
  · intro k pairs m2 hm2 hrefl hdist hkself hvself hne
    have hsymm : Symmetric (fun a b : Element × Element =>
        keyEq a.1 b.1 = false ∧ keyEq b.1 a.1 = false) := fun _ _ h => ⟨h.2, h.1⟩
    have hrefl2 : ∀ kv ∈ m2, keyEq kv.1 kv.1 = true := fun kv h => hrefl kv (hm2.mem_iff.mp h)
    have hdist2 := (hm2.pairwise_iff (fun {a b} h => hsymm h)).mpr hdist
    have hinit := flags_init m2 [] (fun e he => absurd he (List.not_mem_nil _)) m2 (fun _ h => h)
    rw [Eq, if_neg (by rw [hm2.length_eq]; simp)]
    refine eqEntries_true (sortString str) false m2 hrefl2 hdist2 ((k, .List l) :: pairs)
      ((k, .List l1) :: pairs) ?_ (nodup_of_keys hrefl hdist) _
      (fun e he => (hinit e he).2)
      (fun q _ => flagGet_all_false _ (fun e he => (hinit e he).1) q.1)
    refine List.Forall₂.cons ?_ ?_
    · refine ⟨hm2.mem_iff.mpr (List.mem_cons_self _ _),
        hkself (k, .List l1) (List.mem_cons_self _ _), hloose, ?_⟩
      intro x hx hxq
      exact hne _ (List.mem_cons_self _ _) x (hm2.mem_iff.mp hx) (fun h => hxq h.symm)
    · rw [List.forall₂_same]
      intro e he
      have hep : e ∈ (k, Element.List l1) :: pairs := List.mem_cons_of_mem _ he
      refine ⟨hm2.mem_iff.mpr hep, hkself e hep, hvself e he, ?_⟩
      intro x hx hxe
      exact hne e hep x (hm2.mem_iff.mp hx) (fun h => hxe h.symm)
  · intro hall hex
    rw [Eq, if_neg (by simp [hp.length_eq])]
    simp only [if_true]
    exact eqElems_false (sortString str) l l1 hp.length_eq hall hex

/-- C32 at the lists `[1, 2]` and `[2, 1]`: loosely `Eq`, not strictly. -/
theorem C32_list_permutation_witness :
    Eq (sortString (fun _ => .ok [])) (.List [.Int32 1, .Int32 2]) (.List [.Int32 2, .Int32 1])
        false = .ok true
    ∧ Eq (sortString (fun _ => .ok [])) (.List [.Int32 1, .Int32 2]) (.List [.Int32 2, .Int32 1])
        true = .ok false :=
  ⟨(C32_list_permutation (fun _ => .ok []) [.Int32 1, .Int32 2] [.Int32 2, .Int32 1]
      (List.Perm.swap _ _ _) (by
        intro m hm
        simp only [List.mem_cons, List.mem_singleton, List.not_mem_nil, or_false] at hm
        rcases hm with rfl | rfl <;> exact ⟨_, rfl⟩)).2.2.1,
    (C32_list_permutation (fun _ => .ok []) [.Int32 1, .Int32 2] [.Int32 2, .Int32 1]
      (List.Perm.swap _ _ _) (by
        intro m hm
        simp only [List.mem_cons, List.mem_singleton, List.not_mem_nil, or_false] at hm
        rcases hm with rfl | rfl <;> exact ⟨_, rfl⟩)).2.2.2.2.2
      (by
        intro i hi
        have hi : i < 2 := hi
        interval_cases i
        · exact ⟨_, rfl⟩
        · exact ⟨_, rfl⟩)
      ⟨0, by decide, rfl⟩⟩

end Structure
namespace Protocol

theorem Dec.lift_eq_ok {α : Type} {o : Outcome α} {a : α} {r r1 : baseReader}
    (h : Dec.lift o r = (.ok a, r1)) : o = .ok a ∧ r = r1 := by
  have h1 : ((o, r) : Outcome α × baseReader) = (.ok a, r1) := h
  simp only [Prod.mk.injEq] at h1
  exact h1

/-- A call of `Next` that returns: the count is not negative, the bytes are as
many as asked for, and the cursor has moved by the count. -/
theorem baseReader.Next_eq_ok {k : Int} {r r1 : baseReader} {b : VeGraph.Bytes}
    (h : baseReader.Next k r = (.ok b, r1)) :
    0 ≤ k ∧ r1 = r.adv k.toNat ∧ b.length = k.toNat ∧ b = (r.b.drop r.p).take k.toNat := by
  unfold baseReader.Next at h
  by_cases h1 : k < 0
  · rw [if_pos h1] at h; simp at h
  rw [if_neg h1] at h
  by_cases h2 : r.b.length < r.p
  · rw [if_pos h2] at h; simp at h
  rw [if_neg h2] at h
  by_cases h3 : ((r.b.drop r.p).length : Int) < k
  · simp only [h3, if_true] at h; simp at h
  simp only [h3, if_false, Prod.mk.injEq, Outcome.ok.injEq] at h
  obtain ⟨hb, hr⟩ := h
  refine ⟨by omega, hr.symm, ?_, hb.symm⟩
  rw [← hb, List.length_take]
  omega

theorem LittleEndianReader.ReadInt32_eq_ok {v : Int} {r r1 : baseReader}
    (h : LittleEndianReader.ReadInt32 r = (.ok v, r1)) : r1 = r.adv 4 := by
  unfold LittleEndianReader.ReadInt32 at h
  obtain ⟨b, r0, h1, h2⟩ := Dec.bind_eq_ok h
  obtain ⟨_, h3, _, _⟩ := baseReader.Next_eq_ok h1
  rw [← (Dec.pure_eq_ok h2).2, h3]
  rfl

end Protocol

namespace Columnar
open Protocol Structure

theorem RoundUp8_mod (x : Int) : Util.RoundUp8 x % 8 = 0 := by
  unfold Util.RoundUp8
  generalize int64 (x + 7) = y
  omega

/-- A read of a rounded-up count keeps the cursor at a multiple of 8. -/
theorem Next_aligned {x : Int} {r r1 : baseReader} {b : Bytes}
    (h : baseReader.Next (Util.RoundUp8 x) r = (.ok b, r1)) (hr : r.p % 8 = 0) :
    r1.p % 8 = 0 ∧ (b.length : Int) = Util.RoundUp8 x := by
  obtain ⟨h0, h1, h2, _⟩ := baseReader.Next_eq_ok h
  have hm := RoundUp8_mod x
  rw [h1, h2]
  refine ⟨?_, Int.toNat_of_nonneg h0⟩
  show (r.p + (Util.RoundUp8 x).toNat) % 8 = 0
  omega

/-- A schema loop that returns: the columns are untouched, the schema has `k`
more fields, and the names of the fields differ if they did before. -/
theorem decodeFields_eq_ok :
    ∀ (k : Nat) (t t1 : Table) (r r1 : baseReader), decodeFields k t r = (.ok t1, r1) →
      FieldsWF t.Schema.fields → ((fieldsOf t.Schema.fields).map (fun f => f.Name)).Nodup →
      t1.Columns = t.Columns ∧ FieldsWF t1.Schema.fields
      ∧ t1.Schema.fields.len = t.Schema.fields.len + k
      ∧ ((fieldsOf t1.Schema.fields).map (fun f => f.Name)).Nodup := by
  intro k
  induction k with
  | zero =>
    intro t t1 r r1 h hwf hnd
    obtain ⟨rfl, _⟩ := Dec.pure_eq_ok h
    exact ⟨rfl, hwf, rfl, hnd⟩
  | succ k ih =>
    intro t t1 r r1 h hwf hnd
    unfold decodeFields at h
    obtain ⟨ty, r2, _, h2⟩ := Dec.bind_eq_ok h
    obtain ⟨name, r3, _, h3⟩ := Dec.bind_eq_ok h2
    by_cases hc : (t.Schema.FieldIdx name).2 = true
    · rw [if_pos hc] at h3
      exact (Dec.fail_ne_ok h3).elim
    rw [if_neg hc] at h3
    obtain ⟨ml, r4, _, h4⟩ := Dec.bind_eq_ok h3
    by_cases hm : ml ≠ 0
    · rw [if_pos hm] at h4
      exact (Dec.fail_ne_ok h4).elim
    rw [if_neg hm] at h4
    obtain ⟨a1, a2, a3⟩ := Append_spec hwf { Name := name, Type_ := ty, Metas := [] }
    have hfresh : ∀ f ∈ fieldsOf t.Schema.fields, f.Name ≠ name := by
      intro f hf hfn
      exact hc (FieldIdx_found hwf ⟨f, hf, hfn⟩)
    obtain ⟨b1, b2, b3, b4⟩ := ih _ t1 r4 r1 h4 a1 (by
      show ((fieldsOf (t.Schema.fields.Append _)).map (fun f => f.Name)).Nodup
      rw [a2, List.map_append, List.map_singleton]
      refine List.Nodup.append hnd (List.nodup_singleton _) ?_
      rw [List.disjoint_singleton]
      intro hmem
      obtain ⟨f, hf, hfn⟩ := List.mem_map.mp hmem
      exact hfresh f hf hfn)
    refine ⟨b1, b2, ?_, b4⟩
    rw [b3]
    show (t.Schema.fields.Append _).len + k = _
    rw [a3]
    omega

end Columnar
namespace Columnar
open Protocol Structure

theorem ColumnPtr_lt {ic : InlinableColumns} {i : Nat} {c : Column}
    (h : ic.ColumnPtr i = .ok c) : i < ic.len := by
  unfold InlinableColumns.ColumnPtr at h
  by_contra hc
  rw [if_pos (by omega)] at h
  cases h

theorem offsetsOf_length (bs : Bytes) (n : Nat) : (offsetsOf bs n).length = n := by
  simp [offsetsOf]

/-- One iteration of the data loop that returns: the schema is untouched, the
column `i` has been replaced by a column of `rowCount` rows, and the cursor is
at a multiple of 8 if it was.  For a string column the offset table has
`rowCount + 1` entries and the data has `RoundUp8(offsets[rowCount])` bytes. -/
theorem decodeColumn_eq_ok {n i : Nat} {t t1 : Table} {r r1 : baseReader}
    (h : decodeColumn n i t r = (.ok t1, r1)) (hwf : ColumnsWF t.Columns) :
    t1.Schema = t.Schema ∧ ColumnsWF t1.Columns ∧ t1.Columns.len = t.Columns.len
    ∧ i < t.Columns.len
    ∧ (r.p % 8 = 0 → r1.p % 8 = 0)
    ∧ ∃ col : Column, columnsOf t1.Columns = (columnsOf t.Columns).set i col
        ∧ col.length = n
        ∧ (col.slotSize = 0 → col.offsets.length = n + 1
            ∧ (col.data.length : Int) = Util.RoundUp8 (col.offsets.getD n 0)) := by
  unfold decodeColumn at h
  obtain ⟨col, r2, h1, h2⟩ := Dec.bind_eq_ok h
  obtain ⟨hcol, rfl⟩ := Dec.lift_eq_ok h1
  obtain ⟨bitmap, r3, h3, h4⟩ := Dec.bind_eq_ok h2
  obtain ⟨field, r4, h5, h6⟩ := Dec.bind_eq_ok h4
  obtain ⟨_, rfl⟩ := Dec.lift_eq_ok h5
  have hlt := ColumnPtr_lt hcol
  cases hvs : valueSize field.Type_ with
  | some slotSize =>
    rw [hvs] at h6
    dsimp only at h6
    obtain ⟨data, r5, h7, h8⟩ := Dec.bind_eq_ok h6
    obtain ⟨rfl, rfl⟩ := Dec.pure_eq_ok h8
    obtain ⟨s1, s2, s3⟩ := store_spec hwf i
      { col with
        length := n
        nullBitmap := { bytes := bitmap, length := n }
        data := data.take (slotSize * n)
        padding := data.drop (slotSize * n)
        slotSize := slotSize }
    refine ⟨rfl, s1, s2, hlt, fun hr => (Next_aligned h7 (Next_aligned h3 hr).1).1, _, s3, rfl, ?_⟩
    intro h0
    have h0 : slotSize = 0 := h0
    exfalso
    unfold valueSize at hvs
    split_ifs at hvs <;> (cases hvs; cases h0)
  | none =>
    rw [hvs] at h6
    dsimp only at h6
    obtain ⟨offsetBytes, r5, h7, h8⟩ := Dec.bind_eq_ok h6
    obtain ⟨data, r6, h9, h10⟩ := Dec.bind_eq_ok h8
    obtain ⟨rfl, rfl⟩ := Dec.pure_eq_ok h10
    obtain ⟨s1, s2, s3⟩ := store_spec hwf i
      { col with
        length := n
        nullBitmap := { bytes := bitmap, length := n }
        offsets := offsetsOf offsetBytes (n + 1)
        data := data
        padding := []
        slotSize := 0 }
    have a1 := Next_aligned h3
    have a2 := Next_aligned h7
    have a3 := Next_aligned h9
    refine ⟨rfl, s1, s2, hlt, fun hr => (a3 (a2 (a1 hr).1).1).1, _, s3, rfl, fun _ => ?_⟩
    refine ⟨offsetsOf_length _ _, ?_⟩
    obtain ⟨g0, _, g2, _⟩ := baseReader.Next_eq_ok h9
    show (data.length : Int) = _
    rw [g2]
    exact Int.toNat_of_nonneg g0

/-- A data loop that returns: the schema is untouched, the columns `i` to
`i + k - 1` have `n` rows, the earlier columns are untouched, and the cursor is
at a multiple of 8 if it was. -/
theorem decodeColumns_eq_ok (n : Nat) :
    ∀ (k i : Nat) (t t1 : Table) (r r1 : baseReader),
      decodeColumns n k i t r = (.ok t1, r1) → ColumnsWF t.Columns →
      t1.Schema = t.Schema ∧ ColumnsWF t1.Columns ∧ t1.Columns.len = t.Columns.len
      ∧ (0 < k → i + k ≤ t.Columns.len)
      ∧ (r.p % 8 = 0 → r1.p % 8 = 0)
      ∧ (∀ j, j < i → (columnsOf t1.Columns)[j]? = (columnsOf t.Columns)[j]?)
      ∧ (∀ j, i ≤ j → j < i + k → ∃ col : Column, (columnsOf t1.Columns)[j]? = some col
          ∧ col.length = n
          ∧ (col.slotSize = 0 → col.offsets.length = n + 1
              ∧ (col.data.length : Int) = Util.RoundUp8 (col.offsets.getD n 0))) := by
  intro k
  induction k with
  | zero =>
    intro i t t1 r r1 h hwf
    obtain ⟨rfl, rfl⟩ := Dec.pure_eq_ok h
    exact ⟨rfl, hwf, rfl, fun h => absurd h (by omega), fun h => h, fun _ _ => rfl,
      fun j h1 h2 => absurd h2 (by omega)⟩
  | succ k ih =>
    intro i t t1 r r1 h hwf
    unfold decodeColumns at h
    obtain ⟨t2, r2, h1, h2⟩ := Dec.bind_eq_ok h
    obtain ⟨a1, a2, a3, a4, a5, col, a6, a7, a8⟩ := decodeColumn_eq_ok h1 hwf
    obtain ⟨b1, b2, b3, b4, b5, b6, b7⟩ := ih (i + 1) t2 t1 r2 r1 h2 a2
    have hlen := columnsOf_length hwf
    refine ⟨b1.trans a1, b2, b3.trans a3, fun _ => ?_, fun hr => b5 (a5 hr), ?_, ?_⟩
    · by_cases hk : 0 < k
      · have := b4 hk
        omega
      · omega
    · intro j hj
      rw [b6 j (by omega), a6, List.getElem?_set_ne (by omega)]
    · intro j hj1 hj2
      by_cases hji : j = i
      · subst hji
        refine ⟨col, ?_, a7, a8⟩
        rw [b6 j (by omega), a6, List.getElem?_set_self (by omega)]
      · exact b7 j (by omega) (by omega)

end Columnar
namespace Columnar
open Protocol Structure

/-- The read of the alignment bytes leaves the cursor at a multiple of 8. -/
theorem pad_aligned {r r1 : baseReader} {b : Bytes}
    (h : baseReader.Next (Util.RoundUp8 (r.p : Int) - (r.p : Int)) r = (.ok b, r1)) :
    r1.p % 8 = 0 := by
  obtain ⟨g0, g1, _, _⟩ := baseReader.Next_eq_ok h
  have hm := RoundUp8_mod (r.p : Int)
  rw [g1]
  show (r.p + (Util.RoundUp8 (r.p : Int) - (r.p : Int)).toNat) % 8 = 0
  omega

/-- A call of `decode` into a fresh table that returns, on a buffer with a valid
magic number and version and a positive row count: the field count is positive,
the table has that many fields, with names that differ, and that many columns,
each with as many rows as the row count, and the cursor is at a multiple of 8. -/
theorem decode_eq_ok (n4 f4 rest : Bytes) (h4 : n4.length = 4) (hf4 : f4.length = 4)
    (hn : 0 < int32 (littleEndianUint32 n4)) (r r1 : baseReader) (tb : Table)
    (hat : r.At (65 :: 70 :: 1 :: 0 :: (n4 ++ (f4 ++ rest))))
    (h : decode Table.zero r = (.ok tb, r1)) :
    0 < int32 (littleEndianUint32 f4)
    ∧ FieldsWF tb.Schema.fields ∧ ColumnsWF tb.Columns
    ∧ tb.Schema.fields.len = (int32 (littleEndianUint32 f4)).toNat
    ∧ tb.Columns.len = (int32 (littleEndianUint32 f4)).toNat
    ∧ ((fieldsOf tb.Schema.fields).map (fun f => f.Name)).Nodup
    ∧ (∀ j, j < (int32 (littleEndianUint32 f4)).toNat →
        ∃ col : Column, (columnsOf tb.Columns)[j]? = some col
          ∧ col.length = (int32 (littleEndianUint32 n4)).toNat
          ∧ (col.slotSize = 0 →
              col.offsets.length = (int32 (littleEndianUint32 n4)).toNat + 1
              ∧ (col.data.length : Int)
                  = Util.RoundUp8 (col.offsets.getD (int32 (littleEndianUint32 n4)).toNat 0)))
    ∧ r1.p % 8 = 0 := by
  obtain ⟨e0, a0⟩ := decode_at_header Table.zero r _ hat
  rw [e0] at h
  obtain ⟨e1, a1⟩ := reads_LE_ReadInt32 n4 h4 _ _ a0
  obtain ⟨e2, a2⟩ := reads_LE_ReadInt32 f4 hf4 _ _ a1
  unfold decodeRows at h
  rw [Dec.bind_ok e1, if_neg (by omega), if_neg (by omega), Dec.bind_ok e2] at h
  by_cases hf : int32 (littleEndianUint32 f4) ≤ 0
  · rw [if_pos hf] at h
    exact (Dec.fail_ne_ok h).elim
  rw [if_neg hf] at h
  obtain ⟨t2, r2, h1, h2⟩ := Dec.bind_eq_ok h
  obtain ⟨ml, r3, h3, h5⟩ := Dec.bind_eq_ok h2
  by_cases hm : ml ≠ 0
  · rw [if_pos hm] at h5
    exact (Dec.fail_ne_ok h5).elim
  rw [if_neg hm, Dec.bind_ok (Dec.cursor_run r3)] at h5
  obtain ⟨_, r4, h6, h7⟩ := Dec.bind_eq_ok h5
  obtain ⟨z1, z2, z3, _⟩ := Resize_zero ((int32 (littleEndianUint32 f4)).toNat
    + Table.zero.Schema.fields.len)
  obtain ⟨c1, c2, c3, c4⟩ := decodeFields_eq_ok _ _ _ _ _ h1
    (by rw [z1]; exact fieldsWF_zero) (by rw [z1]; exact List.nodup_nil)
  rw [z1] at c3
  have c3 : t2.Schema.fields.len = (int32 (littleEndianUint32 f4)).toNat := by
    rw [c3]; show 0 + _ = _; omega
  have hcw : ColumnsWF t2.Columns := by rw [c1]; exact z2
  have hcl : t2.Columns.len = (int32 (littleEndianUint32 f4)).toNat := by
    rw [c1, z3]; show _ + 0 = _; omega
  have hal : r4.p % 8 = 0 := pad_aligned h6
  obtain ⟨d1, d2, d3, _, d5, _, d7⟩ := decodeColumns_eq_ok _ _ _ _ _ _ _ h7 hcw
  refine ⟨by omega, ?_, d2, ?_, d3.trans hcl, ?_, ?_, d5 hal⟩
  · rw [d1]; exact c2
  · rw [d1]; exact c3
  · rw [d1]; exact c4
  · intro j hj
    exact d7 j (Nat.zero_le _) (by omega)

end Columnar
namespace Columnar
open Protocol Structure

/-- `columnar.Decode` on a well-formed batch, the bytes written out. -/
theorem Decode_batch_cons (n : Nat) (cs : List ColumnWire) (pad tail : Bytes)
    (h : BatchWF n cs pad) :
    ∃ tb, Columnar.Decode (65 :: 70 :: 1 :: 0 :: (le32 n ++ (le32 cs.length ++ (schemaBytes cs
        ++ (le32 0 ++ (pad ++ (dataBytes cs ++ tail))))))) = .ok tb ∧ IsTableOf n cs tb := by
  obtain ⟨tb, h1, h2⟩ := Decode_batch n cs pad tail h
  refine ⟨tb, ?_, h2⟩
  rw [← h1]
  unfold batchBytes
  simp only [List.append_assoc, List.cons_append, List.nil_append]

/-- **C26** (`decode`, `Table.RowCount`, `Table.FieldCount`). Whenever
`columnar.Decode` returns a table for a buffer with a valid magic number and
version, the declared row count `n > 0` and the declared field count `f`: the
table has `f` fields and `f` columns, every column `i < f` has length `n`, and
`RowCount()` is `n`.  Such buffers exist: every well-formed batch is
decoded. -/
theorem C26_decoded_shape (n4 f4 rest : Bytes) (h4 : n4.length = 4) (hf4 : f4.length = 4)
    (hn : 0 < int32 (littleEndianUint32 n4)) (tb : Table)
    (h : Columnar.Decode (65 :: 70 :: 1 :: 0 :: (n4 ++ (f4 ++ rest))) = .ok tb) :
    tb.FieldCount = (int32 (littleEndianUint32 f4)).toNat
    ∧ tb.Columns.len = (int32 (littleEndianUint32 f4)).toNat
    ∧ (∀ i, i < (int32 (littleEndianUint32 f4)).toNat →
        ∃ col : Column, tb.GetColumnByIdx i = .ok col
          ∧ col.length = (int32 (littleEndianUint32 n4)).toNat)
    ∧ tb.RowCount = (int32 (littleEndianUint32 n4)).toNat
    ∧ ∀ (n : Nat) (cs : List ColumnWire) (pad tail : Bytes), BatchWF n cs pad →
        ∃ tb1, Columnar.Decode (batchBytes n cs pad ++ tail) = .ok tb1 := by
  rw [columnarDecode_eq] at h
  rcases hd : decode Table.zero
    (GetLittleEndianReader (65 :: 70 :: 1 :: 0 :: (n4 ++ (f4 ++ rest))) true) with ⟨o, r1⟩
  rw [hd] at h
  have ho : o = .ok tb := h
  rw [ho] at hd
  obtain ⟨g1, g2, g3, g4, g5, _, g7, _⟩ := decode_eq_ok n4 f4 rest h4 hf4 hn _ r1 tb
    (baseReader.at_start _ _) hd
  refine ⟨g4, g5, ?_, ?_, ?_⟩
  · intro i hi
    obtain ⟨col, hc, hl, _⟩ := g7 i hi
    exact ⟨col, Column_of_get g3 hc, hl⟩
  · obtain ⟨col, hc, hl, _⟩ := g7 0 (by omega)
    rw [RowCount_of_get g3 hc, hl]
  · intro n cs pad tail hwf
    obtain ⟨tb1, h1, _⟩ := Decode_batch n cs pad tail hwf
    exact ⟨tb1, h1⟩

/-- C26 at the batch of 3 rows with the one `INT32` field `x`. -/
theorem C26_decoded_shape_witness :
    ∃ tb, Columnar.Decode [65, 70, 1, 0, 3, 0, 0, 0, 1, 0, 0, 0,
        2, 0, 0, 0, 1, 0, 0, 0, 120, 0, 0, 0, 0, 0, 0, 0, 0, 0, 0, 0,
        5, 0, 0, 0, 0, 0, 0, 0,
        1, 0, 0, 0, 0, 0, 0, 0, 3, 0, 0, 0, 0, 0, 0, 0] = .ok tb
      ∧ tb.FieldCount = 1 ∧ tb.Columns.len = 1 ∧ tb.RowCount = 3 :=
  have hwf : BatchWF 3 [⟨[120], 2, [5, 0, 0, 0, 0, 0, 0, 0], [],
      [1, 0, 0, 0, 0, 0, 0, 0, 3, 0, 0, 0, 0, 0, 0, 0]⟩] [0, 0, 0] :=
    ⟨by decide, by decide, by decide, by decide, by decide,
      fun c hc => by
        rw [List.mem_singleton.mp hc]
        exact ⟨by decide, by decide, by decide, by decide, by decide⟩,
      by decide⟩
  let ⟨tb, h, _⟩ := Decode_batch_cons 3 [⟨[120], 2, [5, 0, 0, 0, 0, 0, 0, 0], [],
      [1, 0, 0, 0, 0, 0, 0, 0, 3, 0, 0, 0, 0, 0, 0, 0]⟩] [0, 0, 0] [] hwf
  have g := C26_decoded_shape (le32 3) (le32 1) _ rfl rfl (by decide) tb h
  ⟨tb, h, g.1, g.2.1, g.2.2.2.1⟩

end Columnar
namespace Columnar
open Protocol Structure

/-- One iteration of the data loop that returns keeps the cursor at a multiple
of 8. -/
theorem decodeColumn_aligned {n i : Nat} {t t1 : Table} {r r1 : baseReader}
    (h : decodeColumn n i t r = (.ok t1, r1)) (hr : r.p % 8 = 0) : r1.p % 8 = 0 := by
  unfold decodeColumn at h
  obtain ⟨col, r2, h1, h2⟩ := Dec.bind_eq_ok h
  obtain ⟨_, rfl⟩ := Dec.lift_eq_ok h1
  obtain ⟨bitmap, r3, h3, h4⟩ := Dec.bind_eq_ok h2
  obtain ⟨field, r4, h5, h6⟩ := Dec.bind_eq_ok h4
  obtain ⟨_, rfl⟩ := Dec.lift_eq_ok h5
  cases hvs : valueSize field.Type_ with
  | some slotSize =>
    rw [hvs] at h6
    dsimp only at h6
    obtain ⟨data, r5, h7, h8⟩ := Dec.bind_eq_ok h6
    obtain ⟨_, rfl⟩ := Dec.pure_eq_ok h8
    exact (Next_aligned h7 (Next_aligned h3 hr).1).1
  | none =>
    rw [hvs] at h6
    dsimp only at h6
    obtain ⟨offsetBytes, r5, h7, h8⟩ := Dec.bind_eq_ok h6
    obtain ⟨data, r6, h9, h10⟩ := Dec.bind_eq_ok h8
    obtain ⟨_, rfl⟩ := Dec.pure_eq_ok h10
    exact (Next_aligned h9 (Next_aligned h7 (Next_aligned h3 hr).1).1).1

theorem decodeColumns_aligned (n : Nat) :
    ∀ (k i : Nat) (t t1 : Table) (r r1 : baseReader),
      decodeColumns n k i t r = (.ok t1, r1) → r.p % 8 = 0 → r1.p % 8 = 0 := by
  intro k
  induction k with
  | zero =>
    intro i t t1 r r1 h hr
    obtain ⟨_, rfl⟩ := Dec.pure_eq_ok h
    exact hr
  | succ k ih =>
    intro i t t1 r r1 h hr
    unfold decodeColumns at h
    obtain ⟨t2, r2, h1, h2⟩ := Dec.bind_eq_ok h
    exact ih _ _ _ _ _ h2 (decodeColumn_aligned h1 hr)

theorem RoundUp8_least (x : Int) (h0 : 0 ≤ x) (h1 : x ≤ 2 ^ 63 - 8) :
    x ≤ Util.RoundUp8 x ∧ Util.RoundUp8 x % 8 = 0
    ∧ ∀ y : Int, x ≤ y → y % 8 = 0 → Util.RoundUp8 x ≤ y := by
  have e : Util.RoundUp8 x = (x + 7) - (x + 7) % 8 := by
    unfold Util.RoundUp8 int64
    omega
  rw [e]
  refine ⟨by omega, by omega, fun y hy hm => by omega⟩

/-- C40, refuted as stated: `RoundUp8` of the largest `int`, `2^63 - 1`, is
`-2^63`, which is not `>= 2^63 - 1`: the sum `size + 7` wraps around. -/
theorem C40_counterexample :
    Util.RoundUp8 9223372036854775807 = -9223372036854775808
    ∧ ¬ (9223372036854775807 : Int) ≤ Util.RoundUp8 9223372036854775807 := by
  constructor <;> decide

/-- **C40** (amended). `RoundUp8(x)` is the least multiple of 8 that is `>= x`
for every `0 <= x <= 2^63 - 8`.  In `decode`, the read of the alignment bytes
behind the schema leaves the cursor at a multiple of 8; every read of a region
(null bitmap, fixed-size data, offset table, string payload), being a read of a
rounded-up count, keeps the cursor at a multiple of 8; hence every iteration of
the data loop starts and ends at a multiple of 8, and the cursor at the end of
every successful decode with a positive row count is a multiple of 8. -/
theorem C40_alignment :
    (∀ x : Int, 0 ≤ x → x ≤ 2 ^ 63 - 8 →
        x ≤ Util.RoundUp8 x ∧ Util.RoundUp8 x % 8 = 0
        ∧ ∀ y : Int, x ≤ y → y % 8 = 0 → Util.RoundUp8 x ≤ y)
    ∧ (∀ (r r1 : baseReader) (b : Bytes),
        baseReader.Next (Util.RoundUp8 (r.p : Int) - (r.p : Int)) r = (.ok b, r1) →
        r1.p % 8 = 0)
    ∧ (∀ (x : Int) (r r1 : baseReader) (b : Bytes), r.p % 8 = 0 →
        baseReader.Next (Util.RoundUp8 x) r = (.ok b, r1) → r1.p % 8 = 0)
    ∧ (∀ (n i : Nat) (t t1 : Table) (r r1 : baseReader), r.p % 8 = 0 →
        decodeColumn n i t r = (.ok t1, r1) → r1.p % 8 = 0)
    ∧ (∀ (n k i : Nat) (t t1 : Table) (r r1 : baseReader), r.p % 8 = 0 →
        decodeColumns n k i t r = (.ok t1, r1) → r1.p % 8 = 0)
    ∧ (∀ (n4 f4 rest : Bytes) (r r1 : baseReader) (tb : Table), n4.length = 4 →
        f4.length = 4 → 0 < int32 (littleEndianUint32 n4) →
        r.At (65 :: 70 :: 1 :: 0 :: (n4 ++ (f4 ++ rest))) →
        decode Table.zero r = (.ok tb, r1) → r1.p % 8 = 0) :=
  ⟨RoundUp8_least, fun _ _ _ h => pad_aligned h, fun _ _ _ _ hr h => (Next_aligned h hr).1,
    fun _ _ _ _ _ _ hr h => decodeColumn_aligned h hr,
    fun n k i t t1 r r1 hr h => decodeColumns_aligned n k i t t1 r r1 h hr,
    fun n4 f4 rest r r1 tb h4 hf4 hn hat h =>
      (decode_eq_ok n4 f4 rest h4 hf4 hn r r1 tb hat h).2.2.2.2.2.2.2⟩

/-- C40 (amended) at `x = 13`: `RoundUp8(13)` is 16. -/
theorem C40_alignment_witness : Util.RoundUp8 13 = 16 := by
  obtain ⟨h1, h2, h3⟩ := C40_alignment.1 13 (by decide) (by decide)
  have := h3 16 (by decide) (by decide)
  omega

end Columnar
namespace Columnar
open Protocol Structure

/-- The schema loop on entries that end with a field whose name the schema
already holds, or that stands in an earlier entry: the loop fails with
`errFieldConflict`, at that field or before it. -/
theorem decodeFields_conflict (ty : Int) (hty : isInt32 ty) (name : Bytes)
    (hname : name.length < 2 ^ 31) (k : Nat) :
    ∀ (pre : List ColumnWire), (∀ c ∈ pre, isInt32 c.type ∧ c.name.length < 2 ^ 31) →
      ∀ (table : Table), FieldsWF table.Schema.fields →
      (name ∈ (fieldsOf table.Schema.fields).map (fun f => f.Name)
        ∨ name ∈ pre.map (fun c => c.name)) →
      ∀ (r : baseReader) (rest : Bytes),
        r.At (schemaBytes pre ++ (le32 ty ++ (le32 name.length ++ name ++ rest))) →
        (decodeFields (k + (pre.length + 1)) table r).1 = .error .errFieldConflict := by
  intro pre
  induction pre with
  | nil =>
    intro _ table hwf hmem r rest hat
    have hin : name ∈ (fieldsOf table.Schema.fields).map (fun f => f.Name) := by
      rcases hmem with h | h
      · exact h
      · cases h
    obtain ⟨f, hf, hfn⟩ := List.mem_map.mp hin
    have hfound : (table.Schema.FieldIdx name).2 = true := FieldIdx_found hwf ⟨f, hf, hfn⟩
    have hat1 : r.At (le32 ty ++ ((le32 name.length ++ name) ++ rest)) := by
      simpa [schemaBytes, List.append_assoc] using hat
    obtain ⟨e1, a1⟩ := reads_le32 hty _ _ hat1
    obtain ⟨e2, _⟩ := reads_LE_ReadString hname _ _ a1
    show (decodeFields (k + 0 + 1) table r).1 = _
    unfold decodeFields
    rw [Dec.bind_ok e1, Dec.bind_ok e2, if_pos hfound]
    rfl
  | cons c pre1 ih =>
    intro hpre table hwf hmem r rest hat
    obtain ⟨hcty, hcname⟩ := hpre c (List.mem_cons_self _ _)
    have hat1 : r.At (le32 c.type ++ ((le32 c.name.length ++ c.name) ++ (le32 0
        ++ (schemaBytes pre1 ++ (le32 ty ++ (le32 name.length ++ name ++ rest)))))) := by
      simpa [schemaBytes, fieldBytes, List.append_assoc] using hat
    obtain ⟨e1, a1⟩ := reads_le32 hcty _ _ hat1
    obtain ⟨e2, a2⟩ := reads_LE_ReadString hcname _ _ a1
    obtain ⟨e3, a3⟩ := reads_le32 (v := 0) (by decide) _ _ a2
    show (decodeFields (k + (pre1.length + 1) + 1) table r).1 = _
    unfold decodeFields
    rw [Dec.bind_ok e1, Dec.bind_ok e2]
    by_cases hc : (table.Schema.FieldIdx c.name).2 = true
    · rw [if_pos hc]
      rfl
    · rw [if_neg hc, Dec.bind_ok e3, if_neg (by decide)]
      obtain ⟨w1, w2, _⟩ := Append_spec hwf { Name := c.name, Type_ := c.type, Metas := [] }
      refine ih (fun q hq => hpre q (List.mem_cons_of_mem _ hq)) _ w1 ?_ _ rest a3
      show name ∈ (fieldsOf (table.Schema.fields.Append _)).map (fun f => f.Name) ∨ _
      rw [w2, List.map_append, List.map_singleton, List.mem_append, List.mem_singleton]
      rcases hmem with h | h
      · exact Or.inl (Or.inl h)
      · rcases List.mem_cons.mp h with h1 | h1
        · exact Or.inl (Or.inr h1)
        · exact Or.inr h1

/-- Every table `decode` returns into a fresh table has fields whose names
differ. -/
theorem decode_names_nodup {r r1 : baseReader} {tb : Table}
    (h : decode Table.zero r = (.ok tb, r1)) :
    ((fieldsOf tb.Schema.fields).map (fun f => f.Name)).Nodup := by
  unfold decode at h
  obtain ⟨magic, r2, _, h2⟩ := Dec.bind_eq_ok h
  by_cases c1 : magic ≠ uint16 ProtoColumnarMagicNumberUint16
  · rw [if_pos c1] at h2
    exact (Dec.fail_ne_ok h2).elim
  rw [if_neg c1] at h2
  obtain ⟨vsn, r3, _, h3⟩ := Dec.bind_eq_ok h2
  by_cases c2 : vsn ≠ uint16 Protocol_ColumnarV1
  · rw [if_pos c2] at h3
    exact (Dec.fail_ne_ok h3).elim
  rw [if_neg c2] at h3
  obtain ⟨n, r4, _, h4⟩ := Dec.bind_eq_ok h3
  by_cases c3 : n = 0
  · rw [if_pos c3] at h4
    obtain ⟨rfl, _⟩ := Dec.pure_eq_ok h4
    exact List.nodup_nil
  rw [if_neg c3] at h4
  by_cases c4 : n < 0
  · rw [if_pos c4] at h4
    exact (Dec.fail_ne_ok h4).elim
  rw [if_neg c4] at h4
  obtain ⟨f, r5, _, h5⟩ := Dec.bind_eq_ok h4
  by_cases c5 : f ≤ 0
  · rw [if_pos c5] at h5
    exact (Dec.fail_ne_ok h5).elim
  rw [if_neg c5] at h5
  obtain ⟨t2, r6, h6, h7⟩ := Dec.bind_eq_ok h5
  obtain ⟨ml, r7, _, h8⟩ := Dec.bind_eq_ok h7
  by_cases c6 : ml ≠ 0
  · rw [if_pos c6] at h8
    exact (Dec.fail_ne_ok h8).elim
  rw [if_neg c6, Dec.bind_ok (Dec.cursor_run r7)] at h8
  obtain ⟨_, r8, _, h9⟩ := Dec.bind_eq_ok h8
  obtain ⟨z1, z2, _, _⟩ := Resize_zero (f.toNat + Table.zero.Schema.fields.len)
  obtain ⟨c1, _, _, c4⟩ := decodeFields_eq_ok _ _ _ _ _ h6
    (by rw [z1]; exact fieldsWF_zero) (by rw [z1]; exact List.nodup_nil)
  obtain ⟨d1, _⟩ := decodeColumns_eq_ok _ _ _ _ _ _ _ h9 (by rw [c1]; exact z2)
  rw [d1]
  exact c4

end Columnar
namespace Columnar
open Protocol Structure

theorem Dec.bind_fst_error {α β : Type} {x : Dec α} {g : α → Dec β} {r : baseReader}
    {e : GoError} (h : (x r).1 = .error e) : ((x >>= g) r).1 = .error e := by
  have h1 : x r = (.error e, (x r).2) := by rw [← h]
  rw [Dec.bind_error h1]

/-- **C23** (`decode`, schema loop; `InlinableFields.FieldIdx`). On a buffer
with a valid magic number and version, a row count `n > 0` and a field count
`f > 0`, whose schema holds the well-formed fields `pre` (any number of them,
each with zero metadata length) followed by a field named like one of them,
`columnar.Decode` fails with `errFieldConflict`.  And the field names of every
table that `columnar.Decode` returns are pairwise distinct. -/
theorem C23_field_conflict (n f : Nat) (hn0 : 0 < n) (hn : n < 2 ^ 31) (pre : List ColumnWire)
    (hpre : ∀ c ∈ pre, isInt32 c.type ∧ c.name.length < 2 ^ 31)
    (hf : pre.length < f) (hf2 : f < 2 ^ 31) (ty : Int) (hty : isInt32 ty)
    (c0 : ColumnWire) (hc0 : c0 ∈ pre) (rest : Bytes) :
    Columnar.Decode (65 :: 70 :: 1 :: 0 :: (le32 n ++ (le32 f ++ (schemaBytes pre
        ++ (le32 ty ++ (le32 c0.name.length ++ c0.name ++ rest))))))
      = .error .errFieldConflict
    ∧ ∀ (bs : Bytes) (tb : Table), Columnar.Decode bs = .ok tb →
        ((fieldsOf tb.Schema.fields).map (fun f => f.Name)).Nodup := by
  constructor
  · obtain ⟨k, hk⟩ : ∃ k, f = k + (pre.length + 1) := ⟨f - pre.length - 1, by omega⟩
    have hnv : isInt32 (n : Int) := by unfold isInt32; omega
    have hfv : isInt32 (f : Int) := by unfold isInt32; omega
    have hn1 : ¬ ((n : Int) = 0) := by omega
    have hn2 : ¬ ((n : Int) < 0) := by omega
    have hf1 : ¬ ((f : Int) ≤ 0) := by omega
    have hft : ((f : Int)).toNat = k + (pre.length + 1) := by omega
    clear hn0 hn hf hf2 hk
    obtain ⟨e0, a0⟩ := Decode_header (le32 n ++ (le32 f ++ (schemaBytes pre
        ++ (le32 ty ++ (le32 c0.name.length ++ c0.name ++ rest)))))
    obtain ⟨e1, a1⟩ := reads_le32 hnv _ _ a0
    obtain ⟨e2, a2⟩ := reads_le32 hfv _ _ a1
    rw [e0]
    unfold decodeRows
    rw [Dec.bind_ok e1, if_neg hn1, if_neg hn2, Dec.bind_ok e2, if_neg hf1]
    refine Dec.bind_fst_error ?_
    rw [hft]
    refine decodeFields_conflict ty hty c0.name (hpre c0 hc0).2 k pre hpre _ ?_
      (Or.inr (List.mem_map.mpr ⟨c0, hc0, rfl⟩)) _ rest a2
    rw [(Resize_zero _).1]
    exact fieldsWF_zero
  · intro bs tb h
    rw [columnarDecode_eq] at h
    rcases hd : decode Table.zero (GetLittleEndianReader bs true) with ⟨o, r1⟩
    rw [hd] at h
    have ho : o = .ok tb := h
    rw [ho] at hd
    exact decode_names_nodup hd

/-- C23 at the batch with 1 row and 2 fields, both named `x`. -/
theorem C23_field_conflict_witness :
    Columnar.Decode [65, 70, 1, 0, 1, 0, 0, 0, 2, 0, 0, 0,
        2, 0, 0, 0, 1, 0, 0, 0, 120, 0, 0, 0, 0,
        2, 0, 0, 0, 1, 0, 0, 0, 120, 0, 0, 0, 0, 0, 0, 0, 0]
      = .error .errFieldConflict :=
  (C23_field_conflict 1 2 (by decide) (by decide) [⟨[120], 2, [], [], []⟩]
    (fun c hc => by rw [List.mem_singleton.mp hc]; exact ⟨by decide, by decide⟩)
    (by decide) (by decide) 2 (by decide) ⟨[120], 2, [], [], []⟩ (List.mem_singleton.mpr rfl)
    [0, 0, 0, 0, 0, 0, 0, 0]).1

end Columnar
namespace Columnar
open Protocol Structure

/-- A step that reads `xs` followed by a step that fails on exactly `ys`. -/
theorem short_bind {α β : Type} {x : Dec α} {f : α → Dec β} {xs ys : Bytes} {a : α}
    {o : Outcome β} (hx : Reads x xs a) (hf : ∀ r : baseReader, r.At ys → (f a r).1 = o) :
    ∀ r : baseReader, r.At (xs ++ ys) → ((x >>= f) r).1 = o := by
  intro r h
  obtain ⟨e1, h1⟩ := hx r _ h
  rw [Dec.bind_ok e1]
  exact hf _ h1

theorem Next_short (payload : Bytes) (k : Int) (hk : (payload.length : Int) < k) :
    ∀ r : baseReader, r.At payload → (baseReader.Next k r).1 = .error .ErrUnexpectedEOB := by
  intro r h
  have hlen := At_length h
  have h1 := h.1
  rw [((Next_cases r k h.1).2.2 (by omega))]

/-- One iteration of the data loop on a string column whose payload ends the
buffer before the rounded-up count is reached. -/
theorem decodeColumn_short (n : Nat) (hn : n < 2 ^ 31) (c : ColumnWire) (hc : c.WF n)
    (hvs : valueSize c.type = none) (payload : Bytes) (hp : payload.length < c.cells.length)
    (table : Table) (i : Nat) (hcol : table.Columns.ColumnPtr i = .ok Column.zero)
    (hfield : table.Schema.fields.Field i = .ok c.field) (r : baseReader)
    (hat : r.At (c.bitmap ++ (c.offsets ++ payload))) :
    (decodeColumn n i table r).1 = .error .ErrUnexpectedEOB := by
  obtain ⟨_, _, hbm, hbody⟩ := hc
  rw [hvs] at hbody
  obtain ⟨ho, hcells⟩ := hbody
  have hb : ((uint32 ((n : Int) + 7) / 8 : Nat) : Int) = (((n + 7) / 8 : Nat) : Int) := by
    have : uint32 ((n : Int) + 7) = n + 7 := by
      have := uint32_of_lt (n + 7) (by omega)
      rwa [Nat.cast_add] at this
    rw [this]
  have hat1 : r.At ([] ++ (c.bitmap ++ ([] ++ (c.offsets ++ payload)))) := by simpa using hat
  clear hat
  revert r
  unfold decodeColumn
  rw [hcol, hfield, hb, ← hbm]
  refine short_bind (Reads_lift _) (short_bind (reads_Next c.bitmap)
    (short_bind (Reads_lift _) ?_))
  show ∀ r : baseReader, r.At _ → (((match valueSize c.type with
    | some slotSize => _
    | none => _) : Dec Table) r).1 = _
  rw [hvs]
  simp only []
  rw [← ho]
  refine short_bind (reads_Next c.offsets) ?_
  intro r1 h1
  exact Dec.bind_fst_error (Next_short payload _ (by rw [← hcells]; exact_mod_cast hp) r1 h1)

/-- The data loop on columns of the wire the last of which is a string column
whose payload ends the buffer early. -/
theorem decodeColumns_short (n : Nat) (hn : n < 2 ^ 31) (c : ColumnWire) (hc : c.WF n)
    (hvs : valueSize c.type = none) (payload : Bytes) (hp : payload.length < c.cells.length) :
    ∀ (init : List ColumnWire), (∀ d ∈ init, d.WF n) →
      ∀ (table : Table) (i : Nat) (r : baseReader), ColumnsWF table.Columns →
      FieldsWF table.Schema.fields →
      (∀ (k : Nat) (d : ColumnWire), (init ++ [c])[k]? = some d →
        (fieldsOf table.Schema.fields)[i + k]? = some d.field
        ∧ (columnsOf table.Columns)[i + k]? = some Column.zero) →
      r.At (dataBytes init ++ (c.bitmap ++ (c.offsets ++ payload))) →
      (decodeColumns n (init.length + 1) i table r).1 = .error .ErrUnexpectedEOB := by
  intro init
  induction init with
  | nil =>
    intro _ table i r hcw hfw hget hat
    obtain ⟨g1, g2⟩ := hget 0 c (by simp)
    rw [Nat.add_zero] at g1 g2
    show (decodeColumns n (0 + 1) i table r).1 = _
    unfold decodeColumns
    exact Dec.bind_fst_error (decodeColumn_short n hn c hc hvs payload hp table i
      (ColumnPtr_of_get hcw g2) (Field_of_get hfw g1) r (by simpa [dataBytes] using hat))
  | cons d rest ih =>
    intro hinit table i r hcw hfw hget hat
    obtain ⟨g1, g2⟩ := hget 0 d (by simp)
    rw [Nat.add_zero] at g1 g2
    obtain ⟨s1, s2, s3⟩ := store_spec hcw i (d.column n)
    have hat1 : r.At (columnBytes d ++ (dataBytes rest ++ (c.bitmap ++ (c.offsets ++ payload)))) := by
      simpa [dataBytes, List.append_assoc] using hat
    obtain ⟨e1, a1⟩ := reads_decodeColumn n hn d (hinit d (List.mem_cons_self _ _)) table i
      (ColumnPtr_of_get hcw g2) (Field_of_get hfw g1) r _ hat1
    show (decodeColumns n (rest.length + 1 + 1) i table r).1 = _
    unfold decodeColumns
    rw [Dec.bind_ok e1]
    refine ih (fun q hq => hinit q (List.mem_cons_of_mem _ hq)) _ (i + 1) _ s1 hfw ?_ a1
    intro k d1 hk
    obtain ⟨b1, b2⟩ := hget (k + 1) d1 (by simpa using hk)
    refine ⟨by rw [show i + 1 + k = i + (k + 1) by omega]; exact b1, ?_⟩
    show (columnsOf (table.Columns.store i (d.column n)))[i + 1 + k]? = _
    rw [s3, List.getElem?_set_ne (by omega), show i + 1 + k = i + (k + 1) by omega]
    exact b2

/-- `columnar.Decode` on a batch whose last column is a string column with
fewer payload bytes than the rounded-up count. -/
theorem Decode_short (n : Nat) (init : List ColumnWire) (c : ColumnWire) (pad payload : Bytes)
    (h : BatchWF n (init ++ [c]) pad) (hvs : valueSize c.type = none)
    (hp : payload.length < c.cells.length) :
    Columnar.Decode (65 :: 70 :: 1 :: 0 :: (le32 n ++ (le32 (init ++ [c]).length
      ++ (schemaBytes (init ++ [c]) ++ (le32 0 ++ (pad ++ (dataBytes init
        ++ (c.bitmap ++ (c.offsets ++ payload))))))))) = .error .ErrUnexpectedEOB := by
  obtain ⟨hn0, hn, hf0, hf, hnd, hwf, hpad⟩ := h
  generalize hcs : init ++ [c] = cs at hf0 hf hnd hwf hpad ⊢
  rw [columnarDecode_eq]
  generalize hbs : (65 :: 70 :: 1 :: 0 :: (le32 n ++ (le32 cs.length
      ++ (schemaBytes cs ++ (le32 0 ++ (pad ++ (dataBytes init
        ++ (c.bitmap ++ (c.offsets ++ payload))))))))) = bs
  have hat0 : baseReader.At (GetLittleEndianReader bs true)
      (65 :: 70 :: 1 :: 0 :: (le32 n ++ (le32 cs.length ++ (schemaBytes cs ++ (le32 0
        ++ (pad ++ ((dataBytes init ++ (c.bitmap ++ (c.offsets ++ payload))) ++ []))))))) := by
    have := baseReader.at_start bs true
    rw [← hbs] at this ⊢
    simpa using this
  obtain ⟨e0, a0⟩ := decode_at_header Table.zero _ _ hat0
  obtain ⟨e1, a1⟩ := reads_le32 (v := (n : Int)) (by unfold isInt32; omega) _ _ a0
  obtain ⟨e2, a2⟩ := reads_le32 (v := (cs.length : Int)) (by unfold isInt32; omega) _ _ a1
  obtain ⟨z1, z2, z3, z4⟩ := Resize_zero cs.length
  have hfw1 : FieldsWF (ResizeInlinableColumns Table.zero cs.length).Schema.fields := by
    rw [z1]; exact fieldsWF_zero
  have hfo1 : fieldsOf (ResizeInlinableColumns Table.zero cs.length).Schema.fields = [] := by
    rw [z1]; rfl
  obtain ⟨e3, a3⟩ := reads_decodeFields cs n hwf (ResizeInlinableColumns Table.zero cs.length)
    hfw1 (by rw [hfo1]; simpa using hnd) _ _ a2
  obtain ⟨f1, f2, f3, f4⟩ := foldl_addField cs (ResizeInlinableColumns Table.zero cs.length) hfw1
  rw [hfo1, List.nil_append] at f3
  obtain ⟨e4, a4⟩ := reads_le32 (v := 0) (by decide) _ _ a3
  simp only [baseReader.adv_adv, le32_length] at e1 a1 e2 a2 e3 a3 e4 a4
  have a5 : baseReader.At
      ((GetLittleEndianReader bs true).adv (4 + 4 + 4 + (schemaBytes cs).length + 4))
      (pad ++ ((dataBytes init ++ (c.bitmap ++ (c.offsets ++ payload))) ++ [])) := a4
  obtain ⟨e5, a5'⟩ := reads_Next pad _ _ a5
  rw [List.append_nil] at a5'
  have hlen : cs.length = init.length + 1 := by rw [← hcs]; simp
  have e6 := decodeColumns_short n hn c (hwf c (by rw [← hcs]; simp)) hvs payload hp init
    (fun d hd => hwf d (by rw [← hcs]; exact List.mem_append_left _ hd))
    (cs.foldl (fun t c => addField t c.field) (ResizeInlinableColumns Table.zero cs.length)) 0 _
    (by rw [f1]; exact z2) f2
    (by
      intro k d hk
      rw [hcs] at hk
      rw [Nat.zero_add, f3, f1, z4, List.getElem?_map, hk, List.getElem?_replicate,
        if_pos (List.getElem?_eq_some_iff.mp hk).1]
      exact ⟨rfl, rfl⟩) a5'
  rw [e0]
  unfold decodeRows
  rw [Dec.bind_ok e1, if_neg (by omega), if_neg (by omega), Dec.bind_ok e2, if_neg (by omega)]
  simp only [Int.toNat_ofNat]
  rw [show cs.length + Table.zero.Schema.fields.len = cs.length from rfl, Dec.bind_ok e3,
    Dec.bind_ok e4, if_neg (by decide), Dec.bind_ok (Dec.cursor_run _)]
  have hp2 : (((GetLittleEndianReader bs true).adv
      (4 + 4 + 4 + (schemaBytes cs).length + 4)).p : Int) = 16 + (schemaBytes cs).length := by
    show ((0 + (4 + 4 + 4 + (schemaBytes cs).length + 4) : Nat) : Int) = _
    push_cast
    omega
  rw [hp2, ← hpad, Dec.bind_ok e5]
  rw [← hlen] at e6
  exact e6

end Columnar
namespace Columnar
open Protocol Structure

/-- Counterexample to C25: the batch of 1 row with the one `STRING` field `s`,
offset table `[0, 3]` and the 3 payload bytes `abc` with nothing behind them.
The decoder asks for `RoundUp8(3) = 8` payload bytes, so `columnar.Decode`
fails with `ErrUnexpectedEOB`. -/
theorem C25_counterexample :
    Columnar.Decode [65, 70, 1, 0, 1, 0, 0, 0, 1, 0, 0, 0,
        6, 0, 0, 0, 1, 0, 0, 0, 115, 0, 0, 0, 0, 0, 0, 0, 0, 0, 0, 0,
        1, 0, 0, 0, 0, 0, 0, 0,
        0, 0, 0, 0, 3, 0, 0, 0,
        97, 98, 99] = .error .ErrUnexpectedEOB :=
  have hwf : BatchWF 1 ([] ++ [⟨[115], 6, [1, 0, 0, 0, 0, 0, 0, 0], [0, 0, 0, 0, 3, 0, 0, 0],
      [97, 98, 99, 0, 0, 0, 0, 0]⟩]) [0, 0, 0] :=
    ⟨by decide, by decide, by decide, by decide, by decide,
      fun c hc => by
        rw [List.mem_singleton.mp hc]
        exact ⟨by decide, by decide, by decide, by decide, by decide⟩,
      by decide⟩
  Decode_short 1 [] ⟨[115], 6, [1, 0, 0, 0, 0, 0, 0, 0], [0, 0, 0, 0, 3, 0, 0, 0],
      [97, 98, 99, 0, 0, 0, 0, 0]⟩ [0, 0, 0] [97, 98, 99] hwf rfl (by decide)

/-- **C25** (`decode`, variable-size branch), amended. For every well-formed
batch of `n` rows and every column `c` of it whose type is not a fixed-size
one (a string column), at any index `j`: the offset table on the wire has
`RoundUp8((n+1)*4)` bytes; `columnar.Decode` returns a table, with the cursor
behind the whole batch, in which column `j` keeps the first `n + 1` `int32`
of that table as offsets and the `RoundUp8(offsets[n])` bytes behind it as
data; and when `c` is the last column and the buffer ends after fewer payload
bytes than `RoundUp8(offsets[n])`, `columnar.Decode` fails with
`ErrUnexpectedEOB`. -/
theorem C25_string_payload (n : Nat) (cs : List ColumnWire) (pad : Bytes)
    (h : BatchWF n cs pad) (j : Nat) (c : ColumnWire) (hj : cs[j]? = some c)
    (hvs : valueSize c.type = none) :
    (c.offsets.length : Int) = Util.RoundUp8 (((n : Int) + 1) * 4)
    ∧ (∀ tail : Bytes, ∃ (tb : Table) (col : Column),
        decode Table.zero (GetLittleEndianReader (batchBytes n cs pad ++ tail) true)
          = (.ok tb, (GetLittleEndianReader (batchBytes n cs pad ++ tail) true).adv
              (batchBytes n cs pad).length)
        ∧ Columnar.Decode (batchBytes n cs pad ++ tail) = .ok tb
        ∧ tb.GetColumnByIdx j = .ok col
        ∧ col.offsets = offsetsOf c.offsets (n + 1) ∧ col.offsets.length = n + 1
        ∧ col.data = c.cells
        ∧ (col.data.length : Int) = Util.RoundUp8 (col.offsets.getD n 0))
    ∧ (∀ (init : List ColumnWire) (payload : Bytes), cs = init ++ [c] →
        payload.length < c.cells.length →
        Columnar.Decode (65 :: 70 :: 1 :: 0 :: (le32 n ++ (le32 (init ++ [c]).length
          ++ (schemaBytes (init ++ [c]) ++ (le32 0 ++ (pad ++ (dataBytes init
            ++ (c.bitmap ++ (c.offsets ++ payload)))))))))
          = .error .ErrUnexpectedEOB) := by
  have hc : c.WF n := h.2.2.2.2.2.1 c (List.getElem?_mem hj)
  obtain ⟨_, _, _, hbody⟩ := hc
  rw [hvs] at hbody
  obtain ⟨ho, hcells⟩ := hbody
  have hcol : (c.column n).offsets = offsetsOf c.offsets (n + 1)
      ∧ (c.column n).data = c.cells := by
    unfold ColumnWire.column
    rw [hvs]
    exact ⟨rfl, rfl⟩
  refine ⟨ho, ?_, ?_⟩
  · intro tail
    obtain ⟨tb, h1, h2⟩ := decode_batch n cs pad tail h true
    obtain ⟨_, _, t3, _⟩ := table_access h2 hj
    refine ⟨tb, c.column n, h1, by rw [columnarDecode_eq, h1], t3, ?_, ?_, ?_, ?_⟩
    · exact hcol.1
    · rw [hcol.1]; exact offsetsOf_length _ _
    · exact hcol.2
    · rw [hcol.1, hcol.2]; exact hcells
  · intro init payload hcs hp
    subst hcs
    exact Decode_short n init c pad payload h hvs hp

/-- C25 at the batch of 1 row with the one `STRING` field `s`, offset table
`[0, 3]` and the payload `abc` followed by 5 alignment bytes. -/
theorem C25_string_payload_witness :
    BatchWF 1 [⟨[115], 6, [1, 0, 0, 0, 0, 0, 0, 0], [0, 0, 0, 0, 3, 0, 0, 0],
      [97, 98, 99, 0, 0, 0, 0, 0]⟩] [0, 0, 0]
    ∧ ∃ (tb : Table) (col : Column),
        Columnar.Decode (batchBytes 1 [⟨[115], 6, [1, 0, 0, 0, 0, 0, 0, 0],
          [0, 0, 0, 0, 3, 0, 0, 0], [97, 98, 99, 0, 0, 0, 0, 0]⟩] [0, 0, 0] ++ []) = .ok tb
        ∧ tb.GetColumnByIdx 0 = .ok col
        ∧ col.data = [97, 98, 99, 0, 0, 0, 0, 0] :=
  have hwf : BatchWF 1 [⟨[115], 6, [1, 0, 0, 0, 0, 0, 0, 0], [0, 0, 0, 0, 3, 0, 0, 0],
      [97, 98, 99, 0, 0, 0, 0, 0]⟩] [0, 0, 0] :=
    ⟨by decide, by decide, by decide, by decide, by decide,
      fun c hc => by
        rw [List.mem_singleton.mp hc]
        exact ⟨by decide, by decide, by decide, by decide, by decide⟩,
      by decide⟩
  let ⟨tb, col, _, g2, g3, _, _, g6, _⟩ := (C25_string_payload 1 _ [0, 0, 0] hwf 0
    ⟨[115], 6, [1, 0, 0, 0, 0, 0, 0, 0], [0, 0, 0, 0, 3, 0, 0, 0],
      [97, 98, 99, 0, 0, 0, 0, 0]⟩ rfl rfl).2.1 []
  ⟨hwf, tb, col, g2, g3, g6⟩

end Columnar
namespace Columnar
open Protocol Structure

/-- Counterexample to C27: the batch of 1 row with the one `STRING` field `s`
and the offset table `[5, 0]`. `columnar.Decode` returns a table; its column
has the offsets `[5, 0]` and no data, and `GetString(0)` slices `data[5:0]`,
which aborts with a slice-bounds-out-of-range run-time error. -/
theorem C27_counterexample :
    ∃ (tb : Table) (col : Column),
      Columnar.Decode [65, 70, 1, 0, 1, 0, 0, 0, 1, 0, 0, 0,
        6, 0, 0, 0, 1, 0, 0, 0, 115, 0, 0, 0, 0, 0, 0, 0, 0, 0, 0, 0,
        1, 0, 0, 0, 0, 0, 0, 0,
        5, 0, 0, 0, 0, 0, 0, 0] = .ok tb
      ∧ tb.GetColumnByIdx 0 = .ok col
      ∧ col.offsets = [5, 0] ∧ col.data = []
      ∧ col.GetString 0 = .panic .sliceBoundsOutOfRange :=
  have hwf : BatchWF 1 [⟨[115], 6, [1, 0, 0, 0, 0, 0, 0, 0], [5, 0, 0, 0, 0, 0, 0, 0], []⟩]
      [0, 0, 0] :=
    ⟨by decide, by decide, by decide, by decide, by decide,
      fun c hc => by
        rw [List.mem_singleton.mp hc]
        exact ⟨by decide, by decide, by decide, by decide, by decide⟩,
      by decide⟩
  let ⟨tb, h, ht⟩ := Decode_batch_cons 1
    [⟨[115], 6, [1, 0, 0, 0, 0, 0, 0, 0], [5, 0, 0, 0, 0, 0, 0, 0], []⟩] [0, 0, 0] [] hwf
  ⟨tb, _, h, (table_access ht (j := 0) rfl).2.2.1, by decide, rfl, by decide⟩

/-- `GetString(i)` on a column with `n + 1` offsets, for a row `i < n`. -/
theorem GetString_of_offsets (col : Column) (n i : Nat) (hlen : col.offsets.length = n + 1)
    (hi : i < n) :
    col.GetString i
      = if 0 ≤ col.offsets.getD i 0
            ∧ col.offsets.getD i 0 ≤ col.offsets.getD (i + 1) 0
            ∧ col.offsets.getD (i + 1) 0 ≤ (col.data.length : Int) then
          .ok ((col.data.drop (col.offsets.getD i 0).toNat).take
            ((col.offsets.getD (i + 1) 0).toNat - (col.offsets.getD i 0).toNat))
        else .panic .sliceBoundsOutOfRange := by
  have hi1 : i < col.offsets.length := by omega
  have hi2 : i + 1 < col.offsets.length := by omega
  unfold Column.GetString
  rw [List.get?_eq_getElem?, List.get?_eq_getElem?, List.getElem?_eq_getElem hi1,
    List.getElem?_eq_getElem hi2, List.getD_eq_getElem?_getD, List.getD_eq_getElem?_getD,
    List.getElem?_eq_getElem hi1, List.getElem?_eq_getElem hi2]
  rfl

/-- **C27** (`decode`, variable-size branch; `Column.GetString`), amended.
Whenever `columnar.Decode` returns a table for a buffer with a valid magic
number and version and the declared row count `n > 0`, every column `j` below
the declared field count that is variable-size (slot size 0) has `n + 1`
offsets and `RoundUp8(offsets[n])` bytes of data, and for every row `i < n`
`GetString(i)` returns `data[offsets[i]:offsets[i+1]]` when
`0 <= offsets[i] <= offsets[i+1] <= len(data)` and aborts with a
slice-bounds-out-of-range run-time error otherwise; the decoder itself places
no condition on the offsets. -/
theorem C27_string_access (n4 f4 rest : Bytes) (h4 : n4.length = 4) (hf4 : f4.length = 4)
    (hn : 0 < int32 (littleEndianUint32 n4)) (tb : Table)
    (h : Columnar.Decode (65 :: 70 :: 1 :: 0 :: (n4 ++ (f4 ++ rest))) = .ok tb)
    (j : Nat) (hj : j < (int32 (littleEndianUint32 f4)).toNat) :
    ∃ col : Column, tb.GetColumnByIdx j = .ok col
      ∧ (col.slotSize = 0 →
          col.offsets.length = (int32 (littleEndianUint32 n4)).toNat + 1
          ∧ (col.data.length : Int)
              = Util.RoundUp8 (col.offsets.getD (int32 (littleEndianUint32 n4)).toNat 0)
          ∧ ∀ i, i < (int32 (littleEndianUint32 n4)).toNat →
              col.GetString i
                = if 0 ≤ col.offsets.getD i 0
                      ∧ col.offsets.getD i 0 ≤ col.offsets.getD (i + 1) 0
                      ∧ col.offsets.getD (i + 1) 0 ≤ (col.data.length : Int) then
                    .ok ((col.data.drop (col.offsets.getD i 0).toNat).take
                      ((col.offsets.getD (i + 1) 0).toNat - (col.offsets.getD i 0).toNat))
                  else .panic .sliceBoundsOutOfRange) := by
  rw [columnarDecode_eq] at h
  rcases hd : decode Table.zero
    (GetLittleEndianReader (65 :: 70 :: 1 :: 0 :: (n4 ++ (f4 ++ rest))) true) with ⟨o, r1⟩
  rw [hd] at h
  have ho : o = .ok tb := h
  rw [ho] at hd
  obtain ⟨_, _, g3, _, _, _, g7, _⟩ := decode_eq_ok n4 f4 rest h4 hf4 hn _ r1 tb
    (baseReader.at_start _ _) hd
  obtain ⟨col, hc, _, hs⟩ := g7 j hj
  refine ⟨col, Column_of_get g3 hc, ?_⟩
  intro h0
  obtain ⟨s1, s2⟩ := hs h0
  exact ⟨s1, s2, fun i hi => GetString_of_offsets col _ i s1 hi⟩

/-- C27 at the batch of 1 row with the one `STRING` field `s`, offset table
`[0, 3]` and the payload `abc` followed by 5 alignment bytes: `GetString(0)`
is `abc`. -/
theorem C27_string_access_witness :
    ∃ (tb : Table) (col : Column),
      Columnar.Decode [65, 70, 1, 0, 1, 0, 0, 0, 1, 0, 0, 0,
        6, 0, 0, 0, 1, 0, 0, 0, 115, 0, 0, 0, 0, 0, 0, 0, 0, 0, 0, 0,
        1, 0, 0, 0, 0, 0, 0, 0,
        0, 0, 0, 0, 3, 0, 0, 0,
        97, 98, 99, 0, 0, 0, 0, 0] = .ok tb
      ∧ tb.GetColumnByIdx 0 = .ok col
      ∧ col.GetString 0 = .ok [97, 98, 99] :=
  have hwf : BatchWF 1 [⟨[115], 6, [1, 0, 0, 0, 0, 0, 0, 0], [0, 0, 0, 0, 3, 0, 0, 0],
      [97, 98, 99, 0, 0, 0, 0, 0]⟩] [0, 0, 0] :=
    ⟨by decide, by decide, by decide, by decide, by decide,
      fun c hc => by
        rw [List.mem_singleton.mp hc]
        exact ⟨by decide, by decide, by decide, by decide, by decide⟩,
      by decide⟩
  let ⟨tb, h, ht⟩ := Decode_batch_cons 1
    [⟨[115], 6, [1, 0, 0, 0, 0, 0, 0, 0], [0, 0, 0, 0, 3, 0, 0, 0],
      [97, 98, 99, 0, 0, 0, 0, 0]⟩] [0, 0, 0] [] hwf
  let ⟨col, c1, c2⟩ := C27_string_access (le32 1) (le32 1) _ rfl rfl (by decide) tb h 0
    (by decide)
  have e : col = ColumnWire.column 1 ⟨[115], 6, [1, 0, 0, 0, 0, 0, 0, 0],
      [0, 0, 0, 0, 3, 0, 0, 0], [97, 98, 99, 0, 0, 0, 0, 0]⟩ :=
    Outcome.ok.inj (c1.symm.trans (table_access ht (j := 0) rfl).2.2.1)
  ⟨tb, col, h, c1, by rw [e]; decide⟩

end Columnar

namespace Columnar
open Protocol Structure

theorem getD_drop_take_one (l : Bytes) (i : Nat) :
    ((l.drop i).take 1).getD 0 0 = l.getD i 0 := by
  rw [List.getD_eq_getElem?_getD, List.getD_eq_getElem?_getD, List.getElem?_take_of_lt (by omega),
    List.getElem?_drop, Nat.add_zero]

/-- `GetString(i)` on a decoded string column whose offsets of row `i` lie in
order inside the payload: the bytes of the payload between the two offsets. -/
theorem column_GetString {n : Nat} {c : ColumnWire} (hvs : valueSize c.type = none) {i : Nat}
    (hi : i < n)
    (hok : 0 ≤ c.offsetAt i ∧ c.offsetAt i ≤ c.offsetAt (i + 1)
      ∧ c.offsetAt (i + 1) ≤ (c.cells.length : Int)) :
    (c.column n).GetString i = .ok (c.stringAt i) := by
  have hcol : (c.column n).offsets = offsetsOf c.offsets (n + 1)
      ∧ (c.column n).data = c.cells := by
    unfold ColumnWire.column
    rw [hvs]
    exact ⟨rfl, rfl⟩
  have hget : ∀ k, k < n + 1 → (offsetsOf c.offsets (n + 1)).get? k = some (c.offsetAt k) := by
    intro k hk
    unfold offsetsOf ColumnWire.offsetAt
    rw [List.get?_eq_getElem?, List.getElem?_map, List.getElem?_range hk]
    rfl
  unfold Column.GetString
  rw [hcol.1, hcol.2, hget i (by omega), hget (i + 1) (by omega)]
  simp only []
  rw [if_pos hok]
  rfl

end Columnar

namespace Structure
open Protocol Columnar

/-- The value the property getter of a column reads at a row that is not
null, a cell of the column's type: the value of the row on the wire. -/
theorem propertyGetter_wire {n : Nat} {c : ColumnWire} (hn : n < 2 ^ 31) (hc : c.WF n)
    (hok : c.CellsOk n) :
    ∃ get, propertyGetter c.type = some get
      ∧ ∀ i, i < n → c.isSet i = true →
          ∃ v, wireValue c i = some v ∧ get (c.column n) i = .ok v := by
  obtain ⟨h1, h6, hb, hs⟩ := hok
  have hcases : c.type = 1 ∨ c.type = 2 ∨ c.type = 3 ∨ c.type = 4 ∨ c.type = 5 ∨ c.type = 6 := by
    omega
  rcases hcases with h | h | h | h | h | h
  · refine ⟨_, by rw [h]; rfl, fun i hi hset => ?_⟩
    refine ⟨.bool (c.boolAt i), by unfold wireValue; rw [h]; rfl, ?_⟩
    rw [column_GetBool hn hc (by rw [h]; rfl) hi, getD_drop_take_one]
    have h01 := hb h i hi hset
    have e : decide (c.cells.getD i 0 ≠ 0) = c.boolAt i := by
      unfold ColumnWire.boolAt
      rcases h01 with h0 | h0 <;> rw [h0] <;> decide
    rw [e]
    rfl
  · refine ⟨_, by rw [h]; rfl, fun i hi _ => ?_⟩
    refine ⟨.int32 (c.int32At i), by unfold wireValue; rw [h]; rfl, ?_⟩
    rw [column_GetInt32 hn hc (by rw [h]; rfl) hi]
    rfl
  · refine ⟨_, by rw [h]; rfl, fun i hi _ => ?_⟩
    refine ⟨.int64 (c.int64At i), by unfold wireValue; rw [h]; rfl, ?_⟩
    rw [column_GetInt64 hn hc (by rw [h]; rfl) hi]
    rfl
  · refine ⟨_, by rw [h]; rfl, fun i hi _ => ?_⟩
    refine ⟨.float32 (c.float32At i), by unfold wireValue; rw [h]; rfl, ?_⟩
    rw [column_GetFloat32 hn hc (by rw [h]; rfl) hi]
    rfl
  · refine ⟨_, by rw [h]; rfl, fun i hi _ => ?_⟩
    refine ⟨.float64 (c.float64At i), by unfold wireValue; rw [h]; rfl, ?_⟩
    rw [column_GetFloat64 hn hc (by rw [h]; rfl) hi]
    rfl
  · refine ⟨_, by rw [h]; rfl, fun i hi hset => ?_⟩
    refine ⟨.string (c.stringAt i), by unfold wireValue; rw [h]; rfl, ?_⟩
    rw [column_GetString (by rw [h]; rfl) hi (hs h i hi hset)]
    rfl

/-- The element the scalar getter of a column reads at a row that is not
null, a cell of the column's type: the scalar of the row on the wire. -/
theorem scalarGetter_wire {n : Nat} {c : ColumnWire} (hn : n < 2 ^ 31) (hc : c.WF n)
    (hok : c.CellsOk n) :
    ∃ get, scalarGetter c.type = some get
      ∧ ∀ i, i < n → c.isSet i = true →
          ∃ v, wireScalar c i = some v ∧ get (c.column n) i = .ok v := by
  obtain ⟨h1, h6, hb, hs⟩ := hok
  have hcases : c.type = 1 ∨ c.type = 2 ∨ c.type = 3 ∨ c.type = 4 ∨ c.type = 5 ∨ c.type = 6 := by
    omega
  rcases hcases with h | h | h | h | h | h
  · refine ⟨_, by rw [h]; rfl, fun i hi hset => ?_⟩
    refine ⟨.Bool (c.boolAt i), by unfold wireScalar; rw [h]; rfl, ?_⟩
    rw [column_GetBool hn hc (by rw [h]; rfl) hi, getD_drop_take_one]
    have h01 := hb h i hi hset
    have e : decide (c.cells.getD i 0 ≠ 0) = c.boolAt i := by
      unfold ColumnWire.boolAt
      rcases h01 with h0 | h0 <;> rw [h0] <;> decide
    rw [e]
    rfl
  · refine ⟨_, by rw [h]; rfl, fun i hi _ => ?_⟩
    refine ⟨.Int32 (c.int32At i), by unfold wireScalar; rw [h]; rfl, ?_⟩
    rw [column_GetInt32 hn hc (by rw [h]; rfl) hi]
    rfl
  · refine ⟨_, by rw [h]; rfl, fun i hi _ => ?_⟩
    refine ⟨.Int64 (c.int64At i), by unfold wireScalar; rw [h]; rfl, ?_⟩
    rw [column_GetInt64 hn hc (by rw [h]; rfl) hi]
    rfl
  · refine ⟨_, by rw [h]; rfl, fun i hi _ => ?_⟩
    refine ⟨.Float32 (c.float32At i), by unfold wireScalar; rw [h]; rfl, ?_⟩
    rw [column_GetFloat32 hn hc (by rw [h]; rfl) hi]
    rfl
  · refine ⟨_, by rw [h]; rfl, fun i hi _ => ?_⟩
    refine ⟨.Float64 (c.float64At i), by unfold wireScalar; rw [h]; rfl, ?_⟩
    rw [column_GetFloat64 hn hc (by rw [h]; rfl) hi]
    rfl
  · refine ⟨_, by rw [h]; rfl, fun i hi hset => ?_⟩
    refine ⟨.String (c.stringAt i), by unfold wireScalar; rw [h]; rfl, ?_⟩
    rw [column_GetString (by rw [h]; rfl) hi (hs h i hi hset)]
    rfl

/-- What the loop over the rows keeps of row `i`, by the null bitmap and the
getter. -/
theorem cellAt_wire {β : Type} {n : Nat} {c : ColumnWire} (hn : n < 2 ^ 31) (hc : c.WF n)
    (get : Column → Nat → Outcome β) (wire : Nat → Option β)
    (hget : ∀ i, i < n → c.isSet i = true → ∃ v, wire i = some v ∧ get (c.column n) i = .ok v)
    {i : Nat} (hi : i < n) :
    cellAt (c.column n) get i = if c.isSet i then wire i else none := by
  unfold cellAt
  rw [column_IsNull hn hc hi]
  cases hs : c.isSet i with
  | true =>
    obtain ⟨v, hv, hx⟩ := hget i hi hs
    have hs1 : (c.bitmap.getD (i / 8) 0).toNat.testBit (i % 8) = true := hs
    rw [hs1, hx, hv]
    rfl
  | false =>
    have hs1 : (c.bitmap.getD (i / 8) 0).toNat.testBit (i % 8) = false := hs
    rw [hs1]
    rfl

theorem propertyAt_wire {n : Nat} {c : ColumnWire} (hn : n < 2 ^ 31) (hc : c.WF n)
    (hok : c.CellsOk n) {i : Nat} (hi : i < n) : propertyAt n c i = wireProperty c i := by
  obtain ⟨get, hg, hget⟩ := propertyGetter_wire hn hc hok
  unfold propertyAt wireProperty
  rw [hg]
  dsimp only
  rw [cellAt_wire hn hc get (wireValue c) hget hi]
  cases c.isSet i <;> rfl

theorem propertiesAt_wire {skip : Bytes → Bool} {n : Nat} {cs : List ColumnWire}
    (hn : n < 2 ^ 31) (hwf : ∀ c ∈ cs, c.WF n)
    (hok : ∀ c ∈ cs, skip c.name = false → c.CellsOk n) {i : Nat} (hi : i < n) :
    propertiesAt skip n cs i = wireProperties skip cs i := by
  unfold propertiesAt wireProperties
  refine List.filterMap_congr ?_
  intro c hc
  obtain ⟨hc1, hc2⟩ := List.mem_filter.mp hc
  exact propertyAt_wire hn (hwf c hc1) (hok c hc1 (by simpa using hc2)) hi

theorem valuesOf_wire {n : Nat} {c : ColumnWire} (hn : n < 2 ^ 31) (hc : c.WF n)
    (hok : c.name ≠ VtxIdKey → c.name ≠ VtxTypeKey → c.CellsOk n) :
    valuesOf n c = wireValues n c := by
  unfold valuesOf wireValues
  by_cases hskip : c.name = VtxIdKey ∨ c.name = VtxTypeKey
  · rw [if_pos hskip, if_pos hskip]
  · rw [if_neg hskip, if_neg hskip]
    obtain ⟨get, hg, hget⟩ := scalarGetter_wire hn hc
      (hok (fun h => hskip (Or.inl h)) (fun h => hskip (Or.inr h)))
    rw [hg]
    dsimp only
    refine List.filterMap_congr ?_
    intro i hi
    exact cellAt_wire hn hc get (wireScalar c) hget (List.mem_range.mp hi)

end Structure

namespace Structure
open Protocol Columnar

theorem filterMap_ite_some {α β : Type} (p : α → Bool) (g : α → Option β) (f : α → β)
    (hg : ∀ a, g a = some (f a)) (l : List α) :
    l.filterMap (fun a => if p a then g a else none) = (l.filter p).map f := by
  have hgf : g = fun a => some (f a) := funext hg
  subst hgf
  induction l with
  | nil => rfl
  | cons a rest ih =>
    rw [List.filterMap_cons, List.filter_cons]
    cases hp : p a with
    | true =>
      simp only [if_true, List.map_cons]
      exact congrArg _ ih
    | false =>
      simp only [Bool.false_eq_true, if_false]
      exact ih

theorem wireValue_isSome {n : Nat} {c : ColumnWire} (hok : c.CellsOk n) (i : Nat) :
    ∃ v, wireValue c i = some v := by
  obtain ⟨h1, h6, _, _⟩ := hok
  have hcases : c.type = 1 ∨ c.type = 2 ∨ c.type = 3 ∨ c.type = 4 ∨ c.type = 5 ∨ c.type = 6 := by
    omega
  unfold wireValue
  rcases hcases with h | h | h | h | h | h <;> rw [h] <;> exact ⟨_, rfl⟩

theorem wireScalar_isSome {n : Nat} {c : ColumnWire} (hok : c.CellsOk n) (i : Nat) :
    ∃ v, wireScalar c i = some v := by
  obtain ⟨h1, h6, _, _⟩ := hok
  have hcases : c.type = 1 ∨ c.type = 2 ∨ c.type = 3 ∨ c.type = 4 ∨ c.type = 5 ∨ c.type = 6 := by
    omega
  unfold wireScalar
  rcases hcases with h | h | h | h | h | h <;> rw [h] <;> exact ⟨_, rfl⟩

theorem wireProperties_mem {skip : Bytes → Bool} {cs : List ColumnWire} {i : Nat} {p : Property}
    (h : p ∈ wireProperties skip cs i) :
    ∃ c ∈ cs, skip c.name = false ∧ c.isSet i = true ∧ p.Key = c.name
      ∧ wireValue c i = some p.Value := by
  unfold wireProperties at h
  obtain ⟨c, hc, hp⟩ := List.mem_filterMap.mp h
  obtain ⟨hc1, hc2⟩ := List.mem_filter.mp hc
  unfold wireProperty at hp
  cases hs : c.isSet i with
  | false => rw [hs] at hp; simp at hp
  | true =>
    rw [hs] at hp
    simp only [if_true] at hp
    cases hv : wireValue c i with
    | none => rw [hv] at hp; simp at hp
    | some v =>
      rw [hv] at hp
      simp only [Option.map_some', Option.some.injEq] at hp
      refine ⟨c, hc1, by simpa using hc2, hs, ?_, ?_⟩
      · rw [← hp]
      · rw [← hp]
        exact hv

/-- **C29** (`readColumnarVertex`, reached through `decodeColumnarBinType` with
the shape tag 8 or 16). The batch is well-formed with `n` rows, holds the
column `bg__to_client_vtx_id` of type `INT64` and the column
`bg__to_client_vtx_type` of type `INT32`, and its other columns have one of the
types bool, int32, int64, float, double, string, with cells of that type in the
rows that are not null (a bool cell is 0 or 1; the offsets of a string cell lie
in order inside the payload). Then the reader returns `n` vertices in row
order; vertex `i` has `Id` and `Type` from row `i` of the identity columns, and
its properties are, in schema order, one `Property(field name, value)` for each
column that is not an identity column and whose row `i` is not null, where the
value is the one the bytes of row `i` of the column hold on the wire: the
little-endian integer or float bits of its slot, the bool of its byte, or the
bytes of the payload between the offsets `i` and `i + 1`. No property carries
the name of an identity column; a column whose row `i` is null gives vertex `i`
no property, and any other column gives it the property with its name. -/
theorem C29_columnar_vertex (n : Nat) (cs : List ColumnWire) (pad : Bytes) (x : UInt8) (t : Nat)
    (ht : t = VertexType ∨ t = VertexWithPropertiesType)
    (h : BatchWF n cs pad) (hlen : (batchBytes n cs pad).length < 2 ^ 31)
    (idc tyc : ColumnWire) (hid : idc ∈ cs) (hty : tyc ∈ cs)
    (hidn : idc.name = ClientProtoVtxIdKey) (htyn : tyc.name = ClientProtoVtxTypeKey)
    (hidt : idc.type = ValueType_INT64) (htyt : tyc.type = ValueType_INT32)
    (hcols : ∀ c ∈ cs, ¬ (c.name = ClientProtoVtxIdKey ∨ c.name = ClientProtoVtxTypeKey) →
      c.CellsOk n) :
    Reads decodeColumnarBinType
        (x :: byte t :: (be32 (batchBytes n cs pad).length ++ batchBytes n cs pad))
        ((List.range n).map (fun i => Element.Vertex
          { Vertex.zero with
            Id := idc.int64At i, Type_ := tyc.int32At i,
            Properties := wireProperties (fun nm => decide (nm = ClientProtoVtxIdKey
              ∨ nm = ClientProtoVtxTypeKey)) cs i }))
      ∧ (∀ i, ∀ p ∈ wireProperties (fun nm => decide (nm = ClientProtoVtxIdKey
            ∨ nm = ClientProtoVtxTypeKey)) cs i,
          p.Key ≠ ClientProtoVtxIdKey ∧ p.Key ≠ ClientProtoVtxTypeKey)
      ∧ (∀ c ∈ cs, ¬ (c.name = ClientProtoVtxIdKey ∨ c.name = ClientProtoVtxTypeKey) →
          ∀ i, i < n →
            (c.isSet i = false → ∀ p ∈ wireProperties (fun nm => decide (nm = ClientProtoVtxIdKey
                ∨ nm = ClientProtoVtxTypeKey)) cs i, p.Key ≠ c.name)
            ∧ (c.isSet i = true → ∃ v, wireValue c i = some v
                ∧ ({ Key := c.name, Value := v } : Property)
                  ∈ wireProperties (fun nm => decide (nm = ClientProtoVtxIdKey
                      ∨ nm = ClientProtoVtxTypeKey)) cs i)) := by
  have hn := h.2.1
  have hwf := h.2.2.2.2.2.1
  have hnd := h.2.2.2.2.1
  have hcols1 : ∀ c ∈ cs, ¬ (c.name = ClientProtoVtxIdKey ∨ c.name = ClientProtoVtxTypeKey) →
      ∃ get, propertyGetter c.type = some get
        ∧ ∀ i < n, c.isSet i = true → ∃ x, get (c.column n) i = .ok x := by
    intro c hc hskip
    obtain ⟨get, hg, hget⟩ := propertyGetter_wire hn (hwf c hc) (hcols c hc hskip)
    exact ⟨get, hg, fun i hi hs => (hget i hi hs).imp (fun _ hv => hv.2)⟩
  refine ⟨?_, ?_, ?_⟩
  · refine decodeColumnarBinType_at x t (by rcases ht with rfl | rfl <;> decide) _ _ ?_
    have hr := reads_readColumnarVertex n cs pad h hlen idc tyc hid hty hidn htyn hidt htyt hcols1
    have hr1 : Reads readColumnarVertex
        (be32 (batchBytes n cs pad).length ++ batchBytes n cs pad)
        ((List.range n).map (fun i => Element.Vertex
          { Vertex.zero with
            Id := idc.int64At i, Type_ := tyc.int32At i,
            Properties := wireProperties (fun nm => decide (nm = ClientProtoVtxIdKey
              ∨ nm = ClientProtoVtxTypeKey)) cs i })) := by
      refine Reads_of_eq hr rfl (List.map_congr_left ?_)
      intro i hi
      rw [propertiesAt_wire hn hwf (fun c hc hs => hcols c hc (by simpa using hs))
        (List.mem_range.mp hi)]
    rcases ht with rfl | rfl
    · simp only [ForwardEdgeType, DoubleEdgeType, ForwardEdgeWithPropertiesType,
        DoubleEdgeWithPropertiesType, ReverseEdgeType, ReverseEdgeWithPropertiesType, VertexType,
        VertexWithPropertiesType, PropertyType, ValueType]
      simp only [Nat.reduceEqDiff, or_self, or_false, or_true, if_false, if_true]
      exact hr1
    · simp only [ForwardEdgeType, DoubleEdgeType, ForwardEdgeWithPropertiesType,
        DoubleEdgeWithPropertiesType, ReverseEdgeType, ReverseEdgeWithPropertiesType, VertexType,
        VertexWithPropertiesType, PropertyType, ValueType]
      simp only [Nat.reduceEqDiff, or_self, or_false, or_true, if_false, if_true]
      exact hr1
  · intro i p hp
    obtain ⟨c, _, hskip, _, hkey, _⟩ := wireProperties_mem hp
    rw [hkey]
    have : ¬ (c.name = ClientProtoVtxIdKey ∨ c.name = ClientProtoVtxTypeKey) := by
      simpa using hskip
    exact ⟨fun h => this (Or.inl h), fun h => this (Or.inr h)⟩
  · intro c hc hskip i _
    constructor
    · intro hs p hp hkey
      obtain ⟨d, hd, _, hset, hk, _⟩ := wireProperties_mem hp
      have hdc : d = c :=
        List.inj_on_of_nodup_map hnd hd hc (by rw [← hk, hkey])
      rw [hdc, hs] at hset
      exact Bool.false_ne_true hset
    · intro hs
      obtain ⟨v, hv⟩ := wireValue_isSome (hcols c hc hskip) i
      refine ⟨v, hv, ?_⟩
      unfold wireProperties
      refine List.mem_filterMap.mpr ⟨c, List.mem_filter.mpr ⟨hc, by simpa using hskip⟩, ?_⟩
      unfold wireProperty
      rw [hs, hv]
      rfl

/-- C29 at the batch of 2 rows with the identity columns `[10, 11]` and
`[1, 2]`, the `INT32` column `x` holding `[7, null]` and the `STRING` column
`s` holding `["ab", "c"]`. -/
theorem C29_columnar_vertex_witness :
    Reads decodeColumnarBinType
      (40 :: byte 8 :: (be32 (batchBytes 2
        [⟨ClientProtoVtxIdKey, 3, [3, 0, 0, 0, 0, 0, 0, 0], [],
          [10, 0, 0, 0, 0, 0, 0, 0, 11, 0, 0, 0, 0, 0, 0, 0]⟩,
         ⟨ClientProtoVtxTypeKey, 2, [3, 0, 0, 0, 0, 0, 0, 0], [], [1, 0, 0, 0, 2, 0, 0, 0]⟩,
         ⟨[120], 2, [1, 0, 0, 0, 0, 0, 0, 0], [], [7, 0, 0, 0, 0, 0, 0, 0]⟩,
         ⟨[115], 6, [3, 0, 0, 0, 0, 0, 0, 0],
          [0, 0, 0, 0, 2, 0, 0, 0, 3, 0, 0, 0, 0, 0, 0, 0],
          [97, 98, 99, 0, 0, 0, 0, 0]⟩] [0, 0, 0, 0]).length
        ++ batchBytes 2
        [⟨ClientProtoVtxIdKey, 3, [3, 0, 0, 0, 0, 0, 0, 0], [],
          [10, 0, 0, 0, 0, 0, 0, 0, 11, 0, 0, 0, 0, 0, 0, 0]⟩,
         ⟨ClientProtoVtxTypeKey, 2, [3, 0, 0, 0, 0, 0, 0, 0], [], [1, 0, 0, 0, 2, 0, 0, 0]⟩,
         ⟨[120], 2, [1, 0, 0, 0, 0, 0, 0, 0], [], [7, 0, 0, 0, 0, 0, 0, 0]⟩,
         ⟨[115], 6, [3, 0, 0, 0, 0, 0, 0, 0],
          [0, 0, 0, 0, 2, 0, 0, 0, 3, 0, 0, 0, 0, 0, 0, 0],
          [97, 98, 99, 0, 0, 0, 0, 0]⟩] [0, 0, 0, 0]))
      [.Vertex
          { Vertex.zero with
            Id := 10, Type_ := 1,
            Properties := [{ Key := [120], Value := .int32 7 },
              { Key := [115], Value := .string [97, 98] }] },
        .Vertex
          { Vertex.zero with
            Id := 11, Type_ := 2, Properties := [{ Key := [115], Value := .string [99] }] }] :=
  Reads_of_eq (C29_columnar_vertex 2
    [⟨ClientProtoVtxIdKey, 3, [3, 0, 0, 0, 0, 0, 0, 0], [],
          [10, 0, 0, 0, 0, 0, 0, 0, 11, 0, 0, 0, 0, 0, 0, 0]⟩,
         ⟨ClientProtoVtxTypeKey, 2, [3, 0, 0, 0, 0, 0, 0, 0], [], [1, 0, 0, 0, 2, 0, 0, 0]⟩,
         ⟨[120], 2, [1, 0, 0, 0, 0, 0, 0, 0], [], [7, 0, 0, 0, 0, 0, 0, 0]⟩,
         ⟨[115], 6, [3, 0, 0, 0, 0, 0, 0, 0],
          [0, 0, 0, 0, 2, 0, 0, 0, 3, 0, 0, 0, 0, 0, 0, 0],
          [97, 98, 99, 0, 0, 0, 0, 0]⟩] [0, 0, 0, 0] 40 8 (Or.inl rfl)
    ⟨by decide, by decide, by decide, by decide, by decide,
      fun c hc => by
        simp only [List.mem_cons, List.mem_singleton, List.not_mem_nil, or_false] at hc
        rcases hc with rfl | rfl | rfl | rfl
        · exact ⟨by decide, by decide, by decide, by decide, by decide⟩
        · exact ⟨by decide, by decide, by decide, by decide, by decide⟩
        · exact ⟨by decide, by decide, by decide, by decide, by decide⟩
        · exact ⟨by decide, by decide, by decide, by decide, by decide⟩,
      by rw [schemaBytes_length]; decide⟩
    (by rw [batchBytes_length, schemaBytes_length, dataBytes_length]; decide)
    ⟨ClientProtoVtxIdKey, 3, [3, 0, 0, 0, 0, 0, 0, 0], [],
      [10, 0, 0, 0, 0, 0, 0, 0, 11, 0, 0, 0, 0, 0, 0, 0]⟩
    ⟨ClientProtoVtxTypeKey, 2, [3, 0, 0, 0, 0, 0, 0, 0], [], [1, 0, 0, 0, 2, 0, 0, 0]⟩
    (by simp) (by simp) rfl rfl rfl rfl
    (fun c hc hskip => by
      simp only [List.mem_cons, List.mem_singleton, List.not_mem_nil, or_false] at hc
      rcases hc with rfl | rfl | rfl | rfl
      · exact absurd (Or.inl rfl) hskip
      · exact absurd (Or.inr rfl) hskip
      · exact ⟨by decide, by decide, fun h => absurd h (by decide),
          fun h => absurd h (by decide)⟩
      · refine ⟨by decide, by decide, fun h => absurd h (by decide), fun _ i hi _ => ?_⟩
        interval_cases i
        · exact ⟨by decide, by decide, by decide⟩
        · exact ⟨by decide, by decide, by decide⟩)).1 rfl rfl

end Structure

namespace Structure
open Protocol Columnar

/-- **C39** (`readValues`, reached through `decodeColumnarBinType` with the
shape tag 41). On a well-formed batch of `n` rows whose columns other than
`id` and `type` have one of the six scalar types, with cells of that type in
the rows that are not null (a bool cell is 0 or 1; the offsets of a string cell
lie in order inside the payload), the reader returns the concatenation, in
schema order, of what the columns contribute: nothing for a column named `id`
or `type`, and for any other column one scalar element for each row that is
not null, in increasing row order, namely the element of the column's type
(`Bool`, `Int32`, `Int64`, `Float32`, `Float64`, `String`) that the bytes of
the row hold on the wire. The length of the output is the number of cells that
are not null in the columns not named `id` or `type`. -/
theorem C39_read_values (n : Nat) (cs : List ColumnWire) (pad : Bytes) (x : UInt8)
    (h : BatchWF n cs pad) (hlen : (batchBytes n cs pad).length < 2 ^ 31)
    (hcols : ∀ c ∈ cs, c.name ≠ VtxIdKey → c.name ≠ VtxTypeKey → c.CellsOk n) :
    Reads decodeColumnarBinType
        (x :: byte 41 :: (be32 (batchBytes n cs pad).length ++ batchBytes n cs pad))
        ((cs.map (wireValues n)).flatten)
      ∧ (∀ c ∈ cs, c.name = VtxIdKey ∨ c.name = VtxTypeKey → wireValues n c = [])
      ∧ (∀ c ∈ cs, c.name ≠ VtxIdKey → c.name ≠ VtxTypeKey →
          ∃ f : Nat → Element, (∀ i, wireScalar c i = some (f i))
            ∧ wireValues n c = ((List.range n).filter c.isSet).map f
            ∧ (c.type = ValueType_BOOL → ∀ i, f i = .Bool (c.boolAt i))
            ∧ (c.type = ValueType_INT32 → ∀ i, f i = .Int32 (c.int32At i))
            ∧ (c.type = ValueType_INT64 → ∀ i, f i = .Int64 (c.int64At i))
            ∧ (c.type = ValueType_FLOAT → ∀ i, f i = .Float32 (c.float32At i))
            ∧ (c.type = ValueType_DOUBLE → ∀ i, f i = .Float64 (c.float64At i))
            ∧ (c.type = ValueType_STRING → ∀ i, f i = .String (c.stringAt i)))
      ∧ ((cs.map (wireValues n)).flatten).length
          = ((cs.filter (fun c => decide (¬ (c.name = VtxIdKey ∨ c.name = VtxTypeKey)))).map
              (fun c => ((List.range n).filter c.isSet).length)).sum := by
  have hn := h.2.1
  have hwf := h.2.2.2.2.2.1
  have hcols1 : ∀ c ∈ cs, c.name ≠ VtxIdKey → c.name ≠ VtxTypeKey →
      ∃ get, scalarGetter c.type = some get
        ∧ ∀ i < n, c.isSet i = true → ∃ x, get (c.column n) i = .ok x := by
    intro c hc h1 h2
    obtain ⟨get, hg, hget⟩ := scalarGetter_wire hn (hwf c hc) (hcols c hc h1 h2)
    exact ⟨get, hg, fun i hi hs => (hget i hi hs).imp (fun _ hv => hv.2)⟩
  have hmap : cs.map (valuesOf n) = cs.map (wireValues n) :=
    List.map_congr_left (fun c hc => valuesOf_wire hn (hwf c hc) (hcols c hc))
  refine ⟨?_, ?_, ?_, ?_⟩
  · refine decodeColumnarBinType_at x 41 (by decide) _ _ ?_
    simp only [ForwardEdgeType, DoubleEdgeType, ForwardEdgeWithPropertiesType,
      DoubleEdgeWithPropertiesType, ReverseEdgeType, ReverseEdgeWithPropertiesType, VertexType,
      VertexWithPropertiesType, PropertyType, ValueType]
    simp only [Nat.reduceEqDiff, or_self, if_false, if_true]
    rw [← hmap]
    exact reads_readValues n cs pad h hlen hcols1
  · intro c _ hskip
    simp [wireValues, hskip]
  · intro c hc h1 h2
    have hskip : ¬ (c.name = VtxIdKey ∨ c.name = VtxTypeKey) := fun h => h.elim h1 h2
    have hok := hcols c hc h1 h2
    refine ⟨fun i => (wireScalar c i).getD (.Bool false), ?_, ?_, ?_⟩
    · intro i
      obtain ⟨v, hv⟩ := wireScalar_isSome hok i
      show wireScalar c i = some ((wireScalar c i).getD (.Bool false))
      rw [hv]
      rfl
    · unfold wireValues
      rw [if_neg hskip]
      refine filterMap_ite_some _ _ _ ?_ _
      intro i
      obtain ⟨v, hv⟩ := wireScalar_isSome hok i
      show wireScalar c i = some ((wireScalar c i).getD (.Bool false))
      rw [hv]
      rfl
    · unfold wireScalar
      refine ⟨?_, ?_, ?_, ?_, ?_, ?_⟩ <;> intro ht i <;> rw [ht] <;> rfl
  · rw [← hmap]
    exact sum_valuesOf_length hn cs hwf hcols1

/-- C39 at the batch of 3 rows with the `INT64` column `id`, the `INT32`
column `x` holding `[1, null, 3]` and the `BOOL` column `b` holding
`[true, false, null]`: the values are `[1, 3, true, false]`. -/
theorem C39_read_values_witness :
    Reads decodeColumnarBinType
      (40 :: byte 41 :: (be32 (batchBytes 3
        [⟨[105, 100], 3, [7, 0, 0, 0, 0, 0, 0, 0], [],
          [9, 0, 0, 0, 0, 0, 0, 0, 8, 0, 0, 0, 0, 0, 0, 0, 7, 0, 0, 0, 0, 0, 0, 0]⟩,
         ⟨[120], 2, [5, 0, 0, 0, 0, 0, 0, 0], [],
          [1, 0, 0, 0, 0, 0, 0, 0, 3, 0, 0, 0, 0, 0, 0, 0]⟩,
         ⟨[98], 1, [3, 0, 0, 0, 0, 0, 0, 0], [], [1, 0, 0, 0, 0, 0, 0, 0]⟩] []).length
        ++ batchBytes 3
        [⟨[105, 100], 3, [7, 0, 0, 0, 0, 0, 0, 0], [],
          [9, 0, 0, 0, 0, 0, 0, 0, 8, 0, 0, 0, 0, 0, 0, 0, 7, 0, 0, 0, 0, 0, 0, 0]⟩,
         ⟨[120], 2, [5, 0, 0, 0, 0, 0, 0, 0], [],
          [1, 0, 0, 0, 0, 0, 0, 0, 3, 0, 0, 0, 0, 0, 0, 0]⟩,
         ⟨[98], 1, [3, 0, 0, 0, 0, 0, 0, 0], [], [1, 0, 0, 0, 0, 0, 0, 0]⟩] []))
      [.Int32 1, .Int32 3, .Bool true, .Bool false] :=
  (C39_read_values 3
    [⟨[105, 100], 3, [7, 0, 0, 0, 0, 0, 0, 0], [],
      [9, 0, 0, 0, 0, 0, 0, 0, 8, 0, 0, 0, 0, 0, 0, 0, 7, 0, 0, 0, 0, 0, 0, 0]⟩,
     ⟨[120], 2, [5, 0, 0, 0, 0, 0, 0, 0], [],
      [1, 0, 0, 0, 0, 0, 0, 0, 3, 0, 0, 0, 0, 0, 0, 0]⟩,
     ⟨[98], 1, [3, 0, 0, 0, 0, 0, 0, 0], [], [1, 0, 0, 0, 0, 0, 0, 0]⟩] [] 40
    ⟨by decide, by decide, by decide, by decide, by decide,
      fun c hc => by
        simp only [List.mem_cons, List.mem_singleton, List.not_mem_nil, or_false] at hc
        rcases hc with rfl | rfl | rfl
        · exact ⟨by decide, by decide, by decide, by decide, by decide⟩
        · exact ⟨by decide, by decide, by decide, by decide, by decide⟩
        · exact ⟨by decide, by decide, by decide, by decide, by decide⟩,
      by rw [schemaBytes_length]; decide⟩
    (by rw [batchBytes_length, schemaBytes_length, dataBytes_length]; decide)
    (fun c hc h1 _ => by
      simp only [List.mem_cons, List.mem_singleton, List.not_mem_nil, or_false] at hc
      rcases hc with rfl | rfl | rfl
      · exact absurd rfl h1
      · exact ⟨by decide, by decide, fun h => absurd h (by decide),
          fun h => absurd h (by decide)⟩
      · refine ⟨by decide, by decide, fun _ i hi _ => ?_, fun h => absurd h (by decide)⟩
        interval_cases i
        · exact Or.inr (by decide)
        · exact Or.inl (by decide)
        · exact Or.inl (by decide))).1

end Structure

namespace Structure
open Protocol

theorem baseWire_kind {k : Element} (h : baseWire k) :
    (scalarKey k ∧ pointerKind k = 0) ∨ (pointerKind k ≠ 0 ∧ hashable k = true) := by
  cases k <;> first
    | exact Or.inl ⟨h, rfl⟩
    | exact Or.inr ⟨by simp [pointerKind], rfl⟩

theorem baseWire_hashable {k : Element} (h : baseWire k) : hashable k = true := by
  cases k <;> first | rfl | exact absurd h (by simp [baseWire])

theorem locEq_pointer {a b : Nat × Element} (h : pointerKind a.2 ≠ 0) :
    locEq a b = decide (pointerKind a.2 = pointerKind b.2 ∧ a.1 = b.1) := by
  unfold locEq
  rw [if_neg (fun hh => h hh.1)]

theorem locEq_pointer_right {a b : Nat × Element} (h : pointerKind b.2 ≠ 0) :
    locEq a b = decide (pointerKind a.2 = pointerKind b.2 ∧ a.1 = b.1) := by
  unfold locEq
  rw [if_neg (fun hh => h hh.2)]

theorem locEq_scalar {a b : Nat × Element} (ha : pointerKind a.2 = 0) (hb : pointerKind b.2 = 0) :
    locEq a b = keyEq a.2 b.2 := by
  unfold locEq
  rw [if_pos ⟨ha, hb⟩]

/-- Go `==` on two keys of the wire is symmetric. -/
theorem locEq_symm {a b : Nat × Element} (ha : wireKey a.2) (hb : wireKey b.2) :
    locEq a b = locEq b a := by
  rcases baseWire_kind ha with ⟨sa, pa⟩ | ⟨pa, _⟩
  · rcases baseWire_kind hb with ⟨sb, pb⟩ | ⟨pb, _⟩
    · rw [locEq_scalar pa pb, locEq_scalar pb pa, keyEq_symm sa sb]
    · rw [locEq_pointer_right pb, locEq_pointer pb]
      rw [Bool.eq_iff_iff]
      simp only [decide_eq_true_eq]
      exact ⟨fun h => ⟨h.1.symm, h.2.symm⟩, fun h => ⟨h.1.symm, h.2.symm⟩⟩
  · rw [locEq_pointer pa, locEq_pointer_right pa]
    rw [Bool.eq_iff_iff]
    simp only [decide_eq_true_eq]
    exact ⟨fun h => ⟨h.1.symm, h.2.symm⟩, fun h => ⟨h.1.symm, h.2.symm⟩⟩

/-- Go `==` on keys of the wire is transitive. -/
theorem locEq_trans {a b c : Nat × Element} (ha : wireKey a.2) (hb : wireKey b.2)
    (hc : wireKey c.2) (h1 : locEq a b = true) (h2 : locEq b c = true) : locEq a c = true := by
  rcases baseWire_kind hb with ⟨sb, pb⟩ | ⟨pb, _⟩
  · rcases baseWire_kind ha with ⟨sa, pa⟩ | ⟨pa, _⟩
    · rcases baseWire_kind hc with ⟨sc, pc⟩ | ⟨pc, _⟩
      · rw [locEq_scalar pa pb] at h1
        rw [locEq_scalar pb pc] at h2
        rw [locEq_scalar pa pc]
        exact keyEq_trans sa sb sc h1 h2
      · rw [locEq_pointer_right pc] at h2
        simp only [decide_eq_true_eq] at h2
        exact absurd (h2.1 ▸ pb) pc
    · rw [locEq_pointer pa] at h1
      simp only [decide_eq_true_eq] at h1
      exact absurd (h1.1 ▸ pb) pa
  · rw [locEq_pointer_right pb] at h1
    rw [locEq_pointer pb] at h2
    simp only [decide_eq_true_eq] at h1 h2
    have pa : pointerKind a.2 ≠ 0 := by rw [h1.1]; exact pb
    rw [locEq_pointer pa]
    simp only [decide_eq_true_eq]
    exact ⟨h1.1.trans h2.1, h1.2.trans h2.2⟩

/-- A pointer key is equal to itself. -/
theorem locEq_self_pointer {a : Nat × Element} (h : pointerKind a.2 ≠ 0) : locEq a a = true := by
  rw [locEq_pointer h]
  simp

theorem mem_putLinked_self (r : List ((Nat × Element) × Element))
    (kv : (Nat × Element) × Element) : kv ∈ putLinked r kv := by
  unfold putLinked
  split
  · rename_i h
    obtain ⟨e, he, hk⟩ := List.any_eq_true.mp h
    exact List.mem_map.mpr ⟨e, he, by rw [if_pos hk]⟩
  · exact List.mem_append_right _ (List.mem_singleton_self _)

theorem mem_putLinked_of_mem {r : List ((Nat × Element) × Element)}
    {kv e : (Nat × Element) × Element}
    (he : e ∈ r) (hk : locEq e.1 kv.1 = false) : e ∈ putLinked r kv := by
  unfold putLinked
  split
  · exact List.mem_map.mpr ⟨e, he, by rw [if_neg (by rw [hk]; exact Bool.false_ne_true)]⟩
  · exact List.mem_append_left _ he

theorem mem_putLinked {r : List ((Nat × Element) × Element)} {kv x : (Nat × Element) × Element}
    (hx : x ∈ putLinked r kv) : x = kv ∨ (x ∈ r ∧ locEq x.1 kv.1 = false) := by
  unfold putLinked at hx
  split at hx
  · obtain ⟨e, he, hxe⟩ := List.mem_map.mp hx
    by_cases hk : locEq e.1 kv.1 = true
    · rw [if_pos hk] at hxe
      exact Or.inl hxe.symm
    · rw [if_neg hk] at hxe
      subst hxe
      exact Or.inr ⟨he, by simpa using hk⟩
  · rename_i hany
    rcases List.mem_append.mp hx with h | h
    · refine Or.inr ⟨h, ?_⟩
      cases hk : locEq x.1 kv.1
      · rfl
      · exact absurd (List.any_eq_true.mpr ⟨x, h, hk⟩) hany
    · exact Or.inl (List.mem_singleton.mp h)

theorem length_putLinked (r : List ((Nat × Element) × Element))
    (kv : (Nat × Element) × Element) :
    (putLinked r kv).length
      = if r.any (fun e => locEq e.1 kv.1) then r.length else r.length + 1 := by
  unfold putLinked
  split <;> simp

theorem distinct_putLinked {r : List ((Nat × Element) × Element)}
    {kv : (Nat × Element) × Element}
    (hd : DistinctLinked r) (hr : ∀ e ∈ r, wireKey e.1.2) (hkv : wireKey kv.1.2) :
    DistinctLinked (putLinked r kv) := by
  unfold putLinked
  split
  · unfold DistinctLinked
    rw [List.pairwise_map]
    refine List.Pairwise.imp_of_mem ?_ hd
    intro a b ha hb hab
    have sa := hr a ha
    have sb := hr b hb
    by_cases h1 : locEq a.1 kv.1 = true <;> by_cases h2 : locEq b.1 kv.1 = true
    · exfalso
      have h3 : locEq kv.1 b.1 = true := by rw [locEq_symm hkv sb]; exact h2
      have := locEq_trans sa hkv sb h1 h3
      rw [hab] at this
      exact Bool.false_ne_true this
    · rw [if_pos h1, if_neg h2]
      cases h3 : locEq kv.1 b.1
      · rfl
      · exact absurd (by rw [locEq_symm sb hkv]; exact h3) h2
    · rw [if_neg h1, if_pos h2]
      cases h3 : locEq a.1 kv.1
      · rfl
      · exact absurd h3 h1
    · rw [if_neg h1, if_neg h2]
      exact hab
  · rename_i hany
    unfold DistinctLinked
    rw [List.pairwise_append]
    refine ⟨hd, List.pairwise_singleton _ _, ?_⟩
    intro a ha b hb
    rw [List.mem_singleton.mp hb]
    cases hk : locEq a.1 kv.1
    · rfl
    · exact absurd (List.any_eq_true.mpr ⟨a, ha, hk⟩) hany

theorem lastLinked_mem {l : List ((Nat × Element) × Element)} {e : (Nat × Element) × Element}
    (h : LastLinked l e) : e ∈ l := by
  obtain ⟨pre, post, hp, _⟩ := h
  rw [hp]
  exact List.mem_append_right _ (List.mem_cons_self _ _)

/-- What the loop `Elems[key] = value` over located entries builds: the
entries of the map are the last occurrences of the keys, no two of them have
equal keys, and the map is shorter than the sequence exactly when a key is
repeated in it. -/
theorem foldl_putLinked_spec (l : List ((Nat × Element) × Element))
    (hk : ∀ kv ∈ l, wireKey kv.1.2) :
    (∀ e, e ∈ l.foldl putLinked [] ↔ LastLinked l e)
    ∧ DistinctLinked (l.foldl putLinked [])
    ∧ (l.foldl putLinked []).length ≤ l.length
    ∧ ((l.foldl putLinked []).length < l.length ↔ ¬ DistinctLinked l)
    ∧ (∀ e ∈ l, ∀ k, wireKey k.2 → locEq e.1 k = true →
        ∃ e1 ∈ l.foldl putLinked [], locEq e1.1 k = true) := by
  induction l using List.reverseRecOn with
  | nil =>
    refine ⟨?_, List.Pairwise.nil, Nat.le_refl _, ?_, ?_⟩
    · intro e
      constructor
      · intro h; cases h
      · intro h; exact absurd (lastLinked_mem h) (List.not_mem_nil _)
    · constructor
      · intro h; exact absurd h (Nat.lt_irrefl _)
      · intro h; exact absurd List.Pairwise.nil h
    · intro e he; cases he
  | append_singleton init kv ih =>
    have hki : ∀ q ∈ init, wireKey q.1.2 := fun q hq => hk q (List.mem_append_left _ hq)
    have hkv : wireKey kv.1.2 := hk kv (List.mem_append_right _ (List.mem_singleton_self _))
    obtain ⟨ih1, ih2, ih3, ih4, ih5⟩ := ih hki
    have hsub : ∀ e ∈ init.foldl putLinked [], e ∈ init :=
      fun e he => lastLinked_mem ((ih1 e).mp he)
    have hkr : ∀ e ∈ init.foldl putLinked [], wireKey e.1.2 := fun e he => hki e (hsub e he)
    rw [List.foldl_append, List.foldl_cons, List.foldl_nil]
    refine ⟨?_, distinct_putLinked ih2 hkr hkv, ?_, ?_, ?_⟩
    · intro x
      constructor
      · intro hx
        rcases mem_putLinked hx with rfl | ⟨hxr, hxk⟩
        · exact ⟨init, [], rfl, fun q hq => absurd hq (List.not_mem_nil _)⟩
        · obtain ⟨pre, post, hp, hpost⟩ := (ih1 x).mp hxr
          refine ⟨pre, post ++ [kv], by rw [hp]; simp, ?_⟩
          intro q hq
          rcases List.mem_append.mp hq with h | h
          · exact hpost q h
          · rw [List.mem_singleton.mp h, locEq_symm hkv (hkr x hxr)]
            exact hxk
      · rintro ⟨pre, post, hp, hpost⟩
        rcases List.eq_nil_or_concat post with rfl | ⟨L, b, hpb⟩
        · have h := List.append_inj' (show pre ++ [x] = init ++ [kv] from hp.symm) rfl
          rw [List.singleton_inj.mp h.2]
          exact mem_putLinked_self _ _
        · rw [List.concat_eq_append] at hpb
          subst hpb
          have h := List.append_inj'
            (show (pre ++ x :: L) ++ [b] = init ++ [kv] by rw [hp]; simp) rfl
          have hb : b = kv := List.singleton_inj.mp h.2
          have hx : x ∈ init.foldl putLinked [] :=
            (ih1 x).mpr ⟨pre, L, h.1.symm, fun q hq =>
              hpost q (List.mem_append_left _ hq)⟩
          refine mem_putLinked_of_mem hx ?_
          rw [locEq_symm (hkr x hx) hkv, ← hb]
          exact hpost b (List.mem_append_right _ (List.mem_singleton_self _))
    · rw [length_putLinked, List.length_append, List.length_singleton]
      split <;> omega
    · rw [length_putLinked, List.length_append, List.length_singleton]
      unfold DistinctLinked
      rw [List.pairwise_append]
      split
      · rename_i hany
        obtain ⟨e, he, hek⟩ := List.any_eq_true.mp hany
        constructor
        · intro _ hd
          have := hd.2.2 e (hsub e he) kv (List.mem_singleton_self _)
          rw [hek] at this
          exact Bool.noConfusion this
        · intro _
          omega
      · rename_i hany
        have hno : ∀ a ∈ init, locEq a.1 kv.1 = false := by
          intro a ha
          cases hak : locEq a.1 kv.1
          · rfl
          · obtain ⟨e1, he1, hk1⟩ := ih5 a ha kv.1 hkv hak
            exact absurd (List.any_eq_true.mpr ⟨e1, he1, hk1⟩) hany
        constructor
        · intro hlt hd
          exact (ih4.mp (by omega)) hd.1
        · intro hd
          have : ¬ DistinctLinked init := by
            intro hdi
            exact hd ⟨hdi, List.pairwise_singleton _ _, fun a ha b hb => by
              rw [List.mem_singleton.mp hb]; exact hno a ha⟩
          have := ih4.mpr this
          omega
    · intro e he k sk hek
      rcases List.mem_append.mp he with h | h
      · obtain ⟨e1, he1, hk1⟩ := ih5 e h k sk hek
        cases h2 : locEq e1.1 kv.1
        · exact ⟨e1, mem_putLinked_of_mem he1 h2, hk1⟩
        · refine ⟨kv, mem_putLinked_self _ _, ?_⟩
          have h3 : locEq kv.1 e1.1 = true := by rw [locEq_symm hkv (hkr e1 he1)]; exact h2
          exact locEq_trans hkv (hkr e1 he1) sk h3 hk1
      · rw [List.mem_singleton.mp h] at hek
        exact ⟨kv, mem_putLinked_self _ _, hek⟩

end Structure

namespace Structure
open Protocol

theorem linkedAssign_ok (r : List ((Nat × Element) × Element)) {key : Nat × Element}
    (value : Element) (hk : hashable key.2 = true) :
    linkedAssign r key value = .ok (putLinked r (key, value)) := by
  unfold linkedAssign putLinked
  rw [if_pos hk]
  split <;> rfl

theorem locate_length (k : Nat) (pairs : List (Element × Element)) :
    (locate k pairs).length = pairs.length := by
  induction pairs generalizing k with
  | nil => rfl
  | cons kv rest ih => simp [locate, ih]

theorem locate_append (k : Nat) (a b : List (Element × Element)) :
    locate k (a ++ b) = locate k a ++ locate (k + a.length) b := by
  induction a generalizing k with
  | nil => simp [locate]
  | cons kv rest ih =>
    show ((k, kv.1), kv.2) :: locate (k + 1) (rest ++ b)
      = ((k, kv.1), kv.2) :: (locate (k + 1) rest ++ locate (k + (rest.length + 1)) b)
    rw [ih, show k + 1 + rest.length = k + (rest.length + 1) by omega]

/-- Entry `i` of the located entries of the wire. -/
theorem locate_getElem? (k : Nat) (pairs : List (Element × Element)) (i : Nat) :
    (locate k pairs)[i]? = (pairs[i]?).map (fun kv => ((k + i, kv.1), kv.2)) := by
  induction pairs generalizing k i with
  | nil => simp [locate]
  | cons kv rest ih =>
    cases i with
    | zero => simp [locate]
    | succ j =>
      simp only [locate, List.getElem?_cons_succ, ih]
      rw [show k + 1 + j = k + (j + 1) by omega]

/-- Every located entry of the wire has its key and value from the wire and an
address from `k` on. -/
theorem mem_locate {k : Nat} {pairs : List (Element × Element)}
    {e : (Nat × Element) × Element} (h : e ∈ locate k pairs) :
    (e.1.2, e.2) ∈ pairs ∧ k ≤ e.1.1 := by
  induction pairs generalizing k with
  | nil => cases h
  | cons kv rest ih =>
    simp only [locate, List.mem_cons] at h
    rcases h with rfl | h
    · exact ⟨List.mem_cons_self _ _, Nat.le_refl _⟩
    · obtain ⟨h1, h2⟩ := ih h
      exact ⟨List.mem_cons_of_mem _ h1, by omega⟩

/-- The loop of the `LinkedMapType` case on entries with hashable keys. -/
theorem reads_decodeLinkedEntries {dec : Dec Element} (pairs : List (Element × Element))
    (hk : ∀ kv ∈ pairs, hashable kv.1 = true)
    (h : ∀ kv ∈ pairs, Reads dec (encOf kv.1) kv.1 ∧ Reads dec (encOf kv.2) kv.2)
    (ks : List (Nat × Element)) (acc : List ((Nat × Element) × Element)) :
    Reads (decodeLinkedEntries dec pairs.length ks acc) (encPairsOf pairs)
      (ks ++ (locate ks.length pairs).map Prod.fst,
        (locate ks.length pairs).foldl putLinked acc) := by
  induction pairs generalizing ks acc with
  | nil => simpa [decodeLinkedEntries, encPairsOf, locate] using Reads_pure (ks, acc)
  | cons kv rest ih =>
    obtain ⟨h1, h2⟩ := h kv (List.mem_cons_self _ _)
    have hkv := hk kv (List.mem_cons_self _ _)
    have h3 := ih (fun q hq => hk q (List.mem_cons_of_mem _ hq))
      (fun q hq => h q (List.mem_cons_of_mem _ hq)) (ks ++ [(ks.length, kv.1)])
      (putLinked acc ((ks.length, kv.1), kv.2))
    rw [List.length_append, List.length_singleton] at h3
    show Reads (decodeLinkedEntries dec (rest.length + 1) ks acc) _ _
    unfold decodeLinkedEntries
    refine Reads_bind h1 (Reads_bind h2 ?_)
    rw [linkedAssign_ok acc kv.2 (show hashable (ks.length, kv.1).2 = true from hkv)]
    exact Reads_of_eq (Reads_bind (Reads_lift _) h3) (by simp) (by simp [locate])

/-- The `LinkedMapType` case on a count and that many entries with hashable
keys. -/
theorem reads_LinkedMapSwitch {self : Bool → Dec Element} (us : Bool)
    (pairs : List (Element × Element))
    (hn : pairs.length < 2 ^ 31) (hk : ∀ kv ∈ pairs, hashable kv.1 = true)
    (h : ∀ kv ∈ pairs, Reads (self us) (encOf kv.1) kv.1 ∧ Reads (self us) (encOf kv.2) kv.2) :
    Reads (DecodeExSwitch self us LinkedMapType) (be32 pairs.length ++ encPairsOf pairs)
      (.LinkedMap (linkedWire pairs) (linkedKeys pairs)) := by
  have hv : isInt32 (pairs.length : Int) := by unfold isInt32; omega
  rw [switch_LinkedMap]
  refine Reads_bind (reads_ReadInt32 hv) ?_
  rw [if_neg (by omega), Int.toNat_ofNat]
  exact Reads_of_eq (Reads_bind (reads_decodeLinkedEntries pairs hk h [] []) (Reads_pure _))
    (by simp) rfl

/-- Decoding a `LinkedMap` payload whose keys are scalars, properties, vertices
or edges and whose keys and values round-trip. -/
theorem decode_LinkedMap (pairs : List (Element × Element)) (hn : pairs.length < 2 ^ 31)
    (hk : ∀ kv ∈ pairs, wireKey kv.1) (hv : ∀ kv ∈ pairs, RoundTrips kv.2)
    (w : baseReader) (rest : Bytes)
    (hat : w.At (byte 32 :: (be32 pairs.length ++ (encPairsOf pairs ++ rest)))) :
    DecodeEx false w
      = (.ok (.LinkedMap (linkedWire pairs) (linkedKeys pairs)),
          w.adv (5 + (encPairsOf pairs).length)) := by
  have hlen := At_length hat
  simp only [List.length_cons, List.length_append, be32_length] at hlen
  have hat1 : w.At ((byte 32 :: (be32 pairs.length ++ encPairsOf pairs)) ++ rest) := by
    simpa [List.append_assoc] using hat
  rw [DecodeEx_eq]
  have hr : Reads (DecodeExBody (DecodeExFuel (w.b.length - w.p)) false)
      (byte 32 :: (be32 pairs.length ++ encPairsOf pairs))
      (.LinkedMap (linkedWire pairs) (linkedKeys pairs)) := by
    refine reads_DecodeExBody (t := 32) (by decide) ?_
    refine reads_LinkedMapSwitch false pairs hn (fun kv hkv => baseWire_hashable (hk kv hkv)) ?_
    intro kv hkv
    obtain ⟨l1, l2⟩ := encOf_key_le hkv
    exact ⟨(roundTrips_of_baseWire _ (hk kv hkv)).2 _ (by omega),
      (hv kv hkv).2 _ (by omega)⟩
  have := (hr w rest hat1).1
  rw [this, List.length_cons, List.length_append, be32_length,
    show 4 + (encPairsOf pairs).length + 1 = 5 + (encPairsOf pairs).length by omega]

end Structure

namespace Structure
open Protocol

/-- Go `lm.Elems[key]` finds the one entry whose key is equal to `key`. -/
theorem linkedIndex_of_unique {β : Type} {tbl : List ((Nat × Element) × β)} {k : Nat × Element}
    {e : (Nat × Element) × β}
    (hh : hashable k.2 = true) (he : e ∈ tbl) (hek : locEq e.1 k = true)
    (hu : ∀ x ∈ tbl, locEq x.1 k = true → x = e) : linkedIndex tbl k = .ok (some e.2) := by
  unfold linkedIndex
  rw [if_pos hh]
  have : tbl.find? (fun kv => locEq kv.1 k) = some e := by
    induction tbl with
    | nil => cases he
    | cons x rest ih =>
      by_cases hx : locEq x.1 k = true
      · simp only [List.find?_cons, hx]
        rw [hu x (List.mem_cons_self _ _) hx]
      · simp only [List.find?_cons, Bool.not_eq_true _ ▸ hx]
        rcases List.mem_cons.mp he with rfl | h1
        · exact absurd hek hx
        · exact ih h1 (fun y hy => hu y (List.mem_cons_of_mem _ hy))
  rw [this]

theorem valueTable_eq (elems : List ((Nat × Element) × Element)) :
    valueTable elems = elems.map (fun e => (e.1, EncodeTo e.2 [])) := by
  induction elems with
  | nil => simp [valueTable]
  | cons x rest ih => obtain ⟨k, v⟩ := x; simp [valueTable, ih]

theorem eqValues_eq (ss : Element → Outcome Bytes) (elems : List ((Nat × Element) × Element))
    (strict : Bool) :
    eqValues ss elems strict = elems.map (fun e => (e.1, fun x => Eq ss e.2 x strict)) := by
  induction elems with
  | nil => simp [eqValues]
  | cons x rest ih => obtain ⟨k, v⟩ := x; simp [eqValues, ih]

theorem eqKeys_eq (ss : Element → Outcome Bytes) (keys : List (Nat × Element)) (strict : Bool) :
    eqKeys ss keys strict = keys.map (fun k => (k, fun x => Eq ss k.2 x strict)) := by
  induction keys with
  | nil => simp [eqKeys]
  | cons x rest ih => simp [eqKeys, ih]

/-- Go `lm.Elems[key]` on a table made from the entries of the map. -/
theorem linkedIndex_map {β : Type} (f : Element → β) {elems : List ((Nat × Element) × Element)}
    {k : Nat × Element} {e : (Nat × Element) × Element}
    (hh : hashable k.2 = true) (he : e ∈ elems) (hek : locEq e.1 k = true)
    (hu : ∀ x ∈ elems, locEq x.1 k = true → x = e) :
    linkedIndex (elems.map (fun x => (x.1, f x.2))) k = .ok (some (f e.2)) := by
  refine @linkedIndex_of_unique β _ k (e.1, f e.2) hh (List.mem_map.mpr ⟨e, he, rfl⟩) hek ?_
  intro x hx hxk
  obtain ⟨y, hy, rfl⟩ := List.mem_map.mp hx
  rw [hu y hy hxk]

/-- In a list of entries with keys of the wire no two of which are equal, the
only entry with a key equal to the key of an entry is that entry. -/
theorem distinct_unique {l : List ((Nat × Element) × Element)} (hd : DistinctLinked l)
    (hk : ∀ kv ∈ l, wireKey kv.1.2) {kv : (Nat × Element) × Element} (hkv : kv ∈ l) :
    ∀ e ∈ l, locEq e.1 kv.1 = true → e = kv := by
  intro e he hek
  by_contra hne
  have hd2 : l.Pairwise
      (fun a b => locEq a.1 b.1 = false ∧ locEq b.1 a.1 = false) := by
    refine List.Pairwise.imp_of_mem ?_ hd
    intro a b ha hb hab
    exact ⟨hab, by rw [locEq_symm (hk b hb) (hk a ha)]; exact hab⟩
  have := List.Pairwise.forall (fun a b h => ⟨h.2, h.1⟩) hd2 he hkv hne
  rw [this.1] at hek
  exact Bool.false_ne_true hek

theorem foldl_putLinked_of_distinct (l : List ((Nat × Element) × Element))
    (hd : DistinctLinked l) : l.foldl putLinked [] = l := by
  induction l using List.reverseRecOn with
  | nil => rfl
  | append_singleton init kv ih =>
    unfold DistinctLinked at hd
    rw [List.pairwise_append] at hd
    obtain ⟨h1, _, h3⟩ := hd
    rw [List.foldl_append, List.foldl_cons, List.foldl_nil, ih h1]
    unfold putLinked
    rw [if_neg]
    simp only [List.any_eq_true, not_exists, not_and, Bool.not_eq_true]
    intro e he
    exact h3 e he kv (List.mem_singleton_self _)

/-- Go `==` on two keys looks at their addresses only to tell whether they are
the same. -/
theorem locEq_congr {a b c d : Nat × Element} (hac : a.2 = c.2) (hbd : b.2 = d.2)
    (h : a.1 = b.1 ↔ c.1 = d.1) : locEq a b = locEq c d := by
  unfold locEq
  rw [hac, hbd]
  split
  · rfl
  · rw [Bool.eq_iff_iff]
    simp only [decide_eq_true_eq]
    rw [h]

/-- The entries of a `LinkedMap` no two keys of which are equal, located anew
from `k` on: again no two keys are equal. -/
theorem distinct_locate (X : List ((Nat × Element) × Element)) (hd : DistinctLinked X)
    (k : Nat) : DistinctLinked (locate k (unlocate X)) := by
  induction X generalizing k with
  | nil => exact List.Pairwise.nil
  | cons x rest ih =>
    unfold DistinctLinked at hd ⊢
    rw [List.pairwise_cons] at hd
    show List.Pairwise _ (((k, x.1.2), x.2) :: locate (k + 1) (unlocate rest))
    rw [List.pairwise_cons]
    refine ⟨?_, ih hd.2 (k + 1)⟩
    intro y hy
    obtain ⟨hm, hle⟩ := mem_locate hy
    obtain ⟨x1, hx1, hxe⟩ := List.mem_map.mp hm
    have hkey : x1.1.2 = y.1.2 := (Prod.mk.inj hxe).1
    have hfalse := hd.1 x1 hx1
    by_cases hp : pointerKind x.1.2 = 0 ∧ pointerKind y.1.2 = 0
    · have e1 : locEq (k, x.1.2) y.1 = keyEq x.1.2 y.1.2 := locEq_scalar hp.1 hp.2
      have e2 : locEq x.1 x1.1 = keyEq x.1.2 x1.1.2 :=
        locEq_scalar hp.1 (by rw [hkey]; exact hp.2)
      rw [e1, ← hkey, ← e2]
      exact hfalse
    · unfold locEq
      rw [if_neg hp]
      simp only [decide_eq_false_iff_not, not_and]
      intro _ h
      have : k = y.1.1 := h
      omega

theorem unlocate_locate (k : Nat) (pairs : List (Element × Element)) :
    unlocate (locate k pairs) = pairs := by
  induction pairs generalizing k with
  | nil => rfl
  | cons kv rest ih =>
    show (kv.1, kv.2) :: unlocate (locate (k + 1) rest) = kv :: rest
    rw [ih]

/-- The loop of `LinkedMap.EncodeTo` over keys that are found in `Elems`. -/
theorem encodeLinkedKeys_eq (tbl : List ((Nat × Element) × Outcome Bytes))
    (ps : List ((Nat × Element) × Element))
    (h : ∀ kv ∈ ps, (∀ w : BigEndianWriter, EncodeTo kv.1.2 w = .ok (w ++ encOf kv.1.2))
      ∧ linkedIndex tbl kv.1 = .ok (some (.ok (encOf kv.2)))) :
    ∀ w : BigEndianWriter,
      encodeLinkedKeys tbl (ps.map Prod.fst) w = .ok (w ++ encPairsOf (unlocate ps)) := by
  induction ps with
  | nil => intro w; simp [encodeLinkedKeys, encPairsOf, unlocate]
  | cons kv rest ih =>
    intro w
    obtain ⟨h1, h2⟩ := h kv (List.mem_cons_self _ _)
    have h3 := ih (fun q hq => h q (List.mem_cons_of_mem _ hq)) (w ++ encOf kv.1.2 ++ encOf kv.2)
    rw [List.map_cons, encodeLinkedKeys, h1 w]
    show (do
      let found ← linkedIndex tbl kv.1
      match found with
      | some value => do
        let bytes ← value
        encodeLinkedKeys tbl (rest.map Prod.fst) (w ++ encOf kv.1.2 ++ bytes)
      | none => .panic .nilPointerDereference) = _
    rw [h2]
    show encodeLinkedKeys tbl (rest.map Prod.fst) (w ++ encOf kv.1.2 ++ encOf kv.2) = _
    rw [h3]
    simp [encPairsOf, unlocate]

/-- The loop of `LinkedMap.Eq` over two key sequences with the same keys, each
of them found in its map with the same value, when every key and every value is
`Eq` to itself. -/
theorem linkedEqLoop_same (ss : Element → Outcome Bytes) (strict : Bool)
    (tbl : List ((Nat × Element) × (Element → Outcome Bool)))
    (velems : List ((Nat × Element) × Element)) :
    ∀ (X Y : List ((Nat × Element) × Element)), unlocate X = unlocate Y →
      (∀ e ∈ X, Eq ss e.1.2 e.1.2 strict = .ok true ∧ Eq ss e.2 e.2 strict = .ok true
        ∧ linkedIndex tbl e.1 = .ok (some (fun x => Eq ss e.2 x strict))) →
      (∀ e ∈ Y, linkedIndex velems e.1 = .ok (some e.2)) →
      linkedEqLoop tbl velems (eqKeys ss (X.map Prod.fst) strict) (Y.map Prod.fst) = .ok true := by
  intro X
  induction X with
  | nil =>
    intro Y _ _ _
    rw [List.map_nil, eqKeys_eq, List.map_nil]
    rfl
  | cons x rest ih =>
    intro Y hXY hX hY
    cases Y with
    | nil => simp [unlocate] at hXY
    | cons y restY =>
      have hxy : (x.1.2, x.2) = (y.1.2, y.2) := (List.cons.inj hXY).1
      have hrest : unlocate rest = unlocate restY := (List.cons.inj hXY).2
      have hk : x.1.2 = y.1.2 := (Prod.mk.inj hxy).1
      have hv : x.2 = y.2 := (Prod.mk.inj hxy).2
      obtain ⟨e1, e2, e3⟩ := hX x (List.mem_cons_self _ _)
      have e4 := hY y (List.mem_cons_self _ _)
      have h5 := ih restY hrest (fun e he => hX e (List.mem_cons_of_mem _ he))
        (fun e he => hY e (List.mem_cons_of_mem _ he))
      rw [eqKeys_eq] at h5 ⊢
      simp only [List.map_cons, linkedEqLoop]
      rw [← hk, e1]
      simp only []
      rw [e3, e4]
      simp only []
      rw [← hv, e2]
      exact h5

end Structure

namespace Structure
open Protocol

/-- What `LinkedMap.EncodeTo` writes when the keys are exactly the keys of the
map. -/
theorem EncodeTo_LinkedMap (ents elems : List ((Nat × Element) × Element))
    (hp : elems.Perm ents) (hn : ents.length < 2 ^ 31) (hk : ∀ kv ∈ ents, wireKey kv.1.2)
    (hkk : ∀ kv ∈ ents, locEq kv.1 kv.1 = true) (hd : DistinctLinked ents)
    (hv : ∀ kv ∈ ents, RoundTrips kv.2) (w : BigEndianWriter) :
    EncodeTo (.LinkedMap elems (ents.map Prod.fst)) w
      = .ok (w ++ byte 32 :: (be32 ents.length ++ encPairsOf (unlocate ents))) := by
  simp only [EncodeTo, WriteInt8_eq _ LinkedMapType (by decide), WriteInt32_eq, hp.length_eq,
    int32_of_lt _ hn]
  rw [encodeLinkedKeys_eq (valueTable elems) ents]
  · simp [LinkedMapType]
  · intro kv hkv
    refine ⟨(roundTrips_of_baseWire _ (hk kv hkv)).1, ?_⟩
    have h1 : EncodeTo kv.2 [] = .ok (encOf kv.2) := by
      simpa using (hv kv hkv).1 []
    rw [valueTable_eq, ← h1]
    refine linkedIndex_map (fun v => EncodeTo v []) (baseWire_hashable (hk kv hkv))
      (hp.mem_iff.mpr hkv) (hkk kv hkv) ?_
    intro x hx hxk
    exact distinct_unique hd hk hkv x (hp.mem_iff.mp hx) hxk

/-- Two `LinkedMap`s whose key sequences hold the same keys in the same order
(at whatever addresses), no key twice, each with the entries of its keys and
the same values, are `Eq` when every key and every value is `Eq` to itself. -/
theorem Eq_LinkedMap_same (ss : Element → Outcome Bytes) (strict : Bool)
    (X Y A B : List ((Nat × Element) × Element))
    (hA : A.Perm X) (hB : B.Perm Y) (hXY : unlocate X = unlocate Y)
    (hkX : ∀ e ∈ X, wireKey e.1.2) (hkY : ∀ e ∈ Y, wireKey e.1.2)
    (hdX : DistinctLinked X) (hdY : DistinctLinked Y)
    (hsX : ∀ e ∈ X, locEq e.1 e.1 = true) (hsY : ∀ e ∈ Y, locEq e.1 e.1 = true)
    (hEq : ∀ e ∈ X, Eq ss e.1.2 e.1.2 strict = .ok true ∧ Eq ss e.2 e.2 strict = .ok true) :
    Eq ss (.LinkedMap A (X.map Prod.fst)) (.LinkedMap B (Y.map Prod.fst)) strict = .ok true := by
  have hlen : X.length = Y.length := by
    have := congrArg List.length hXY
    simpa [unlocate] using this
  rw [Eq]
  rw [if_neg (by rw [hA.length_eq, hB.length_eq]; simp [hlen]), eqValues_eq]
  refine linkedEqLoop_same ss strict _ B X Y hXY ?_ ?_
  · intro e he
    refine ⟨(hEq e he).1, (hEq e he).2, ?_⟩
    exact linkedIndex_map (fun v => fun x => Eq ss v x strict) (baseWire_hashable (hkX e he))
      (hA.mem_iff.mpr he) (hsX e he)
      (fun x hx hxk => distinct_unique hdX hkX he x (hA.mem_iff.mp hx) hxk)
  · intro e he
    exact linkedIndex_of_unique (baseWire_hashable (hkY e he)) (hB.mem_iff.mpr he) (hsY e he)
      (fun x hx hxk => distinct_unique hdY hkY he x (hB.mem_iff.mp hx) hxk)

/-- Go `lm.Elems[key]` for a key of the decoded `Keys` that is equal to itself:
the value of the last occurrence of the key. -/
theorem linkedIndex_linkedWire (pairs : List (Element × Element))
    (hk : ∀ kv ∈ pairs, wireKey kv.1) {e0 : (Nat × Element) × Element}
    (he0 : e0 ∈ locate 0 pairs) (hkk : locEq e0.1 e0.1 = true) :
    ∃ e, LastLinked (locate 0 pairs) e ∧ locEq e.1 e0.1 = true
      ∧ linkedIndex (linkedWire pairs) e0.1 = .ok (some e.2) := by
  have hkl : ∀ kv ∈ locate 0 pairs, wireKey kv.1.2 := fun kv h => hk _ (mem_locate h).1
  obtain ⟨s1, s2, _, _, s5⟩ := foldl_putLinked_spec (locate 0 pairs) hkl
  obtain ⟨e, he, hek⟩ := s5 e0 he0 e0.1 (hkl e0 he0) hkk
  have hsc : ∀ x ∈ linkedWire pairs, wireKey x.1.2 := fun x hx =>
    hkl x (lastLinked_mem ((s1 x).mp hx))
  refine ⟨e, (s1 e).mp he, hek, ?_⟩
  refine linkedIndex_of_unique (baseWire_hashable (hkl e0 he0)) he hek ?_
  intro x hx hxk
  refine distinct_unique s2 hsc he x hx ?_
  have h1 : locEq e0.1 e.1 = true := by
    rw [locEq_symm (hkl e0 he0) (hsc e he)]; exact hek
  exact locEq_trans (hsc x hx) (hkl e0 he0) (hsc e he) hxk h1

/-- The located entry of index `i` of the wire. -/
theorem locate_get (pairs : List (Element × Element)) {i : Nat} (hi : i < pairs.length) :
    ((i, (pairs.get ⟨i, hi⟩).1), (pairs.get ⟨i, hi⟩).2) ∈ locate 0 pairs := by
  have h := locate_getElem? 0 pairs i
  rw [List.getElem?_eq_getElem hi, Nat.zero_add] at h
  exact List.getElem?_mem h

/-- A located entry of the wire is the entry of the index that is its address. -/
theorem locate_eq_of_mem {pairs : List (Element × Element)} {e : (Nat × Element) × Element}
    (he : e ∈ locate 0 pairs) :
    ∃ hi : e.1.1 < pairs.length,
      e = ((e.1.1, (pairs.get ⟨e.1.1, hi⟩).1), (pairs.get ⟨e.1.1, hi⟩).2) := by
  obtain ⟨j, hj, hje⟩ := List.getElem_of_mem he
  have hj1 : j < pairs.length := by rwa [locate_length] at hj
  have h := locate_getElem? 0 pairs j
  rw [List.getElem?_eq_getElem hj, List.getElem?_eq_getElem hj1, hje, Nat.zero_add] at h
  have h2 : e = ((j, pairs[j].1), pairs[j].2) := Option.some.inj h
  have h3 : e.1.1 = j := by rw [h2]
  subst h3
  exact ⟨hj1, h2⟩

end Structure

namespace Structure
open Protocol

/-- The keys of a `LinkedMap` that is `Eq`-comparable entry by entry stay apart
when the entries are located anew, and stay equal to themselves. -/
theorem locate_self {X : List ((Nat × Element) × Element)}
    (hs : ∀ e ∈ X, locEq e.1 e.1 = true) (k : Nat) :
    ∀ e ∈ locate k (unlocate X), locEq e.1 e.1 = true := by
  intro e he
  obtain ⟨hm, _⟩ := mem_locate he
  obtain ⟨x, hx, hxe⟩ := List.mem_map.mp hm
  have hkey : x.1.2 = e.1.2 := (Prod.mk.inj hxe).1
  rw [← hs x hx]
  exact locEq_congr hkey.symm hkey.symm ⟨fun _ => rfl, fun _ => rfl⟩

/-- C15, refuted as stated: the `LinkedMap` with the one key `Int32(1)` and the
value `Float64(NaN)` is written and read back unchanged, and it is not strictly
`Eq` to itself; and `EncodeTo` of the `LinkedMap` with the one key
`Float64(NaN)` panics, since `lm.Elems[key]` finds no entry for a NaN. -/
theorem C15_counterexample :
    (EncodeTo (.LinkedMap [((0, .Int32 1), .Float64 9221120237041090560)] [(0, .Int32 1)]) []
        = .ok [32, 0, 0, 0, 1, 3, 0, 0, 0, 1, 6, 127, 248, 0, 0, 0, 0, 0, 0]
      ∧ (DecodeEx false { p := 0, b := [32, 0, 0, 0, 1, 3, 0, 0, 0, 1,
            6, 127, 248, 0, 0, 0, 0, 0, 0], nocopy := false }).1
        = .ok (.LinkedMap [((0, .Int32 1), .Float64 9221120237041090560)] [(0, .Int32 1)])
      ∧ ∀ ss, Eq ss (.LinkedMap [((0, .Int32 1), .Float64 9221120237041090560)] [(0, .Int32 1)])
          (.LinkedMap [((0, .Int32 1), .Float64 9221120237041090560)] [(0, .Int32 1)]) true
            = .ok false)
    ∧ EncodeTo (.LinkedMap [((0, .Float64 9221120237041090560), .Bool true)]
        [(0, .Float64 9221120237041090560)]) [] = .panic .nilPointerDereference :=
  ⟨⟨rfl, rfl, fun _ => rfl⟩, rfl⟩

/-- C15 (amended): for every `LinkedMap` payload (tag 32) with a declared count
below 2^31 followed by that many entries whose keys are scalars, properties,
vertices or edges and whose keys and values round-trip, `structure.Decode`
returns a `LinkedMap` whose `Keys` has the length of the count and holds at `i`
the `i`-th key of the wire (a pointer key as the object allocated in iteration
`i`), and whose `Elems` has exactly the last occurrences on the wire as
entries, where two pointer keys are never the same key; so `Elems[Keys[i]]` is
the value of the last occurrence of the key for every key that is equal to
itself (not a NaN), and the value read with the key itself for a pointer key.
If moreover a `LinkedMap` has these keys in this order as its `Keys` (at
whatever addresses), no two of them equal and each equal to itself, and
exactly the entries of these keys with these values as its `Elems`, and each
key and each value is `Eq` to itself in the mode `strict`, then `EncodeTo`
writes that payload for it, and the `LinkedMap` decoded from the payload is
`Eq` to it, in both directions. -/
theorem C15_linked_map (pairs : List (Element × Element)) (hn : pairs.length < 2 ^ 31)
    (hk : ∀ kv ∈ pairs, wireKey kv.1) (hv : ∀ kv ∈ pairs, RoundTrips kv.2) :
    (∀ (w : baseReader) (rest : Bytes),
      w.At (byte 32 :: (be32 pairs.length ++ (encPairsOf pairs ++ rest))) →
      DecodeEx false w = (.ok (.LinkedMap (linkedWire pairs) (linkedKeys pairs)),
        w.adv (5 + (encPairsOf pairs).length)))
    ∧ (linkedKeys pairs).length = pairs.length
    ∧ (∀ (i : Nat) (hi : i < pairs.length),
        (linkedKeys pairs)[i]? = some (i, (pairs.get ⟨i, hi⟩).1))
    ∧ (∀ e, e ∈ linkedWire pairs ↔ LastLinked (locate 0 pairs) e)
    ∧ (∀ (i : Nat) (hi : i < pairs.length),
        locEq (i, (pairs.get ⟨i, hi⟩).1) (i, (pairs.get ⟨i, hi⟩).1) = true →
        ∃ e, LastLinked (locate 0 pairs) e ∧ locEq e.1 (i, (pairs.get ⟨i, hi⟩).1) = true
          ∧ linkedIndex (linkedWire pairs) (i, (pairs.get ⟨i, hi⟩).1) = .ok (some e.2))
    ∧ (∀ (i : Nat) (hi : i < pairs.length), pointerKind (pairs.get ⟨i, hi⟩).1 ≠ 0 →
        linkedIndex (linkedWire pairs) (i, (pairs.get ⟨i, hi⟩).1)
          = .ok (some (pairs.get ⟨i, hi⟩).2))
    ∧ ∀ (sortString : Element → Outcome Bytes) (strict : Bool)
        (ents elems : List ((Nat × Element) × Element)),
        unlocate ents = pairs → elems.Perm ents → DistinctLinked ents →
        (∀ kv ∈ ents, locEq kv.1 kv.1 = true ∧ Eq sortString kv.1.2 kv.1.2 strict = .ok true
          ∧ Eq sortString kv.2 kv.2 strict = .ok true) →
        (∀ w0 : BigEndianWriter, EncodeTo (.LinkedMap elems (ents.map Prod.fst)) w0
          = .ok (w0 ++ byte 32 :: (be32 pairs.length ++ encPairsOf pairs)))
        ∧ Eq sortString (.LinkedMap (linkedWire pairs) (linkedKeys pairs))
            (.LinkedMap elems (ents.map Prod.fst)) strict = .ok true
        ∧ Eq sortString (.LinkedMap elems (ents.map Prod.fst))
            (.LinkedMap (linkedWire pairs) (linkedKeys pairs)) strict = .ok true := by
  have hkl : ∀ kv ∈ locate 0 pairs, wireKey kv.1.2 := fun kv h => hk _ (mem_locate h).1
  have hget : ∀ (i : Nat) (hi : i < pairs.length),
      locEq (i, (pairs.get ⟨i, hi⟩).1) (i, (pairs.get ⟨i, hi⟩).1) = true →
      ∃ e, LastLinked (locate 0 pairs) e ∧ locEq e.1 (i, (pairs.get ⟨i, hi⟩).1) = true
        ∧ linkedIndex (linkedWire pairs) (i, (pairs.get ⟨i, hi⟩).1) = .ok (some e.2) :=
    fun i hi hkk => linkedIndex_linkedWire pairs hk (locate_get pairs hi) hkk
  refine ⟨fun w rest hat => decode_LinkedMap pairs hn hk hv w rest hat, ?_, ?_,
    (foldl_putLinked_spec (locate 0 pairs) hkl).1, hget, ?_, ?_⟩
  · unfold linkedKeys
    rw [List.length_map, locate_length]
  · intro i hi
    unfold linkedKeys
    rw [List.getElem?_map, locate_getElem?, List.getElem?_eq_getElem hi, Nat.zero_add]
    rfl
  · intro i hi hp
    obtain ⟨e, he, hek, hidx⟩ := hget i hi (locEq_self_pointer hp)
    rw [hidx]
    obtain ⟨hj, hje⟩ := locate_eq_of_mem (lastLinked_mem he)
    rw [locEq_pointer_right hp] at hek
    simp only [decide_eq_true_eq] at hek
    have h1 : e.1.1 = i := hek.2
    subst h1
    exact congrArg (fun v => Outcome.ok (some v)) (congrArg Prod.snd hje)
  · intro ss strict ents elems hun hp hd hkk
    have hlen : ents.length = pairs.length := by
      rw [← hun]
      simp [unlocate]
    have hke : ∀ kv ∈ ents, wireKey kv.1.2 := by
      intro kv hkv
      exact hk (kv.1.2, kv.2) (by rw [← hun]; exact List.mem_map.mpr ⟨kv, hkv, rfl⟩)
    have hve : ∀ kv ∈ ents, RoundTrips kv.2 := by
      intro kv hkv
      exact hv (kv.1.2, kv.2) (by rw [← hun]; exact List.mem_map.mpr ⟨kv, hkv, rfl⟩)
    have hdl : DistinctLinked (locate 0 pairs) := by
      rw [← hun]; exact distinct_locate ents hd 0
    have hsl : ∀ e ∈ locate 0 pairs, locEq e.1 e.1 = true := by
      rw [← hun]; exact locate_self (fun e he => (hkk e he).1) 0
    have hw : linkedWire pairs = locate 0 pairs := foldl_putLinked_of_distinct _ hdl
    have hxy : unlocate ents = unlocate (locate 0 pairs) := by rw [unlocate_locate, hun]
    rw [hw]
    refine ⟨fun w0 => ?_, ?_, ?_⟩
    · have := EncodeTo_LinkedMap ents elems hp (by omega) hke (fun kv hkv => (hkk kv hkv).1) hd
        hve w0
      rw [hlen, hun] at this
      exact this
    · refine Eq_LinkedMap_same ss strict (locate 0 pairs) ents (locate 0 pairs) elems
        (List.Perm.refl _) hp hxy.symm hkl hke hdl hd hsl (fun e he => (hkk e he).1) ?_
      intro e he
      obtain ⟨hm, _⟩ := mem_locate he
      rw [← hun] at hm
      obtain ⟨x, hx, hxe⟩ := List.mem_map.mp hm
      rw [← (Prod.mk.inj hxe).1, ← (Prod.mk.inj hxe).2]
      exact (hkk x hx).2
    · exact Eq_LinkedMap_same ss strict ents (locate 0 pairs) elems (locate 0 pairs) hp
        (List.Perm.refl _) hxy hke hkl hd hdl (fun e he => (hkk e he).1) hsl
        (fun e he => (hkk e he).2)

end Structure

namespace Structure
open Protocol

/-- C15 at the payload with the count 3 and the entries `v: true`, `v: false`,
`1: 5`, where `v` is twice the vertex with the id 1 and the type 2: the two
vertex keys are two objects, so the map has three entries. -/
theorem C15_linked_map_witness :
    EncodeTo (.LinkedMap
        [((11, .Vertex ⟨1, 2, IdTypeInt64Int32, [], [], []⟩), .Bool false),
          ((10, .Vertex ⟨1, 2, IdTypeInt64Int32, [], [], []⟩), .Bool true),
          ((0, .Int32 1), .Int64 5)]
        [(10, .Vertex ⟨1, 2, IdTypeInt64Int32, [], [], []⟩),
          (11, .Vertex ⟨1, 2, IdTypeInt64Int32, [], [], []⟩), (0, .Int32 1)]) []
      = .ok [32, 0, 0, 0, 3,
          8, 0, 0, 0, 0, 0, 0, 0, 1, 0, 0, 0, 2, 1,
          8, 0, 0, 0, 0, 0, 0, 0, 1, 0, 0, 0, 2, 2,
          3, 0, 0, 0, 1, 4, 0, 0, 0, 0, 0, 0, 0, 5]
    ∧ Eq (fun _ => .ok [])
        (.LinkedMap
          [((0, .Vertex ⟨1, 2, IdTypeInt64Int32, [], [], []⟩), .Bool true),
            ((1, .Vertex ⟨1, 2, IdTypeInt64Int32, [], [], []⟩), .Bool false),
            ((2, .Int32 1), .Int64 5)]
          [(0, .Vertex ⟨1, 2, IdTypeInt64Int32, [], [], []⟩),
            (1, .Vertex ⟨1, 2, IdTypeInt64Int32, [], [], []⟩), (2, .Int32 1)])
        (.LinkedMap
          [((11, .Vertex ⟨1, 2, IdTypeInt64Int32, [], [], []⟩), .Bool false),
            ((10, .Vertex ⟨1, 2, IdTypeInt64Int32, [], [], []⟩), .Bool true),
            ((0, .Int32 1), .Int64 5)]
          [(10, .Vertex ⟨1, 2, IdTypeInt64Int32, [], [], []⟩),
            (11, .Vertex ⟨1, 2, IdTypeInt64Int32, [], [], []⟩), (0, .Int32 1)]) true
      = .ok true :=
  have h := (C15_linked_map
      [(.Vertex ⟨1, 2, IdTypeInt64Int32, [], [], []⟩, .Bool true),
        (.Vertex ⟨1, 2, IdTypeInt64Int32, [], [], []⟩, .Bool false), (.Int32 1, .Int64 5)]
      (by simp)
      (by
        intro kv hkv
        simp only [List.mem_cons, List.mem_singleton, List.not_mem_nil, or_false] at hkv
        rcases hkv with rfl | rfl | rfl <;>
          simp [wireKey, baseWire, Vertex.wire, isInt64, isInt32])
      (by
        intro kv hkv
        simp only [List.mem_cons, List.mem_singleton, List.not_mem_nil, or_false] at hkv
        rcases hkv with rfl | rfl | rfl
        · exact roundTrips_of_baseWire _ (by simp [baseWire])
        · exact roundTrips_of_baseWire _ (by simp [baseWire])
        · exact roundTrips_of_baseWire _ (by simp [baseWire, isInt64]))).2.2.2.2.2.2
    (fun _ => .ok []) true
    [((10, .Vertex ⟨1, 2, IdTypeInt64Int32, [], [], []⟩), .Bool true),
      ((11, .Vertex ⟨1, 2, IdTypeInt64Int32, [], [], []⟩), .Bool false),
      ((0, .Int32 1), .Int64 5)]
    [((11, .Vertex ⟨1, 2, IdTypeInt64Int32, [], [], []⟩), .Bool false),
      ((10, .Vertex ⟨1, 2, IdTypeInt64Int32, [], [], []⟩), .Bool true),
      ((0, .Int32 1), .Int64 5)]
    rfl
    (List.Perm.swap _ _ _)
    (by unfold DistinctLinked; simp only [List.pairwise_cons, List.mem_cons, List.mem_singleton,
          List.not_mem_nil, or_false, forall_eq, List.Pairwise.nil, and_true, IsEmpty.forall_iff,
          implies_true, forall_eq_or_imp]; exact ⟨⟨rfl, rfl⟩, rfl⟩)
    (by
      intro kv hkv
      simp only [List.mem_cons, List.mem_singleton, List.not_mem_nil, or_false] at hkv
      rcases hkv with rfl | rfl | rfl <;> exact ⟨rfl, rfl, rfl⟩)
  ⟨h.1 [], h.2.1⟩

/-- Go `==` on the keys of the wire, each at its address: no two of the keys
are equal exactly when no two keys of the wire that are not pointers are equal
by value. -/
theorem pairwise_locate (k : Nat) (pairs : List (Element × Element)) :
    ((locate k pairs).map Prod.fst).Pairwise (fun a b => locEq a b = false)
      ↔ (valueKeys pairs).Pairwise (fun a b => keyEq a b = false) := by
  induction pairs generalizing k with
  | nil => simp [locate, valueKeys]
  | cons kv rest ih =>
    have hrest : ∀ b ∈ (locate (k + 1) rest).map Prod.fst, k + 1 ≤ b.1 := by
      intro b hb
      obtain ⟨e, he, rfl⟩ := List.mem_map.mp hb
      exact (mem_locate he).2
    show (((k, kv.1) :: (locate (k + 1) rest).map Prod.fst)).Pairwise _ ↔ _
    rw [List.pairwise_cons, ih (k + 1)]
    by_cases hp : pointerKind kv.1 = 0
    · have hvk : valueKeys (kv :: rest) = kv.1 :: valueKeys rest := by
        simp [valueKeys, hp]
      rw [hvk, List.pairwise_cons]
      refine and_congr_left (fun _ => ?_)
      constructor
      · intro h c hc
        have hc1 : c ∈ (rest.map Prod.fst) ∧ pointerKind c = 0 := by
          unfold valueKeys at hc
          have := List.mem_filter.mp hc
          exact ⟨this.1, by simpa using this.2⟩
        obtain ⟨x, hx, hxc⟩ := List.mem_map.mp hc1.1
        obtain ⟨j, hj, hje⟩ := List.getElem_of_mem hx
        have h1 := locate_getElem? (k + 1) rest j
        rw [List.getElem?_eq_getElem hj] at h1
        have h2 : (k + 1 + j, x.1) ∈ (locate (k + 1) rest).map Prod.fst := by
          refine List.mem_map.mpr ⟨((k + 1 + j, x.1), x.2), ?_, rfl⟩
          rw [← hje]
          exact List.getElem?_mem h1
        have h3 := h _ h2
        rw [locEq_scalar hp (by show pointerKind x.1 = 0; rw [hxc]; exact hc1.2)] at h3
        rw [← hxc]
        exact h3
      · intro h b hb
        obtain ⟨e, he, rfl⟩ := List.mem_map.mp hb
        by_cases hq : pointerKind e.1.2 = 0
        · rw [locEq_scalar hp hq]
          refine h _ ?_
          have hm := (mem_locate he).1
          have : e.1.2 ∈ rest.map Prod.fst := List.mem_map.mpr ⟨_, hm, rfl⟩
          unfold valueKeys
          exact List.mem_filter.mpr ⟨this, by simpa using hq⟩
        · rw [locEq_pointer_right hq]
          simp only [decide_eq_false_iff_not, not_and]
          intro h1
          exact absurd (hp ▸ h1 : (0 : Nat) = pointerKind e.1.2).symm hq
    · have hvk : valueKeys (kv :: rest) = valueKeys rest := by
        simp [valueKeys, hp]
      rw [hvk]
      refine and_iff_right ?_
      intro b hb
      rw [locEq_pointer hp]
      simp only [decide_eq_false_iff_not, not_and]
      intro _ h2
      have := hrest b hb
      have h3 : k = b.1 := h2
      omega

/-- C16, refuted as stated: the payload with the count 2 and the entries
`1: true`, `1: false` decodes without an error to a `LinkedMap` whose `Keys`
hold the key `Int32(1)` twice, two equal keys, and whose `Elems` has the single
entry `1: false`. -/
theorem C16_counterexample :
    (DecodeEx false { p := 0, b := [32, 0, 0, 0, 2, 3, 0, 0, 0, 1, 1,
        3, 0, 0, 0, 1, 2], nocopy := false }).1
      = .ok (.LinkedMap [((1, .Int32 1), .Bool false)] [(0, .Int32 1), (1, .Int32 1)])
    ∧ locEq (0, .Int32 1) (1, .Int32 1) = true := ⟨rfl, rfl⟩

/-- C16 (amended): for every `LinkedMap` payload with a declared count below
2^31 followed by that many entries whose keys are scalars, properties,
vertices or edges and whose keys and values round-trip, `structure.Decode`
returns a `LinkedMap` in which a key that is a pointer (a property, a vertex,
an edge) is equal (Go `==`) to no key at another index of `Keys`; two keys at
different indices are equal only when neither is a pointer and the two are
equal by value; `Keys` contains no two equal keys exactly when no two keys of
the wire that are not pointers are equal, and exactly then the length of `Keys`
is the number of entries of `Elems`; so a payload all of whose keys are
properties, vertices or edges always decodes to a `LinkedMap` with unique
keys. -/
theorem C16_linked_keys (pairs : List (Element × Element)) (hn : pairs.length < 2 ^ 31)
    (hk : ∀ kv ∈ pairs, wireKey kv.1) (hv : ∀ kv ∈ pairs, RoundTrips kv.2) :
    (∀ (w : baseReader) (rest : Bytes),
      w.At (byte 32 :: (be32 pairs.length ++ (encPairsOf pairs ++ rest))) →
      (DecodeEx false w).1 = .ok (.LinkedMap (linkedWire pairs) (linkedKeys pairs)))
    ∧ (∀ (i j : Nat) (a b : Nat × Element), i ≠ j →
        (linkedKeys pairs)[i]? = some a → (linkedKeys pairs)[j]? = some b →
        (pointerKind a.2 ≠ 0 → locEq a b = false ∧ locEq b a = false)
        ∧ (locEq a b = true →
            pointerKind a.2 = 0 ∧ pointerKind b.2 = 0 ∧ keyEq a.2 b.2 = true))
    ∧ ((linkedKeys pairs).Pairwise (fun a b => locEq a b = false)
        ↔ (valueKeys pairs).Pairwise (fun a b => keyEq a b = false))
    ∧ ((linkedKeys pairs).length = (linkedWire pairs).length
        ↔ (valueKeys pairs).Pairwise (fun a b => keyEq a b = false))
    ∧ ((∀ kv ∈ pairs, pointerKind kv.1 ≠ 0) →
        (linkedKeys pairs).Pairwise (fun a b => locEq a b = false)
        ∧ (linkedKeys pairs).length = (linkedWire pairs).length) := by
  have hkl : ∀ kv ∈ locate 0 pairs, wireKey kv.1.2 := fun kv h => hk _ (mem_locate h).1
  obtain ⟨_, _, s3, s4, _⟩ := foldl_putLinked_spec (locate 0 pairs) hkl
  have hpw : (linkedKeys pairs).Pairwise (fun a b => locEq a b = false)
      ↔ (valueKeys pairs).Pairwise (fun a b => keyEq a b = false) := pairwise_locate 0 pairs
  have hdl : DistinctLinked (locate 0 pairs)
      ↔ (linkedKeys pairs).Pairwise (fun a b => locEq a b = false) := by
    unfold DistinctLinked linkedKeys
    rw [List.pairwise_map]
  have hlen : (linkedKeys pairs).length = (linkedWire pairs).length
      ↔ (valueKeys pairs).Pairwise (fun a b => keyEq a b = false) := by
    rw [← hpw, ← hdl]
    have hl : (linkedKeys pairs).length = (locate 0 pairs).length := by
      unfold linkedKeys; rw [List.length_map]
    rw [hl]
    constructor
    · intro h
      by_contra hd
      have := s4.mpr hd
      unfold linkedWire at h
      omega
    · intro hd
      by_contra hne
      refine (s4.mp ?_) hd
      unfold linkedWire at hne
      omega
  refine ⟨fun w rest hat => congrArg Prod.fst (decode_LinkedMap pairs hn hk hv w rest hat),
    ?_, hpw, hlen, ?_⟩
  · intro i j a b hij ha hb
    have ha1 : a.1 = i := by
      unfold linkedKeys at ha
      rw [List.getElem?_map, locate_getElem?, Nat.zero_add] at ha
      cases hpi : pairs[i]? with
      | none => rw [hpi] at ha; cases ha
      | some x => rw [hpi] at ha; cases ha; rfl
    have hb1 : b.1 = j := by
      unfold linkedKeys at hb
      rw [List.getElem?_map, locate_getElem?, Nat.zero_add] at hb
      cases hpj : pairs[j]? with
      | none => rw [hpj] at hb; cases hb
      | some x => rw [hpj] at hb; cases hb; rfl
    have hne : a.1 ≠ b.1 := by rw [ha1, hb1]; exact hij
    refine ⟨fun hp => ⟨?_, ?_⟩, fun he => ?_⟩
    · rw [locEq_pointer hp]
      simp only [decide_eq_false_iff_not, not_and]
      exact fun _ h => hne h
    · rw [locEq_pointer_right hp]
      simp only [decide_eq_false_iff_not, not_and]
      exact fun _ h => hne h.symm
    · by_cases hpa : pointerKind a.2 = 0
      · by_cases hpb : pointerKind b.2 = 0
        · exact ⟨hpa, hpb, by rw [← locEq_scalar hpa hpb]; exact he⟩
        · rw [locEq_pointer_right hpb] at he
          simp only [decide_eq_true_eq] at he
          exact absurd he.2 hne
      · rw [locEq_pointer hpa] at he
        simp only [decide_eq_true_eq] at he
        exact absurd he.2 hne
  · intro hall
    have hvk : valueKeys pairs = [] := by
      unfold valueKeys
      rw [List.filter_eq_nil_iff]
      intro c hc
      obtain ⟨x, hx, rfl⟩ := List.mem_map.mp hc
      simpa using hall x hx
    exact ⟨hpw.mpr (by rw [hvk]; exact List.Pairwise.nil),
      hlen.mpr (by rw [hvk]; exact List.Pairwise.nil)⟩

/-- C16 at the payload with the count 2 and twice the entry whose key is the
vertex with the id 1 and the type 2: the two keys are two objects, and the
map has two entries. -/
theorem C16_linked_keys_witness :
    (DecodeEx false { p := 0, b := [32, 0, 0, 0, 2,
        8, 0, 0, 0, 0, 0, 0, 0, 1, 0, 0, 0, 2, 1,
        8, 0, 0, 0, 0, 0, 0, 0, 1, 0, 0, 0, 2, 2], nocopy := false }).1
      = .ok (.LinkedMap
          [((0, .Vertex ⟨1, 2, IdTypeInt64Int32, [], [], []⟩), .Bool true),
            ((1, .Vertex ⟨1, 2, IdTypeInt64Int32, [], [], []⟩), .Bool false)]
          [(0, .Vertex ⟨1, 2, IdTypeInt64Int32, [], [], []⟩),
            (1, .Vertex ⟨1, 2, IdTypeInt64Int32, [], [], []⟩)])
    ∧ locEq (0, .Vertex ⟨1, 2, IdTypeInt64Int32, [], [], []⟩)
        (1, .Vertex ⟨1, 2, IdTypeInt64Int32, [], [], []⟩) = false :=
  have h := C16_linked_keys
      [(.Vertex ⟨1, 2, IdTypeInt64Int32, [], [], []⟩, .Bool true),
        (.Vertex ⟨1, 2, IdTypeInt64Int32, [], [], []⟩, .Bool false)]
      (by simp)
      (by
        intro kv hkv
        simp only [List.mem_cons, List.mem_singleton, List.not_mem_nil, or_false] at hkv
        rcases hkv with rfl | rfl <;>
          simp [wireKey, baseWire, Vertex.wire, isInt64, isInt32])
      (by
        intro kv hkv
        simp only [List.mem_cons, List.mem_singleton, List.not_mem_nil, or_false] at hkv
        rcases hkv with rfl | rfl
        · exact roundTrips_of_baseWire _ (by simp [baseWire])
        · exact roundTrips_of_baseWire _ (by simp [baseWire]))
  ⟨h.1 { p := 0, b := [32, 0, 0, 0, 2,
        8, 0, 0, 0, 0, 0, 0, 0, 1, 0, 0, 0, 2, 1,
        8, 0, 0, 0, 0, 0, 0, 0, 1, 0, 0, 0, 2, 2], nocopy := false } [] ⟨by decide, rfl⟩,
    ((h.2.1 0 1 (0, .Vertex ⟨1, 2, IdTypeInt64Int32, [], [], []⟩)
      (1, .Vertex ⟨1, 2, IdTypeInt64Int32, [], [], []⟩) (by decide) rfl rfl).1
        (by simp [pointerKind])).1⟩

end Structure

namespace Structure
open Protocol

/-- C13, a defect of the code: the container cases of `DecodeEx` do not check
the declared count, while the `String` case of the same switch rejects a
negative length.  With a negative declared count or length `n`, a `String`
payload ends with `ErrNegativeInt`, but no container payload is rejected with
an error: a `Map` decodes to the empty map; a `List` whose next byte is the
columnar tag 40 decodes to the empty list; a `List` followed by another byte,
the object list of a `Path`, a `LinkedMap` and the property list of a vertex or
an edge (32-bit count with int64 ids, 16-bit count with string ids) make
`structure.DecodeEx` panic in `make` with a negative size. -/
theorem C13_negative_count (useStruct : Bool) (w : baseReader) (n : Int) (hn : n < 0)
    (h32 : -2 ^ 31 ≤ n) :
    (∀ rest, w.At (byte 7 :: (be32 n ++ rest)) →
        DecodeEx useStruct w = (.error .ErrNegativeInt, w.adv 5))
    ∧ (∀ rest, w.At (byte 14 :: (be32 n ++ rest)) →
        DecodeEx useStruct w = (.ok (if useStruct then .MapStruct [] else .Map []), w.adv 5))
    ∧ (∀ rest, w.At (byte 13 :: (be32 n ++ 40 :: rest)) →
        (DecodeEx useStruct w).1 = .ok (.List []))
    ∧ (∀ (x : UInt8) rest, x.toNat ≠ 40 → w.At (byte 13 :: (be32 n ++ x :: rest)) →
        (DecodeEx useStruct w).1 = .panic .makesliceOutOfRange)
    ∧ (∀ rest, w.At (byte 9 :: (byte 13 :: (be32 0 ++ (byte 13 :: (be32 n ++ rest))))) →
        (DecodeEx useStruct w).1 = .panic .makesliceOutOfRange)
    ∧ (∀ rest, w.At (byte 32 :: (be32 n ++ rest)) →
        (DecodeEx useStruct w).1 = .panic .makesliceOutOfRange)
    ∧ (∀ (id ty : Int) rest, isInt64 id → isInt32 ty →
        w.At (byte 16 :: (be64 id ++ (be32 ty ++ (be32 n ++ rest)))) →
        (DecodeEx useStruct w).1 = .panic .makesliceOutOfRange)
    ∧ (∀ (d : DirectionType) (label : Bytes) (aid aty bid bty : Int) rest,
        label.length < 2 ^ 31 → isInt64 aid → isInt32 aty → isInt64 bid → isInt32 bty →
        w.At (byte (edgeTag false true d)
          :: (beStr label ++ (be64 aid ++ (be32 aty ++ (be64 bid ++ (be32 bty
            ++ (be32 n ++ rest))))))) →
        (DecodeEx useStruct w).1 = .panic .makesliceOutOfRange)
    ∧ (-2 ^ 15 ≤ n → ∀ (sid stype : Bytes) rest, sid.length < 2 ^ 31 → stype.length < 2 ^ 31 →
        w.At (byte 25 :: (beStr sid ++ (beStr stype ++ (be16 n ++ rest)))) →
        (DecodeEx useStruct w).1 = .panic .makesliceOutOfRange)
    ∧ (-2 ^ 15 ≤ n → ∀ (d : DirectionType) (label asid asty bsid bsty : Bytes) rest,
        label.length < 2 ^ 31 → asid.length < 2 ^ 31 → asty.length < 2 ^ 31 →
        bsid.length < 2 ^ 31 → bsty.length < 2 ^ 31 →
        w.At (byte (edgeTag true true d)
          :: (beStr label ++ (beStr asid ++ (beStr asty ++ (beStr bsid ++ (beStr bsty
            ++ (be16 n ++ rest))))))) →
        (DecodeEx useStruct w).1 = .panic .makesliceOutOfRange) :=
  ⟨fun rest hat => DecodeEx_string_negative useStruct w ⟨h32, by omega⟩ hn rest hat,
    negative_count_outcomes useStruct w n hn h32⟩

/-- C13 at the count -1: the `String` payload `07 FF FF FF FF` ends with
`ErrNegativeInt`, the `Map` payload `0E FF FF FF FF` decodes to the empty map
with no error, and the `LinkedMap` payload `20 FF FF FF FF` panics. -/
theorem C13_negative_count_witness :
    (DecodeEx false { p := 0, b := [7, 255, 255, 255, 255], nocopy := false }).1
      = .error .ErrNegativeInt
    ∧ (DecodeEx false { p := 0, b := [14, 255, 255, 255, 255], nocopy := false }).1
      = .ok (.Map [])
    ∧ (DecodeEx false { p := 0, b := [32, 255, 255, 255, 255], nocopy := false }).1
      = .panic .makesliceOutOfRange :=
  ⟨congrArg Prod.fst
      ((C13_negative_count false { p := 0, b := [7, 255, 255, 255, 255], nocopy := false } (-1)
        (by decide) (by decide)).1 [] ⟨by decide, by decide⟩),
    congrArg Prod.fst
      ((C13_negative_count false { p := 0, b := [14, 255, 255, 255, 255], nocopy := false } (-1)
        (by decide) (by decide)).2.1 [] ⟨by decide, by decide⟩),
    (C13_negative_count false { p := 0, b := [32, 255, 255, 255, 255], nocopy := false } (-1)
      (by decide) (by decide)).2.2.2.2.2.1 [] ⟨by decide, by decide⟩⟩

end Structure

end VeGraph
